import Mathlib

/-!
# xputil: the interface bus (`Intf_defs.h`, `Impl_intfs.h`)

A shallow embedding of the reference-counted, bus-aware interface objects of
`src/Impl_intfs.h` (`TInterfaceEx`, `TMultiInterfaceEx`, `Impl_IBus`,
`TQueryState`) over an explicit heap, followed by theorems about interface
browsing, connection and disconnection.

Conventions.
* A pointer is an index into the heap; a heap cell holding `none` is an object
  that has been destroyed (`delete this`).
* `int` fields are unbounded integers.
* The C++ functions return an `int` code and write `*retIntf` on success only;
  the embedding merges both into an `Option Ptr` (`some r` for code 0 with
  `*retIntf = r`, `none` for code 1).
* Recursive C++ functions take a fuel argument; the result `none` of a fuelled
  function means that the fuel ran out. The wrappers without fuel argument
  supply a fuel computed from the size of the heap.
* The `assert` statements of the source check the state and do not change it;
  they are not part of the embedding.
* Calling a method through a pointer to a destroyed object is undefined in the
  source; the embedding treats such a nested call as a call that changes
  nothing and finds nothing, and makes the top-level entry points `connect`
  and `disconnect` undefined (`none`) on a receiver that is not a live bus.
-/

namespace xp

/-- A pointer: the index of a heap cell. -/
abbrev Ptr := Nat

/-- The interface identifier `TIntfId` (`typedef const char* TIntfId`). -/
abbrev TIntfId := String

/-- The identifier `IID_IINTERFACE` declared by `IInterface`. -/
def IID_IINTERFACE : TIntfId := "B4FF784E-2DDA-4CA2-BC84-4AAD35FCAAF3"

/-- The identifier `IID_IINTERFACEEX` declared by `IInterfaceEx`. -/
def IID_IINTERFACEEX : TIntfId := "632B176F-E7B9-4557-9657-15DB3AC94FBC"

/-- The identifier `IID_IBUS` declared by `IBus`. -/
def IID_IBUS : TIntfId := "B7914714-4159-48C6-BFF3-A21C6F0BB1CA"

/-- Modelled from the spec: `equalIID` is only declared in `Intf_defs.h` and its
body is not among the sources; the specification says that identity equality
is exact string equality. -/
def equalIID (id1 id2 : TIntfId) : Bool := id1 == id2

/-- The dynamic class of a bus-aware object together with the data that only
that class has. -/
inductive Cls where
  /-- `TInterfaceEx<T>`; `iid` is `T::iid()`. -/
  | tInterfaceEx (iid : TIntfId)
  /-- `TMultiInterfaceEx<T>`; `supported` lists the identifiers for which
  `T::supportIntf` answers true (the `IMPL_INTERFACE` entries). -/
  | tMultiInterfaceEx (supported : List TIntfId)
  /-- `Impl_IBus` with its fields `_level`, `_intfs` and `_buses`. -/
  | implIBus (level : Int) (intfs : List Ptr) (buses : List Ptr)
  deriving DecidableEq, Repr

/-- An object implementing `IInterfaceEx`: class data plus the fields `_count`
and `_bus` that the three classes share. -/
structure Obj where
  cls : Cls
  count : Int
  bus : Option Ptr
  deriving DecidableEq, Repr

/-- The heap: one cell per object ever constructed. -/
structure Heap where
  cells : List (Option Obj)
  deriving DecidableEq, Repr

/-- The number of cells of the heap. -/
def Heap.size (h : Heap) : Nat := h.cells.length

/-- The object a pointer refers to, `none` when it has been destroyed or was
never constructed. -/
def Heap.get (h : Heap) (p : Ptr) : Option Obj := h.cells.getD p none

/-- Change the object at `p`, when there is one. -/
def Heap.modify (h : Heap) (p : Ptr) (f : Obj → Obj) : Heap :=
  match h.get p with
  | some o => ⟨h.cells.set p (some (f o))⟩
  | none => h

/-- Release the memory of the object at `p`. -/
def Heap.free (h : Heap) (p : Ptr) : Heap := ⟨h.cells.set p none⟩

/-- The method `ref`: `++_count`. -/
def ref (h : Heap) (p : Ptr) : Heap :=
  h.modify p (fun o => { o with count := o.count + 1 })

/-- The method `setBus`: `_bus = bus`. -/
def setBus (h : Heap) (p : Ptr) (bus : Option Ptr) : Heap :=
  h.modify p (fun o => { o with bus := bus })

/-- The loops of `Impl_IBus::~Impl_IBus`: for every member in the given order
`setBus(NULL)` and then `unref()`, the latter given as `rec`. -/
def releaseMembers (rec : Heap → Ptr → Option Heap) : List Ptr → Heap → Option Heap
  | [], h => some h
  | m :: ms, h =>
    match rec (setBus h m none) m with
    | none => none
    | some h1 => releaseMembers rec ms h1

/-- The method `unref` with fuel: `if (--_count == 0) delete this`. Deleting a
bus runs `~Impl_IBus`, which releases the members of `_intfs` in reverse order
and then those of `_buses` in reverse order; after the destructor the memory
is freed. The destructors of the leaf classes release nothing. -/
def unrefF : Nat → Heap → Ptr → Option Heap
  | 0, _, _ => none
  | fuel + 1, h, p =>
    match h.get p with
    | none => some h
    | some o =>
      let h1 := h.modify p (fun o => { o with count := o.count - 1 })
      if o.count - 1 = 0 then
        match o.cls with
        | .implIBus _ intfs buses =>
          match releaseMembers (unrefF fuel) (intfs.reverse ++ buses.reverse) h1 with
          | none => none
          | some h2 => some (h2.free p)
        | _ => some (h1.free p)
      else some h1

/-- The method `unref`. -/
def unref (h : Heap) (p : Ptr) : Option Heap := unrefF (h.size + 1) h p

/-- The object `TQueryState`: its reference count (`TRefObj::_count`) and the
vector `_buses` of the buses searched so far. The flag `deleted` is not a field
of the source: it records that `delete this` has run on the state, so that the
contents the state had when it was destroyed stay visible. -/
structure QState where
  count : Int
  buses : List Ptr
  deleted : Bool
  deriving DecidableEq, Repr

/-- The method `TQueryState::addSearchedBus`: `bus->ref(); _buses.push_back(bus)`. -/
def addSearchedBus (h : Heap) (q : QState) (bus : Ptr) : Heap × QState :=
  (ref h bus, { q with buses := q.buses ++ [bus] })

/-- The method `TQueryState::isBusSearched`. -/
def isBusSearched (q : QState) (bus : Ptr) : Bool := decide (bus ∈ q.buses)

/-- The loop of `TQueryState::~TQueryState`: `for (auto e : _buses) e->unref()`. -/
def unrefAll : List Ptr → Heap → Option Heap
  | [], h => some h
  | e :: es, h =>
    match unref h e with
    | none => none
    | some h1 => unrefAll es h1

/-- The method `unref` of a query state (`TRefObj::unref`): the state is
deleted when its count reaches 0, and its destructor releases every bus it
recorded. -/
def unrefState (h : Heap) (st : QState) : Option (Heap × QState) :=
  if st.count - 1 = 0 then
    match unrefAll st.buses h with
    | none => none
    | some h1 => some (h1, { st with count := st.count - 1, deleted := true })
  else some (h, { st with count := st.count - 1 })

/-- The method `getLevel` of the bus at `p`. -/
def getLevel (h : Heap) (p : Ptr) : Option Int :=
  match h.get p with
  | some ⟨.implIBus level _ _, _, _⟩ => some level
  | _ => none

/-- The result of a query: the heap afterwards, the query state the call worked
with as it is afterwards (`none` when the call was given `NULL` and created no
state of its own) and the returned interface (`none` for the return code 1). -/
abbrev QResult := Heap × Option QState × Option Ptr

/-- The first loop of `Impl_IBus::localQueryInterface` ("scanning pure
interfaces"); `rec` is the virtual call `intf->localQueryInterface`. -/
def scanIntfs (rec : Heap → Ptr → Option QState → Option QResult) :
    List Ptr → Heap → Option QState → Option QResult
  | [], h, qst => some (h, qst, none)
  | intf :: rest, h, qst =>
    match rec h intf qst with
    | none => none
    | some (h1, q1, some r) => some (h1, q1, some r)
    | some (h1, q1, none) => scanIntfs rec rest h1 q1

/-- The test `(NULL == qst) || !qst->isBusSearched(bus)`. -/
def notSearched (qst : Option QState) (bus : Ptr) : Bool :=
  match qst with
  | none => true
  | some q => !isBusSearched q bus

/-- The second loop of `Impl_IBus::localQueryInterface` ("scanning connected
buses"); `level` is `_level` of the scanning bus and `rec` the virtual call
`bus->localQueryInterface`. -/
def scanBuses (rec : Heap → Ptr → Option QState → Option QResult) (level : Int) :
    List Ptr → Heap → Option QState → Option QResult
  | [], h, qst => some (h, qst, none)
  | bus :: rest, h, qst =>
    match getLevel h bus with
    | some l =>
      if l ≥ level then
        if notSearched qst bus then
          match rec h bus qst with
          | none => none
          | some (h1, q1, some r) => some (h1, q1, some r)
          | some (h1, q1, none) => scanBuses rec level rest h1 q1
        else scanBuses rec level rest h qst
      else scanBuses rec level rest h qst
    | none => scanBuses rec level rest h qst

/-- The condition under which `localQueryInterface` of an object of the given
class returns the object itself. -/
def Cls.answers (c : Cls) (iid : TIntfId) : Bool :=
  match c with
  | .tInterfaceEx x =>
    equalIID iid x || equalIID iid IID_IINTERFACEEX || equalIID iid IID_IINTERFACE
  | .tMultiInterfaceEx supported =>
    supported.any (fun x => equalIID iid x) || equalIID iid IID_IINTERFACEEX
      || equalIID iid IID_IINTERFACE
  | .implIBus _ _ _ =>
    equalIID iid IID_IBUS || equalIID iid IID_IINTERFACEEX || equalIID iid IID_IINTERFACE

/-- The virtual method `localQueryInterface` with fuel, dispatched on the class
of the object at `p`. -/
def localQueryInterfaceF :
    Nat → Heap → Ptr → TIntfId → Option QState → Option QResult
  | 0, _, _, _, _ => none
  | fuel + 1, h, p, iid, qst =>
    match h.get p with
    | none => some (h, qst, none)
    | some o =>
      if o.cls.answers iid then some (ref h p, qst, some p)
      else
        match o.cls with
        | .implIBus level intfs buses =>
          let hq : Heap × Option QState :=
            match qst with
            | some q => ((addSearchedBus h q p).1, some (addSearchedBus h q p).2)
            | none => (h, none)
          match scanIntfs (fun h1 i q1 => localQueryInterfaceF fuel h1 i iid q1)
              intfs hq.1 hq.2 with
          | none => none
          | some (h2, q2, some r) => some (h2, q2, some r)
          | some (h2, q2, none) =>
            scanBuses (fun h1 b q1 => localQueryInterfaceF fuel h1 b iid q1)
              level buses h2 q2
        | _ => some (h, qst, none)

/-- The statements of `Impl_IBus::queryInterface` between the construction of
the `auto_ref` `st` and its destruction, for the bus at `p` whose `_bus` is
`parent`; `rec` is the virtual call `_bus->queryInterface`. -/
def busQueryBody (rec : Heap → Ptr → Option QState → Option QResult)
    (fuel : Nat) (h : Heap) (p : Ptr) (parent : Option Ptr) (iid : TIntfId)
    (st : QState) : Option QResult :=
  match localQueryInterfaceF fuel h p iid (some st) with
  | none => none
  | some (h1, q1, some r) => some (h1, q1, some r)
  | some (h1, q1, none) =>
    match parent, q1 with
    | some b, some st1 =>
      if !isBusSearched st1 b then rec h1 b (some st1) else some (h1, q1, none)
    | _, _ => some (h1, q1, none)

/-- The destruction of the `auto_ref` `st` at the end of
`Impl_IBus::queryInterface`. -/
def releaseState : Option QResult → Option QResult
  | none => none
  | some (h1, some st1, r) =>
    match unrefState h1 st1 with
    | none => none
    | some (h2, st2) => some (h2, some st2, r)
  | some (h1, none, r) => some (h1, none, r)

/-- The virtual method `queryInterface` with fuel, dispatched on the class of
the object at `p`: `TInterfaceEx::queryInterface` and
`TMultiInterfaceEx::queryInterface` for the leaf classes,
`Impl_IBus::queryInterface` for a bus. -/
def queryInterfaceF :
    Nat → Heap → Ptr → TIntfId → Option QState → Option QResult
  | 0, _, _, _, _ => none
  | fuel + 1, h, p, iid, qst =>
    match h.get p with
    | none => some (h, qst, none)
    | some o =>
      match o.cls with
      | .implIBus _ _ _ =>
        let st : QState :=
          match qst with
          | some q => { q with count := q.count + 1 }
          | none => { count := 1, buses := [], deleted := false }
        releaseState
          (busQueryBody (fun h1 b q1 => queryInterfaceF fuel h1 b iid q1)
            (fuel + 1) h p o.bus iid st)
      | _ =>
        match localQueryInterfaceF (fuel + 1) h p iid qst with
        | none => none
        | some (h1, q1, some r) => some (h1, q1, some r)
        | some (h1, q1, none) =>
          match o.bus with
          | some b =>
            if notSearched qst b then queryInterfaceF fuel h1 b iid qst
            else some (h1, q1, none)
          | none => some (h1, q1, none)

/-- The method `localQueryInterface`. -/
def localQueryInterface (h : Heap) (p : Ptr) (iid : TIntfId) (qst : Option QState) :
    Option QResult :=
  localQueryInterfaceF (h.size + 3) h p iid qst

/-- The method `queryInterface`. -/
def queryInterface (h : Heap) (p : Ptr) (iid : TIntfId) (qst : Option QState) :
    Option QResult :=
  queryInterfaceF (h.size + 3) h p iid qst

/-- Append `bus` to the vector `_buses` of an object that is a bus. -/
def Obj.pushBus (o : Obj) (bus : Ptr) : Obj :=
  match o.cls with
  | .implIBus level intfs buses => { o with cls := .implIBus level intfs (buses ++ [bus]) }
  | _ => o

/-- Append `intf` to the vector `_intfs` of an object that is a bus. -/
def Obj.pushIntf (o : Obj) (intf : Ptr) : Obj :=
  match o.cls with
  | .implIBus level intfs buses => { o with cls := .implIBus level (intfs ++ [intf]) buses }
  | _ => o

/-- Erase the first occurrence of `intf` from `_intfs` of an object that is a bus. -/
def Obj.eraseIntf (o : Obj) (intf : Ptr) : Obj :=
  match o.cls with
  | .implIBus level intfs buses => { o with cls := .implIBus level (intfs.erase intf) buses }
  | _ => o

/-- Erase the first occurrence of `bus` from `_buses` of an object that is a bus. -/
def Obj.eraseBus (o : Obj) (bus : Ptr) : Obj :=
  match o.cls with
  | .implIBus level intfs buses => { o with cls := .implIBus level intfs (buses.erase bus) }
  | _ => o

/-- The method `Impl_IBus::connect` of the bus at `self`; the result holds the
heap afterwards and the returned flag. Undefined (`none`) when `self` is not a
live bus, or when the object that answered the query for `IID_IBUS` is not a
bus, so that `bus->getLevel()` has no meaning. -/
def connect (h : Heap) (self : Ptr) (intf : Ptr) : Option (Heap × Bool) :=
  match getLevel h self with
  | none => none
  | some level =>
    match queryInterface h intf IID_IBUS none with
    | none => none
    | some (h1, _, some bus) =>
      match getLevel h1 bus with
      | none => none
      | some l =>
        if l ≤ level then
          some (setBus (h1.modify self (fun o => o.pushBus bus)) bus (some self), true)
        else
          match unref h1 bus with
          | none => none
          | some h2 => some (h2, false)
    | some (h1, _, none) =>
      some (setBus ((ref h1 intf).modify self (fun o => o.pushIntf intf)) intf (some self),
        true)

/-- The method `Impl_IBus::disconnect` of the bus at `self`. Undefined (`none`)
when `self` is not a live bus. -/
def disconnect (h : Heap) (self : Ptr) (intf : Ptr) : Option Heap :=
  match h.get self with
  | some ⟨.implIBus _ intfs buses, _, _⟩ =>
    if intf ∈ intfs then
      unref (setBus (h.modify self (fun o => o.eraseIntf intf)) intf none) intf
    else if intf ∈ buses then
      unref (setBus (h.modify self (fun o => o.eraseBus intf)) intf none) intf
    else some h
  | _ => none

/-! ## The worked example of `Impl_intfs.h` -/

/-- The heap of the worked example after `bus1->connect(bus0.get())`:
cell 0 is `bus0` (level 0), cells 1 and 2 are `IA` and `IB`, cell 3 is `bus1`
(level 1), cells 4 and 5 are `IC` and `ID`. -/
def exampleHeap : Heap :=
  ⟨[some ⟨.implIBus 0 [1, 2] [], 2, some 3⟩,
    some ⟨.tInterfaceEx "IA", 1, some 0⟩,
    some ⟨.tInterfaceEx "IB", 1, some 0⟩,
    some ⟨.implIBus 1 [4, 5] [0], 1, none⟩,
    some ⟨.tInterfaceEx "IC", 1, some 3⟩,
    some ⟨.tInterfaceEx "ID", 1, some 3⟩]⟩

/-! ## Observations and invariants of the heap -/

/-- Whether the object at `p` is a live bus. -/
def Heap.isBus (h : Heap) (p : Ptr) : Bool := (getLevel h p).isSome

/-- Whether the object at `p` is a live leaf. -/
def Heap.isLeaf (h : Heap) (p : Ptr) : Bool :=
  match h.get p with
  | some ⟨.implIBus _ _ _, _, _⟩ => false
  | some _ => true
  | none => false

/-- Whether the object at `p` is live and answers `iid` itself. -/
def Heap.answersAt (h : Heap) (p : Ptr) (iid : TIntfId) : Bool :=
  match h.get p with
  | some o => o.cls.answers iid
  | none => false

/-- The condition under which a bus answers an identifier itself. -/
def busAnswers (iid : TIntfId) : Bool :=
  equalIID iid IID_IBUS || equalIID iid IID_IINTERFACEEX || equalIID iid IID_IINTERFACE

/-- The vector `_intfs` of the bus at `b` (empty when `b` is not a live bus). -/
def Heap.intfsOf (h : Heap) (b : Ptr) : List Ptr :=
  match h.get b with
  | some ⟨.implIBus _ intfs _, _, _⟩ => intfs
  | _ => []

/-- The vector `_buses` of the bus at `b` (empty when `b` is not a live bus). -/
def Heap.busesOf (h : Heap) (b : Ptr) : List Ptr :=
  match h.get b with
  | some ⟨.implIBus _ _ buses, _, _⟩ => buses
  | _ => []

/-- The field `_bus` of the object at `p`. -/
def Heap.busOf (h : Heap) (p : Ptr) : Option Ptr :=
  match h.get p with
  | some o => o.bus
  | none => none

/-- The field `_count` of the object at `p` (0 when there is no object). -/
def Heap.countOf (h : Heap) (p : Ptr) : Int :=
  match h.get p with
  | some o => o.count
  | none => 0

/-- The static types of the source, for one object: its `_bus` (an `IBus*`)
does not point to a leaf, and, for a bus, no member of `_intfs` is a bus
(`connect` files every object that answers `IID_IBUS` under `_buses`). -/
def Obj.typedIn (h : Heap) (o : Obj) : Bool :=
  (match o.bus with
    | some b => !h.isLeaf b
    | none => true) &&
  (match o.cls with
    | .implIBus _ intfs _ => intfs.all (fun x => !h.isBus x)
    | _ => true)

/-- A heap in which every live object respects the static types. -/
def Heap.Typed (h : Heap) : Prop :=
  h.cells.all (fun c => match c with
    | some o => o.typedIn h
    | none => true) = true

instance (h : Heap) : Decidable h.Typed := by unfold Heap.Typed; infer_instance

/-- A heap of freshly constructed objects: no back-reference is set and every
bus has empty vectors (the counts are arbitrary: handles may hold references). -/
def Heap.Fresh (h : Heap) : Prop :=
  h.cells.all (fun c => match c with
    | some o => o.bus.isNone && (match o.cls with
      | .implIBus _ intfs buses => intfs.isEmpty && buses.isEmpty
      | _ => true)
    | none => true) = true

instance (h : Heap) : Decidable h.Fresh := by unfold Heap.Fresh; infer_instance

/-- The heaps built from freshly constructed objects by calls of `connect` and
`disconnect`. -/
inductive Built : Heap → Prop where
  | fresh (h : Heap) : h.Fresh → Built h
  | connect (h h' : Heap) (self intf : Ptr) (ok : Bool) :
      Built h → connect h self intf = some (h', ok) → Built h'
  | disconnect (h h' : Heap) (self intf : Ptr) :
      Built h → disconnect h self intf = some h' → Built h'

/-! ## Concrete heaps -/

/-- The worked example just before `bus1->connect(bus0.get())`. -/
def exampleHeap0 : Heap :=
  ⟨[some ⟨.implIBus 0 [1, 2] [], 1, none⟩,
    some ⟨.tInterfaceEx "IA", 1, some 0⟩,
    some ⟨.tInterfaceEx "IB", 1, some 0⟩,
    some ⟨.implIBus 1 [4, 5] [], 1, none⟩,
    some ⟨.tInterfaceEx "IC", 1, some 3⟩,
    some ⟨.tInterfaceEx "ID", 1, some 3⟩]⟩

/-- A bus of level 0 (cell 0) hosting two objects of class `TInterfaceEx` that
both declare `"IA"`, connected in the order cell 1, cell 2. -/
def siblingHeap : Heap :=
  ⟨[some ⟨.implIBus 0 [1, 2] [], 1, none⟩,
    some ⟨.tInterfaceEx "IA", 1, some 0⟩,
    some ⟨.tInterfaceEx "IA", 1, some 0⟩]⟩

/-- A single bus of level 0 held by one handle. -/
def selfFresh : Heap := ⟨[some ⟨.implIBus 0 [] [], 1, none⟩]⟩

/-- The heap `selfFresh` after the bus has been connected into itself. -/
def selfHeap : Heap := ⟨[some ⟨.implIBus 0 [] [0], 2, some 0⟩]⟩

/-- Two buses of level 0, each held by one handle, and an unconnected leaf. -/
def cycleFresh : Heap :=
  ⟨[some ⟨.implIBus 0 [] [], 1, none⟩, some ⟨.implIBus 0 [] [], 1, none⟩,
    some ⟨.tInterfaceEx "IA", 0, none⟩]⟩

/-- The heap `cycleFresh` after bus 0 has connected bus 1. -/
def cycleHeap1 : Heap :=
  ⟨[some ⟨.implIBus 0 [] [1], 1, none⟩, some ⟨.implIBus 0 [] [], 2, some 0⟩,
    some ⟨.tInterfaceEx "IA", 0, none⟩]⟩

/-- The heap `cycleHeap1` after bus 1 has connected bus 0: the two buses are
connected into each other. -/
def cycleHeap : Heap :=
  ⟨[some ⟨.implIBus 0 [] [1], 2, some 1⟩, some ⟨.implIBus 0 [] [0], 2, some 0⟩,
    some ⟨.tInterfaceEx "IA", 0, none⟩]⟩

/-! ## Notions used in the proofs

The traversal of a query reads only classes, vectors and back-references, and
changes only counts. The functions `pLocal` and `pQuery` are the traversal on a
fixed heap; the lemmas `sim_local`, `sim_query` and `query_none_bus` relate them
to `localQueryInterfaceF` and `queryInterfaceF`. -/

/-- Whether `q` is a live object whose count is at least 1. -/
def Heap.positive (h : Heap) (q : Ptr) : Bool :=
  match h.get q with
  | some o => decide (1 ≤ o.count)
  | none => false

/-- The live objects whose count is at least 1. -/
def posSet (h : Heap) : Finset Ptr :=
  (Finset.range h.size).filter (fun q => h.positive q = true)

/-- Every live object of `h'` was live in `h` with the same class, a count at
least as large and the same back-reference unless cleared: what a cascade of
releases does to a heap. -/
def Shrinks (h h' : Heap) : Prop :=
  h'.size = h.size ∧
    ∀ q o', h'.get q = some o' → ∃ o, h.get q = some o ∧ o'.cls = o.cls ∧
      o'.count ≤ o.count ∧ (o'.bus = o.bus ∨ o'.bus = none)

/-- Apply `ref` to every pointer of a list. -/
def refAll (h : Heap) (l : List Ptr) : Heap := l.foldl ref h

/-- The outcome of a traversal on a fixed heap: the buses it marked, in order,
and the interface it found. -/
abbrev PResult := List Ptr × Option Ptr

/-- The leaf loop of a traversal, on the list `v` of the buses marked so far. -/
def pScanIntfs (rec : Ptr → List Ptr → Option PResult) :
    List Ptr → List Ptr → Option PResult
  | [], _ => some ([], none)
  | i :: rest, v =>
    match rec i v with
    | none => none
    | some (m, some r) => some (m, some r)
    | some (m, none) =>
      match pScanIntfs rec rest (v ++ m) with
      | none => none
      | some (m', r) => some (m ++ m', r)

/-- Whether the bus loop of a bus of level `level` enters `b`. -/
def enters (h : Heap) (level : Int) (v : List Ptr) (b : Ptr) : Bool :=
  match getLevel h b with
  | some l => decide (l ≥ level) && !decide (b ∈ v)
  | none => false

/-- The bus loop of a traversal. -/
def pScanBuses (h : Heap) (rec : Ptr → List Ptr → Option PResult) (level : Int) :
    List Ptr → List Ptr → Option PResult
  | [], _ => some ([], none)
  | b :: rest, v =>
    if enters h level v b then
      match rec b v with
      | none => none
      | some (m, some r) => some (m, some r)
      | some (m, none) =>
        match pScanBuses h rec level rest (v ++ m) with
        | none => none
        | some (m', r) => some (m ++ m', r)
    else pScanBuses h rec level rest v

/-- The downward traversal of `localQueryInterface` with a query state, on a
fixed heap. -/
def pLocal : Nat → Heap → TIntfId → Ptr → List Ptr → Option PResult
  | 0, _, _, _, _ => none
  | fuel + 1, h, iid, p, v =>
    match h.get p with
    | none => some ([], none)
    | some o =>
      if o.cls.answers iid then some ([], some p)
      else
        match o.cls with
        | .implIBus level intfs buses =>
          match pScanIntfs (pLocal fuel h iid) intfs (v ++ [p]) with
          | none => none
          | some (m, some r) => some (p :: m, some r)
          | some (m, none) =>
            match pScanBuses h (pLocal fuel h iid) level buses (v ++ [p] ++ m) with
            | none => none
            | some (m', r) => some (p :: m ++ m', r)
        | _ => some ([], none)

/-- The traversal of `queryInterface` with a query state, on a fixed heap. -/
def pQuery : Nat → Heap → TIntfId → Ptr → List Ptr → Option PResult
  | 0, _, _, _, _ => none
  | fuel + 1, h, iid, p, v =>
    match h.get p with
    | none => some ([], none)
    | some o =>
      match o.cls with
      | .implIBus _ _ _ =>
        match pLocal (fuel + 1) h iid p v with
        | none => none
        | some (m, some r) => some (m, some r)
        | some (m, none) =>
          match o.bus with
          | some b =>
            if b ∈ v ++ m then some (m, none)
            else
              match pQuery fuel h iid b (v ++ m) with
              | none => none
              | some (m', r) => some (m ++ m', r)
          | none => some (m, none)
      | _ =>
        if o.cls.answers iid then some ([], some p)
        else
          match o.bus with
          | some b => if b ∈ v then some ([], none) else pQuery fuel h iid b v
          | none => some ([], none)

/-- How an outcome on the fixed heap `h` shows in the heap and the state. -/
def lift (h : Heap) (l : List Ptr) (q : QState) (x : PResult) : QResult :=
  (refAll h (l ++ x.1 ++ x.2.toList), some { q with buses := q.buses ++ x.1 }, x.2)

/-- The live buses not in `v`. -/
def unvisited (h : Heap) (v : List Ptr) : Finset Ptr :=
  (Finset.range h.size).filter (fun q => h.isBus q = true ∧ q ∉ v)

/-- The fuel that a traversal entering `p` needs beyond the number of unvisited
buses: one more when `p` is a bus that is already marked. -/
def reentry (h : Heap) (p : Ptr) (v : List Ptr) : Nat :=
  if h.isBus p = true ∧ p ∈ v then 1 else 0

/-- What a traversal from a bus of level `L` that started with the marks `v`
has marked (`m`) and found (`r`). -/
structure Inv (h : Heap) (iid : TIntfId) (L : Int) (v m : List Ptr) (r : Option Ptr) : Prop where
  nodup : m.Nodup
  fresh : ∀ b ∈ m, b ∉ v
  level : ∀ b ∈ m, ∃ l, getLevel h b = some l ∧ L ≤ l
  failed : r = none → ∀ b ∈ m, ∀ x ∈ h.intfsOf b, h.answersAt x iid = false
  found : ∀ y, r = some y → h.answersAt y iid = true ∧ h.isBus y = false ∧
    ∃ b ∈ m, y ∈ h.intfsOf b

/-- What a traversal of `queryInterface` that started on a bus with the marks
`v` has marked (`m`) and found (`r`). -/
structure InvQ (h : Heap) (iid : TIntfId) (v m : List Ptr) (r : Option Ptr) : Prop where
  nodup : m.Nodup
  fresh : ∀ b ∈ m, b ∉ v
  isBus : ∀ b ∈ m, h.isBus b = true
  found : ∀ y, r = some y → h.answersAt y iid = true ∧ h.isBus y = false ∧
    ∃ b ∈ m, y ∈ h.intfsOf b

/-- Every live object of `h'` was live in `h` with the same kind of class; its
back-reference is the old one or does not point to a leaf, and the members of
its `_intfs` are old ones or are not buses. -/
def Evolves (h h' : Heap) : Prop :=
  (∀ q, h'.isBus q = true → h.isBus q = true) ∧
  (∀ q, h'.isLeaf q = true → h.isLeaf q = true) ∧
  ∀ q o', h'.get q = some o' → ∃ o, h.get q = some o ∧
    (∀ b, o'.bus = some b → o.bus = some b ∨ h'.isLeaf b = false) ∧
    (∀ l is bs, o'.cls = .implIBus l is bs → ∃ is0 bs0, o.cls = .implIBus l is0 bs0 ∧
      ∀ x ∈ is, x ∈ is0 ∨ h'.isBus x = false)

/-- How a connection changes the class of the bus: a member is appended to one
of the two vectors. -/
def ClsStep (h : Heap) (c c' : Cls) : Prop :=
  c' = c ∨ ∃ l is bs is' bs', c = .implIBus l is bs ∧ c' = .implIBus l is' bs' ∧
    ∀ x ∈ is', x ∈ is ∨ h.isBus x = false

/-! ## Objects outside the bus and the handle `auto_ref`

`TRefObj<T>` and `TInterface<T>` are not bus-aware: an object of these classes
has no `_bus` and cannot be connected, so it is modelled on its own, outside
the heap. The handle `auto_ref<T>` is modelled over the heap of bus-aware
objects. -/

/-- An object of a class `TRefObj<T>`: its field `_count`. -/
structure TRefObj where
  count : Int
  deriving DecidableEq, Repr

/-- The method `TRefObj::ref`: `++_count`. -/
def TRefObj.ref (o : TRefObj) : TRefObj := { count := o.count + 1 }

/-- The method `TRefObj::unref`: `if (--_count == 0) delete this`; the result
`none` is the deleted object. -/
def TRefObj.unref (o : TRefObj) : Option TRefObj :=
  if o.count - 1 = 0 then none else some { count := o.count - 1 }

/-- A call of one of the two methods `ref` and `unref`. -/
inductive RefCall where
  | ref
  | unref
  deriving DecidableEq, Repr

/-- A sequence of calls on one object of a class `TRefObj<T>`, in order; the
result `none` means that one of the calls has deleted the object (a later call
would be made on a deleted object, so the run ends there). -/
def TRefObj.run : List RefCall → TRefObj → Option TRefObj
  | [], o => some o
  | .ref :: cs, o => TRefObj.run cs o.ref
  | .unref :: cs, o =>
    match o.unref with
    | none => none
    | some o1 => TRefObj.run cs o1

/-- An object of a class `TInterface<T>`: `T::iid()` and the field `_count`. -/
structure TInterface where
  iid : TIntfId
  count : Int
  deriving DecidableEq, Repr

/-- The method `TInterface::ref`: `++_count`. -/
def TInterface.ref (o : TInterface) : TInterface := { o with count := o.count + 1 }

/-- The method `TInterface::queryInterface` of the object `o` at the address
`self`; the state `qst` is not used by the source. The result holds the object
afterwards and `*retIntf` (`none` for the return code 1). -/
def TInterface.queryInterface (self : Ptr) (o : TInterface) (iid : TIntfId)
    (_qst : Option QState) : TInterface × Option Ptr :=
  if equalIID iid o.iid || equalIID iid IID_IINTERFACE then (o.ref, some self)
  else (o, none)

/-- The handle `auto_ref<T>`: its field `_intf` (`none` for `NULL`). -/
abbrev auto_ref := Option Ptr

/-- The constructor `auto_ref(T* intf)`: `_intf(intf)`, then
`if (intf) intf->ref()`. -/
def auto_ref.fromRaw (h : Heap) (intf : Option Ptr) : Heap × auto_ref :=
  match intf with
  | some p => (ref h p, some p)
  | none => (h, none)

/-- The constructor `auto_ref(T* intf, bool refIt)`: `_intf(intf)`, then
`if (intf && refIt) intf->ref()`. -/
def auto_ref.fromRawRefIt (h : Heap) (intf : Option Ptr) (refIt : Bool) : Heap × auto_ref :=
  match intf with
  | some p => if refIt then (ref h p, some p) else (h, some p)
  | none => (h, none)

/-- The copy constructor `auto_ref(const this_type& rv)`: `_intf(rv._intf)`,
then `if (_intf) _intf->ref()`. -/
def auto_ref.copy (h : Heap) (rv : auto_ref) : Heap × auto_ref :=
  match rv with
  | some p => (ref h p, some p)
  | none => (h, none)

/-- The destructor `~auto_ref`: `if (_intf) _intf->unref()`. -/
def auto_ref.destroy (h : Heap) (self : auto_ref) : Option Heap :=
  match self with
  | some p => unref h p
  | none => some h

/-- The operator `operator=(T* intf)` of the handle `self`:
`if (_intf != intf) { if (_intf) _intf->unref(); _intf = intf; if (_intf) _intf->ref(); }`.
The specialisation `auto_ref<IInterface>` has the same body. -/
def auto_ref.assignRaw (h : Heap) (self : auto_ref) (intf : Option Ptr) :
    Option (Heap × auto_ref) :=
  if self ≠ intf then
    match auto_ref.destroy h self with
    | none => none
    | some h1 => some ((auto_ref.fromRaw h1 intf).1, intf)
  else some (h, self)

/-- The operator `operator=(const this_type& rv)` of the handle `self`:
`_intf = rv._intf; if (_intf) _intf->ref();`. The previous value of `_intf` is
overwritten without being used. -/
def auto_ref.assign (h : Heap) (_self : auto_ref) (rv : auto_ref) : Heap × auto_ref :=
  match rv with
  | some q => (ref h q, some q)
  | none => (h, none)

/-- The number of handles of a list that hold the object at `p`. -/
def handlesOn (hs : List auto_ref) (p : Ptr) : Nat := hs.count (some p)

/-- Two unconnected leaves, each held by one handle. -/
def twoLeaves : Heap :=
  ⟨[some ⟨.tInterfaceEx "IA", 1, none⟩, some ⟨.tInterfaceEx "IB", 1, none⟩]⟩

/-- A bus of level 0 on which no reference is held (the result of
`new Impl_IBus(0)`). -/
def rawBus : Heap := ⟨[some ⟨.implIBus 0 [] [], 0, none⟩]⟩

/-- The heap `rawBus` after `localQueryInterface("IA", ..., qst)` with a query
state `qst` fresh from `new TQueryState()`: the state has recorded the bus and
holds a reference on it. -/
def markedBus : Heap := ⟨[some ⟨.implIBus 0 [] [], 1, none⟩]⟩

/-- An unconnected leaf on which no reference is held (the result of
`new TInterfaceEx<Impl_IA>()`). -/
def rawLeaf : Heap := ⟨[some ⟨.tInterfaceEx "IA", 0, none⟩]⟩

/-- The first step of the worked example, before `bus0->connect(new IA)`: a bus
of level 0 held by one handle (cell 0) and an object of class `TInterfaceEx`
just created, with count 0 and no owning bus (cell 1). -/
def busAndLeaf : Heap :=
  ⟨[some ⟨.implIBus 0 [] [], 1, none⟩, some ⟨.tInterfaceEx "IA", 0, none⟩]⟩

/-- A sequence of `ref()` and `unref()` calls made one after the other on the
object at `p` of the heap (any class: `TInterfaceEx`, `TMultiInterfaceEx`,
`Impl_IBus`). The object has been destroyed when its cell is `none` in the
resulting heap; calls that follow the destruction have no effect. -/
def Heap.runCalls (p : Ptr) : List RefCall → Heap → Option Heap
  | [], h => some h
  | .ref :: cs, h => Heap.runCalls p cs (ref h p)
  | .unref :: cs, h =>
    match unref h p with
    | none => none
    | some h1 => Heap.runCalls p cs h1

/-! ## Further methods: `findFirstBusByLevel`, `unrefNoDelete`, `supports` -/

/-- The loop of `Impl_IBus::findFirstBusByLevel` over `_buses`:
`if (bus->getLevel() == busLevel) return bus;`, and `return NULL` after it. -/
def findBus (h : Heap) (busLevel : Int) : List Ptr → Option Ptr
  | [] => none
  | bus :: rest =>
    if getLevel h bus = some busLevel then some bus else findBus h busLevel rest

/-- The method `Impl_IBus::findFirstBusByLevel` of the bus at `self`; the result
holds the heap afterwards and the returned pointer (`none` for `NULL`). The
method calls `getLevel` only, which reads. -/
def findFirstBusByLevel (h : Heap) (self : Ptr) (busLevel : Int) : Heap × Option Ptr :=
  (h, findBus h busLevel (h.busesOf self))

/-- The method `TRefObj::unrefNoDelete`: `--_count`. -/
def TRefObj.unrefNoDelete (o : TRefObj) : TRefObj := { count := o.count - 1 }

/-- The condition of the `assert` that ends `unrefNoDelete`, on the object
after the decrement: `_count >= 0`. -/
def TRefObj.countNonNeg (o : TRefObj) : Bool := decide (o.count ≥ 0)

/-- The method `unrefNoDelete` of the heap classes (`TInterfaceEx`,
`TMultiInterfaceEx`, `Impl_IBus`): `--_count`. -/
def unrefNoDelete (h : Heap) (p : Ptr) : Heap :=
  h.modify p (fun o => { o with count := o.count - 1 })

/-- The condition of the `assert` that ends `unrefNoDelete`, in the heap after
the decrement: `_count >= 0`. -/
def Heap.countNonNeg (h : Heap) (p : Ptr) : Bool := decide (h.countOf p ≥ 0)

/-- The helper `IInterface::supports` called on the object at `self`:
`queryInterface(iid, &intf, NULL)`, and on success `intf->unrefNoDelete()` and
`return true`. -/
def supports (h : Heap) (self : Ptr) (iid : TIntfId) : Option (Heap × Bool) :=
  match queryInterface h self iid none with
  | none => none
  | some (h1, _, some intf) => some (unrefNoDelete h1 intf, true)
  | some (h1, _, none) => some (h1, false)

/-- Three buses in a chain: cell 0 (level 2) has the child bus cell 1 (level 1),
which has the child bus cell 2 (level 0); each is held by one handle. -/
def chainHeap : Heap :=
  ⟨[some ⟨.implIBus 2 [] [1], 1, none⟩,
    some ⟨.implIBus 1 [] [2], 2, some 0⟩,
    some ⟨.implIBus 0 [] [], 2, some 1⟩]⟩

/-- The heaps reached from the heap `h0` by calls of `connect` and
`disconnect`. -/
inductive Reach (h0 : Heap) : Heap → Prop where
  | start : Reach h0 h0
  | connect (h h' : Heap) (self intf : Ptr) (ok : Bool) :
      Reach h0 h → connect h self intf = some (h', ok) → Reach h0 h'
  | disconnect (h h' : Heap) (self intf : Ptr) :
      Reach h0 h → disconnect h self intf = some h' → Reach h0 h'

/-- Every bus that is live in `h'` was live in `h` with the same level, and
every member of its `_buses` was a member in `h` or is a bus of `h` of a level
not above its own: what the operations do to levels and child-bus lists. -/
def LvlStep (h h' : Heap) : Prop :=
  (∀ q l, getLevel h' q = some l → getLevel h q = some l) ∧
  ∀ P C, C ∈ h'.busesOf P → C ∈ h.busesOf P ∨
    ∃ lp lc, getLevel h P = some lp ∧ getLevel h C = some lc ∧ lc ≤ lp

/-- The members of the bus at `P`: `_intfs` followed by `_buses`. -/
def Heap.members (h : Heap) (P : Ptr) : List Ptr := h.intfsOf P ++ h.busesOf P

/-- Every live object whose `_bus` is set is a member of the bus it points to. -/
def Heap.BackRef (h : Heap) : Prop :=
  ∀ x o P, h.get x = some o → o.bus = some P → x ∈ h.members P

/-- The members recorded in the data of a class: `_intfs` followed by `_buses`
for a bus, none for a leaf. -/
def Cls.members : Cls → List Ptr
  | .implIBus _ intfs buses => intfs ++ buses
  | _ => []

/-- The heap `cycleFresh` after bus 1 has connected the leaf (cell 2). -/
def equalHeap1 : Heap :=
  ⟨[some ⟨.implIBus 0 [] [], 1, none⟩, some ⟨.implIBus 0 [2] [], 1, none⟩,
    some ⟨.tInterfaceEx "IA", 1, some 1⟩]⟩

/-- The heap `equalHeap1` after bus 0 has connected bus 1: a bus with a child
bus of the same level that hosts a leaf. -/
def equalHeap : Heap :=
  ⟨[some ⟨.implIBus 0 [] [1], 1, none⟩, some ⟨.implIBus 0 [2] [], 2, some 0⟩,
    some ⟨.tInterfaceEx "IA", 1, some 1⟩]⟩

/-! ## The order of the releases of a destructor

The functions `releaseMembers` and `unrefF` repeated with a second result: the
members on which the destructors of buses have called `unref()`, in the order of
the calls. -/

/-- The loops of `Impl_IBus::~Impl_IBus` (see `releaseMembers`), with the log
of the calls `unref()`: the member itself, then the calls made while it was
released, then those of the rest of the loop. -/
def releaseMembersL (rec : Heap → Ptr → Option (Heap × List Ptr)) :
    List Ptr → Heap → Option (Heap × List Ptr)
  | [], h => some (h, [])
  | m :: ms, h =>
    match rec (setBus h m none) m with
    | none => none
    | some (h1, l1) =>
      match releaseMembersL rec ms h1 with
      | none => none
      | some (h2, l2) => some (h2, m :: l1 ++ l2)

/-- The method `unref` with fuel (see `unrefF`), with the log of the calls
`unref()` made by the destructors it runs. -/
def unrefL : Nat → Heap → Ptr → Option (Heap × List Ptr)
  | 0, _, _ => none
  | fuel + 1, h, p =>
    match h.get p with
    | none => some (h, [])
    | some o =>
      let h1 := h.modify p (fun o => { o with count := o.count - 1 })
      if o.count - 1 = 0 then
        match o.cls with
        | .implIBus _ intfs buses =>
          match releaseMembersL (unrefL fuel) (intfs.reverse ++ buses.reverse) h1 with
          | none => none
          | some (h2, log) => some (h2.free p, log)
        | _ => some (h1.free p, [])
      else some (h1, [])

/-- Three buses just connected to nothing, of levels 2, 1 and 0 (cells 0, 1, 2),
each held by one handle. -/
def chainFresh : Heap :=
  ⟨[some ⟨.implIBus 2 [] [], 1, none⟩, some ⟨.implIBus 1 [] [], 1, none⟩,
    some ⟨.implIBus 0 [] [], 1, none⟩]⟩

/-- The heap `chainFresh` after bus 1 has connected bus 2. -/
def chainHeap1 : Heap :=
  ⟨[some ⟨.implIBus 2 [] [], 1, none⟩, some ⟨.implIBus 1 [] [2], 1, none⟩,
    some ⟨.implIBus 0 [] [], 2, some 1⟩]⟩

/-- The worked example after `bus0->disconnect(ia)`: the object `IA` (cell 1),
which nothing else held, has been destroyed. -/
def exampleHeapD : Heap :=
  ⟨[some ⟨.implIBus 0 [2] [], 2, some 3⟩,
    none,
    some ⟨.tInterfaceEx "IB", 1, some 0⟩,
    some ⟨.implIBus 1 [4, 5] [0], 1, none⟩,
    some ⟨.tInterfaceEx "IC", 1, some 3⟩,
    some ⟨.tInterfaceEx "ID", 1, some 3⟩]⟩

/-- The worked example before any call of `connect`: the two buses are held by
one handle each, the four leaves by none. -/
def exampleNew : Heap :=
  ⟨[some ⟨.implIBus 0 [] [], 1, none⟩,
    some ⟨.tInterfaceEx "IA", 0, none⟩,
    some ⟨.tInterfaceEx "IB", 0, none⟩,
    some ⟨.implIBus 1 [] [], 1, none⟩,
    some ⟨.tInterfaceEx "IC", 0, none⟩,
    some ⟨.tInterfaceEx "ID", 0, none⟩]⟩

/-- The heap `exampleNew` after `bus0->connect(ia)`. -/
def exampleNew1 : Heap :=
  ⟨[some ⟨.implIBus 0 [1] [], 1, none⟩,
    some ⟨.tInterfaceEx "IA", 1, some 0⟩,
    some ⟨.tInterfaceEx "IB", 0, none⟩,
    some ⟨.implIBus 1 [] [], 1, none⟩,
    some ⟨.tInterfaceEx "IC", 0, none⟩,
    some ⟨.tInterfaceEx "ID", 0, none⟩]⟩

/-- The heap `exampleNew1` after `bus0->connect(ib)`. -/
def exampleNew2 : Heap :=
  ⟨[some ⟨.implIBus 0 [1, 2] [], 1, none⟩,
    some ⟨.tInterfaceEx "IA", 1, some 0⟩,
    some ⟨.tInterfaceEx "IB", 1, some 0⟩,
    some ⟨.implIBus 1 [] [], 1, none⟩,
    some ⟨.tInterfaceEx "IC", 0, none⟩,
    some ⟨.tInterfaceEx "ID", 0, none⟩]⟩

/-- The heap `exampleNew2` after `bus1->connect(ic)`; `bus1->connect(id)` then
gives `exampleHeap0`. -/
def exampleNew3 : Heap :=
  ⟨[some ⟨.implIBus 0 [1, 2] [], 1, none⟩,
    some ⟨.tInterfaceEx "IA", 1, some 0⟩,
    some ⟨.tInterfaceEx "IB", 1, some 0⟩,
    some ⟨.implIBus 1 [4] [], 1, none⟩,
    some ⟨.tInterfaceEx "IC", 1, some 3⟩,
    some ⟨.tInterfaceEx "ID", 0, none⟩]⟩

/-! ## The assertion of `~Impl_IBus`

The destructor of a bus starts with `assert(_bus == NULL)`. The functions of
this section are the functions that call `unref`, directly or indirectly,
repeated with a second result: whether the assertion held in every destructor
of a bus that ran during the call. -/

/-- The loops of `Impl_IBus::~Impl_IBus` (see `releaseMembers`), with the
outcome of the assertions in the destructors run by the releases. -/
def releaseMembersA (rec : Heap → Ptr → Option (Heap × Bool)) :
    List Ptr → Heap → Option (Heap × Bool)
  | [], h => some (h, true)
  | m :: ms, h =>
    match rec (setBus h m none) m with
    | none => none
    | some (h1, ok1) =>
      match releaseMembersA rec ms h1 with
      | none => none
      | some (h2, ok2) => some (h2, ok1 && ok2)

/-- The method `unref` with fuel (see `unrefF`), with the outcome of the
assertions: when the call deletes a bus, `_bus == NULL` is evaluated at the
start of its destructor. -/
def unrefA : Nat → Heap → Ptr → Option (Heap × Bool)
  | 0, _, _ => none
  | fuel + 1, h, p =>
    match h.get p with
    | none => some (h, true)
    | some o =>
      let h1 := h.modify p (fun o => { o with count := o.count - 1 })
      if o.count - 1 = 0 then
        match o.cls with
        | .implIBus _ intfs buses =>
          match releaseMembersA (unrefA fuel) (intfs.reverse ++ buses.reverse) h1 with
          | none => none
          | some (h2, ok) => some (h2.free p, decide (o.bus = none) && ok)
        | _ => some (h1.free p, true)
      else some (h1, true)

/-- The loop of `TQueryState::~TQueryState` (see `unrefAll`), with the outcome
of the assertions. -/
def unrefAllA : List Ptr → Heap → Option (Heap × Bool)
  | [], h => some (h, true)
  | e :: es, h =>
    match unrefA (h.size + 1) h e with
    | none => none
    | some (h1, ok1) =>
      match unrefAllA es h1 with
      | none => none
      | some (h2, ok2) => some (h2, ok1 && ok2)

/-- The method `unref` of a query state (see `unrefState`), with the outcome of
the assertions. -/
def unrefStateA (h : Heap) (st : QState) : Option ((Heap × QState) × Bool) :=
  if st.count - 1 = 0 then
    match unrefAllA st.buses h with
    | none => none
    | some (h1, ok) => some ((h1, { st with count := st.count - 1, deleted := true }), ok)
  else some ((h, { st with count := st.count - 1 }), true)

/-- The statements of `Impl_IBus::queryInterface` before the destruction of the
`auto_ref` `st` (see `busQueryBody`), with the outcome of the assertions. -/
def busQueryBodyA (rec : Heap → Ptr → Option QState → Option (QResult × Bool))
    (fuel : Nat) (h : Heap) (p : Ptr) (parent : Option Ptr) (iid : TIntfId)
    (st : QState) : Option (QResult × Bool) :=
  match localQueryInterfaceF fuel h p iid (some st) with
  | none => none
  | some (h1, q1, some r) => some ((h1, q1, some r), true)
  | some (h1, q1, none) =>
    match parent, q1 with
    | some b, some st1 =>
      if !isBusSearched st1 b then rec h1 b (some st1) else some ((h1, q1, none), true)
    | _, _ => some ((h1, q1, none), true)

/-- The destruction of the `auto_ref` `st` (see `releaseState`), with the
outcome of the assertions. -/
def releaseStateA : Option (QResult × Bool) → Option (QResult × Bool)
  | none => none
  | some ((h1, some st1, r), ok) =>
    match unrefStateA h1 st1 with
    | none => none
    | some ((h2, st2), ok2) => some ((h2, some st2, r), ok && ok2)
  | some ((h1, none, r), ok) => some ((h1, none, r), ok)

/-- The virtual method `queryInterface` with fuel (see `queryInterfaceF`), with
the outcome of the assertions. -/
def queryInterfaceA :
    Nat → Heap → Ptr → TIntfId → Option QState → Option (QResult × Bool)
  | 0, _, _, _, _ => none
  | fuel + 1, h, p, iid, qst =>
    match h.get p with
    | none => some ((h, qst, none), true)
    | some o =>
      match o.cls with
      | .implIBus _ _ _ =>
        let st : QState :=
          match qst with
          | some q => { q with count := q.count + 1 }
          | none => { count := 1, buses := [], deleted := false }
        releaseStateA
          (busQueryBodyA (fun h1 b q1 => queryInterfaceA fuel h1 b iid q1)
            (fuel + 1) h p o.bus iid st)
      | _ =>
        match localQueryInterfaceF (fuel + 1) h p iid qst with
        | none => none
        | some (h1, q1, some r) => some ((h1, q1, some r), true)
        | some (h1, q1, none) =>
          match o.bus with
          | some b =>
            if notSearched qst b then queryInterfaceA fuel h1 b iid qst
            else some ((h1, q1, none), true)
          | none => some ((h1, q1, none), true)

/-- The method `Impl_IBus::connect` (see `connect`), with the outcome of the
assertions. -/
def connectA (h : Heap) (self : Ptr) (intf : Ptr) : Option ((Heap × Bool) × Bool) :=
  match getLevel h self with
  | none => none
  | some level =>
    match queryInterfaceA (h.size + 3) h intf IID_IBUS none with
    | none => none
    | some ((h1, _, some bus), ok1) =>
      match getLevel h1 bus with
      | none => none
      | some l =>
        if l ≤ level then
          some ((setBus (h1.modify self (fun o => o.pushBus bus)) bus (some self), true), ok1)
        else
          match unrefA (h1.size + 1) h1 bus with
          | none => none
          | some (h2, ok2) => some ((h2, false), ok1 && ok2)
    | some ((h1, _, none), ok1) =>
      some ((setBus ((ref h1 intf).modify self (fun o => o.pushIntf intf)) intf (some self),
        true), ok1)

/-- The method `Impl_IBus::disconnect` (see `disconnect`), with the outcome of
the assertions. -/
def disconnectA (h : Heap) (self : Ptr) (intf : Ptr) : Option (Heap × Bool) :=
  match h.get self with
  | some ⟨.implIBus _ intfs buses, _, _⟩ =>
    if intf ∈ intfs then
      unrefA ((setBus (h.modify self (fun o => o.eraseIntf intf)) intf none).size + 1)
        (setBus (h.modify self (fun o => o.eraseIntf intf)) intf none) intf
    else if intf ∈ buses then
      unrefA ((setBus (h.modify self (fun o => o.eraseBus intf)) intf none).size + 1)
        (setBus (h.modify self (fun o => o.eraseBus intf)) intf none) intf
    else some (h, true)
  | _ => none

/-- Objects just constructed: every count is 0, no back-reference is set and
every bus has empty vectors. -/
def Heap.New (h : Heap) : Prop :=
  h.cells.all (fun c => match c with
    | some o => decide (o.count = 0) && o.bus.isNone && (match o.cls with
      | .implIBus _ intfs buses => intfs.isEmpty && buses.isEmpty
      | _ => true)
    | none => true) = true

instance (h : Heap) : Decidable h.New := by unfold Heap.New; infer_instance

/-- One operation of a client on a heap `h` of which the client holds the
references `held` (one entry for every reference taken by a handle or returned
by a query and not yet released): a call of `connect`, `disconnect` or
`queryInterface` with no state, the construction of a handle on a live object,
or the release of a held reference. The flag is the outcome of the assertions
of the destructors run by the operation. -/
inductive Step : Heap × List Ptr → Bool → Heap × List Ptr → Prop where
  | connect (h : Heap) (held : List Ptr) (self intf : Ptr) (h' : Heap) (ok a : Bool) :
      connectA h self intf = some ((h', ok), a) → Step (h, held) a (h', held)
  | disconnect (h : Heap) (held : List Ptr) (self intf : Ptr) (h' : Heap) (a : Bool) :
      disconnectA h self intf = some (h', a) → Step (h, held) a (h', held)
  | query (h : Heap) (held : List Ptr) (p : Ptr) (iid : TIntfId) (h' : Heap)
      (q : Option QState) (r : Option Ptr) (a : Bool) :
      queryInterfaceA (h.size + 3) h p iid none = some ((h', q, r), a) →
      Step (h, held) a (h', r.toList ++ held)
  | hold (h : Heap) (held : List Ptr) (p : Ptr) :
      (h.get p).isSome = true → Step (h, held) true (ref h p, p :: held)
  | release (h : Heap) (held : List Ptr) (p : Ptr) (h' : Heap) (a : Bool) :
      p ∈ held → unrefA (h.size + 1) h p = some (h', a) → Step (h, held) a (h', held.erase p)

/-- The states reached from `s0` by operations of a client. -/
inductive Run (s0 : Heap × List Ptr) : Heap × List Ptr → Prop where
  | start : Run s0 s0
  | step (s s' : Heap × List Ptr) (a : Bool) : Run s0 s → Step s a s' → Run s0 s'

/-- The number of times `x` is recorded in the vectors of the live buses other
than those of `Z`. -/
def occ (h : Heap) (Z : List Ptr) (x : Ptr) : Nat :=
  ∑ P in (Finset.range h.size).filter (fun P => P ∉ Z), (h.members P).count x

/-- The invariant of the reference counts: `e x` references to `x` are held
from outside the vectors, `d x` entries of the vectors of buses under
destruction (the buses of `Z`) are still to be released. The count of a live
object is the number of references to it, and an object whose `_bus` is set is
recorded in a vector. -/
structure Counted (h : Heap) (Z : List Ptr) (e d : Ptr → Nat) : Prop where
  count : ∀ x o, h.get x = some o → o.count = (occ h Z x : Int) + e x + d x
  hosted : ∀ x o, h.get x = some o → o.bus ≠ none → 1 ≤ occ h Z x + d x
  zombie : ∀ z ∈ Z, ∀ o, h.get z = some o → o.count = 0

/-- One more outside reference to `p`. -/
def bump (e : Ptr → Nat) (p : Ptr) : Ptr → Nat := fun x => if x = p then e x + 1 else e x

/-- One outside reference to `p` less. -/
def drop (e : Ptr → Nat) (p : Ptr) : Ptr → Nat := fun x => if x = p then e x - 1 else e x

/-- The entries of `L` added to the entries still to be released. -/
def plus (d : Ptr → Nat) (L : List Ptr) : Ptr → Nat := fun x => d x + L.count x

/-- Two buses of level 0 just constructed. -/
def newPair : Heap :=
  ⟨[some ⟨.implIBus 0 [] [], 0, none⟩, some ⟨.implIBus 0 [] [], 0, none⟩]⟩

/-- The heap `newPair` after a handle has been taken on bus 0 and bus 0 has
connected bus 1. -/
def heldPair : Heap :=
  ⟨[some ⟨.implIBus 0 [] [1], 1, none⟩, some ⟨.implIBus 0 [] [], 1, some 0⟩]⟩

/-! ## Heaps reached by the calls of a client

The calls a client makes on the objects of the heap: `connect`, `disconnect`,
`queryInterface` without a supplied state, `ref` and `unref` (which destroys
the object when the count returns to 0, a bus with its destructor). -/

/-- The heaps reached from the heap `h0` by calls of `connect`, `disconnect`,
`queryInterface(iid, &r, NULL)`, `ref` and `unref`, each on any object and with
any arguments. -/
inductive Lives (h0 : Heap) : Heap → Prop where
  | start : Lives h0 h0
  | connect (h h' : Heap) (self intf : Ptr) (ok : Bool) :
      Lives h0 h → connect h self intf = some (h', ok) → Lives h0 h'
  | disconnect (h h' : Heap) (self intf : Ptr) :
      Lives h0 h → disconnect h self intf = some h' → Lives h0 h'
  | query (h h' : Heap) (p : Ptr) (iid : TIntfId) (q : Option QState) (r : Option Ptr) :
      Lives h0 h → queryInterface h p iid none = some (h', q, r) → Lives h0 h'
  | ref (h : Heap) (p : Ptr) : Lives h0 h → Lives h0 (ref h p)
  | unref (h h' : Heap) (p : Ptr) : Lives h0 h → unref h p = some h' → Lives h0 h'

/-- Two buses of level 0 and a leaf, just constructed and each held by one
handle. -/
def trioFresh : Heap :=
  ⟨[some ⟨.implIBus 0 [] [], 1, none⟩, some ⟨.implIBus 0 [] [], 1, none⟩,
    some ⟨.tInterfaceEx "IA", 1, none⟩]⟩

/-- The heap `trioFresh` after bus 1 has connected the leaf. -/
def trioHeap1 : Heap :=
  ⟨[some ⟨.implIBus 0 [] [], 1, none⟩, some ⟨.implIBus 0 [2] [], 1, none⟩,
    some ⟨.tInterfaceEx "IA", 2, some 1⟩]⟩

/-- The heap `trioHeap1` after bus 0 has connected bus 1. -/
def trioHeap2 : Heap :=
  ⟨[some ⟨.implIBus 0 [] [1], 1, none⟩, some ⟨.implIBus 0 [2] [], 2, some 0⟩,
    some ⟨.tInterfaceEx "IA", 2, some 1⟩]⟩

/-- The heap `trioHeap2` after the handle on bus 1 has been released. -/
def trioHeap3 : Heap :=
  ⟨[some ⟨.implIBus 0 [] [1], 1, none⟩, some ⟨.implIBus 0 [2] [], 1, some 0⟩,
    some ⟨.tInterfaceEx "IA", 2, some 1⟩]⟩

/-! ## Streams

The serialization layer of namespace `xp::serialize`: `Intf_serialize.h`,
`mem_serialize.h`, `dummy_serialize.h` and `Impl_serialize.cpp`. Values of the
types `pos_t`, `uint32_t` and `unsigned int` are natural numbers below `2^32`,
values of `int` and `offset_t` are integers (32 bits, two's complement); a
byte is a natural number. A result `none` of a method stands for undefined
behaviour of the call (a `memcpy` that leaves the source or the destination
block, or has a negative length). -/

/-- The value a conversion to a 32-bit unsigned type (`pos_t`, `uint32_t`,
`unsigned int`) gives: the residue modulo `2^32`. -/
def toU32 (x : Int) : Nat := (x % 4294967296).toNat

/-- The value a conversion to a 32-bit signed type (`int`, `offset_t`) gives:
the residue modulo `2^32` that lies in `[-2^31, 2^31)`. -/
def toI32 (x : Int) : Int :=
  if toU32 x < 2147483648 then (toU32 x : Int) else (toU32 x : Int) - 4294967296

/-- The enumeration `seek_tag`. -/
inductive seek_tag where
  | seek_begin
  | seek_current
  | seek_end
  deriving DecidableEq, Repr

/-- A block of memory a caller passes as `buf`: the number of bytes the pointer
points to and the bytes (byte `i` is `byte i` for `i < size`). -/
structure Buffer where
  size : Nat
  byte : Nat → Nat

/-- The block that holds the bytes of a list. -/
def Buffer.ofList (l : List Nat) : Buffer := ⟨l.length, fun i => l.getD i 0⟩

/-- The first `n` bytes of a block. -/
def Buffer.toList (b : Buffer) (n : Nat) : List Nat := (List.range n).map b.byte

/-- The class `_detail::memory_base`: the fields `_pos`, `_maxPos`,
`_totalSize` and the block `_pMem` points to, given by its bytes (byte `i` of
the block is `mem i` for `i < totalSize`, the values at other indices mean
nothing; a `NULL` pointer is the block of size 0). The field `limit` is not a
field of the source: it stands for the allocator, `malloc` and `realloc` return
a block exactly when the size asked for is at most `limit`. The flag
`_bFreeMem`, the destructor and the method `release` are left out. -/
structure memory_base where
  pos : Nat
  maxPos : Nat
  mem : Nat → Nat
  totalSize : Nat
  limit : Nat

/-- The constructor `memory_base(uint32_t initSize)`: `_pos(0), _maxPos(0)`,
`_pMem = malloc(initSize)` and `_totalSize = _pMem ? initSize : 0`. The bytes of
the new block are indeterminate: they are given by `junk`. -/
def memory_base.ofSize (limit : Nat) (junk : Nat → Nat) (initSize : Nat) : memory_base :=
  { pos := 0, maxPos := 0, mem := junk,
    totalSize := if initSize ≤ limit then initSize else 0, limit := limit }

/-- The constructor `memory_base(char* ptr, int len)`:
`_pos(0), _maxPos(len), _pMem(ptr), _totalSize(len)`. -/
def memory_base.ofBlock (limit : Nat) (ptr : Nat → Nat) (len : Int) : memory_base :=
  { pos := 0, maxPos := toU32 len, mem := ptr, totalSize := toU32 len, limit := limit }

/-- The method `memory_base::updateMaxPos`: `if(_maxPos < _pos) _maxPos = _pos`. -/
def memory_base.updateMaxPos (s : memory_base) : memory_base :=
  if s.maxPos < s.pos then { s with maxPos := s.pos } else s

/-- The method `memory_base::seek`: the switch on the tag, then
`if(_pos > _totalSize) _pos = _totalSize; updateMaxPos(); return _pos`. -/
def memory_base.seek (s : memory_base) (offset : Int) (tag : seek_tag) : memory_base × Nat :=
  let p : Nat :=
    match tag with
    | .seek_begin => toU32 offset
    | .seek_current => toU32 (s.pos + offset)
    | .seek_end => toU32 (s.maxPos + offset)
  let s1 : memory_base := { s with pos := if p > s.totalSize then s.totalSize else p }
  (s1.updateMaxPos, s1.updateMaxPos.pos)

/-- The end of `memory_sink::write`, after the block has been enlarged where
needed: `memcpy(_pMem + _pos, buf, len); _pos = newPos; updateMaxPos();
return len`. The `memcpy` is undefined when `len` is negative (it is converted
to `size_t`), when `buf` holds fewer than `len` bytes, and when `_pos + len`
lies beyond the block. -/
def memory_sink.store (s : memory_base) (buf : Buffer) (len : Int) (newPos : Nat) :
    Option (memory_base × Int) :=
  if len < 0 ∨ (buf.size : Int) < len ∨ (s.totalSize : Int) < s.pos + len then none
  else
    some (({ s with
        mem := fun i => if s.pos ≤ i ∧ (i : Int) < s.pos + len then buf.byte (i - s.pos)
          else s.mem i,
        pos := newPos } : memory_base).updateMaxPos, len)

/-- The method `memory_sink::write`: `newPos = _pos + len`; when
`newPos > _totalSize` the block is enlarged with `realloc` to `2*_totalSize`, or
to `newPos` if that is larger, and the call returns `-1` when `realloc` fails
(after `assert(0)`); then the bytes are stored. -/
def memory_sink.write (s : memory_base) (buf : Buffer) (len : Int) : Option (memory_base × Int) :=
  let newPos : Nat := toU32 (s.pos + len)
  if newPos > s.totalSize then
    let newSize : Nat :=
      if toU32 (2 * s.totalSize) < newPos then newPos else toU32 (2 * s.totalSize)
    if newSize ≤ s.limit then memory_sink.store { s with totalSize := newSize } buf len newPos
    else some (s, -1)
  else memory_sink.store s buf len newPos

/-- The method `memory_source::read` with a buffer that is not `NULL`:
`iLeft = _maxPos - _pos; n = len; if (n > iLeft) n = iLeft;` and for `n > 0`
`memcpy(buf, _pMem + _pos, n); _pos += n; return n`, otherwise `return -1`. The
result holds the buffer after the call. The `memcpy` is undefined when `buf`
holds fewer than `n` bytes or `_pos + n` lies beyond the block. -/
def memory_source.read (s : memory_base) (buf : Buffer) (len : Int) :
    Option (memory_base × Int × Buffer) :=
  let iLeft : Int := toI32 ((s.maxPos : Int) - s.pos)
  let n : Int := if len > iLeft then iLeft else len
  if n > 0 then
    if (buf.size : Int) < n ∨ (s.totalSize : Int) < s.pos + n then none
    else
      some ({ s with pos := toU32 (s.pos + n) }, n,
        { buf with byte := fun i => if (i : Int) < n then s.mem (s.pos + i) else buf.byte i })
  else some (s, -1, buf)

/-- The method `memory_source::attach`: `_pMem = ptr; _maxPos = len;
_totalSize = len`. -/
def memory_source.attach (s : memory_base) (ptr : Nat → Nat) (len : Int) : memory_base :=
  { s with mem := ptr, maxPos := toU32 len, totalSize := toU32 len }

/-- The class `memory_writer`: the count of `TRefObj<ISerialize>` and the
member `_sink`. -/
structure memory_writer where
  count : Int
  sink : memory_base

/-- The function `memory_writer::create`: `new memory_writer()`, whose count is
0 and whose `_sink` is built by `memory_sink(4096)`. -/
def memory_writer.create (limit : Nat) (junk : Nat → Nat) : memory_writer :=
  ⟨0, memory_base.ofSize limit junk 4096⟩

/-- The method `memory_writer::write`: `return _sink.write(buf, len)`. -/
def memory_writer.write (w : memory_writer) (buf : Buffer) (len : Int) :
    Option (memory_writer × Int) :=
  (memory_sink.write w.sink buf len).map (fun r => ({ w with sink := r.1 }, r.2))

/-- The method `memory_writer::read`: `assert(false); return -1` (the value
returned when assertions are compiled out). -/
def memory_writer.read (w : memory_writer) (buf : Buffer) (_len : Int) :
    memory_writer × Int × Buffer := (w, -1, buf)

/-- The method `memory_writer::pos`. -/
def memory_writer.pos (w : memory_writer) : Nat := w.sink.pos

/-- The method `memory_writer::seek`. -/
def memory_writer.seek (w : memory_writer) (offset : Int) (tag : seek_tag) : memory_writer × Nat :=
  ({ w with sink := (w.sink.seek offset tag).1 }, (w.sink.seek offset tag).2)

/-- The method `memory_writer::length`, which returns `_sink.length()`, a
`pos_t`, as `int`. -/
def memory_writer.length (w : memory_writer) : Int := toI32 w.sink.maxPos

/-- The method `memory_writer::memory`: the block of the sink. -/
def memory_writer.memory (w : memory_writer) : Buffer := ⟨w.sink.totalSize, w.sink.mem⟩

/-- The class `memory_reader`: the count of `TRefObj<ISerialize>` and the
member `_src` (the pointer `_ptr` to the local copy is used by the destructor
only and left out). -/
structure memory_reader where
  count : Int
  src : memory_base

/-- The function `memory_reader::create(ptr, len, localCopy)`: the member `_src`
is built by `memory_source()`, that is `memory_base(NULL, 0)`; with `localCopy`
the constructor copies `len` bytes to a block from `malloc(len)` and attaches
it, and attaches nothing when `malloc` fails (for `len <= 0` the attached block
is empty as well); without `localCopy` it attaches `ptr`. The result is `none`
when `ptr` does not point to `len` bytes. -/
def memory_reader.create (limit : Nat) (ptr : Buffer) (len : Int) (localCopy : Bool) :
    Option memory_reader :=
  if (ptr.size : Int) < len then none
  else if localCopy then
    if 0 < len ∧ len ≤ limit then
      some ⟨0, memory_source.attach (memory_base.ofBlock limit (fun _ => 0) 0) ptr.byte len⟩
    else some ⟨0, memory_base.ofBlock limit (fun _ => 0) 0⟩
  else some ⟨0, memory_source.attach (memory_base.ofBlock limit (fun _ => 0) 0) ptr.byte len⟩

/-- The method `memory_reader::write`: `assert(false); return -1`. -/
def memory_reader.write (r : memory_reader) (_buf : Buffer) (_len : Int) : memory_reader × Int :=
  (r, -1)

/-- The method `memory_reader::read`: `return _src.read(buf, len)`. -/
def memory_reader.read (r : memory_reader) (buf : Buffer) (len : Int) :
    Option (memory_reader × Int × Buffer) :=
  (memory_source.read r.src buf len).map (fun x => ({ r with src := x.1 }, x.2.1, x.2.2))

/-- The method `memory_reader::pos`. -/
def memory_reader.pos (r : memory_reader) : Nat := r.src.pos

/-- The method `memory_reader::seek`. -/
def memory_reader.seek (r : memory_reader) (offset : Int) (tag : seek_tag) : memory_reader × Nat :=
  ({ r with src := (r.src.seek offset tag).1 }, (r.src.seek offset tag).2)

/-- The class `dummy_writer`: the count of `TRefObj<ISerialize>` and the fields
`_pos` and `_end`. -/
structure dummy_writer where
  count : Int
  pos : Nat
  endPos : Nat
  deriving DecidableEq, Repr

/-- The function `dummy_writer::create`: `_pos(0), _end(0)`, count 0. -/
def dummy_writer.create : dummy_writer := ⟨0, 0, 0⟩

/-- The method `dummy_writer::write`:
`_pos += len; if(_end < _pos) _end = _pos; return len`. -/
def dummy_writer.write (d : dummy_writer) (_buf : Buffer) (len : Int) : dummy_writer × Int :=
  ({ d with pos := toU32 (d.pos + len),
            endPos := if d.endPos < toU32 (d.pos + len) then toU32 (d.pos + len) else d.endPos },
    len)

/-- The method `dummy_writer::read`: `assert(false); return 0`. -/
def dummy_writer.read (d : dummy_writer) (buf : Buffer) (_len : Int) :
    dummy_writer × Int × Buffer := (d, 0, buf)

/-- The method `dummy_writer::seek`. -/
def dummy_writer.seek (d : dummy_writer) (offset : Int) (tag : seek_tag) : dummy_writer × Nat :=
  let p : Nat :=
    match tag with
    | .seek_begin => toU32 offset
    | .seek_current => toU32 (d.pos + offset)
    | .seek_end => toU32 (d.endPos + offset)
  ({ d with pos := p }, p)

/-- The method `dummy_writer::size`: `return _end`. -/
def dummy_writer.size (d : dummy_writer) : Nat := d.endPos

/-- An object behind a reference `ISerialize&`: one of the three classes above.
The functions on it are the virtual methods of `ISerialize`. -/
inductive Stream where
  | writer (w : memory_writer)
  | reader (r : memory_reader)
  | dummy (d : dummy_writer)

/-- The count `_count` of the object. -/
def Stream.count : Stream → Int
  | .writer w => w.count
  | .reader r => r.count
  | .dummy d => d.count

/-- The virtual method `pos`. -/
def Stream.pos : Stream → Nat
  | .writer w => w.pos
  | .reader r => r.pos
  | .dummy d => d.pos

/-- The virtual method `write`. -/
def Stream.write : Stream → Buffer → Int → Option (Stream × Int)
  | .writer w, buf, len => (w.write buf len).map (fun x => (.writer x.1, x.2))
  | .reader r, buf, len => some (.reader (r.write buf len).1, (r.write buf len).2)
  | .dummy d, buf, len => some (.dummy (d.write buf len).1, (d.write buf len).2)

/-- The virtual method `read`. -/
def Stream.read : Stream → Buffer → Int → Option (Stream × Int × Buffer)
  | .writer w, buf, len => some (.writer (w.read buf len).1, (w.read buf len).2)
  | .reader r, buf, len => (r.read buf len).map (fun x => (.reader x.1, x.2))
  | .dummy d, buf, len => some (.dummy (d.read buf len).1, (d.read buf len).2)

/-- The virtual method `seek`. -/
def Stream.seek : Stream → Int → seek_tag → Stream × Nat
  | .writer w, offset, tag => (.writer (w.seek offset tag).1, (w.seek offset tag).2)
  | .reader r, offset, tag => (.reader (r.seek offset tag).1, (r.seek offset tag).2)
  | .dummy d, offset, tag => (.dummy (d.seek offset tag).1, (d.seek offset tag).2)

/-- The method `TRefObj::ref` of the object: `++_count`. -/
def Stream.ref : Stream → Stream
  | .writer w => .writer { w with count := w.count + 1 }
  | .reader r => .reader { r with count := r.count + 1 }
  | .dummy d => .dummy { d with count := d.count + 1 }

/-- The method `TRefObj::unref` of the object: `if (--_count == 0) delete this`;
the result `none` is the deleted object. -/
def Stream.unref (s : Stream) : Option Stream :=
  if s.count - 1 = 0 then none
  else
    match s with
    | .writer w => some (.writer { w with count := w.count - 1 })
    | .reader r => some (.reader { r with count := r.count - 1 })
    | .dummy d => some (.dummy { d with count := d.count - 1 })

/-- The class `pos_lock`: the field `_pos` (the reference `_sr` is the stream
the functions are applied to). -/
structure pos_lock where
  pos : Nat
  deriving DecidableEq, Repr

/-- The constructor `pos_lock(ISerialize& sr)`: `sr.ref(); _pos = sr.pos()`. The
result holds the stream after the call and the lock. -/
def pos_lock.create (sr : Stream) : Stream × pos_lock := (sr.ref, ⟨sr.ref.pos⟩)

/-- The destructor of `pos_lock`: `_sr.seek(_pos, seek_begin); _sr.unref()`,
where `_pos` is converted to `offset_t`. The result `none` is the stream deleted
by `unref`. -/
def pos_lock.destroy (l : pos_lock) (sr : Stream) : Option Stream :=
  (sr.seek (toI32 l.pos) .seek_begin).1.unref

/-- A call of `write`, `read` or `seek` on a stream. -/
inductive StreamOp where
  | write (buf : Buffer) (len : Int)
  | read (buf : Buffer) (len : Int)
  | seek (offset : Int) (tag : seek_tag)

/-- A sequence of calls of `write`, `read` and `seek` on a stream, in order;
`none` when one of the calls is undefined. -/
def Stream.perform : List StreamOp → Stream → Option Stream
  | [], s => some s
  | .write buf len :: ops, s =>
    match s.write buf len with
    | none => none
    | some (s1, _) => Stream.perform ops s1
  | .read buf len :: ops, s =>
    match s.read buf len with
    | none => none
    | some (s1, _, _) => Stream.perform ops s1
  | .seek offset tag :: ops, s => Stream.perform ops (s.seek offset tag).1

/-- The invariant of `memory_base`: `_pos <= _maxPos <= _totalSize < 2^32`. -/
def memory_base.Valid (s : memory_base) : Prop :=
  s.pos ≤ s.maxPos ∧ s.maxPos ≤ s.totalSize ∧ s.totalSize < 4294967296

instance (s : memory_base) : Decidable s.Valid := by
  unfold memory_base.Valid; infer_instance

/-- The invariant of the object behind a stream: that of `memory_base` for the
sink or the source, `_pos < 2^32` for a `dummy_writer`. -/
def Stream.Valid : Stream → Prop
  | .writer w => w.sink.Valid
  | .reader r => r.src.Valid
  | .dummy d => d.pos < 4294967296

instance (s : Stream) : Decidable s.Valid := by
  cases s <;> unfold Stream.Valid <;> infer_instance

/-- The largest position `seek` can set on the object: `_totalSize` for a sink
or a source, `2^32 - 1` for a `dummy_writer`, whose `seek` does not clamp. -/
def Stream.room : Stream → Nat
  | .writer w => w.sink.totalSize
  | .reader r => r.src.totalSize
  | .dummy _ => 4294967295

/-- The stream is an object of the same class as `s0` with the same count, and
`seek` can set every position on it that it could set on `s0`. -/
def Stream.Extends (s0 s : Stream) : Prop :=
  s.count = s0.count ∧ s0.room ≤ s.room ∧
  match s0, s with
  | .writer _, .writer _ => True
  | .reader _, .reader _ => True
  | .dummy _, .dummy _ => True
  | _, _ => False

/-- A sequence of calls `write(buf, len)` on a `dummy_writer`, with the value
returned by each call and `pos()` after it. -/
def dummy_writer.writes : List (Buffer × Int) → dummy_writer → dummy_writer × List (Int × Nat)
  | [], d => (d, [])
  | (buf, len) :: cs, d =>
    let r := dummy_writer.writes cs (d.write buf len).1
    (r.1, ((d.write buf len).2, (d.write buf len).1.pos) :: r.2)

/-- A sequence of calls `write(buf, len)` on a `memory_writer`, with the value
returned by each call and `pos()` after it; `none` when a call is undefined. -/
def memory_writer.writes :
    List (Buffer × Int) → memory_writer → Option (memory_writer × List (Int × Nat))
  | [], w => some (w, [])
  | (buf, len) :: cs, w =>
    match w.write buf len with
    | none => none
    | some (w1, ret) =>
      match memory_writer.writes cs w1 with
      | none => none
      | some (w2, log) => some (w2, (ret, w1.pos) :: log)

/-- The sum of the lengths of a sequence of calls of `write`. -/
def totalLen : List (Buffer × Int) → Int
  | [] => 0
  | (_, len) :: cs => len + totalLen cs

/-- The two bytes of the object representation of a `uint16_t`, in the order of
the addresses: low byte first on a little-endian machine, high byte first on a
big-endian one. -/
def bytes16 (bigEndian : Bool) (v : Nat) : List Nat :=
  if bigEndian then [v / 256 % 256, v % 256] else [v % 256, v / 256 % 256]

/-- The value of the `uint16_t` whose object representation is the two bytes
`b0`, `b1`. -/
def value16 (bigEndian : Bool) (b0 b1 : Nat) : Nat :=
  if bigEndian then b0 % 256 * 256 + b1 % 256 else b1 % 256 * 256 + b0 % 256

/-- The template `operator <<(ISerialize& sr, const T& t)` for `T = uint16_t`:
`sr.write(&t, sizeof(T))`, the value returned is dropped. -/
def writeU16 (bigEndian : Bool) (sr : Stream) (v : Nat) : Option Stream :=
  (sr.write (Buffer.ofList (bytes16 bigEndian v)) 2).map Prod.fst

/-- The specialisation `operator <<(ISerialize& sr, const std::string& t)`:
`uint16_t len = (uint16_t)t.length(); sr << len; if(len) sr.write(t.data(), len)`. -/
def writeString (bigEndian : Bool) (sr : Stream) (t : List Nat) : Option Stream :=
  let len : Nat := t.length % 65536
  match writeU16 bigEndian sr len with
  | none => none
  | some sr1 =>
    if len ≠ 0 then (sr1.write (Buffer.ofList t) len).map Prod.fst else some sr1

/-- The template `operator >>(ISerialize& sr, T& t)` for `T = uint16_t` and an
uninitialised `t`: `sr.read(&t, sizeof(T))`. The value of `t` is indeterminate,
and its use undefined, unless the call has stored both bytes. -/
def readU16 (bigEndian : Bool) (sr : Stream) : Option (Stream × Nat) :=
  match sr.read ⟨2, fun _ => 0⟩ 2 with
  | none => none
  | some (sr1, ret, b) =>
    if ret = 2 then some (sr1, value16 bigEndian (b.byte 0) (b.byte 1)) else none

/-- The specialisation `operator >>(ISerialize& sr, std::string& t)`:
`t = ""; uint16_t len; sr >> len;` and for `len != 0` `t.resize(len); sr.read(t.data(), len)`.
The result holds the stream after the call and the string. -/
def readString (bigEndian : Bool) (sr : Stream) : Option (Stream × List Nat) :=
  match readU16 bigEndian sr with
  | none => none
  | some (sr1, len) =>
    if len ≠ 0 then
      match sr1.read ⟨len, fun _ => 0⟩ len with
      | none => none
      | some (sr2, _, b) => some (sr2, b.toList len)
    else some (sr1, [])

/-- How a loop of the model ends: with a result, in undefined behaviour, or
with the fuel of the model used up. -/
inductive Outcome (α : Type) where
  | done (a : α)
  | undefined
  | noFuel

/-- The constant `DATA_BUFSIZE` of `copy`. -/
def DATA_BUFSIZE : Nat := 1024 * 16

/-- The loop of `copy` with fuel: `while(lenLeft)`, with
`len = min(DATA_BUFSIZE, lenLeft)`, `len = (uint32_t)reader.read(buf, (int)len)`,
and for `len != 0` `writer.write(buf, (int)len); lenLeft -= len`, otherwise
`break`. The result holds both streams and `lenLeft` after the loop. -/
def copyLoop : Nat → Stream → Stream → Buffer → Nat → Outcome (Stream × Stream × Nat)
  | 0, _, _, _, _ => .noFuel
  | fuel + 1, reader, writer, buf, lenLeft =>
    if lenLeft = 0 then .done (reader, writer, lenLeft)
    else
      let len : Nat := if DATA_BUFSIZE > lenLeft then lenLeft else DATA_BUFSIZE
      match reader.read buf (toI32 len) with
      | none => .undefined
      | some (reader1, ret, buf1) =>
        if toU32 ret ≠ 0 then
          match writer.write buf1 (toI32 (toU32 ret)) with
          | none => .undefined
          | some (writer1, _) =>
            copyLoop fuel reader1 writer1 buf1 (toU32 ((lenLeft : Int) - toU32 ret))
        else .done (reader1, writer, lenLeft)

/-- The function `copy(reader, writer, copyLen)`: the loop on a new buffer of
`DATA_BUFSIZE` bytes (indeterminate, given by `junk`), then
`return copyLen - lenLeft`. The result holds both streams after the call and the
value returned. -/
def copy (junk : Nat → Nat) (reader writer : Stream) (copyLen : Nat) :
    Outcome (Stream × Stream × Nat) :=
  match copyLoop (copyLen + 1) reader writer ⟨DATA_BUFSIZE, junk⟩ copyLen with
  | .done (r, w, lenLeft) => .done (r, w, toU32 ((copyLen : Int) - lenLeft))
  | .undefined => .undefined
  | .noFuel => .noFuel

/-- The bytes `from .. from + n - 1` of the block of a `memory_base`. -/
def memory_base.bytes (s : memory_base) (start n : Nat) : List Nat :=
  (List.range n).map (fun i => s.mem (start + i))

/-- A `memory_writer` just created and then held by one handle (count 1), on an
allocator that grants 4096 bytes. -/
def heldWriter : memory_writer := { memory_writer.create 4096 (fun _ => 0) with count := 1 }

/-- Two calls of `write`, of `2^31 - 1` bytes and of 1 byte. -/
def bigWrites : List (Buffer × Int) :=
  [(⟨2147483647, fun _ => 0⟩, 2147483647), (⟨1, fun _ => 0⟩, 1)]

/-- Two calls of `write`, of 3 bytes and of 2 bytes. -/
def smallWrites : List (Buffer × Int) :=
  [(Buffer.ofList [7, 8, 9], 3), (Buffer.ofList [1, 2], 2)]

/-- The reader `memory_reader::create(p, 1, false)` over a block that holds the
one byte 42. -/
def oneByteReader : memory_reader :=
  ⟨0, memory_source.attach (memory_base.ofBlock 4294967295 (fun _ => 0) 0)
    (Buffer.ofList [42]).byte 1⟩

/-- The reader `memory_reader::create(p, 3, false)` over a block that holds the
bytes 7, 8, 9. -/
def threeByteReader : memory_reader :=
  ⟨0, memory_source.attach (memory_base.ofBlock 4294967295 (fun _ => 0) 0)
    (Buffer.ofList [7, 8, 9]).byte 3⟩

/-- The writer of a stream, if it is a `memory_writer`. -/
def Stream.asWriter : Stream → Option memory_writer
  | .writer w => some w
  | _ => none

/-! ## Lemmas -/

theorem Heap.get_eq (h : Heap) (p : Ptr) : h.get p = (h.cells[p]?).getD none := by
  simp [Heap.get, List.getD_eq_getElem?_getD]

theorem Heap.get_lt {h : Heap} {p : Ptr} {o : Obj} (hp : h.get p = some o) : p < h.size := by
  by_contra hlt
  have : h.cells[p]? = none := by
    apply List.getElem?_eq_none
    simpa [Heap.size] using hlt
  simp [Heap.get_eq, this] at hp

theorem Heap.ext_get {h h' : Heap} (hs : h.size = h'.size)
    (hg : ∀ p, h.get p = h'.get p) : h = h' := by
  cases h with | mk c =>
  cases h' with | mk c' =>
  congr
  apply List.ext_getElem? 
  intro n
  have := hg n
  simp only [Heap.get_eq] at this
  simp only [Heap.size] at hs
  by_cases hn : n < c.length
  · have hn' : n < c'.length := hs ▸ hn
    simp only [List.getElem?_eq_getElem, hn, hn'] at this ⊢
    simpa using this
  · have hn' : ¬ n < c'.length := hs ▸ hn
    rw [List.getElem?_eq_none (by omega), List.getElem?_eq_none (by omega)]

@[simp] theorem Heap.size_modify (h : Heap) (p : Ptr) (f : Obj → Obj) :
    (h.modify p f).size = h.size := by
  unfold Heap.modify
  split <;> simp [Heap.size]

@[simp] theorem Heap.size_free (h : Heap) (p : Ptr) : (h.free p).size = h.size := by
  simp [Heap.free, Heap.size]

theorem Heap.get_modify (h : Heap) (p q : Ptr) (f : Obj → Obj) :
    (h.modify p f).get q = if q = p then (h.get p).map f else h.get q := by
  unfold Heap.modify
  split
  · rename_i o ho
    have hp := Heap.get_lt ho
    simp only [Heap.size] at hp
    by_cases hq : q = p
    · subst hq
      have ho' : h.cells[q] = some o := by
        simpa [Heap.get_eq, List.getElem?_eq_getElem hp] using ho
      simp [Heap.get_eq, ho, List.getElem?_set_self, hp, ho']
    · simp [Heap.get_eq, hq, List.getElem?_set_ne (Ne.symm hq)]
  · rename_i ho
    by_cases hq : q = p
    · subst hq; simp [ho]
    · simp [hq]

theorem Heap.get_free (h : Heap) (p q : Ptr) :
    (h.free p).get q = if q = p then none else h.get q := by
  by_cases hq : q = p
  · subst hq
    simp only [Heap.free, Heap.get_eq, if_true]
    by_cases hp : q < h.cells.length
    · simp [List.getElem?_set_self, hp]
    · rw [List.getElem?_eq_none (by simpa using hp)]; rfl
  · simp [Heap.free, Heap.get_eq, hq, List.getElem?_set_ne (Ne.symm hq)]

@[simp] theorem size_ref (h : Heap) (p : Ptr) : (ref h p).size = h.size := by simp [ref]

@[simp] theorem size_setBus (h : Heap) (p : Ptr) (b : Option Ptr) : (setBus h p b).size = h.size := by
  simp [setBus]

theorem mem_posSet {h : Heap} {q : Ptr} :
    q ∈ posSet h ↔ ∃ o, h.get q = some o ∧ 1 ≤ o.count := by
  unfold posSet
  rw [Finset.mem_filter, Finset.mem_range]
  constructor
  · rintro ⟨_, hq⟩
    cases hg : h.get q with
    | none => simp [Heap.positive, hg] at hq
    | some o => exact ⟨o, rfl, by simpa [Heap.positive, hg] using hq⟩
  · rintro ⟨o, ho, hc⟩
    exact ⟨Heap.get_lt ho, by simp [Heap.positive, ho, hc]⟩

theorem Shrinks.refl (h : Heap) : Shrinks h h :=
  ⟨rfl, fun _ o' ho => ⟨o', ho, rfl, le_refl _, Or.inl rfl⟩⟩

theorem Shrinks.andThen {a b c : Heap} (hab : Shrinks a b) (hbc : Shrinks b c) : Shrinks a c := by
  refine ⟨hbc.1.trans hab.1, fun q o' ho => ?_⟩
  obtain ⟨o1, h1, hc1, hn1, hb1⟩ := hbc.2 q o' ho
  obtain ⟨o2, h2, hc2, hn2, hb2⟩ := hab.2 q o1 h1
  refine ⟨o2, h2, hc1.trans hc2, hn1.trans hn2, ?_⟩
  rcases hb1 with hb1 | hb1
  · rcases hb2 with hb2 | hb2
    · exact Or.inl (hb1.trans hb2)
    · exact Or.inr (hb1.trans hb2)
  · exact Or.inr hb1

theorem Shrinks.posSet {h h' : Heap} (hs : Shrinks h h') : posSet h' ⊆ posSet h := by
  intro q hq
  obtain ⟨o', ho', hc⟩ := mem_posSet.1 hq
  obtain ⟨o, ho, _, hn, _⟩ := hs.2 q o' ho'
  exact mem_posSet.2 ⟨o, ho, hc.trans hn⟩

theorem Shrinks.of_modify (h : Heap) (p : Ptr) (f : Obj → Obj)
    (hf : ∀ o, (f o).cls = o.cls ∧ (f o).count ≤ o.count ∧
      ((f o).bus = o.bus ∨ (f o).bus = none)) : Shrinks h (h.modify p f) := by
  refine ⟨by simp, fun q o' ho => ?_⟩
  rw [Heap.get_modify] at ho
  by_cases hq : q = p
  · subst hq
    simp only [if_true] at ho
    cases hg : h.get q with
    | none => simp [hg] at ho
    | some o =>
      simp only [hg, Option.map_some', Option.some.injEq] at ho
      subst ho
      exact ⟨o, rfl, hf o⟩
  · simp only [hq, if_false] at ho
    exact ⟨o', ho, rfl, le_refl _, Or.inl rfl⟩

theorem Shrinks.free (h : Heap) (p : Ptr) : Shrinks h (h.free p) := by
  refine ⟨by simp, fun q o' ho => ?_⟩
  rw [Heap.get_free] at ho
  by_cases hq : q = p
  · simp [hq] at ho
  · simp only [hq, if_false] at ho
    exact ⟨o', ho, rfl, le_refl _, Or.inl rfl⟩

theorem Shrinks.setBus (h : Heap) (p : Ptr) : Shrinks h (setBus h p none) :=
  Shrinks.of_modify h p _ (fun _ => ⟨rfl, le_refl _, Or.inr rfl⟩)

theorem releaseMembers_total (rec : Heap → Ptr → Option Heap) (n : Nat)
    (hrec : ∀ h p, (posSet h).card < n → ∃ h', rec h p = some h' ∧ Shrinks h h') :
    ∀ (ms : List Ptr) (h : Heap), (posSet h).card < n →
      ∃ h', releaseMembers rec ms h = some h' ∧ Shrinks h h' := by
  intro ms
  induction ms with
  | nil => intro h _; exact ⟨h, rfl, Shrinks.refl h⟩
  | cons m ms ih =>
    intro h hn
    have hs0 := Shrinks.setBus h m
    have hn0 : (posSet (setBus h m none)).card < n :=
      lt_of_le_of_lt (Finset.card_le_card hs0.posSet) hn
    obtain ⟨h1, hr1, hs1⟩ := hrec (setBus h m none) m hn0
    have hn1 : (posSet h1).card < n :=
      lt_of_le_of_lt (Finset.card_le_card hs1.posSet) hn0
    obtain ⟨h2, hr2, hs2⟩ := ih h1 hn1
    refine ⟨h2, ?_, (hs0.andThen hs1).andThen hs2⟩
    simp [releaseMembers, hr1, hr2]

theorem unrefF_total : ∀ (fuel : Nat) (h : Heap) (p : Ptr), (posSet h).card < fuel →
    ∃ h', unrefF fuel h p = some h' ∧ Shrinks h h' := by
  intro fuel
  induction fuel with
  | zero => intro h p hn; omega
  | succ fuel ih =>
    intro h p hn
    unfold unrefF
    cases hg : h.get p with
    | none => exact ⟨h, rfl, Shrinks.refl h⟩
    | some o =>
      simp only
      have hs1 : Shrinks h (h.modify p (fun o => { o with count := o.count - 1 })) :=
        Shrinks.of_modify h p _ (fun o => ⟨rfl, by simp, Or.inl rfl⟩)
      by_cases hc : o.count - 1 = 0
      · simp only [hc, if_true]
        have hlt : (posSet (h.modify p (fun o => { o with count := o.count - 1 }))).card
            < (posSet h).card := by
          apply Finset.card_lt_card
          refine Finset.ssubset_iff_subset_ne.2 ⟨hs1.posSet, fun heq => ?_⟩
          have hp : p ∈ posSet h := mem_posSet.2 ⟨o, hg, by omega⟩
          rw [← heq] at hp
          obtain ⟨o', ho', hc'⟩ := mem_posSet.1 hp
          rw [Heap.get_modify] at ho'
          simp only [if_true, hg, Option.map_some', Option.some.injEq] at ho'
          subst ho'
          simp only at hc'
          omega
        have hn1 : (posSet (h.modify p (fun o => { o with count := o.count - 1 }))).card
            < fuel := by omega
        cases hcls : o.cls with
        | implIBus level intfs buses =>
          simp only
          obtain ⟨h2, hr2, hs2⟩ := releaseMembers_total (unrefF fuel) fuel ih
            (intfs.reverse ++ buses.reverse) _ hn1
          rw [hr2]
          exact ⟨h2.free p, rfl, (hs1.andThen hs2).andThen (Shrinks.free h2 p)⟩
        | tInterfaceEx x => exact ⟨_, rfl, hs1.andThen (Shrinks.free _ p)⟩
        | tMultiInterfaceEx x => exact ⟨_, rfl, hs1.andThen (Shrinks.free _ p)⟩
      · simp only [hc, if_false]
        exact ⟨_, rfl, hs1⟩

theorem card_posSet_le (h : Heap) : (posSet h).card ≤ h.size := by
  unfold posSet
  calc _ ≤ (Finset.range h.size).card := Finset.card_filter_le _ _
    _ = h.size := Finset.card_range _

theorem unref_total (h : Heap) (p : Ptr) : ∃ h', unref h p = some h' ∧ Shrinks h h' :=
  unrefF_total (h.size + 1) h p (by have := card_posSet_le h; omega)

theorem unrefAll_total : ∀ (l : List Ptr) (h : Heap),
    ∃ h', unrefAll l h = some h' ∧ Shrinks h h' := by
  intro l
  induction l with
  | nil => intro h; exact ⟨h, rfl, Shrinks.refl h⟩
  | cons e es ih =>
    intro h
    obtain ⟨h1, hr1, hs1⟩ := unref_total h e
    obtain ⟨h2, hr2, hs2⟩ := ih h1
    exact ⟨h2, by simp [unrefAll, hr1, hr2], hs1.andThen hs2⟩

/-- Releasing an object whose count does not drop to 0 only decrements. -/
theorem unref_of_ne {h : Heap} {p : Ptr} {o : Obj} (hg : h.get p = some o)
    (hc : o.count - 1 ≠ 0) :
    unref h p = some (h.modify p (fun o => { o with count := o.count - 1 })) := by
  simp [unref, unrefF, hg, hc]

theorem refAll_append (h : Heap) (l l' : List Ptr) :
    refAll h (l ++ l') = refAll (refAll h l) l' := by
  simp [refAll, List.foldl_append]

@[simp] theorem refAll_nil (h : Heap) : refAll h [] = h := rfl

theorem ref_refAll (h : Heap) (l : List Ptr) (p : Ptr) :
    ref (refAll h l) p = refAll h (l ++ [p]) := by
  simp [refAll, List.foldl_append]

theorem get_ref (h : Heap) (p q : Ptr) :
    (ref h p).get q = if q = p then (h.get p).map (fun o => { o with count := o.count + 1 })
      else h.get q := by
  simp [ref, Heap.get_modify]

theorem get_refAll (l : List Ptr) : ∀ (h : Heap) (q : Ptr),
    (refAll h l).get q = (h.get q).map (fun o => { o with count := o.count + l.count q }) := by
  induction l with
  | nil => intro h q; rw [refAll_nil]; cases h.get q <;> simp
  | cons x l ih =>
    intro h q
    have : refAll h (x :: l) = refAll (ref h x) l := rfl
    rw [this, ih, get_ref]
    by_cases hq : q = x
    · subst hq
      cases h.get q with
      | none => simp
      | some o => simp [List.count_cons]; omega
    · have hx : ¬ (x = q) := fun e => hq e.symm
      cases h.get q with
      | none => simp [hq]
      | some o => simp [hq, List.count_cons, hx]

@[simp] theorem size_refAll (l : List Ptr) : ∀ (h : Heap), (refAll h l).size = h.size := by
  induction l with
  | nil => intro h; rfl
  | cons x l ih => intro h; show (refAll (ref h x) l).size = _; rw [ih]; simp

theorem getLevel_refAll (h : Heap) (l : List Ptr) (b : Ptr) :
    getLevel (refAll h l) b = getLevel h b := by
  unfold getLevel
  rw [get_refAll]
  cases h.get b with
  | none => rfl
  | some o => cases o with | mk c n b => cases c <;> rfl

theorem sim_scanIntfs (h : Heap) (rec : Heap → Ptr → Option QState → Option QResult)
    (prec : Ptr → List Ptr → Option PResult)
    (hrec : ∀ l i q, rec (refAll h l) i (some q) = (prec i q.buses).map (lift h l q)) :
    ∀ (is l : List Ptr) (q : QState),
      scanIntfs rec is (refAll h l) (some q) = (pScanIntfs prec is q.buses).map (lift h l q) := by
  intro is
  induction is with
  | nil => intro l q; simp [scanIntfs, pScanIntfs, lift]
  | cons i rest ih =>
    intro l q
    rw [scanIntfs, pScanIntfs, hrec]
    cases hp : prec i q.buses with
    | none => simp
    | some x =>
      obtain ⟨m, r⟩ := x
      cases r with
      | some r => simp [lift]
      | none =>
        simp only [Option.map_some', lift, Option.toList_none, List.append_nil]
        have := ih (l ++ m) { q with buses := q.buses ++ m }
        simp only at this
        rw [this]
        cases pScanIntfs prec rest (q.buses ++ m) with
        | none => simp
        | some y => simp [lift, List.append_assoc]

theorem sim_scanBuses (h : Heap) (rec : Heap → Ptr → Option QState → Option QResult)
    (prec : Ptr → List Ptr → Option PResult) (level : Int)
    (hrec : ∀ l i q, rec (refAll h l) i (some q) = (prec i q.buses).map (lift h l q)) :
    ∀ (bs l : List Ptr) (q : QState),
      scanBuses rec level bs (refAll h l) (some q)
        = (pScanBuses h prec level bs q.buses).map (lift h l q) := by
  intro bs
  induction bs with
  | nil => intro l q; simp [scanBuses, pScanBuses, lift]
  | cons b rest ih =>
    intro l q
    rw [scanBuses, pScanBuses, getLevel_refAll]
    unfold enters
    cases hl : getLevel h b with
    | none => simp [ih]
    | some lv =>
      simp only
      by_cases hge : lv ≥ level
      · by_cases hv : b ∈ q.buses
        · simp [hge, hv, notSearched, isBusSearched, ih]
        · simp only [hge, hv, notSearched, isBusSearched, if_true, decide_True, decide_False,
            Bool.not_false, Bool.and_self, Bool.not_true]
          rw [hrec]
          cases hp : prec b q.buses with
          | none => simp
          | some x =>
            obtain ⟨m, r⟩ := x
            cases r with
            | some r => simp [lift]
            | none =>
              simp only [Option.map_some', lift, Option.toList_none, List.append_nil]
              have := ih (l ++ m) { q with buses := q.buses ++ m }
              simp only at this
              rw [this]
              cases pScanBuses h prec level rest (q.buses ++ m) with
              | none => simp
              | some y => simp [lift, List.append_assoc]
      · simp [hge, ih]

theorem sim_local (h : Heap) (iid : TIntfId) : ∀ (fuel : Nat) (l : List Ptr) (p : Ptr) (q : QState),
    localQueryInterfaceF fuel (refAll h l) p iid (some q)
      = (pLocal fuel h iid p q.buses).map (lift h l q) := by
  intro fuel
  induction fuel with
  | zero => intro l p q; simp [localQueryInterfaceF, pLocal]
  | succ fuel ih =>
    intro l p q
    rw [localQueryInterfaceF, pLocal, get_refAll]
    cases hg : h.get p with
    | none => simp [lift]
    | some o =>
      simp only [Option.map_some']
      by_cases ha : o.cls.answers iid = true
      · simp [ha, lift, ref_refAll]
      · simp only [ha, if_false, Bool.false_eq_true]
        cases hc : o.cls with
        | tInterfaceEx x => simp [lift]
        | tMultiInterfaceEx x => simp [lift]
        | implIBus level intfs buses =>
          simp only [addSearchedBus, ref_refAll]
          have h1 := sim_scanIntfs h (fun h1 i q1 => localQueryInterfaceF fuel h1 i iid q1)
            (pLocal fuel h iid) (fun l i q => ih l i q) intfs (l ++ [p])
            { q with buses := q.buses ++ [p] }
          simp only at h1
          rw [h1]
          cases hs : pScanIntfs (pLocal fuel h iid) intfs (q.buses ++ [p]) with
          | none => simp
          | some x =>
            obtain ⟨m, r⟩ := x
            cases r with
            | some r => simp [lift, List.append_assoc]
            | none =>
              simp only [Option.map_some', lift, Option.toList_none, List.append_nil]
              have h2 := sim_scanBuses h (fun h1 i q1 => localQueryInterfaceF fuel h1 i iid q1)
                (pLocal fuel h iid) level (fun l i q => ih l i q) buses (l ++ [p] ++ m)
                { q with buses := q.buses ++ [p] ++ m }
              simp only at h2
              rw [h2]
              cases pScanBuses h (pLocal fuel h iid) level buses (q.buses ++ [p] ++ m) with
              | none => simp
              | some y => simp [lift, List.append_assoc]

theorem unrefState_of_ne (h : Heap) (st : QState) (hc : st.count - 1 ≠ 0) :
    unrefState h st = some (h, { st with count := st.count - 1 }) := by
  simp [unrefState, hc]

theorem sim_query (h : Heap) (iid : TIntfId) :
    ∀ (fuel : Nat) (l : List Ptr) (p : Ptr) (q : QState), 1 ≤ q.count →
      queryInterfaceF fuel (refAll h l) p iid (some q)
        = (pQuery fuel h iid p q.buses).map (lift h l q) := by
  intro fuel
  induction fuel with
  | zero => intro l p q _; simp [queryInterfaceF, pQuery]
  | succ fuel ih =>
    intro l p q hq
    rw [queryInterfaceF, pQuery, get_refAll]
    cases hg : h.get p with
    | none => simp [lift]
    | some o =>
      simp only [Option.map_some']
      cases hc : o.cls with
      | implIBus level intfs buses =>
        simp only [busQueryBody]
        have h1 := sim_local h iid (fuel + 1) l p { q with count := q.count + 1 }
        simp only at h1
        rw [h1]
        cases hs : pLocal (fuel + 1) h iid p q.buses with
        | none => simp [releaseState]
        | some x =>
          obtain ⟨m, r⟩ := x
          have hne : q.count + 1 - 1 ≠ 0 := by omega
          cases r with
          | some r =>
            simp only [Option.map_some', lift, Option.toList_some, releaseState]
            rw [unrefState_of_ne _ _ (by simpa using hne)]
            simp
          | none =>
            simp only [Option.map_some', lift, Option.toList_none, List.append_nil]
            cases hb : o.bus with
            | none =>
              simp only [releaseState]
              rw [unrefState_of_ne _ _ (by simpa using hne)]
              simp [lift]
            | some b =>
              simp only [isBusSearched]
              by_cases hv : b ∈ q.buses ++ m
              · simp only [hv, decide_True, Bool.not_true, Bool.false_eq_true, if_false, if_true,
                  releaseState]
                rw [unrefState_of_ne _ _ (by simpa using hne)]
                simp [lift]
              · simp only [hv, decide_False, Bool.not_false, if_true, if_false]
                have h2 := ih (l ++ m) b { q with count := q.count + 1, buses := q.buses ++ m }
                  (by simp; omega)
                simp only at h2
                rw [h2]
                cases pQuery fuel h iid b (q.buses ++ m) with
                | none => simp [releaseState]
                | some y =>
                  simp only [Option.map_some', lift, releaseState]
                  rw [unrefState_of_ne _ _ (by simpa using hne)]
                  simp [List.append_assoc]
      | tInterfaceEx x =>
        have h1 := sim_local h iid (fuel + 1) l p q
        rw [h1, pLocal, hg]
        simp only [hc]
        by_cases ha : (Cls.tInterfaceEx x).answers iid = true
        · simp [ha, lift]
        · simp only [ha, Bool.false_eq_true, if_false, Option.map_some', lift]
          cases hb : o.bus with
          | none => simp [lift]
          | some b =>
            simp only [notSearched, isBusSearched, Option.toList_none, List.append_nil]
            by_cases hv : b ∈ q.buses
            · simp [hv, lift]
            · simp only [hv, decide_False, Bool.not_false, if_true, if_false]
              exact ih l b q hq
      | tMultiInterfaceEx x =>
        have h1 := sim_local h iid (fuel + 1) l p q
        rw [h1, pLocal, hg]
        simp only [hc]
        by_cases ha : (Cls.tMultiInterfaceEx x).answers iid = true
        · simp [ha, lift]
        · simp only [ha, Bool.false_eq_true, if_false, Option.map_some', lift]
          cases hb : o.bus with
          | none => simp [lift]
          | some b =>
            simp only [notSearched, isBusSearched, Option.toList_none, List.append_nil]
            by_cases hv : b ∈ q.buses
            · simp [hv, lift]
            · simp only [hv, decide_False, Bool.not_false, if_true, if_false]
              exact ih l b q hq

/-- A top-level query on a bus: the traversal, then the release of every
marked bus by the destructor of the query state. -/
theorem query_none_bus (h : Heap) (iid : TIntfId) (fuel : Nat) (p : Ptr) (o : Obj)
    (hg : h.get p = some o) (level : Int) (intfs buses : List Ptr)
    (hc : o.cls = .implIBus level intfs buses) :
    queryInterfaceF (fuel + 1) h p iid none
      = (pQuery (fuel + 1) h iid p []).bind (fun x =>
          (unrefAll x.1 (refAll h (x.1 ++ x.2.toList))).map
            (fun h' => (h', some ⟨0, x.1, true⟩, x.2))) := by
  rw [queryInterfaceF, pQuery, hg]
  simp only [hc, busQueryBody]
  have h1 := sim_local h iid (fuel + 1) [] p ⟨1, [], false⟩
  simp only [refAll_nil] at h1
  rw [h1]
  cases hs : pLocal (fuel + 1) h iid p [] with
  | none => simp [releaseState]
  | some x =>
    obtain ⟨m, r⟩ := x
    cases r with
    | some r =>
      simp only [Option.map_some', lift, releaseState, unrefState, List.nil_append]
      cases hU : unrefAll m (refAll h (m ++ [r])) <;> simp [hU]
    | none =>
      simp only [Option.map_some', lift, Option.toList_none, List.append_nil, List.nil_append]
      cases hb : o.bus with
      | none =>
        simp only [releaseState, unrefState]
        cases hU : unrefAll m (refAll h m) <;> simp [hU]
      | some b =>
        simp only [isBusSearched]
        by_cases hv : b ∈ m
        · simp only [hv, decide_True, Bool.not_true, Bool.false_eq_true, if_false, if_true,
            releaseState, unrefState]
          cases hU : unrefAll m (refAll h m) <;> simp [hU]
        · simp only [hv, decide_False, Bool.not_false, if_true, if_false]
          have h2 := sim_query h iid fuel m b ⟨1, m, false⟩ (by simp)
          simp only at h2
          rw [h2]
          cases pQuery fuel h iid b m with
          | none => simp [releaseState]
          | some y =>
            simp only [Option.map_some', lift, releaseState, unrefState, Option.bind_some]
            cases hU : unrefAll (m ++ y.1) (refAll h (m ++ (y.1 ++ y.2.toList))) <;> simp [hU]

/-- A top-level query on a leaf: the leaf answers itself or hands the query to
its bus. -/
theorem query_none_leaf (h : Heap) (iid : TIntfId) (fuel : Nat) (p : Ptr) (o : Obj)
    (hg : h.get p = some o) (hl : h.isLeaf p = true) :
    queryInterfaceF (fuel + 1) h p iid none
      = if o.cls.answers iid then some (ref h p, none, some p)
        else match o.bus with
          | some b => queryInterfaceF fuel h b iid none
          | none => some (h, none, none) := by
  rw [queryInterfaceF, hg]
  obtain ⟨c, n, b⟩ := o
  cases c with
  | implIBus level intfs buses => simp [Heap.isLeaf, hg] at hl
  | tInterfaceEx x =>
    simp only [localQueryInterfaceF, hg]
    by_cases ha : (Cls.tInterfaceEx x).answers iid = true
    · simp [ha]
    · cases b <;> simp [ha, notSearched]
  | tMultiInterfaceEx x =>
    simp only [localQueryInterfaceF, hg]
    by_cases ha : (Cls.tMultiInterfaceEx x).answers iid = true
    · simp [ha]
    · cases b <;> simp [ha, notSearched]

theorem Heap.get_mem {h : Heap} {p : Ptr} {o : Obj} (hg : h.get p = some o) :
    some o ∈ h.cells := by
  have hp := Heap.get_lt hg
  simp only [Heap.size] at hp
  have : h.cells[p] = some o := by
    simpa [Heap.get_eq, List.getElem?_eq_getElem hp] using hg
  rw [← this]
  exact List.getElem_mem hp

theorem Heap.Typed.get {h : Heap} (ht : h.Typed) {p : Ptr} {o : Obj} (hg : h.get p = some o) :
    o.typedIn h = true := by
  have := List.all_eq_true.1 ht (some o) (Heap.get_mem hg)
  simpa using this

theorem Heap.Typed.intfs {h : Heap} (ht : h.Typed) {p : Ptr} {o : Obj} (hg : h.get p = some o)
    {level : Int} {intfs buses : List Ptr} (hc : o.cls = .implIBus level intfs buses) :
    ∀ x ∈ intfs, h.isBus x = false := by
  have := ht.get hg
  simp only [Obj.typedIn, hc, Bool.and_eq_true, List.all_eq_true] at this
  intro x hx
  simpa using this.2 x hx

theorem Heap.Typed.bus {h : Heap} (ht : h.Typed) {p : Ptr} {o : Obj} (hg : h.get p = some o)
    {b : Ptr} (hb : o.bus = some b) : h.isLeaf b = false := by
  have := ht.get hg
  simp only [Obj.typedIn, hb, Bool.and_eq_true] at this
  simpa using this.1

theorem Heap.isBus_iff {h : Heap} {p : Ptr} :
    h.isBus p = true ↔ ∃ o level intfs buses, h.get p = some o ∧
      o.cls = .implIBus level intfs buses := by
  unfold Heap.isBus getLevel
  cases hg : h.get p with
  | none => simp
  | some o =>
    obtain ⟨c, n, b⟩ := o
    cases c <;> simp

theorem Heap.isBus_lt {h : Heap} {p : Ptr} (hb : h.isBus p = true) : p < h.size := by
  obtain ⟨o, _, _, _, hg, _⟩ := Heap.isBus_iff.1 hb
  exact Heap.get_lt hg

theorem mem_unvisited {h : Heap} {v : List Ptr} {q : Ptr} :
    q ∈ unvisited h v ↔ h.isBus q = true ∧ q ∉ v := by
  unfold unvisited
  rw [Finset.mem_filter, Finset.mem_range]
  exact ⟨fun x => x.2, fun x => ⟨Heap.isBus_lt x.1, x⟩⟩

theorem unvisited_append_le (h : Heap) (v m : List Ptr) :
    (unvisited h (v ++ m)).card ≤ (unvisited h v).card := by
  apply Finset.card_le_card
  intro q hq
  rw [mem_unvisited] at hq ⊢
  exact ⟨hq.1, fun hv => hq.2 (List.mem_append_left _ hv)⟩

theorem unvisited_mark_lt (h : Heap) (v : List Ptr) (p : Ptr) (hb : h.isBus p = true)
    (hp : p ∉ v) : (unvisited h (v ++ [p])).card < (unvisited h v).card := by
  apply Finset.card_lt_card
  refine Finset.ssubset_iff_subset_ne.2 ⟨?_, fun heq => ?_⟩
  · intro q hq
    rw [mem_unvisited] at hq ⊢
    exact ⟨hq.1, fun hv => hq.2 (List.mem_append_left _ hv)⟩
  · have : p ∈ unvisited h v := mem_unvisited.2 ⟨hb, hp⟩
    rw [← heq, mem_unvisited] at this
    exact this.2 (by simp)

theorem card_unvisited_le (h : Heap) (v : List Ptr) : (unvisited h v).card ≤ h.size := by
  unfold unvisited
  calc _ ≤ (Finset.range h.size).card := Finset.card_filter_le _ _
    _ = h.size := Finset.card_range _

theorem term_scanIntfs (h : Heap) (rec : Ptr → List Ptr → Option PResult) (n : Nat)
    (hrec : ∀ i v, h.isBus i = false → (unvisited h v).card < n → ∃ x, rec i v = some x) :
    ∀ (is v : List Ptr), (∀ i ∈ is, h.isBus i = false) → (unvisited h v).card < n →
      ∃ x, pScanIntfs rec is v = some x := by
  intro is
  induction is with
  | nil => intro v _ _; exact ⟨_, rfl⟩
  | cons i rest ih =>
    intro v his hn
    obtain ⟨⟨m, r⟩, hx⟩ := hrec i v (his i (by simp)) hn
    rw [pScanIntfs, hx]
    cases r with
    | some r => exact ⟨_, rfl⟩
    | none =>
      obtain ⟨y, hy⟩ := ih (v ++ m) (fun j hj => his j (by simp [hj]))
        (lt_of_le_of_lt (unvisited_append_le h v m) hn)
      simp only [hy]
      exact ⟨_, rfl⟩

theorem enters_iff {h : Heap} {level : Int} {v : List Ptr} {b : Ptr} :
    enters h level v b = true ↔ ∃ l, getLevel h b = some l ∧ l ≥ level ∧ b ∉ v := by
  unfold enters
  cases getLevel h b <;> simp

theorem term_scanBuses (h : Heap) (rec : Ptr → List Ptr → Option PResult) (level : Int)
    (n : Nat)
    (hrec : ∀ b v, h.isBus b = true → b ∉ v → (unvisited h v).card < n →
      ∃ x, rec b v = some x) :
    ∀ (bs v : List Ptr), (unvisited h v).card < n →
      ∃ x, pScanBuses h rec level bs v = some x := by
  intro bs
  induction bs with
  | nil => intro v _; exact ⟨_, rfl⟩
  | cons b rest ih =>
    intro v hn
    rw [pScanBuses]
    by_cases he : enters h level v b = true
    · obtain ⟨l, hl, _, hv⟩ := enters_iff.1 he
      have hb : h.isBus b = true := by simp [Heap.isBus, hl]
      obtain ⟨⟨m, r⟩, hx⟩ := hrec b v hb hv hn
      simp only [he, if_true, hx]
      cases r with
      | some r => exact ⟨_, rfl⟩
      | none =>
        obtain ⟨y, hy⟩ := ih (v ++ m) (lt_of_le_of_lt (unvisited_append_le h v m) hn)
        simp only [hy]
        exact ⟨_, rfl⟩
    · simp only [he, if_false, Bool.false_eq_true]
      exact ih v hn

theorem term_local (h : Heap) (ht : h.Typed) (iid : TIntfId) :
    ∀ (fuel : Nat) (p : Ptr) (v : List Ptr),
      (unvisited h v).card + reentry h p v < fuel → ∃ x, pLocal fuel h iid p v = some x := by
  intro fuel
  induction fuel with
  | zero => intro p v hn; omega
  | succ fuel ih =>
    intro p v hn
    rw [pLocal]
    cases hg : h.get p with
    | none => exact ⟨_, rfl⟩
    | some o =>
      simp only
      by_cases ha : o.cls.answers iid = true
      · simp [ha]
      · simp only [ha, if_false, Bool.false_eq_true]
        cases hc : o.cls with
        | tInterfaceEx x => exact ⟨_, rfl⟩
        | tMultiInterfaceEx x => exact ⟨_, rfl⟩
        | implIBus level intfs buses =>
          simp only
          have hb : h.isBus p = true := Heap.isBus_iff.2 ⟨o, level, intfs, buses, hg, hc⟩
          have hn1 : (unvisited h (v ++ [p])).card < fuel := by
            by_cases hv : p ∈ v
            · have := unvisited_append_le h v [p]
              simp only [reentry, hb, hv, and_self, if_true] at hn
              omega
            · have := unvisited_mark_lt h v p hb hv
              omega
          have hleaf : ∀ i w, h.isBus i = false → (unvisited h w).card < fuel →
              ∃ x, pLocal fuel h iid i w = some x := by
            intro i w hi hw
            exact ih i w (by simp [reentry, hi]; exact hw)
          have hbus : ∀ b w, h.isBus b = true → b ∉ w → (unvisited h w).card < fuel →
              ∃ x, pLocal fuel h iid b w = some x := by
            intro b w _ hbw hw
            exact ih b w (by simp [reentry, hbw]; exact hw)
          obtain ⟨⟨m, r⟩, hs⟩ := term_scanIntfs h (pLocal fuel h iid) fuel hleaf intfs (v ++ [p])
            (ht.intfs hg hc) hn1
          rw [hs]
          cases r with
          | some r => exact ⟨_, rfl⟩
          | none =>
            simp only
            obtain ⟨y, hy⟩ := term_scanBuses h (pLocal fuel h iid) level fuel hbus buses
              (v ++ [p] ++ m) (lt_of_le_of_lt (unvisited_append_le h _ m) hn1)
            rw [hy]
            exact ⟨_, rfl⟩

theorem answersAt_bus {h : Heap} {p : Ptr} (hb : h.isBus p = true) (iid : TIntfId) :
    h.answersAt p iid = busAnswers iid := by
  obtain ⟨o, l, is, bs, hg, hc⟩ := Heap.isBus_iff.1 hb
  simp [Heap.answersAt, hg, hc, Cls.answers, busAnswers]

/-- A traversal that enters an object that is not a live bus marks nothing and
finds the object exactly when it answers itself. -/
theorem pLocal_nonbus {h : Heap} {iid : TIntfId} {fuel : Nat} {i : Ptr} {v : List Ptr}
    (hi : h.isBus i = false) :
    pLocal (fuel + 1) h iid i v = some ([], if h.answersAt i iid then some i else none) := by
  rw [pLocal]
  cases hg : h.get i with
  | none => simp [Heap.answersAt, hg]
  | some o =>
    obtain ⟨c, n, b⟩ := o
    cases c with
    | implIBus l is bs => simp [Heap.isBus, getLevel, hg] at hi
    | tInterfaceEx x =>
      by_cases ha : (Cls.tInterfaceEx x).answers iid = true <;> simp [Heap.answersAt, hg, ha]
    | tMultiInterfaceEx x =>
      by_cases ha : (Cls.tMultiInterfaceEx x).answers iid = true <;> simp [Heap.answersAt, hg, ha]

/-- The leaf loop over members that are not buses marks nothing and finds the
first member that answers. -/
theorem pScanIntfs_find (h : Heap) (iid : TIntfId) (fuel : Nat) :
    ∀ (is v : List Ptr), (∀ i ∈ is, h.isBus i = false) →
      pScanIntfs (pLocal (fuel + 1) h iid) is v
        = some ([], is.find? (fun x => h.answersAt x iid)) := by
  intro is
  induction is with
  | nil => intro v _; rfl
  | cons i rest ih =>
    intro v his
    rw [pScanIntfs, pLocal_nonbus (his i (by simp))]
    by_cases ha : h.answersAt i iid = true
    · simp [ha, List.find?_cons]
    · simp only [ha, Bool.false_eq_true, if_false, List.append_nil]
      rw [ih v (fun j hj => his j (by simp [hj]))]
      simp [List.find?_cons, ha]

theorem Inv.nil (h : Heap) (iid : TIntfId) (L : Int) (v : List Ptr) : Inv h iid L v [] none :=
  ⟨List.nodup_nil, by simp, by simp, by simp, by simp⟩

theorem Inv.append {h : Heap} {iid : TIntfId} {L : Int} {v m m' : List Ptr} {r : Option Ptr}
    (h1 : Inv h iid L v m none) (h2 : Inv h iid L (v ++ m) m' r) :
    Inv h iid L v (m ++ m') r := by
  refine ⟨?_, ?_, ?_, ?_, ?_⟩
  · refine List.Nodup.append h1.nodup h2.nodup ?_
    intro b hb hb'
    exact h2.fresh b hb' (List.mem_append_right _ hb)
  · intro b hb
    rcases List.mem_append.1 hb with hb | hb
    · exact h1.fresh b hb
    · exact fun hv => h2.fresh b hb (List.mem_append_left _ hv)
  · intro b hb
    rcases List.mem_append.1 hb with hb | hb
    · exact h1.level b hb
    · exact h2.level b hb
  · intro hr b hb
    rcases List.mem_append.1 hb with hb | hb
    · exact h1.failed rfl b hb
    · exact h2.failed hr b hb
  · intro y hy
    obtain ⟨ha, hnb, b, hb, hyb⟩ := h2.found y hy
    exact ⟨ha, hnb, b, List.mem_append_right _ hb, hyb⟩

theorem Inv.mono {h : Heap} {iid : TIntfId} {L L' : Int} {v m : List Ptr} {r : Option Ptr}
    (h1 : Inv h iid L v m r) (hL : L' ≤ L) : Inv h iid L' v m r := by
  refine ⟨h1.nodup, h1.fresh, ?_, h1.failed, h1.found⟩
  intro b hb
  obtain ⟨l, hl, hle⟩ := h1.level b hb
  exact ⟨l, hl, hL.trans hle⟩

theorem inv_scanBuses (h : Heap) (iid : TIntfId) (rec : Ptr → List Ptr → Option PResult)
    (L : Int)
    (hrec : ∀ b v m r l, getLevel h b = some l → b ∉ v → rec b v = some (m, r) →
      Inv h iid l v m r) :
    ∀ (bs v m : List Ptr) (r : Option Ptr), pScanBuses h rec L bs v = some (m, r) →
      Inv h iid L v m r := by
  intro bs
  induction bs with
  | nil =>
    intro v m r hs
    simp only [pScanBuses, Option.some.injEq, Prod.mk.injEq] at hs
    obtain ⟨rfl, rfl⟩ := hs
    exact Inv.nil h iid L v
  | cons b rest ih =>
    intro v m r hs
    rw [pScanBuses] at hs
    by_cases he : enters h L v b = true
    · obtain ⟨l, hl, hge, hv⟩ := enters_iff.1 he
      simp only [he, if_true] at hs
      cases hx : rec b v with
      | none => simp [hx] at hs
      | some x =>
        obtain ⟨m1, r1⟩ := x
        have i1 := (hrec b v m1 r1 l hl hv hx).mono hge
        cases r1 with
        | some y =>
          simp only [hx, Option.some.injEq, Prod.mk.injEq] at hs
          obtain ⟨rfl, rfl⟩ := hs
          exact i1
        | none =>
          simp only [hx] at hs
          cases hy : pScanBuses h rec L rest (v ++ m1) with
          | none => simp [hy] at hs
          | some y =>
            obtain ⟨m2, r2⟩ := y
            simp only [hy, Option.some.injEq, Prod.mk.injEq] at hs
            obtain ⟨rfl, rfl⟩ := hs
            exact i1.append (ih (v ++ m1) m2 r2 hy)
    · simp only [he, if_false, Bool.false_eq_true] at hs
      exact ih v m r hs

/-- The leaf loop over members that are not buses, whatever the fuel: when it
returns it has marked nothing and found the first member that answers. -/
theorem pScanIntfs_result (h : Heap) (iid : TIntfId) (fuel : Nat) (is v m : List Ptr)
    (r : Option Ptr) (his : ∀ i ∈ is, h.isBus i = false)
    (hs : pScanIntfs (pLocal fuel h iid) is v = some (m, r)) :
    m = [] ∧ r = is.find? (fun x => h.answersAt x iid) := by
  cases fuel with
  | zero =>
    cases is with
    | nil =>
      simp only [pScanIntfs, Option.some.injEq, Prod.mk.injEq] at hs
      exact ⟨hs.1.symm, by simp [← hs.2]⟩
    | cons i rest => simp [pScanIntfs, pLocal] at hs
  | succ fuel =>
    rw [pScanIntfs_find h iid fuel is v his] at hs
    simp only [Option.some.injEq, Prod.mk.injEq] at hs
    exact ⟨hs.1.symm, hs.2.symm⟩

theorem pLocal_zero (h : Heap) (iid : TIntfId) (p : Ptr) (v : List Ptr) :
    pLocal 0 h iid p v = none := rfl

/-- The downward traversal from a bus that does not answer itself. -/
theorem inv_local (h : Heap) (ht : h.Typed) (iid : TIntfId) (hu : busAnswers iid = false) :
    ∀ (fuel : Nat) (p : Ptr) (v m : List Ptr) (r : Option Ptr) (L : Int),
      getLevel h p = some L → p ∉ v → pLocal fuel h iid p v = some (m, r) →
      Inv h iid L v m r ∧ p ∈ m := by
  intro fuel
  induction fuel with
  | zero => intro p v m r L _ _ hs; simp [pLocal] at hs
  | succ fuel ih =>
    intro p v m r L hL hv hs
    have hb : h.isBus p = true := by simp [Heap.isBus, hL]
    obtain ⟨o, level, intfs, buses, hg, hc⟩ := Heap.isBus_iff.1 hb
    obtain ⟨c, n, bb⟩ := o
    simp only at hc
    subst hc
    have hlev : level = L := by simpa [getLevel, hg] using hL
    subst hlev
    have hio : h.intfsOf p = intfs := by simp [Heap.intfsOf, hg]
    have hna : (Cls.implIBus level intfs buses).answers iid = false := hu
    rw [pLocal, hg] at hs
    simp only [hna, Bool.false_eq_true, if_false] at hs
    have htin := ht.intfs hg rfl
    cases hs1 : pScanIntfs (pLocal fuel h iid) intfs (v ++ [p]) with
    | none => simp [hs1] at hs
    | some x =>
      obtain ⟨m1, r1⟩ := x
      obtain ⟨rfl, rfl⟩ := pScanIntfs_result h iid fuel intfs (v ++ [p]) m1 r1 htin hs1
      simp only [hs1] at hs
      cases hf : intfs.find? (fun x => h.answersAt x iid) with
      | some y =>
        simp only [hf, Option.some.injEq, Prod.mk.injEq] at hs
        obtain ⟨rfl, rfl⟩ := hs
        refine ⟨⟨List.nodup_singleton p, ?_, ?_, ?_, ?_⟩, by simp⟩
        · intro b hb'; simp at hb'; subst hb'; exact hv
        · intro b hb'; simp at hb'; subst hb'; exact ⟨level, hL, le_refl _⟩
        · intro hr; simp at hr
        · intro y' hy'
          simp only [Option.some.injEq] at hy'
          subst hy'
          have hmem := List.mem_of_find?_eq_some hf
          have hans := List.find?_some hf
          exact ⟨hans, htin y hmem, p, by simp, by rw [hio]; exact hmem⟩
      | none =>
        simp only [hf, List.append_nil] at hs
        have hself : Inv h iid level v [p] none := by
          refine ⟨List.nodup_singleton p, ?_, ?_, ?_, ?_⟩
          · intro b hb'; simp at hb'; subst hb'; exact hv
          · intro b hb'; simp at hb'; subst hb'; exact ⟨level, hL, le_refl _⟩
          · intro _ b hb' x hx
            simp at hb'; subst hb'; rw [hio] at hx
            have := List.find?_eq_none.1 hf x hx
            simpa using this
          · simp
        cases hs2 : pScanBuses h (pLocal fuel h iid) level buses (v ++ [p]) with
        | none => simp [hs2] at hs
        | some y =>
          obtain ⟨m2, r2⟩ := y
          simp only [hs2, Option.some.injEq, Prod.mk.injEq] at hs
          obtain ⟨rfl, rfl⟩ := hs
          have i2 := inv_scanBuses h iid (pLocal fuel h iid) level
            (fun b w m r l hl hw hx => (ih b w m r l hl hw hx).1) buses (v ++ [p]) m2 r2 hs2
          exact ⟨hself.append i2, by simp⟩

theorem unvisited_anti (h : Heap) {v w : List Ptr} (hvw : ∀ x ∈ v, x ∈ w) :
    (unvisited h w).card ≤ (unvisited h v).card := by
  apply Finset.card_le_card
  intro q hq
  rw [mem_unvisited] at hq ⊢
  exact ⟨hq.1, fun hv => hq.2 (hvw q hv)⟩

theorem pLocal_bus_answers {h : Heap} {p : Ptr} (hb : h.isBus p = true) {iid : TIntfId}
    (hu : busAnswers iid = true) (fuel : Nat) (v : List Ptr) :
    pLocal (fuel + 1) h iid p v = some ([], some p) := by
  obtain ⟨o, l, is, bs, hg, hc⟩ := Heap.isBus_iff.1 hb
  have : o.cls.answers iid = true := by rw [hc]; exact hu
  rw [pLocal, hg]
  simp [this]

theorem isLeaf_isBus {h : Heap} {p : Ptr} (hl : h.isLeaf p = true) : h.isBus p = false := by
  unfold Heap.isLeaf at hl
  unfold Heap.isBus getLevel
  cases hg : h.get p with
  | none => simp
  | some o =>
    obtain ⟨c, n, b⟩ := o
    cases c <;> simp_all

theorem live_cases (h : Heap) (p : Ptr) :
    h.get p = none ∨ h.isBus p = true ∨ h.isLeaf p = true := by
  cases hg : h.get p with
  | none => exact Or.inl rfl
  | some o =>
    obtain ⟨c, n, b⟩ := o
    cases c <;> simp [Heap.isBus, Heap.isLeaf, getLevel, hg]

/-- The traversals of `queryInterface` with a state return, given fuel beyond
the number of unvisited buses. -/
theorem term_query (h : Heap) (ht : h.Typed) (iid : TIntfId) :
    ∀ (fuel : Nat) (p : Ptr) (v : List Ptr),
      (unvisited h v).card + reentry h p v + (if h.isLeaf p = true then 1 else 0) < fuel →
      ∃ x, pQuery fuel h iid p v = some x := by
  intro fuel
  induction fuel with
  | zero => intro p v hn; omega
  | succ fuel ih =>
    intro p v hn
    rcases live_cases h p with hd | hb | hl
    · rw [pQuery, hd]; exact ⟨_, rfl⟩
    · obtain ⟨o, l, is, bs, hg, hc⟩ := Heap.isBus_iff.1 hb
      have hnl : h.isLeaf p = false := by
        cases hh : h.isLeaf p with
        | false => rfl
        | true => rw [isLeaf_isBus hh] at hb; simp at hb
      simp only [hnl, Bool.false_eq_true, if_false, add_zero] at hn
      obtain ⟨⟨m, r⟩, hs⟩ := term_local h ht iid (fuel + 1) p v hn
      rw [pQuery, hg]
      simp only [hc, hs]
      cases r with
      | some r => exact ⟨_, rfl⟩
      | none =>
        simp only
        cases hpb : o.bus with
        | none => exact ⟨_, rfl⟩
        | some b =>
          simp only
          by_cases hbv : b ∈ v ++ m
          · simp [hbv]
          · simp only [hbv, if_false]
            have hu : busAnswers iid = false := by
              cases hh : busAnswers iid with
              | false => rfl
              | true =>
                rw [pLocal_bus_answers hb hh] at hs
                simp at hs
            have hlt : (unvisited h (v ++ m)).card < fuel := by
              by_cases hv : p ∈ v
              · have := unvisited_append_le h v m
                simp only [reentry, hb, hv, and_self, if_true] at hn
                omega
              · obtain ⟨L, hL⟩ : ∃ L, getLevel h p = some L := by
                  simpa [Heap.isBus, Option.isSome_iff_exists] using hb
                have hpm := (inv_local h ht iid hu (fuel + 1) p v m none L hL hv hs).2
                have h1 : (unvisited h (v ++ m)).card ≤ (unvisited h (v ++ [p])).card := by
                  apply unvisited_anti
                  intro x hx
                  rcases List.mem_append.1 hx with hx | hx
                  · exact List.mem_append_left _ hx
                  · simp at hx; subst hx; exact List.mem_append_right _ hpm
                have h2 := unvisited_mark_lt h v p hb hv
                simp only [reentry, hb, hv, and_false, if_false] at hn
                omega
            have hbl := ht.bus hg hpb
            obtain ⟨y, hy⟩ := ih b (v ++ m) (by simp [reentry, hbv, hbl]; exact hlt)
            rw [hy]
            exact ⟨_, rfl⟩
    · have hnb := isLeaf_isBus hl
      rw [pQuery]
      cases hg : h.get p with
      | none => exact ⟨_, rfl⟩
      | some o =>
        obtain ⟨c, n, b⟩ := o
        have key : ∃ x, (if c.answers iid = true then some (([] : List Ptr), some p)
            else match b with
              | some b => if b ∈ v then some ([], none) else pQuery fuel h iid b v
              | none => some ([], none)) = some x := by
          by_cases ha : c.answers iid = true
          · simp [ha]
          · simp only [ha, if_false]
            cases b with
            | none => exact ⟨_, rfl⟩
            | some b =>
              simp only
              by_cases hbv : b ∈ v
              · simp [hbv]
              · simp only [hbv, if_false]
                have hbl := ht.bus hg rfl
                simp only [hl, if_true, reentry, hnb, Bool.false_eq_true, false_and,
                  if_false] at hn
                exact ih b v (by simp [reentry, hbv, hbl]; omega)
        cases c with
        | implIBus l is bs => simp [Heap.isLeaf, hg] at hl
        | tInterfaceEx x => exact key
        | tMultiInterfaceEx x => exact key

theorem Inv.toQ {h : Heap} {iid : TIntfId} {L : Int} {v m : List Ptr} {r : Option Ptr}
    (h1 : Inv h iid L v m r) : InvQ h iid v m r := by
  refine ⟨h1.nodup, h1.fresh, ?_, h1.found⟩
  intro b hb
  obtain ⟨l, hl, _⟩ := h1.level b hb
  simp [Heap.isBus, hl]

theorem InvQ.appendQ {h : Heap} {iid : TIntfId} {v m m' : List Ptr} {r : Option Ptr}
    (h1 : InvQ h iid v m none) (h2 : InvQ h iid (v ++ m) m' r) :
    InvQ h iid v (m ++ m') r := by
  refine ⟨?_, ?_, ?_, ?_⟩
  · refine List.Nodup.append h1.nodup h2.nodup ?_
    intro b hb hb'
    exact h2.fresh b hb' (List.mem_append_right _ hb)
  · intro b hb
    rcases List.mem_append.1 hb with hb | hb
    · exact h1.fresh b hb
    · exact fun hv => h2.fresh b hb (List.mem_append_left _ hv)
  · intro b hb
    rcases List.mem_append.1 hb with hb | hb
    · exact h1.isBus b hb
    · exact h2.isBus b hb
  · intro y hy
    obtain ⟨ha, hnb, b, hb, hyb⟩ := h2.found y hy
    exact ⟨ha, hnb, b, List.mem_append_right _ hb, hyb⟩

theorem getLevel_of_isBus {h : Heap} {p : Ptr} (hb : h.isBus p = true) :
    ∃ L, getLevel h p = some L := by
  simpa [Heap.isBus, Option.isSome_iff_exists] using hb

theorem pQuery_dead {h : Heap} {p : Ptr} (hd : h.get p = none) (iid : TIntfId) (fuel : Nat)
    (v : List Ptr) : pQuery (fuel + 1) h iid p v = some ([], none) := by
  rw [pQuery, hd]

theorem inv_query (h : Heap) (ht : h.Typed) (iid : TIntfId) (hu : busAnswers iid = false) :
    ∀ (fuel : Nat) (p : Ptr) (v m : List Ptr) (r : Option Ptr),
      h.isBus p = true → p ∉ v → pQuery fuel h iid p v = some (m, r) → InvQ h iid v m r := by
  intro fuel
  induction fuel with
  | zero => intro p v m r _ _ hs; simp [pQuery] at hs
  | succ fuel ih =>
    intro p v m r hb hv hs
    obtain ⟨o, l, is, bs, hg, hc⟩ := Heap.isBus_iff.1 hb
    obtain ⟨L, hL⟩ := getLevel_of_isBus hb
    rw [pQuery, hg] at hs
    simp only [hc] at hs
    cases hs1 : pLocal (fuel + 1) h iid p v with
    | none => simp [hs1] at hs
    | some x =>
      obtain ⟨m1, r1⟩ := x
      have i1 := (inv_local h ht iid hu (fuel + 1) p v m1 r1 L hL hv hs1).1
      simp only [hs1] at hs
      cases r1 with
      | some y =>
        simp only [Option.some.injEq, Prod.mk.injEq] at hs
        obtain ⟨rfl, rfl⟩ := hs
        exact i1.toQ
      | none =>
        simp only at hs
        cases hpb : o.bus with
        | none =>
          simp only [hpb, Option.some.injEq, Prod.mk.injEq] at hs
          obtain ⟨rfl, rfl⟩ := hs
          exact i1.toQ
        | some b =>
          simp only [hpb] at hs
          by_cases hbv : b ∈ v ++ m1
          · simp only [hbv, if_true, Option.some.injEq, Prod.mk.injEq] at hs
            obtain ⟨rfl, rfl⟩ := hs
            exact i1.toQ
          · simp only [hbv, if_false] at hs
            cases hs2 : pQuery fuel h iid b (v ++ m1) with
            | none => simp [hs2] at hs
            | some y =>
              obtain ⟨m2, r2⟩ := y
              simp only [hs2, Option.some.injEq, Prod.mk.injEq] at hs
              obtain ⟨rfl, rfl⟩ := hs
              rcases live_cases h b with hd | hbb | hbl
              · cases fuel with
                | zero => simp [pQuery] at hs2
                | succ fuel =>
                  rw [pQuery_dead hd] at hs2
                  simp only [Option.some.injEq, Prod.mk.injEq] at hs2
                  obtain ⟨rfl, rfl⟩ := hs2
                  simpa using i1.toQ
              · exact i1.toQ.appendQ (ih b (v ++ m1) m2 r2 hbb hbv hs2)
              · rw [ht.bus hg hpb] at hbl
                simp at hbl

theorem pScanIntfs_mono (rec rec' : Ptr → List Ptr → Option PResult)
    (hrec : ∀ i v x, rec i v = some x → rec' i v = some x) :
    ∀ (is v : List Ptr) (x : PResult), pScanIntfs rec is v = some x →
      pScanIntfs rec' is v = some x := by
  intro is
  induction is with
  | nil => intro v x hs; simpa [pScanIntfs] using hs
  | cons i rest ih =>
    intro v x hs
    rw [pScanIntfs] at hs ⊢
    cases hx : rec i v with
    | none => simp [hx] at hs
    | some y =>
      obtain ⟨m, r⟩ := y
      rw [hrec i v _ hx]
      simp only [hx] at hs
      cases r with
      | some r => exact hs
      | none =>
        simp only at hs ⊢
        cases hy : pScanIntfs rec rest (v ++ m) with
        | none => simp [hy] at hs
        | some z =>
          rw [ih (v ++ m) z hy]
          simpa [hy] using hs

theorem pScanBuses_mono (h : Heap) (rec rec' : Ptr → List Ptr → Option PResult) (L : Int)
    (hrec : ∀ i v x, rec i v = some x → rec' i v = some x) :
    ∀ (bs v : List Ptr) (x : PResult), pScanBuses h rec L bs v = some x →
      pScanBuses h rec' L bs v = some x := by
  intro bs
  induction bs with
  | nil => intro v x hs; simpa [pScanBuses] using hs
  | cons b rest ih =>
    intro v x hs
    rw [pScanBuses] at hs ⊢
    by_cases he : enters h L v b = true
    · simp only [he, if_true] at hs ⊢
      cases hx : rec b v with
      | none => simp [hx] at hs
      | some y =>
        obtain ⟨m, r⟩ := y
        rw [hrec b v _ hx]
        simp only [hx] at hs
        cases r with
        | some r => exact hs
        | none =>
          simp only at hs ⊢
          cases hy : pScanBuses h rec L rest (v ++ m) with
          | none => simp [hy] at hs
          | some z =>
            rw [ih (v ++ m) z hy]
            simpa [hy] using hs
    · simp only [he, if_false, Bool.false_eq_true] at hs ⊢
      exact ih v x hs

theorem pLocal_succ (h : Heap) (iid : TIntfId) : ∀ (fuel : Nat) (p : Ptr) (v : List Ptr)
    (x : PResult), pLocal fuel h iid p v = some x → pLocal (fuel + 1) h iid p v = some x := by
  intro fuel
  induction fuel with
  | zero => intro p v x hs; simp [pLocal] at hs
  | succ fuel ih =>
    intro p v x hs
    rw [pLocal] at hs ⊢
    cases hg : h.get p with
    | none => simpa [hg] using hs
    | some o =>
      simp only [hg] at hs ⊢
      by_cases ha : o.cls.answers iid = true
      · simpa [ha] using hs
      · simp only [ha, if_false, Bool.false_eq_true] at hs ⊢
        cases hc : o.cls with
        | tInterfaceEx y => simpa [hc] using hs
        | tMultiInterfaceEx y => simpa [hc] using hs
        | implIBus level intfs buses =>
          simp only [hc] at hs ⊢
          cases hs1 : pScanIntfs (pLocal fuel h iid) intfs (v ++ [p]) with
          | none => simp [hs1] at hs
          | some y =>
            obtain ⟨m, r⟩ := y
            rw [pScanIntfs_mono _ _ (fun i w z hz => ih i w z hz) intfs _ _ hs1]
            simp only [hs1] at hs
            cases r with
            | some r => exact hs
            | none =>
              simp only at hs ⊢
              cases hs2 : pScanBuses h (pLocal fuel h iid) level buses (v ++ [p] ++ m) with
              | none =>
                simp only [List.append_assoc, List.singleton_append] at hs hs2
                simp [hs2] at hs
              | some z =>
                have hs2' := pScanBuses_mono h _ _ level (fun i w z hz => ih i w z hz)
                  buses _ _ hs2
                simp only [List.append_assoc, List.singleton_append] at hs hs2 hs2' ⊢
                rw [hs2] at hs
                rw [hs2']
                exact hs

theorem pLocal_mono (h : Heap) (iid : TIntfId) {fuel fuel' : Nat} (hle : fuel ≤ fuel')
    {p : Ptr} {v : List Ptr} {x : PResult} (hs : pLocal fuel h iid p v = some x) :
    pLocal fuel' h iid p v = some x := by
  induction hle with
  | refl => exact hs
  | step _ ih => exact pLocal_succ h iid _ p v x ih

theorem unref_dead {h : Heap} {p : Ptr} (hd : h.get p = none) : unref h p = some h := by
  simp [unref, unrefF, hd]

theorem unref_refAll_cons (h : Heap) (e : Ptr) (l : List Ptr)
    (hc : ∀ o, h.get e = some o → 1 ≤ o.count) :
    unref (refAll h (e :: l)) e = some (refAll h l) := by
  cases hg : h.get e with
  | none =>
    have hd : (refAll h (e :: l)).get e = none := by rw [get_refAll, hg]; rfl
    rw [unref_dead hd]
    congr 1
    apply Heap.ext_get (by simp)
    intro q
    rw [get_refAll, get_refAll]
    by_cases hq : q = e
    · subst hq; rw [hg]; rfl
    · have : ¬ (e = q) := fun x => hq x.symm
      simp [List.count_cons, this]
  | some o =>
    have hlive : (refAll h (e :: l)).get e
        = some { o with count := o.count + (e :: l).count e } := by
      rw [get_refAll, hg]; rfl
    have h1 := hc o hg
    have hne : o.count + ((e :: l).count e : Int) - 1 ≠ 0 := by
      have : (1 : Int) ≤ ((e :: l).count e : Int) := by
        simp [List.count_cons]
      omega
    rw [unref_of_ne hlive hne]
    congr 1
    apply Heap.ext_get (by simp)
    intro q
    simp only [Heap.get_modify, get_refAll]
    by_cases hq : q = e
    · subst hq
      simp [hg, List.count_cons]
      omega
    · have : ¬ (e = q) := fun x => hq x.symm
      simp [hq, List.count_cons, this]

theorem unrefAll_cancel (h : Heap) : ∀ (m l : List Ptr),
    (∀ e ∈ m, ∀ o, h.get e = some o → 1 ≤ o.count) →
    unrefAll m (refAll h (m ++ l)) = some (refAll h l) := by
  intro m
  induction m with
  | nil => intro l _; rfl
  | cons e es ih =>
    intro l hc
    rw [unrefAll, List.cons_append, unref_refAll_cons h e (es ++ l) (hc e (by simp))]
    exact ih l (fun x hx => hc x (by simp [hx]))

/-- A top-level query on a bus, given enough fuel: the traversal returns, and
the query is the traversal followed by the release of the marked buses. -/
theorem query_bus_spec (h : Heap) (ht : h.Typed) (iid : TIntfId) (fuel : Nat)
    (hf : h.size + 1 ≤ fuel) (p : Ptr) (hb : h.isBus p = true) :
    ∃ m r, pQuery (fuel + 1) h iid p [] = some (m, r) ∧ m.Nodup ∧
      (∀ b ∈ m, h.isBus b = true) ∧
      (∀ y, r = some y → h.answersAt y iid = true ∧ (y = p ∨ ∃ b ∈ m, y ∈ h.intfsOf b)) ∧
      queryInterfaceF (fuel + 1) h p iid none
        = (unrefAll m (refAll h (m ++ r.toList))).map
            (fun h' => (h', some ⟨0, m, true⟩, r)) := by
  have hnl : h.isLeaf p = false := by
    cases hh : h.isLeaf p with
    | false => rfl
    | true => rw [isLeaf_isBus hh] at hb; simp at hb
  obtain ⟨⟨m, r⟩, hs⟩ := term_query h ht iid (fuel + 1) p [] (by
    have := card_unvisited_le h []
    simp only [reentry, hnl]
    simp
    omega)
  obtain ⟨o, l, is, bs, hg, hc⟩ := Heap.isBus_iff.1 hb
  have hq := query_none_bus h iid fuel p o hg l is bs hc
  rw [hs] at hq
  simp only [Option.some_bind] at hq
  refine ⟨m, r, hs, ?_, ?_, ?_, hq⟩
  · cases hu : busAnswers iid with
    | false => exact (inv_query h ht iid hu (fuel + 1) p [] m r hb (by simp) hs).nodup
    | true =>
      rw [pQuery, hg] at hs
      simp only [hc, pLocal_bus_answers hb hu, Option.some.injEq, Prod.mk.injEq] at hs
      rw [← hs.1]
      exact List.nodup_nil
  · cases hu : busAnswers iid with
    | false => exact (inv_query h ht iid hu (fuel + 1) p [] m r hb (by simp) hs).isBus
    | true =>
      rw [pQuery, hg] at hs
      simp only [hc, pLocal_bus_answers hb hu, Option.some.injEq, Prod.mk.injEq] at hs
      rw [← hs.1]
      simp
  · intro y hy
    cases hu : busAnswers iid with
    | false =>
      obtain ⟨ha, _, hh⟩ := (inv_query h ht iid hu (fuel + 1) p [] m r hb (by simp) hs).found y hy
      exact ⟨ha, Or.inr hh⟩
    | true =>
      rw [pQuery, hg] at hs
      simp only [hc, pLocal_bus_answers hb hu, Option.some.injEq, Prod.mk.injEq] at hs
      rw [← hs.2] at hy
      simp only [Option.some.injEq] at hy
      subst hy
      exact ⟨by rw [answersAt_bus hb]; exact hu, Or.inl rfl⟩

theorem queryF_dead {h : Heap} {p : Ptr} (hd : h.get p = none) (iid : TIntfId) (fuel : Nat)
    (qst : Option QState) : queryInterfaceF (fuel + 1) h p iid qst = some (h, qst, none) := by
  cases qst <;> rw [queryInterfaceF, hd]

/-- A top-level query on any object, given enough fuel. -/
theorem query_spec (h : Heap) (ht : h.Typed) (iid : TIntfId) (fuel : Nat)
    (hf : h.size + 2 ≤ fuel) (p : Ptr) :
    ∃ m r q h', queryInterfaceF (fuel + 1) h p iid none = some (h', q, r) ∧
      unrefAll m (refAll h (m ++ r.toList)) = some h' ∧ m.Nodup ∧
      (∀ b ∈ m, h.isBus b = true) ∧ (∀ y, r = some y → h.answersAt y iid = true) ∧
      ((q = none ∧ m = []) ∨ q = some ⟨0, m, true⟩) := by
  rcases live_cases h p with hd | hb | hl
  · exact ⟨[], none, none, h, queryF_dead hd iid fuel none, rfl, List.nodup_nil, by simp,
      by simp, Or.inl ⟨rfl, rfl⟩⟩
  · obtain ⟨m, r, _, hnd, hbs, hfound, hq⟩ := query_bus_spec h ht iid fuel (by omega) p hb
    obtain ⟨h', hu, _⟩ := unrefAll_total m (refAll h (m ++ r.toList))
    refine ⟨m, r, some ⟨0, m, true⟩, h', ?_, hu, hnd, hbs, fun y hy => (hfound y hy).1,
      Or.inr rfl⟩
    rw [hq, hu]; rfl
  · obtain ⟨o, hg⟩ : ∃ o, h.get p = some o := by
      cases hg : h.get p with
      | none => simp [Heap.isLeaf, hg] at hl
      | some o => exact ⟨o, rfl⟩
    rw [query_none_leaf h iid fuel p o hg hl]
    by_cases ha : o.cls.answers iid = true
    · refine ⟨[], some p, none, ref h p, by simp [ha], ?_, List.nodup_nil, by simp, ?_,
        Or.inl ⟨rfl, rfl⟩⟩
      · simp [unrefAll, refAll]
      · intro y hy
        simp only [Option.some.injEq] at hy
        subst hy
        simp [Heap.answersAt, hg, ha]
    · simp only [ha, if_false, Bool.false_eq_true]
      cases hpb : o.bus with
      | none =>
        exact ⟨[], none, none, h, rfl, rfl, List.nodup_nil, by simp, by simp, Or.inl ⟨rfl, rfl⟩⟩
      | some b =>
        simp only
        obtain ⟨fuel', rfl⟩ : ∃ f', fuel = f' + 1 := ⟨fuel - 1, by omega⟩
        rcases live_cases h b with hd | hbb | hbl
        · exact ⟨[], none, none, h, queryF_dead hd iid fuel' none, rfl, List.nodup_nil, by simp,
            by simp, Or.inl ⟨rfl, rfl⟩⟩
        · obtain ⟨m, r, _, hnd, hbs, hfound, hq⟩ :=
            query_bus_spec h ht iid fuel' (by omega) b hbb
          obtain ⟨h', hu, _⟩ := unrefAll_total m (refAll h (m ++ r.toList))
          refine ⟨m, r, some ⟨0, m, true⟩, h', ?_, hu, hnd, hbs, fun y hy => (hfound y hy).1,
            Or.inr rfl⟩
          rw [hq, hu]; rfl
        · rw [ht.bus hg hpb] at hbl
          simp at hbl

theorem Heap.mem_cells {h : Heap} {o : Obj} (hm : some o ∈ h.cells) : ∃ p, h.get p = some o := by
  obtain ⟨n, hn, he⟩ := List.getElem_of_mem hm
  refine ⟨n, ?_⟩
  simp [Heap.get_eq, List.getElem?_eq_getElem hn, he]

theorem Heap.typed_iff {h : Heap} :
    h.Typed ↔ ∀ p o, h.get p = some o → o.typedIn h = true := by
  constructor
  · intro ht p o hg
    exact ht.get hg
  · intro hall
    unfold Heap.Typed
    rw [List.all_eq_true]
    intro c hc
    cases c with
    | none => rfl
    | some o =>
      obtain ⟨p, hp⟩ := Heap.mem_cells hc
      exact hall p o hp

theorem bool_false_of_imp {a b : Bool} (hab : a = true → b = true) (hb : b = false) :
    a = false := by
  cases a with
  | false => rfl
  | true => rw [hab rfl] at hb; simp at hb

theorem Evolves.preserves_typed {h h' : Heap} (he : Evolves h h') (ht : h.Typed) : h'.Typed := by
  rw [Heap.typed_iff]
  intro q o' hg
  obtain ⟨o, ho, hbus, hcls⟩ := he.2.2 q o' hg
  have hto := ht.get ho
  simp only [Obj.typedIn, Bool.and_eq_true] at hto ⊢
  constructor
  · cases hb : o'.bus with
    | none => rfl
    | some b =>
      simp only [Bool.not_eq_true']
      rcases hbus b hb with h1 | h1
      · have := hto.1
        simp only [h1, Bool.not_eq_true'] at this
        exact bool_false_of_imp (he.2.1 b) this
      · exact h1
  · cases hc : o'.cls with
    | tInterfaceEx x => rfl
    | tMultiInterfaceEx x => rfl
    | implIBus l is bs =>
      simp only [List.all_eq_true, Bool.not_eq_true']
      intro x hx
      obtain ⟨is0, bs0, hc0, hmem⟩ := hcls l is bs hc
      rcases hmem x hx with h1 | h1
      · have := hto.2
        simp only [hc0, List.all_eq_true, Bool.not_eq_true'] at this
        exact bool_false_of_imp (he.1 x) (this x h1)
      · exact h1

theorem isBus_of_get {h h' : Heap} {q : Ptr}
    (hq : ∀ o', h'.get q = some o' → ∃ o, h.get q = some o ∧
      ∀ l is bs, o'.cls = .implIBus l is bs → ∃ is0 bs0, o.cls = .implIBus l is0 bs0)
    (hb : h'.isBus q = true) : h.isBus q = true := by
  obtain ⟨o', l, is, bs, hg, hc⟩ := Heap.isBus_iff.1 hb
  obtain ⟨o, ho, hco⟩ := hq o' hg
  obtain ⟨is0, bs0, hc0⟩ := hco l is bs hc
  exact Heap.isBus_iff.2 ⟨o, l, is0, bs0, ho, hc0⟩

theorem Heap.isLeaf_iff {h : Heap} {p : Ptr} :
    h.isLeaf p = true ↔ ∃ o, h.get p = some o ∧ ∀ l is bs, o.cls ≠ .implIBus l is bs := by
  unfold Heap.isLeaf
  cases hg : h.get p with
  | none => simp
  | some o =>
    obtain ⟨c, n, b⟩ := o
    cases c <;> simp

theorem isLeaf_of_get {h h' : Heap} {q : Ptr}
    (hq : ∀ o', h'.get q = some o' → ∃ o, h.get q = some o ∧
      ∀ l is bs, o.cls = .implIBus l is bs → ∃ is0 bs0, o'.cls = .implIBus l is0 bs0)
    (hb : h'.isLeaf q = true) : h.isLeaf q = true := by
  obtain ⟨o', hg, hc⟩ := Heap.isLeaf_iff.1 hb
  obtain ⟨o, ho, hco⟩ := hq o' hg
  refine Heap.isLeaf_iff.2 ⟨o, ho, fun l is bs hcl => ?_⟩
  obtain ⟨is0, bs0, hc0⟩ := hco l is bs hcl
  exact hc l is0 bs0 hc0

theorem ClsStep.bus_iff {h : Heap} {c c' : Cls} (hs : ClsStep h c c') (l : Int) :
    (∃ is bs, c' = .implIBus l is bs) ↔ (∃ is bs, c = .implIBus l is bs) := by
  rcases hs with rfl | ⟨l0, is, bs, is', bs', rfl, rfl, _⟩
  · rfl
  · constructor
    · rintro ⟨a, b, hab⟩
      simp only [Cls.implIBus.injEq] at hab
      exact ⟨is, bs, by rw [hab.1]⟩
    · rintro ⟨a, b, hab⟩
      simp only [Cls.implIBus.injEq] at hab
      exact ⟨is', bs', by rw [hab.1]⟩

/-- A pointwise change of the heap that keeps the kind of every class. -/
theorem Evolves.of_pointwise {h h' : Heap}
    (hq : ∀ q, (∀ o', h'.get q = some o' → ∃ o, h.get q = some o ∧ ClsStep h o.cls o'.cls ∧
      (∀ b, o'.bus = some b → o.bus = some b ∨ h.isLeaf b = false))) :
    Evolves h h' := by
  have hbus : ∀ q, h'.isBus q = true → h.isBus q = true := by
    intro q hb
    refine isBus_of_get (fun o' ho' => ?_) hb
    obtain ⟨o, ho, hc, _⟩ := hq q o' ho'
    exact ⟨o, ho, fun l is bs hcl => (hc.bus_iff l).1 ⟨is, bs, hcl⟩⟩
  have hleaf : ∀ q, h'.isLeaf q = true → h.isLeaf q = true := by
    intro q hb
    refine isLeaf_of_get (fun o' ho' => ?_) hb
    obtain ⟨o, ho, hc, _⟩ := hq q o' ho'
    exact ⟨o, ho, fun l is bs hcl => (hc.bus_iff l).2 ⟨is, bs, hcl⟩⟩
  refine ⟨hbus, hleaf, fun q o' ho' => ?_⟩
  obtain ⟨o, ho, hc, hb⟩ := hq q o' ho'
  refine ⟨o, ho, ?_, ?_⟩
  · intro b hb'
    rcases hb b hb' with h1 | h1
    · exact Or.inl h1
    · exact Or.inr (bool_false_of_imp (hleaf b) h1)
  · intro l is bs hcl
    rcases hc with hc | ⟨l0, is0, bs0, is', bs', hc0, hc', hmem⟩
    · exact ⟨is, bs, hc ▸ hcl, fun x hx => Or.inl hx⟩
    · rw [hc'] at hcl
      simp only [Cls.implIBus.injEq] at hcl
      obtain ⟨rfl, rfl, rfl⟩ := hcl
      refine ⟨is0, bs0, hc0, fun x hx => ?_⟩
      rcases hmem x hx with h1 | h1
      · exact Or.inl h1
      · exact Or.inr (bool_false_of_imp (hbus x) h1)

theorem Shrinks.evolves {h h' : Heap} (hs : Shrinks h h') : Evolves h h' :=
  Evolves.of_pointwise (fun q o' ho' => by
    obtain ⟨o, ho, hc, _, hb⟩ := hs.2 q o' ho'
    refine ⟨o, ho, Or.inl hc, fun b hb' => ?_⟩
    rcases hb with hb | hb
    · exact Or.inl (hb ▸ hb')
    · rw [hb] at hb'; simp at hb')

theorem evolves_refAll (h : Heap) (l : List Ptr) : Evolves h (refAll h l) :=
  Evolves.of_pointwise (fun q o' ho' => by
    rw [get_refAll] at ho'
    cases hg : h.get q with
    | none => simp [hg] at ho'
    | some o =>
      simp only [hg, Option.map_some', Option.some.injEq] at ho'
      subst ho'
      exact ⟨o, rfl, Or.inl rfl, fun b hb => Or.inl hb⟩)

theorem Evolves.trans {a b c : Heap} (hab : Evolves a b) (hbc : Evolves b c) : Evolves a c := by
  refine ⟨fun q hq => hab.1 q (hbc.1 q hq), fun q hq => hab.2.1 q (hbc.2.1 q hq),
    fun q o' ho' => ?_⟩
  obtain ⟨o1, h1, hb1, hc1⟩ := hbc.2.2 q o' ho'
  obtain ⟨o2, h2, hb2, hc2⟩ := hab.2.2 q o1 h1
  refine ⟨o2, h2, ?_, ?_⟩
  · intro x hx
    rcases hb1 x hx with hb | hb
    · rcases hb2 x hb with hb' | hb'
      · exact Or.inl hb'
      · exact Or.inr (bool_false_of_imp (hbc.2.1 x) hb')
    · exact Or.inr hb
  · intro l is bs hcl
    obtain ⟨is1, bs1, hcl1, hm1⟩ := hc1 l is bs hcl
    obtain ⟨is2, bs2, hcl2, hm2⟩ := hc2 l is1 bs1 hcl1
    refine ⟨is2, bs2, hcl2, fun x hx => ?_⟩
    rcases hm1 x hx with hm | hm
    · rcases hm2 x hm with hm' | hm'
      · exact Or.inl hm'
      · exact Or.inr (bool_false_of_imp (hbc.1 x) hm')
    · exact Or.inr hm

theorem Evolves.modify (h : Heap) (p : Ptr) (f : Obj → Obj)
    (hf : ∀ o, ClsStep h o.cls (f o).cls ∧
      (∀ b, (f o).bus = some b → o.bus = some b ∨ h.isLeaf b = false)) :
    Evolves h (h.modify p f) := by
  refine Evolves.of_pointwise (fun q o' ho' => ?_)
  rw [Heap.get_modify] at ho'
  by_cases hq : q = p
  · subst hq
    simp only [if_true] at ho'
    cases hg : h.get q with
    | none => simp [hg] at ho'
    | some o =>
      simp only [hg, Option.map_some', Option.some.injEq] at ho'
      subst ho'
      exact ⟨o, rfl, (hf o).1, (hf o).2⟩
  · simp only [hq, if_false] at ho'
    exact ⟨o', ho', Or.inl rfl, fun b hb => Or.inl hb⟩

theorem Heap.Fresh.is_typed {h : Heap} (hf : h.Fresh) : h.Typed := by
  rw [Heap.typed_iff]
  intro p o hg
  have := List.all_eq_true.1 hf (some o) (Heap.get_mem hg)
  simp only [Bool.and_eq_true] at this
  obtain ⟨c, n, b⟩ := o
  cases b with
  | some b => simp at this
  | none =>
    cases c with
    | tInterfaceEx x => rfl
    | tMultiInterfaceEx x => rfl
    | implIBus l is bs =>
      have h2 := this.2
      simp only [Bool.and_eq_true, List.isEmpty_iff] at h2
      simp [Obj.typedIn, h2.1]

theorem query_bus_universal {h : Heap} {p : Ptr} (hb : h.isBus p = true) (iid : TIntfId)
    (hu : busAnswers iid = true) (fuel : Nat) :
    queryInterfaceF (fuel + 1) h p iid none = some (ref h p, some ⟨0, [], true⟩, some p) := by
  obtain ⟨o, l, is, bs, hg, hc⟩ := Heap.isBus_iff.1 hb
  rw [query_none_bus h iid fuel p o hg l is bs hc, pQuery, hg]
  simp only [hc, pLocal_bus_answers hb hu]
  rfl

theorem getLevel_ref (h : Heap) (p b : Ptr) : getLevel (ref h p) b = getLevel h b :=
  getLevel_refAll h [p] b

theorem connect_bus (h : Heap) (P C : Ptr) (L1 L2 : Int)
    (hP : getLevel h P = some L1) (hC : getLevel h C = some L2) :
    ∃ h', connect h P C = some (h', decide (L2 ≤ L1)) := by
  have hb : h.isBus C = true := by simp [Heap.isBus, hC]
  have hq : queryInterface h C IID_IBUS none = some (ref h C, some ⟨0, [], true⟩, some C) :=
    query_bus_universal hb IID_IBUS (by decide) _
  unfold connect
  simp only [hP, hq, getLevel_ref, hC]
  by_cases hle : L2 ≤ L1
  · simp [hle]
  · obtain ⟨h2, hu, _⟩ := unref_total (ref h C) C
    simp [hle, hu]

theorem unrefAll_shrinks {l : List Ptr} {h h' : Heap} (hu : unrefAll l h = some h') :
    Shrinks h h' := by
  obtain ⟨h'', hu', hs⟩ := unrefAll_total l h
  rw [hu] at hu'
  simp only [Option.some.injEq] at hu'
  exact hu' ▸ hs

theorem unref_shrinks {p : Ptr} {h h' : Heap} (hu : unref h p = some h') : Shrinks h h' := by
  obtain ⟨h'', hu', hs⟩ := unref_total h p
  rw [hu] at hu'
  simp only [Option.some.injEq] at hu'
  exact hu' ▸ hs

/-- A top-level query changes no class and no back-reference of a surviving
object. -/
theorem query_evolves {h : Heap} (ht : h.Typed) {p : Ptr} {iid : TIntfId} {h1 : Heap}
    {q : Option QState} {r : Option Ptr} (hq : queryInterface h p iid none = some (h1, q, r)) :
    Evolves h h1 := by
  obtain ⟨m, r', q', h', hq', hu, _⟩ := query_spec h ht iid (h.size + 2) (le_refl _) p
  unfold queryInterface at hq
  rw [hq] at hq'
  simp only [Option.some.injEq, Prod.mk.injEq] at hq'
  obtain ⟨rfl, rfl, rfl⟩ := hq'
  exact (evolves_refAll h _).trans (unrefAll_shrinks hu).evolves

theorem Obj.pushBus_step (h : Heap) (o : Obj) (x : Ptr) :
    ClsStep h o.cls (o.pushBus x).cls ∧ (o.pushBus x).bus = o.bus := by
  obtain ⟨c, n, b⟩ := o
  cases c with
  | tInterfaceEx y => exact ⟨Or.inl rfl, rfl⟩
  | tMultiInterfaceEx y => exact ⟨Or.inl rfl, rfl⟩
  | implIBus l is bs =>
    exact ⟨Or.inr ⟨l, is, bs, is, bs ++ [x], rfl, rfl, fun y hy => Or.inl hy⟩, rfl⟩

theorem Obj.pushIntf_step (h : Heap) (o : Obj) (x : Ptr) (hx : h.isBus x = false) :
    ClsStep h o.cls (o.pushIntf x).cls ∧ (o.pushIntf x).bus = o.bus := by
  obtain ⟨c, n, b⟩ := o
  cases c with
  | tInterfaceEx y => exact ⟨Or.inl rfl, rfl⟩
  | tMultiInterfaceEx y => exact ⟨Or.inl rfl, rfl⟩
  | implIBus l is bs =>
    refine ⟨Or.inr ⟨l, is, bs, is ++ [x], bs, rfl, rfl, fun y hy => ?_⟩, rfl⟩
    rcases List.mem_append.1 hy with hy | hy
    · exact Or.inl hy
    · simp at hy; subst hy; exact Or.inr hx

theorem evolves_setBus_some (h : Heap) (x P : Ptr) (hP : h.isLeaf P = false) :
    Evolves h (setBus h x (some P)) :=
  Evolves.modify h x _ (fun o => ⟨Or.inl rfl, fun b hb => by
    simp only [Option.some.injEq] at hb
    subst hb
    exact Or.inr hP⟩)

theorem connect_evolves {h : Heap} (ht : h.Typed) {P m : Ptr} {h' : Heap} {ok : Bool}
    (hc : connect h P m = some (h', ok)) : Evolves h h' := by
  unfold connect at hc
  cases hP : getLevel h P with
  | none => simp [hP] at hc
  | some level =>
    have hPb : h.isBus P = true := by simp [Heap.isBus, hP]
    simp only [hP] at hc
    cases hq : queryInterface h m IID_IBUS none with
    | none => simp [hq] at hc
    | some res =>
      obtain ⟨h1, q, r⟩ := res
      have e1 := query_evolves ht hq
      have hPl : ∀ h2, Evolves h h2 → h2.isLeaf P = false := by
        intro h2 e2
        refine bool_false_of_imp (e2.2.1 P) ?_
        cases hh : h.isLeaf P with
        | false => rfl
        | true => rw [isLeaf_isBus hh] at hPb; simp at hPb
      simp only [hq] at hc
      cases r with
      | some bus =>
        simp only at hc
        cases hl : getLevel h1 bus with
        | none => simp [hl] at hc
        | some l =>
          simp only [hl] at hc
          by_cases hle : l ≤ level
          · simp only [hle, if_true, Option.some.injEq, Prod.mk.injEq] at hc
            obtain ⟨rfl, _⟩ := hc
            have e2 : Evolves h1 (h1.modify P (fun o => o.pushBus bus)) :=
              Evolves.modify h1 P _ (fun o =>
                ⟨(Obj.pushBus_step h1 o bus).1, fun b hb =>
                  Or.inl ((Obj.pushBus_step h1 o bus).2 ▸ hb)⟩)
            have e12 := e1.trans e2
            exact e12.trans (evolves_setBus_some _ bus P (hPl _ e12))
          · simp only [hle, if_false] at hc
            cases hu : unref h1 bus with
            | none => simp [hu] at hc
            | some h2 =>
              simp only [hu, Option.some.injEq, Prod.mk.injEq] at hc
              obtain ⟨rfl, _⟩ := hc
              exact e1.trans (unref_shrinks hu).evolves
      | none =>
        simp only [Option.some.injEq, Prod.mk.injEq] at hc
        obtain ⟨rfl, _⟩ := hc
        have hmb : h.isBus m = false := by
          cases hh : h.isBus m with
          | false => rfl
          | true =>
            have := query_bus_universal hh IID_IBUS (by decide) (h.size + 2)
            unfold queryInterface at hq
            rw [hq] at this
            simp at this
        have e2 : Evolves h1 (ref h1 m) := evolves_refAll h1 [m]
        have e12 := e1.trans e2
        have hmb2 : (ref h1 m).isBus m = false := bool_false_of_imp (e12.1 m) hmb
        have e3 : Evolves (ref h1 m) ((ref h1 m).modify P (fun o => o.pushIntf m)) :=
          Evolves.modify _ P _ (fun o =>
            ⟨(Obj.pushIntf_step _ o m hmb2).1, fun b hb =>
              Or.inl ((Obj.pushIntf_step _ o m hmb2).2 ▸ hb)⟩)
        have e123 := e12.trans e3
        exact e123.trans (evolves_setBus_some _ m P (hPl _ e123))

theorem intfsOf_eq {h : Heap} {p : Ptr} {o : Obj} {l : Int} {is bs : List Ptr}
    (hg : h.get p = some o) (hc : o.cls = .implIBus l is bs) : h.intfsOf p = is := by
  obtain ⟨c, n, b⟩ := o
  simp only at hc
  subst hc
  simp [Heap.intfsOf, hg]

theorem busOf_eq {h : Heap} {p : Ptr} {o : Obj} (hg : h.get p = some o) : h.busOf p = o.bus := by
  simp [Heap.busOf, hg]

theorem mem_intfsOf_isBus {h : Heap} {b x : Ptr} (hx : x ∈ h.intfsOf b) : h.isBus b = true := by
  unfold Heap.intfsOf at hx
  cases hg : h.get b with
  | none => simp [hg] at hx
  | some o =>
    obtain ⟨c, n, bb⟩ := o
    cases c with
    | implIBus l is bs => exact Heap.isBus_iff.2 ⟨_, l, is, bs, hg, rfl⟩
    | tInterfaceEx y => simp [hg] at hx
    | tMultiInterfaceEx y => simp [hg] at hx

/-- The downward traversal from a bus whose first answering member is `Y`. -/
theorem pLocal_finds {h : Heap} (ht : h.Typed) {p : Ptr} (hb : h.isBus p = true)
    {iid : TIntfId} (hu : busAnswers iid = false) {Y : Ptr}
    (hY : (h.intfsOf p).find? (fun x => h.answersAt x iid) = some Y) (fuel : Nat)
    (v : List Ptr) : pLocal (fuel + 2) h iid p v = some ([p], some Y) := by
  obtain ⟨o, l, is, bs, hg, hc⟩ := Heap.isBus_iff.1 hb
  rw [intfsOf_eq hg hc] at hY
  have hti := ht.intfs hg hc
  obtain ⟨c, n, bb⟩ := o
  simp only at hc
  subst hc
  have hna : (Cls.implIBus l is bs).answers iid = false := hu
  rw [pLocal, hg]
  simp only [hna, Bool.false_eq_true, if_false]
  rw [pScanIntfs_find h iid fuel is _ hti, hY]

theorem find_first {α : Type} (f : α → Bool) (pre : List α) (y : α) (post : List α)
    (hy : f y = true) (hpre : ∀ x ∈ pre, f x = false) :
    (pre ++ y :: post).find? f = some y := by
  induction pre with
  | nil => simp [List.find?_cons, hy]
  | cons a rest ih =>
    have ha := hpre a (by simp)
    simp only [List.cons_append, List.find?_cons, ha]
    exact ih (fun x hx => hpre x (by simp [hx]))

/-- A top-level query on a bus whose first answering member is `Y` returns `Y`. -/
theorem query_bus_finds {h : Heap} (ht : h.Typed) {B : Ptr} (hb : h.isBus B = true)
    {iid : TIntfId} (hu : busAnswers iid = false) {Y : Ptr}
    (hY : (h.intfsOf B).find? (fun x => h.answersAt x iid) = some Y) (fuel : Nat) :
    ∃ h' q, queryInterfaceF (fuel + 2) h B iid none = some (h', q, some Y) := by
  obtain ⟨o, l, is, bs, hg, hc⟩ := Heap.isBus_iff.1 hb
  rw [query_none_bus h iid (fuel + 1) B o hg l is bs hc, pQuery, hg]
  simp only [hc, pLocal_finds ht hb hu hY fuel [], Option.some_bind]
  obtain ⟨h', hu', _⟩ := unrefAll_total [B] (refAll h ([B] ++ (some Y).toList))
  exact ⟨h', _, by rw [hu']; rfl⟩

theorem query_bus_fails {h : Heap} (ht : h.Typed) {P C : Ptr} {lp lc : Int} {iid : TIntfId}
    (hP : getLevel h P = some lp) (hPb : h.busOf P = none) (hC : getLevel h C = some lc)
    (hlt : lc < lp) (hu : busAnswers iid = false)
    (honly : ∀ b < h.size, ∀ x ∈ h.intfsOf b, h.answersAt x iid = true → b = C)
    (fuel : Nat) (hf : h.size + 1 ≤ fuel) :
    ∃ h' q, queryInterfaceF (fuel + 1) h P iid none = some (h', q, none) := by
  have hb : h.isBus P = true := by simp [Heap.isBus, hP]
  obtain ⟨o, l, is, bs, hg, hc⟩ := Heap.isBus_iff.1 hb
  obtain ⟨⟨m, r⟩, hs⟩ := term_local h ht iid (fuel + 1) P [] (by
    have := card_unvisited_le h []
    simp [reentry]
    omega)
  have hinv := (inv_local h ht iid hu (fuel + 1) P [] m r lp hP (by simp) hs).1
  have hr : r = none := by
    cases r with
    | none => rfl
    | some y =>
      obtain ⟨ha, _, b, hbm, hyb⟩ := hinv.found y rfl
      obtain ⟨lb, hlb, hle⟩ := hinv.level b hbm
      have hbb : h.isBus b = true := by simp [Heap.isBus, hlb]
      have := honly b (Heap.isBus_lt hbb) y hyb ha
      subst this
      rw [hC] at hlb
      simp only [Option.some.injEq] at hlb
      omega
  subst hr
  rw [busOf_eq hg] at hPb
  rw [query_none_bus h iid fuel P o hg l is bs hc, pQuery, hg]
  simp only [hc, hs, hPb, Option.some_bind]
  obtain ⟨h', hu', _⟩ := unrefAll_total m (refAll h (m ++ (none : Option Ptr).toList))
  exact ⟨h', _, by rw [hu']; rfl⟩

theorem Obj.eraseIntf_step (h : Heap) (o : Obj) (x : Ptr) :
    ClsStep h o.cls (o.eraseIntf x).cls ∧ (o.eraseIntf x).bus = o.bus := by
  obtain ⟨c, n, b⟩ := o
  cases c with
  | tInterfaceEx y => exact ⟨Or.inl rfl, rfl⟩
  | tMultiInterfaceEx y => exact ⟨Or.inl rfl, rfl⟩
  | implIBus l is bs =>
    exact ⟨Or.inr ⟨l, is, bs, is.erase x, bs, rfl, rfl,
      fun y hy => Or.inl (List.mem_of_mem_erase hy)⟩, rfl⟩

theorem Obj.eraseBus_step (h : Heap) (o : Obj) (x : Ptr) :
    ClsStep h o.cls (o.eraseBus x).cls ∧ (o.eraseBus x).bus = o.bus := by
  obtain ⟨c, n, b⟩ := o
  cases c with
  | tInterfaceEx y => exact ⟨Or.inl rfl, rfl⟩
  | tMultiInterfaceEx y => exact ⟨Or.inl rfl, rfl⟩
  | implIBus l is bs =>
    exact ⟨Or.inr ⟨l, is, bs, is, bs.erase x, rfl, rfl, fun y hy => Or.inl hy⟩, rfl⟩

theorem mem_intfsOf {h : Heap} {b x : Ptr} (hx : x ∈ h.intfsOf b) :
    ∃ o l is bs, h.get b = some o ∧ o.cls = .implIBus l is bs ∧ x ∈ is := by
  obtain ⟨o, l, is, bs, hg, hc⟩ := Heap.isBus_iff.1 (mem_intfsOf_isBus hx)
  rw [intfsOf_eq hg hc] at hx
  exact ⟨o, l, is, bs, hg, hc, hx⟩

/-- After the bus `B` has dropped `X` from its vectors by `f` and released it,
no bus of the heap has `X` among its `_intfs`, and no query on `B` returns `X`. -/
theorem hidden_after {h : Heap} (ht : h.Typed) {B X : Ptr} (hB : h.isBus B = true)
    (hne : X ≠ B) (hother : ∀ b < h.size, b ≠ B → X ∉ h.intfsOf b)
    (f : Obj → Obj) (hstep : ∀ o, ClsStep h o.cls (f o).cls ∧ (f o).bus = o.bus)
    (hf : ∀ o l is bs, h.get B = some o → (f o).cls = .implIBus l is bs → X ∉ is) :
    ∃ h', unref (setBus (h.modify B f) X none) X = some h' ∧
      ∀ iid, ∃ h2 q r, queryInterface h' B iid none = some (h2, q, r) ∧ r ≠ some X := by
  obtain ⟨h', hu, hs⟩ := unref_total (setBus (h.modify B f) X none) X
  refine ⟨h', hu, ?_⟩
  have e1 : Evolves h (h.modify B f) :=
    Evolves.modify h B f (fun o => ⟨(hstep o).1, fun b hb => Or.inl ((hstep o).2 ▸ hb)⟩)
  have e2 : Evolves (h.modify B f) (setBus (h.modify B f) X none) :=
    Evolves.modify _ X _ (fun o => ⟨Or.inl rfl, fun b hb => by simp at hb⟩)
  have e3 := (e1.trans e2).trans hs.evolves
  have ht' := e3.preserves_typed ht
  have hhid : ∀ b, X ∉ h'.intfsOf b := by
    intro b hx
    obtain ⟨o', l, is, bs, hg', hc', hxi⟩ := mem_intfsOf hx
    obtain ⟨o0, hg0, hc0, _, _⟩ := hs.2 b o' hg'
    obtain ⟨o1, hg1, hc1⟩ : ∃ o1, (h.modify B f).get b = some o1 ∧ o1.cls = o0.cls := by
      rw [setBus, Heap.get_modify] at hg0
      by_cases hbx : b = X
      · subst hbx
        simp only [if_true] at hg0
        cases hm : (h.modify B f).get b with
        | none => simp [hm] at hg0
        | some o1 =>
          simp only [hm, Option.map_some', Option.some.injEq] at hg0
          exact ⟨o1, rfl, by rw [← hg0]⟩
      · simp only [hbx, if_false] at hg0
        exact ⟨o0, hg0, rfl⟩
    rw [Heap.get_modify] at hg1
    by_cases hbB : b = B
    · subst hbB
      simp only [if_true] at hg1
      cases hgB : h.get b with
      | none => simp [hgB] at hg1
      | some o =>
        simp only [hgB, Option.map_some', Option.some.injEq] at hg1
        subst hg1
        exact hf o l is bs hgB (by rw [hc1, ← hc0, hc']) hxi
    · simp only [hbB, if_false] at hg1
      have hlt := Heap.get_lt hg1
      have : X ∈ h.intfsOf b := by
        rw [intfsOf_eq hg1 (by rw [hc1, ← hc0, hc'])]
        exact hxi
      exact hother b hlt hbB this
  intro iid
  rcases live_cases h' B with hd | hb | hl
  · exact ⟨h', none, none, queryF_dead hd iid _ none, by simp⟩
  · obtain ⟨m, r, _, _, _, hfound, hq⟩ :=
      query_bus_spec h' ht' iid (h'.size + 2) (by omega) B hb
    obtain ⟨h2, hu2, _⟩ := unrefAll_total m (refAll h' (m ++ r.toList))
    refine ⟨h2, some ⟨0, m, true⟩, r, ?_, ?_⟩
    · unfold queryInterface
      rw [hq, hu2]; rfl
    · intro hr
      rcases (hfound X hr).2 with hx | ⟨b, _, hx⟩
      · exact hne hx
      · exact hhid b hx
  · have := e3.2.1 B hl
    rw [isLeaf_isBus this] at hB
    simp at hB

theorem disconnect_evolves {h : Heap} {B X : Ptr} {h' : Heap}
    (hd : disconnect h B X = some h') : Evolves h h' := by
  have key : ∀ f : Obj → Obj, (∀ o, ClsStep h o.cls (f o).cls ∧ (f o).bus = o.bus) →
      unref (setBus (h.modify B f) X none) X = some h' → Evolves h h' := by
    intro f hstep hu
    have e1 : Evolves h (h.modify B f) :=
      Evolves.modify h B f (fun o => ⟨(hstep o).1, fun b hb => Or.inl ((hstep o).2 ▸ hb)⟩)
    have e2 : Evolves (h.modify B f) (setBus (h.modify B f) X none) :=
      Evolves.modify _ X _ (fun o => ⟨Or.inl rfl, fun b hb => by simp at hb⟩)
    exact (e1.trans e2).trans (unref_shrinks hu).evolves
  unfold disconnect at hd
  cases hg : h.get B with
  | none => simp [hg] at hd
  | some o =>
    obtain ⟨c, n, bb⟩ := o
    cases c with
    | tInterfaceEx y => simp [hg] at hd
    | tMultiInterfaceEx y => simp [hg] at hd
    | implIBus l is bs =>
      simp only [hg] at hd
      by_cases hi : X ∈ is
      · simp only [hi, if_true] at hd
        exact key _ (fun o => Obj.eraseIntf_step h o X) hd
      · by_cases hb : X ∈ bs
        · simp only [hi, hb, if_true, if_false] at hd
          exact key _ (fun o => Obj.eraseBus_step h o X) hd
        · simp only [hi, hb, if_false, Option.some.injEq] at hd
          subst hd
          exact Evolves.of_pointwise (fun q o' ho' =>
            ⟨o', ho', Or.inl rfl, fun b hb => Or.inl hb⟩)

theorem Built.typed {h : Heap} (hb : Built h) : h.Typed := by
  induction hb with
  | fresh h hf => exact hf.is_typed
  | connect h h' self intf ok _ hc ih => exact (connect_evolves ih hc).preserves_typed ih
  | disconnect h h' self intf _ hd ih => exact (disconnect_evolves hd).preserves_typed ih

/-! ## Lemmas on single objects and handles -/

theorem equalIID_iff (a b : TIntfId) : equalIID a b = true ↔ a = b := by
  simp [equalIID]

theorem answers_tInterfaceEx (X i : TIntfId) :
    (Cls.tInterfaceEx X).answers i = true ↔ i = X ∨ i = IID_IINTERFACEEX ∨ i = IID_IINTERFACE := by
  simp [Cls.answers, equalIID_iff, or_assoc]

/-- The method `localQueryInterface` of a live leaf, whatever the state. -/
theorem localQ_leaf (h : Heap) (p : Ptr) (o : Obj) (hg : h.get p = some o)
    (hl : h.isLeaf p = true) (i : TIntfId) (qst : Option QState) (fuel : Nat) :
    localQueryInterfaceF (fuel + 1) h p i qst
      = if o.cls.answers i then some (ref h p, qst, some p) else some (h, qst, none) := by
  obtain ⟨c, n, b⟩ := o
  cases c with
  | implIBus l is bs => simp [Heap.isLeaf, hg] at hl
  | tInterfaceEx x => cases qst <;> simp [localQueryInterfaceF, hg]
  | tMultiInterfaceEx x => cases qst <;> simp [localQueryInterfaceF, hg]

/-- The method `queryInterface` of a live leaf that has no bus. -/
theorem query_leaf_unhosted (h : Heap) (p : Ptr) (o : Obj) (hg : h.get p = some o)
    (hl : h.isLeaf p = true) (hb : o.bus = none) (i : TIntfId) (qst : Option QState)
    (fuel : Nat) :
    queryInterfaceF (fuel + 1) h p i qst
      = if o.cls.answers i then some (ref h p, qst, some p) else some (h, qst, none) := by
  have hlq := localQ_leaf h p o hg hl i qst fuel
  obtain ⟨c, n, b⟩ := o
  simp only at hb
  subst hb
  cases c with
  | implIBus l is bs => simp [Heap.isLeaf, hg] at hl
  | tInterfaceEx x =>
    cases qst <;> rw [queryInterfaceF, hg] <;> simp only [hlq] <;>
      by_cases ha : (Cls.tInterfaceEx x).answers i = true <;> simp [ha]
  | tMultiInterfaceEx x =>
    cases qst <;> rw [queryInterfaceF, hg] <;> simp only [hlq] <;>
      by_cases ha : (Cls.tMultiInterfaceEx x).answers i = true <;> simp [ha]

theorem isLeaf_tInterfaceEx {h : Heap} {p : Ptr} {X : TIntfId} {n : Int} {b : Option Ptr}
    (hg : h.get p = some ⟨.tInterfaceEx X, n, b⟩) : h.isLeaf p = true := by
  simp [Heap.isLeaf, hg]

/-- A run of calls from any count: the object is deleted exactly when some
`unref` of the run brings the count to 0. -/
theorem run_none_iff (cs : List RefCall) : ∀ (c : Int),
    TRefObj.run cs ⟨c⟩ = none ↔
      ∃ pre post, cs = pre ++ RefCall.unref :: post ∧
        c + (pre.count RefCall.ref : Int) = (pre.count RefCall.unref : Int) + 1 := by
  induction cs with
  | nil => intro c; simp [TRefObj.run]
  | cons a cs ih =>
    intro c
    cases a with
    | ref =>
      rw [TRefObj.run, TRefObj.ref, ih]
      dsimp only
      constructor
      · rintro ⟨pre, post, rfl, hc⟩
        refine ⟨RefCall.ref :: pre, post, rfl, ?_⟩
        simp only [List.count_cons_self, List.count_cons_of_ne (by decide : RefCall.unref ≠ RefCall.ref)]
        push_cast
        omega
      · rintro ⟨pre, post, he, hc⟩
        cases pre with
        | nil => simp at he
        | cons x pre =>
          simp only [List.cons_append, List.cons.injEq] at he
          obtain ⟨rfl, rfl⟩ := he
          refine ⟨pre, post, rfl, ?_⟩
          simp only [List.count_cons_self,
            List.count_cons_of_ne (by decide : RefCall.unref ≠ RefCall.ref)] at hc
          push_cast at hc
          omega
    | unref =>
      rw [TRefObj.run, TRefObj.unref]
      by_cases h0 : c - 1 = 0
      · simp only [h0, if_true, true_iff]
        exact ⟨[], cs, rfl, by simp; omega⟩
      · simp only [h0, if_false]
        rw [ih]
        constructor
        · rintro ⟨pre, post, rfl, hc⟩
          refine ⟨RefCall.unref :: pre, post, rfl, ?_⟩
          simp only [List.count_cons_self,
            List.count_cons_of_ne (by decide : RefCall.ref ≠ RefCall.unref)]
          push_cast
          omega
        · rintro ⟨pre, post, he, hc⟩
          cases pre with
          | nil =>
            simp at hc
            omega
          | cons x pre =>
            simp only [List.cons_append, List.cons.injEq] at he
            obtain ⟨rfl, rfl⟩ := he
            refine ⟨pre, post, rfl, ?_⟩
            simp only [List.count_cons_self,
              List.count_cons_of_ne (by decide : RefCall.ref ≠ RefCall.unref)] at hc
            push_cast at hc
            omega

/-- Releasing an object whose count drops to 0 destroys it. -/
theorem unref_destroys {h : Heap} {p : Ptr} {o : Obj} (hg : h.get p = some o)
    (hc : o.count - 1 = 0) : ∃ h', unref h p = some h' ∧ h'.get p = none := by
  obtain ⟨h', hu, _⟩ := unref_total h p
  refine ⟨h', hu, ?_⟩
  unfold unref at hu
  rw [unrefF, hg] at hu
  simp only [hc, if_true] at hu
  obtain ⟨c, n, b⟩ := o
  cases c with
  | tInterfaceEx x =>
    simp only [Option.some.injEq] at hu
    rw [← hu, Heap.get_free]; simp
  | tMultiInterfaceEx x =>
    simp only [Option.some.injEq] at hu
    rw [← hu, Heap.get_free]; simp
  | implIBus l is bs =>
    simp only at hu
    cases hr : releaseMembers (unrefF h.size) (is.reverse ++ bs.reverse)
        (h.modify p (fun o => { o with count := o.count - 1 })) with
    | none => simp [hr] at hu
    | some h2 =>
      simp only [hr, Option.some.injEq] at hu
      rw [← hu, Heap.get_free]; simp

theorem runCalls_dead (p : Ptr) (cs : List RefCall) : ∀ (h : Heap), h.get p = none →
    Heap.runCalls p cs h = some h := by
  induction cs with
  | nil => intro h _; rfl
  | cons a cs ih =>
    intro h hd
    cases a with
    | ref =>
      have : ref h p = h := by
        apply Heap.ext_get (by simp [ref])
        intro y
        rw [get_ref]
        by_cases hy : y = p
        · subst hy; simp [hd]
        · simp [hy]
      rw [Heap.runCalls, this]
      exact ih h hd
    | unref =>
      rw [Heap.runCalls, unref_dead hd]
      exact ih h hd

/-- A sequence of calls on a heap object returns, and destroys the object exactly
when the same sequence destroys a `TRefObj` of the same count. -/
theorem runCalls_destroyed_iff (p : Ptr) (cs : List RefCall) : ∀ (h : Heap) (o : Obj),
    h.get p = some o →
    ∃ h', Heap.runCalls p cs h = some h' ∧
      (h'.get p = none ↔ TRefObj.run cs ⟨o.count⟩ = none) := by
  induction cs with
  | nil =>
    intro h o hg
    exact ⟨h, rfl, by simp [hg, TRefObj.run]⟩
  | cons a cs ih =>
    intro h o hg
    cases a with
    | ref =>
      have hg1 : (ref h p).get p = some { o with count := o.count + 1 } := by
        simp [get_ref, hg]
      obtain ⟨h', hr, hiff⟩ := ih (ref h p) _ hg1
      exact ⟨h', by rw [Heap.runCalls, hr], by rw [hiff]; simp [TRefObj.run, TRefObj.ref]⟩
    | unref =>
      by_cases hc : o.count - 1 = 0
      · obtain ⟨h1, hu, hd⟩ := unref_destroys hg hc
        refine ⟨h1, by rw [Heap.runCalls, hu]; exact runCalls_dead p cs h1 hd, ?_⟩
        simp [hd, TRefObj.run, TRefObj.unref, hc]
      · have hu := unref_of_ne hg hc
        have hg1 : (h.modify p (fun o => { o with count := o.count - 1 })).get p
            = some { o with count := o.count - 1 } := by
          simp [Heap.get_modify, hg]
        obtain ⟨h', hr, hiff⟩ := ih _ _ hg1
        refine ⟨h', by rw [Heap.runCalls, hu]; exact hr, ?_⟩
        rw [hiff]
        simp [TRefObj.run, TRefObj.unref, hc]

theorem run_destroyed_iff (cs : List RefCall) :
    TRefObj.run cs ⟨0⟩ = none ↔
      ∃ pre post, cs = pre ++ RefCall.unref :: post ∧
        (pre ++ [RefCall.unref]).count RefCall.unref
          = (pre ++ [RefCall.unref]).count RefCall.ref := by
  rw [run_none_iff]
  constructor
  · rintro ⟨pre, post, he, hc⟩
    refine ⟨pre, post, he, ?_⟩
    simp only [List.count_append, List.count_cons_self, List.count_nil,
      List.count_cons_of_ne (by decide : RefCall.ref ≠ RefCall.unref)]
    omega
  · rintro ⟨pre, post, he, hc⟩
    refine ⟨pre, post, he, ?_⟩
    simp only [List.count_append, List.count_cons_self, List.count_nil,
      List.count_cons_of_ne (by decide : RefCall.ref ≠ RefCall.unref)] at hc
    omega

theorem answers_universal (c : Cls) : c.answers IID_IINTERFACE = true := by
  cases c <;> simp [Cls.answers, equalIID]

/-- The method `queryInterface` of a live leaf that answers the identifier. -/
theorem query_leaf_answers (h : Heap) (p : Ptr) (o : Obj) (hg : h.get p = some o)
    (hl : h.isLeaf p = true) (i : TIntfId) (ha : o.cls.answers i = true)
    (qst : Option QState) (fuel : Nat) :
    queryInterfaceF (fuel + 1) h p i qst = some (ref h p, qst, some p) := by
  have hlq := localQ_leaf h p o hg hl i qst fuel
  simp only [ha, if_true] at hlq
  obtain ⟨c, n, b⟩ := o
  cases c with
  | implIBus l is bs => simp [Heap.isLeaf, hg] at hl
  | tInterfaceEx x => cases qst <;> rw [queryInterfaceF, hg] <;> simp only [hlq]
  | tMultiInterfaceEx x => cases qst <;> rw [queryInterfaceF, hg] <;> simp only [hlq]

/-- The method `queryInterface` of a live bus for an identifier the bus answers
itself, with a supplied state that the call does not delete. -/
theorem query_bus_universal_state (h : Heap) (p : Ptr) (hb : h.isBus p = true) (i : TIntfId)
    (hu : busAnswers i = true) (q : QState) (hq : q.count ≠ 0) (fuel : Nat) :
    queryInterfaceF (fuel + 1) h p i (some q) = some (ref h p, some q, some p) := by
  obtain ⟨o, l, is, bs, hg, hc⟩ := Heap.isBus_iff.1 hb
  obtain ⟨c, n, b⟩ := o
  simp only at hc
  subst hc
  have ha : (Cls.implIBus l is bs).answers i = true := hu
  have hne : q.count + 1 - 1 ≠ 0 := by omega
  rw [queryInterfaceF, hg]
  simp only [busQueryBody, localQueryInterfaceF, hg, ha, if_true, releaseState]
  rw [unrefState_of_ne _ _ (by simpa using hne)]
  simp

/-- The method `queryInterface` of a live bus for an identifier the bus answers
itself, with any supplied state: the bus is returned; a state whose count is 0
on entry is deleted, which releases the buses it has recorded. -/
theorem query_bus_universal_any (h : Heap) (p : Ptr) (hb : h.isBus p = true) (i : TIntfId)
    (hu : busAnswers i = true) (q : QState) (fuel : Nat) :
    ∃ h' q', queryInterfaceF (fuel + 1) h p i (some q) = some (h', some q', some p) ∧
      (q.count = 0 → unrefAll q.buses (ref h p) = some h' ∧ q' = { q with deleted := true }) := by
  obtain ⟨o, l, is, bs, hg, hc⟩ := Heap.isBus_iff.1 hb
  obtain ⟨c, n, b⟩ := o
  simp only at hc
  subst hc
  have ha : (Cls.implIBus l is bs).answers i = true := hu
  by_cases h0 : q.count = 0
  · obtain ⟨h', hU, _⟩ := unrefAll_total q.buses (ref h p)
    refine ⟨h', { q with deleted := true }, ?_, fun _ => ⟨hU, rfl⟩⟩
    obtain ⟨c, vs, d⟩ := q
    simp only at h0
    subst h0
    rw [queryInterfaceF, hg]
    simp only [busQueryBody, localQueryInterfaceF, hg, ha, if_true, releaseState]
    simp only at hU
    simp [unrefState, hU]
  · exact ⟨ref h p, q, query_bus_universal_state h p hb i hu q h0 fuel, fun hh => absurd hh h0⟩

theorem countOf_ref (h : Heap) (p : Ptr) (o : Obj) (hg : h.get p = some o) :
    (ref h p).countOf p = h.countOf p + 1 := by
  simp [Heap.countOf, get_ref, hg]

theorem get_ref_ne (h : Heap) (p q : Ptr) (hq : q ≠ p) : (ref h p).get q = h.get q := by
  simp [get_ref, hq]

/-- On a well-typed heap in which every bus has a count of at least 1, a query
without state returns the heap with one more reference on the returned object,
which is live. -/
theorem query_effect (h : Heap) (ht : h.Typed)
    (hc : ∀ b < h.size, h.isBus b = true → 1 ≤ h.countOf b) (p : Ptr) (iid : TIntfId) :
    ∃ q r, queryInterface h p iid none = some (refAll h r.toList, q, r) ∧
      ∀ y, r = some y → ∃ o, h.get y = some o := by
  obtain ⟨m, r, q, h', hq, hu, _, hbs, hans, _⟩ :=
    query_spec h ht iid (h.size + 2) (le_refl _) p
  have hcancel := unrefAll_cancel h m r.toList (fun e he o ho => by
    have hb := hbs e he
    have := hc e (Heap.isBus_lt hb) hb
    simpa [Heap.countOf, ho] using this)
  rw [hcancel] at hu
  simp only [Option.some.injEq] at hu
  subst hu
  refine ⟨q, r, hq, ?_⟩
  intro y hy
  have := hans y hy
  unfold Heap.answersAt at this
  cases hg : h.get y with
  | none => simp [hg] at this
  | some o => exact ⟨o, rfl⟩

/-! ## Lemmas on levels, back-references, destructors and counts -/

theorem unref_ref_cancel (h : Heap) (p : Ptr) (hc : ∀ o, h.get p = some o → 1 ≤ o.count) :
    unref (ref h p) p = some h :=
  unref_refAll_cons h p [] hc

theorem findBus_some (h : Heap) (l : Int) (b : Ptr) : ∀ (bs : List Ptr),
    findBus h l bs = some b ↔
      ∃ pre post, bs = pre ++ b :: post ∧ getLevel h b = some l ∧
        ∀ x ∈ pre, getLevel h x ≠ some l := by
  intro bs
  induction bs with
  | nil => simp [findBus]
  | cons a bs ih =>
    by_cases ha : getLevel h a = some l
    · simp only [findBus, ha, if_true, Option.some.injEq]
      constructor
      · rintro rfl
        exact ⟨[], bs, rfl, ha, by simp⟩
      · rintro ⟨pre, post, he, _, hpre⟩
        cases pre with
        | nil =>
          simp only [List.nil_append, List.cons.injEq] at he
          exact he.1
        | cons x pre =>
          simp only [List.cons_append, List.cons.injEq] at he
          exact absurd (he.1 ▸ ha) (hpre x (by simp))
    · simp only [findBus, ha, if_false, ih]
      constructor
      · rintro ⟨pre, post, he, hb, hpre⟩
        refine ⟨a :: pre, post, by simp [he], hb, ?_⟩
        intro x hx
        rcases List.mem_cons.1 hx with rfl | hx
        · exact ha
        · exact hpre x hx
      · rintro ⟨pre, post, he, hb, hpre⟩
        cases pre with
        | nil =>
          simp only [List.nil_append, List.cons.injEq] at he
          exact absurd (he.1 ▸ hb) ha
        | cons x pre =>
          simp only [List.cons_append, List.cons.injEq] at he
          exact ⟨pre, post, he.2, hb, fun y hy => hpre y (by simp [hy])⟩

theorem findBus_none (h : Heap) (l : Int) : ∀ (bs : List Ptr),
    findBus h l bs = none ↔ ∀ x ∈ bs, getLevel h x ≠ some l := by
  intro bs
  induction bs with
  | nil => simp [findBus]
  | cons a bs ih =>
    by_cases ha : getLevel h a = some l
    · simp [findBus, ha]
    · simp [findBus, ha, ih]

theorem unrefNoDelete_ref (h : Heap) (p : Ptr) : unrefNoDelete (ref h p) p = h := by
  apply Heap.ext_get (by simp [unrefNoDelete, ref])
  intro y
  simp only [unrefNoDelete, Heap.get_modify, get_ref]
  by_cases hy : y = p
  · subst hy
    cases hg : h.get y with
    | none => simp
    | some o => simp
  · simp [hy]

/-! ### Levels and child-bus lists along `connect` and `disconnect` -/

theorem Reach.built {h0 h : Heap} (hf : h0.Fresh) (hr : Reach h0 h) : Built h := by
  induction hr with
  | start => exact Built.fresh h0 hf
  | connect h h' self intf ok _ hc ih => exact Built.connect h h' self intf ok ih hc
  | disconnect h h' self intf _ hd ih => exact Built.disconnect h h' self intf ih hd

theorem getLevel_eq_some {h : Heap} {q : Ptr} {l : Int} :
    getLevel h q = some l ↔ ∃ o is bs, h.get q = some o ∧ o.cls = .implIBus l is bs := by
  unfold getLevel
  cases hg : h.get q with
  | none => simp
  | some o =>
    obtain ⟨c, n, b⟩ := o
    cases c <;> simp

theorem mem_busesOf {h : Heap} {P C : Ptr} :
    C ∈ h.busesOf P ↔ ∃ o l is bs, h.get P = some o ∧ o.cls = .implIBus l is bs ∧ C ∈ bs := by
  unfold Heap.busesOf
  cases hg : h.get P with
  | none => simp
  | some o =>
    obtain ⟨c, n, b⟩ := o
    cases c with
    | tInterfaceEx x => simp
    | tMultiInterfaceEx x => simp
    | implIBus l is bs =>
      simp only [Option.some.injEq, exists_and_left, exists_eq_left', Cls.implIBus.injEq]
      constructor
      · intro hC
        exact ⟨l, is, bs, ⟨rfl, rfl, rfl⟩, hC⟩
      · rintro ⟨_, _, _, ⟨_, _, rfl⟩, hC⟩
        exact hC

theorem LvlStep.same (h : Heap) : LvlStep h h :=
  ⟨fun _ _ hl => hl, fun _ _ hc => Or.inl hc⟩

theorem LvlStep.andAlso {a b c : Heap} (hab : LvlStep a b) (hbc : LvlStep b c) : LvlStep a c := by
  refine ⟨fun q l hl => hab.1 q l (hbc.1 q l hl), fun P C hC => ?_⟩
  rcases hbc.2 P C hC with h1 | ⟨lp, lc, hp, hc, hle⟩
  · exact hab.2 P C h1
  · exact Or.inr ⟨lp, lc, hab.1 P lp hp, hab.1 C lc hc, hle⟩

/-- A change of one object that keeps the level and adds to `_buses` only buses
of a level not above that of the object. -/
theorem LvlStep.modify_lists (h : Heap) (p : Ptr) (f : Obj → Obj)
    (hf : ∀ o l is bs, h.get p = some o → (f o).cls = .implIBus l is bs →
      ∃ is0 bs0, o.cls = .implIBus l is0 bs0 ∧
        ∀ C ∈ bs, C ∈ bs0 ∨ ∃ lc, getLevel h C = some lc ∧ lc ≤ l) :
    LvlStep h (h.modify p f) := by
  constructor
  · intro q l hl
    obtain ⟨o', is, bs, hg, hc⟩ := getLevel_eq_some.1 hl
    rw [Heap.get_modify] at hg
    by_cases hq : q = p
    · subst hq
      simp only [if_true] at hg
      cases hgo : h.get q with
      | none => simp [hgo] at hg
      | some o =>
        simp only [hgo, Option.map_some', Option.some.injEq] at hg
        subst hg
        obtain ⟨is0, bs0, hc0, _⟩ := hf o l is bs hgo hc
        exact getLevel_eq_some.2 ⟨o, is0, bs0, hgo, hc0⟩
    · simp only [hq, if_false] at hg
      exact getLevel_eq_some.2 ⟨o', is, bs, hg, hc⟩
  · intro P C hC
    obtain ⟨o', l, is, bs, hg, hc, hm⟩ := mem_busesOf.1 hC
    rw [Heap.get_modify] at hg
    by_cases hq : P = p
    · subst hq
      simp only [if_true] at hg
      cases hgo : h.get P with
      | none => simp [hgo] at hg
      | some o =>
        simp only [hgo, Option.map_some', Option.some.injEq] at hg
        subst hg
        obtain ⟨is0, bs0, hc0, hall⟩ := hf o l is bs hgo hc
        rcases hall C hm with h1 | ⟨lc, hlc, hle⟩
        · exact Or.inl (mem_busesOf.2 ⟨o, l, is0, bs0, hgo, hc0, h1⟩)
        · exact Or.inr ⟨l, lc, getLevel_eq_some.2 ⟨o, is0, bs0, hgo, hc0⟩, hlc, hle⟩
    · simp only [hq, if_false] at hg
      exact Or.inl (mem_busesOf.2 ⟨o', l, is, bs, hg, hc, hm⟩)

/-- A change of one object that keeps its class. -/
theorem LvlStep.of_same_cls (h : Heap) (p : Ptr) (f : Obj → Obj)
    (hf : ∀ o, (f o).cls = o.cls) : LvlStep h (h.modify p f) :=
  LvlStep.modify_lists h p f (fun o l is bs _ hc =>
    ⟨is, bs, by rw [← hf o]; exact hc, fun C hC => Or.inl hC⟩)

theorem Shrinks.toLvlStep {h h' : Heap} (hs : Shrinks h h') : LvlStep h h' := by
  constructor
  · intro q l hl
    obtain ⟨o', is, bs, hg, hc⟩ := getLevel_eq_some.1 hl
    obtain ⟨o, hgo, hcls, _⟩ := hs.2 q o' hg
    exact getLevel_eq_some.2 ⟨o, is, bs, hgo, by rw [← hcls]; exact hc⟩
  · intro P C hC
    obtain ⟨o', l, is, bs, hg, hc, hm⟩ := mem_busesOf.1 hC
    obtain ⟨o, hgo, hcls, _⟩ := hs.2 P o' hg
    exact Or.inl (mem_busesOf.2 ⟨o, l, is, bs, hgo, by rw [← hcls]; exact hc, hm⟩)

theorem lvlStep_ref (h : Heap) (p : Ptr) : LvlStep h (ref h p) :=
  LvlStep.of_same_cls h p _ (fun _ => rfl)

theorem lvlStep_setBus (h : Heap) (p : Ptr) (b : Option Ptr) : LvlStep h (setBus h p b) :=
  LvlStep.of_same_cls h p _ (fun _ => rfl)

theorem lvlStep_refAll (l : List Ptr) : ∀ (h : Heap), LvlStep h (refAll h l) := by
  induction l with
  | nil => intro h; exact LvlStep.same h
  | cons a l ih =>
    intro h
    have : refAll h (a :: l) = refAll (ref h a) l := rfl
    rw [this]
    exact (lvlStep_ref h a).andAlso (ih (ref h a))

theorem query_lvlStep {h : Heap} (ht : h.Typed) {p : Ptr} {iid : TIntfId} {h1 : Heap}
    {q : Option QState} {r : Option Ptr} (hq : queryInterface h p iid none = some (h1, q, r)) :
    LvlStep h h1 := by
  obtain ⟨m, r', q', h', hq', hu, _⟩ := query_spec h ht iid (h.size + 2) (le_refl _) p
  unfold queryInterface at hq
  rw [hq'] at hq
  simp only [Option.some.injEq, Prod.mk.injEq] at hq
  obtain ⟨rfl, _, _⟩ := hq
  exact (lvlStep_refAll _ h).andAlso (unrefAll_shrinks hu).toLvlStep

theorem connect_lvlStep {h : Heap} (ht : h.Typed) {P m : Ptr} {h' : Heap} {ok : Bool}
    (hc : connect h P m = some (h', ok)) : LvlStep h h' := by
  unfold connect at hc
  cases hl : getLevel h P with
  | none => simp [hl] at hc
  | some level =>
    simp only [hl] at hc
    cases hq : queryInterface h m IID_IBUS none with
    | none => simp [hq] at hc
    | some res =>
      obtain ⟨h1, q, r⟩ := res
      have h01 := query_lvlStep ht hq
      cases r with
      | none =>
        simp only [hq, Option.some.injEq, Prod.mk.injEq] at hc
        obtain ⟨rfl, _⟩ := hc
        refine ((h01.andAlso (lvlStep_ref h1 m)).andAlso ?_).andAlso (lvlStep_setBus _ m (some P))
        apply LvlStep.modify_lists
        intro o l is bs _ hcls
        unfold Obj.pushIntf at hcls
        cases hoc : o.cls with
        | implIBus l0 is0 bs0 =>
          simp only [hoc, Cls.implIBus.injEq] at hcls
          obtain ⟨rfl, _, rfl⟩ := hcls
          exact ⟨is0, bs0, rfl, fun C hC => Or.inl hC⟩
        | tInterfaceEx x => simp [hoc] at hcls
        | tMultiInterfaceEx x => simp [hoc] at hcls
      | some bus =>
        simp only [hq] at hc
        cases hlb : getLevel h1 bus with
        | none => simp [hlb] at hc
        | some lb =>
          simp only [hlb] at hc
          by_cases hle : lb ≤ level
          · simp only [hle, if_true, Option.some.injEq, Prod.mk.injEq] at hc
            obtain ⟨rfl, _⟩ := hc
            refine (h01.andAlso ?_).andAlso (lvlStep_setBus _ bus (some P))
            apply LvlStep.modify_lists
            intro o l is bs hgo hcls
            unfold Obj.pushBus at hcls
            cases hoc : o.cls with
            | implIBus l0 is0 bs0 =>
              simp only [hoc, Cls.implIBus.injEq] at hcls
              obtain ⟨rfl, rfl, rfl⟩ := hcls
              refine ⟨is0, bs0, rfl, fun C hC => ?_⟩
              rcases List.mem_append.1 hC with h1' | h1'
              · exact Or.inl h1'
              · simp only [List.mem_singleton] at h1'
                subst h1'
                refine Or.inr ⟨lb, hlb, ?_⟩
                have hP1 : getLevel h1 P = some l0 :=
                  getLevel_eq_some.2 ⟨o, is0, bs0, hgo, hoc⟩
                have := h01.1 P l0 hP1
                rw [hl] at this
                simp only [Option.some.injEq] at this
                omega
            | tInterfaceEx x => simp [hoc] at hcls
            | tMultiInterfaceEx x => simp [hoc] at hcls
          · simp only [hle, if_false] at hc
            cases hu : unref h1 bus with
            | none => simp [hu] at hc
            | some h2 =>
              simp only [hu, Option.some.injEq, Prod.mk.injEq] at hc
              obtain ⟨rfl, _⟩ := hc
              exact h01.andAlso (unref_shrinks hu).toLvlStep

theorem erase_lvlStep (h : Heap) (p x : Ptr) :
    LvlStep h (h.modify p (fun o => o.eraseIntf x)) ∧
    LvlStep h (h.modify p (fun o => o.eraseBus x)) := by
  constructor
  · apply LvlStep.modify_lists
    intro o l is bs _ hcls
    unfold Obj.eraseIntf at hcls
    cases hoc : o.cls with
    | implIBus l0 is0 bs0 =>
      simp only [hoc, Cls.implIBus.injEq] at hcls
      obtain ⟨rfl, _, rfl⟩ := hcls
      exact ⟨is0, bs0, rfl, fun C hC => Or.inl hC⟩
    | tInterfaceEx x => simp [hoc] at hcls
    | tMultiInterfaceEx x => simp [hoc] at hcls
  · apply LvlStep.modify_lists
    intro o l is bs _ hcls
    unfold Obj.eraseBus at hcls
    cases hoc : o.cls with
    | implIBus l0 is0 bs0 =>
      simp only [hoc, Cls.implIBus.injEq] at hcls
      obtain ⟨rfl, _, rfl⟩ := hcls
      exact ⟨is0, bs0, rfl, fun C hC => Or.inl (List.mem_of_mem_erase hC)⟩
    | tInterfaceEx x => simp [hoc] at hcls
    | tMultiInterfaceEx x => simp [hoc] at hcls

theorem disconnect_lvlStep {h : Heap} {B X : Ptr} {h' : Heap}
    (hd : disconnect h B X = some h') : LvlStep h h' := by
  unfold disconnect at hd
  cases hg : h.get B with
  | none => simp [hg] at hd
  | some o =>
    obtain ⟨c, n, b⟩ := o
    cases c with
    | tInterfaceEx x => simp [hg] at hd
    | tMultiInterfaceEx x => simp [hg] at hd
    | implIBus l is bs =>
      simp only [hg] at hd
      by_cases h1 : X ∈ is
      · simp only [h1, if_true] at hd
        exact (((erase_lvlStep h B X).1).andAlso (lvlStep_setBus _ X none)).andAlso
          (unref_shrinks hd).toLvlStep
      · simp only [h1, if_false] at hd
        by_cases h2 : X ∈ bs
        · simp only [h2, if_true] at hd
          exact (((erase_lvlStep h B X).2).andAlso (lvlStep_setBus _ X none)).andAlso
            (unref_shrinks hd).toLvlStep
        · simp only [h2, if_false, Option.some.injEq] at hd
          subst hd
          exact LvlStep.same h

theorem Reach.lvl_steps {h0 h : Heap} (hf : h0.Fresh) (hr : Reach h0 h) : LvlStep h0 h := by
  induction hr with
  | start => exact LvlStep.same h0
  | connect h h' self intf ok hr' hc ih =>
    exact ih.andAlso (connect_lvlStep (Built.typed (Reach.built hf hr')) hc)
  | disconnect h h' self intf _ hd ih => exact ih.andAlso (disconnect_lvlStep hd)

theorem Heap.Fresh.busesOf_nil {h : Heap} (hf : h.Fresh) (P : Ptr) : h.busesOf P = [] := by
  unfold Heap.busesOf
  cases hg : h.get P with
  | none => rfl
  | some o =>
    obtain ⟨c, n, b⟩ := o
    cases c with
    | tInterfaceEx x => rfl
    | tMultiInterfaceEx x => rfl
    | implIBus l is bs =>
      simp only
      unfold Heap.Fresh at hf
      rw [List.all_eq_true] at hf
      have := hf _ (Heap.get_mem hg)
      simp only [Bool.and_eq_true, List.isEmpty_iff] at this
      exact this.2.2

/-- In a heap reached from fresh objects, a recorded child bus has a level not
above that of the bus that recorded it, and levels are those of the start. -/
theorem reach_levels {h0 h : Heap} (hf : h0.Fresh) (hr : Reach h0 h) :
    (∀ P C lp lc, getLevel h P = some lp → C ∈ h.busesOf P → getLevel h C = some lc →
      lc ≤ lp) ∧
    (∀ p l, getLevel h p = some l → getLevel h0 p = some l) := by
  have hs := Reach.lvl_steps hf hr
  refine ⟨fun P C lp lc hP hC hlc => ?_, hs.1⟩
  rcases hs.2 P C hC with h1 | ⟨lp', lc', hp', hc', hle⟩
  · rw [hf.busesOf_nil P] at h1
    simp at h1
  · have e1 := hs.1 P lp hP
    have e2 := hs.1 C lc hlc
    rw [hp'] at e1
    rw [hc'] at e2
    simp only [Option.some.injEq] at e1 e2
    omega

/-! ### The probe of `connect` and the back-references -/

/-- The probe `queryInterface(IID_IBUS)` of `connect` on a well-typed heap either
finds nothing and changes nothing or returns a live object with one more
reference. -/
theorem probe_cases {h : Heap} (ht : h.Typed) (m : Ptr) :
    queryInterface h m IID_IBUS none = some (h, none, none) ∨
    ∃ b q, queryInterface h m IID_IBUS none = some (ref h b, q, some b) ∧
      (h.get b).isSome = true := by
  unfold queryInterface
  rcases live_cases h m with hd | hb | hl
  · exact Or.inl (queryF_dead hd IID_IBUS _ none)
  · right
    obtain ⟨o, _, _, _, hg, _⟩ := Heap.isBus_iff.1 hb
    exact ⟨m, _, query_bus_universal hb IID_IBUS (by decide) _, by simp [hg]⟩
  · obtain ⟨o, hg, _⟩ := Heap.isLeaf_iff.1 hl
    rw [query_none_leaf h IID_IBUS (h.size + 2) m o hg hl]
    by_cases ha : o.cls.answers IID_IBUS = true
    · right
      exact ⟨m, none, by simp [ha], by simp [hg]⟩
    · simp only [ha, if_false]
      cases hob : o.bus with
      | none => exact Or.inl rfl
      | some b =>
        simp only
        rcases live_cases h b with hd | hb | hl'
        · exact Or.inl (queryF_dead hd IID_IBUS _ none)
        · right
          obtain ⟨ob, _, _, _, hgb, _⟩ := Heap.isBus_iff.1 hb
          exact ⟨b, _, query_bus_universal hb IID_IBUS (by decide) _, by simp [hgb]⟩
        · have := ht.bus hg hob
          rw [hl'] at this
          simp at this

theorem mem_members {h : Heap} {P x : Ptr} :
    x ∈ h.members P ↔ ∃ o l is bs, h.get P = some o ∧ o.cls = .implIBus l is bs ∧
      (x ∈ is ∨ x ∈ bs) := by
  unfold Heap.members Heap.intfsOf Heap.busesOf
  cases hg : h.get P with
  | none => simp
  | some o =>
    obtain ⟨c, n, b⟩ := o
    cases c with
    | tInterfaceEx x => simp
    | tMultiInterfaceEx x => simp
    | implIBus l is bs =>
      simp only [List.mem_append, Option.some.injEq, exists_and_left, exists_eq_left',
        Cls.implIBus.injEq]
      constructor
      · intro hC
        exact ⟨l, is, bs, ⟨rfl, rfl, rfl⟩, hC⟩
      · rintro ⟨_, _, _, ⟨_, rfl, rfl⟩, hC⟩
        exact hC

/-- The members of a bus that survives a cascade of releases are those it had. -/
theorem Shrinks.same_members {h h' : Heap} (hs : Shrinks h h') {P : Ptr} {o' : Obj}
    (hg : h'.get P = some o') : h'.members P = h.members P := by
  obtain ⟨o, hgo, hcls, _⟩ := hs.2 P o' hg
  unfold Heap.members Heap.intfsOf Heap.busesOf
  rw [hg, hgo]
  obtain ⟨c, n, b⟩ := o
  obtain ⟨c', n', b'⟩ := o'
  simp only at hcls
  subst hcls
  cases c' <;> rfl

/-- Back-references survive a cascade of releases that leaves no live object
pointing to a destroyed one. -/
theorem Heap.BackRef.of_shrinks {h h' : Heap} (hs : Shrinks h h') (hj : h.BackRef)
    (hlive : ∀ x o' P, h'.get x = some o' → o'.bus = some P → (h'.get P).isSome = true) :
    h'.BackRef := by
  intro x o' P hg hb
  obtain ⟨o, hgo, _, _, hbus⟩ := hs.2 x o' hg
  have hbo : o.bus = some P := by
    rcases hbus with e | e
    · rw [← e]; exact hb
    · rw [e] at hb; simp at hb
  have hm := hj x o P hgo hbo
  have hP := hlive x o' P hg hb
  cases hgP : h'.get P with
  | none => simp [hgP] at hP
  | some oP => rw [hs.same_members hgP]; exact hm

theorem Heap.BackRef.live {h : Heap} (hj : h.BackRef) {x P : Ptr} {o : Obj}
    (hg : h.get x = some o) (hb : o.bus = some P) : (h.get P).isSome = true := by
  obtain ⟨oP, _, _, _, hgP, _⟩ := mem_members.1 (hj x o P hg hb)
  simp [hgP]

/-- A change of one object that keeps its class and sets no back-reference. -/
theorem Heap.BackRef.modify_keep {h : Heap} (hj : h.BackRef) (p : Ptr) (f : Obj → Obj)
    (hf : ∀ o, (f o).cls = o.cls ∧ (f o).count ≤ o.count ∧
      ((f o).bus = o.bus ∨ (f o).bus = none)) :
    (h.modify p f).BackRef := by
  apply Heap.BackRef.of_shrinks (Shrinks.of_modify h p f hf) hj
  intro x o' P hg hb
  rw [Heap.get_modify] at hg
  have hlP : ∀ o, h.get x = some o → o.bus = some P → ((h.modify p f).get P).isSome = true := by
    intro o hgo hbo
    have := hj.live hgo hbo
    rw [Heap.get_modify]
    by_cases hP : P = p
    · subst hP
      cases hh : h.get P with
      | none => simp [hh] at this
      | some oP => simp
    · simpa [hP] using this
  by_cases hx : x = p
  · subst hx
    simp only [if_true] at hg
    cases hgo : h.get x with
    | none => simp [hgo] at hg
    | some o =>
      simp only [hgo, Option.map_some', Option.some.injEq] at hg
      subst hg
      rcases (hf o).2.2 with e | e
      · exact hlP o hgo (by rw [← e]; exact hb)
      · rw [e] at hb; simp at hb
  · simp only [hx, if_false] at hg
    exact hlP o' hg hb

theorem busOf_none_of_shrinks {h h' : Heap} (hs : Shrinks h h') {x : Ptr}
    (hb : h.busOf x = none) : h'.busOf x = none := by
  unfold Heap.busOf at hb ⊢
  cases hg : h'.get x with
  | none => rfl
  | some o' =>
    obtain ⟨o, hgo, _, _, hbus⟩ := hs.2 x o' hg
    rw [hgo] at hb
    simp only at hb ⊢
    rcases hbus with e | e
    · rw [e]; exact hb
    · exact e

theorem busOf_setBus_none (h : Heap) (m : Ptr) : (setBus h m none).busOf m = none := by
  unfold Heap.busOf setBus
  rw [Heap.get_modify]
  cases h.get m <;> simp

/-- The destructor loop, for a release `rec` that shrinks the heap and keeps the
back-references: it does the same, and clears the back-reference of every
member it visits. -/
theorem releaseMembers_backref (rec : Heap → Ptr → Option Heap)
    (hrec : ∀ h p h', rec h p = some h' → Shrinks h h' ∧ (h.BackRef → h'.BackRef)) :
    ∀ (ms : List Ptr) (h h' : Heap), releaseMembers rec ms h = some h' →
      Shrinks h h' ∧ (h.BackRef → h'.BackRef) ∧ ∀ x ∈ ms, h'.busOf x = none := by
  intro ms
  induction ms with
  | nil =>
    intro h h' hr
    simp only [releaseMembers, Option.some.injEq] at hr
    subst hr
    exact ⟨Shrinks.refl h, id, by simp⟩
  | cons m ms ih =>
    intro h h' hr
    rw [releaseMembers] at hr
    cases h1e : rec (setBus h m none) m with
    | none => simp [h1e] at hr
    | some h1 =>
      simp only [h1e] at hr
      obtain ⟨s1, j1⟩ := hrec _ _ _ h1e
      obtain ⟨s2, j2, c2⟩ := ih h1 h' hr
      have s0 := Shrinks.setBus h m
      refine ⟨(s0.andThen s1).andThen s2, fun hj => j2 (j1 ?_), ?_⟩
      · exact hj.modify_keep m _ (fun _ => ⟨rfl, le_refl _, Or.inr rfl⟩)
      · intro x hx
        rcases List.mem_cons.1 hx with rfl | hx
        · exact busOf_none_of_shrinks (s1.andThen s2) (busOf_setBus_none h x)
        · exact c2 x hx

theorem members_free_ne (h : Heap) {p P : Ptr} (hne : P ≠ p) :
    (h.free p).members P = h.members P := by
  unfold Heap.members Heap.intfsOf Heap.busesOf
  rw [Heap.get_free]
  simp [hne]

/-- A release with fuel shrinks the heap and keeps the back-references. -/
theorem unrefF_backref : ∀ (fuel : Nat) (h : Heap) (p : Ptr) (h' : Heap),
    unrefF fuel h p = some h' → Shrinks h h' ∧ (h.BackRef → h'.BackRef) := by
  intro fuel
  induction fuel with
  | zero => intro h p h' hu; simp [unrefF] at hu
  | succ fuel ih =>
    intro h p h' hu
    rw [unrefF] at hu
    cases hg : h.get p with
    | none =>
      simp only [hg, Option.some.injEq] at hu
      subst hu
      exact ⟨Shrinks.refl h, id⟩
    | some o =>
      simp only [hg] at hu
      have hs1 : Shrinks h (h.modify p (fun o => { o with count := o.count - 1 })) :=
        Shrinks.of_modify h p _ (fun o => ⟨rfl, by simp, Or.inl rfl⟩)
      have hj1 : h.BackRef → (h.modify p (fun o => { o with count := o.count - 1 })).BackRef :=
        fun hj => hj.modify_keep p _ (fun o => ⟨rfl, by simp, Or.inl rfl⟩)
      have hg1 : (h.modify p (fun o => { o with count := o.count - 1 })).get p
          = some { o with count := o.count - 1 } := by
        simp [Heap.get_modify, hg]
      by_cases hc : o.count - 1 = 0
      · simp only [hc, if_true] at hu
        -- freeing `p` from a heap `g` in which no live object points to `p`
        have hfree : ∀ g : Heap, Shrinks h g → g.BackRef →
            (∀ x ox, g.get x = some ox → ox.bus ≠ some p) → (g.free p).BackRef := by
          intro g _ hjg hno
          apply Heap.BackRef.of_shrinks (Shrinks.free g p) hjg
          intro x o' P hgx hb
          rw [Heap.get_free] at hgx
          by_cases hx : x = p
          · simp [hx] at hgx
          · simp only [hx, if_false] at hgx
            rw [Heap.get_free]
            by_cases hP : P = p
            · subst hP
              exact absurd hb (hno x o' hgx)
            · simp only [hP, if_false]
              exact hjg.live hgx hb
        cases hcls : o.cls with
        | implIBus level intfs buses =>
          simp only [hcls] at hu
          cases hr : releaseMembers (unrefF fuel) (intfs.reverse ++ buses.reverse)
              (h.modify p (fun o => { o with count := o.count - 1 })) with
          | none => simp [hr] at hu
          | some h2 =>
            simp only [hr, Option.some.injEq] at hu
            subst hu
            obtain ⟨s2, j2, c2⟩ := releaseMembers_backref (unrefF fuel) ih _ _ _ hr
            refine ⟨(hs1.andThen s2).andThen (Shrinks.free h2 p), fun hj => ?_⟩
            have hj2 := j2 (hj1 hj)
            apply hfree h2 (hs1.andThen s2) hj2
            intro x ox hgx hbx
            have hm := hj2 x ox p hgx hbx
            obtain ⟨op, l, is, bs, hgp, hcp, hmem⟩ := mem_members.1 hm
            obtain ⟨o1, hgo1, hc1, _⟩ := s2.2 p op hgp
            rw [hg1] at hgo1
            simp only [Option.some.injEq] at hgo1
            subst hgo1
            simp only [hcls] at hc1
            rw [hcp] at hc1
            simp only [Cls.implIBus.injEq] at hc1
            obtain ⟨_, rfl, rfl⟩ := hc1
            have hx : x ∈ is.reverse ++ bs.reverse := by
              simp only [List.mem_append, List.mem_reverse]
              exact hmem
            have := c2 x hx
            simp [Heap.busOf, hgx, hbx] at this
        | tInterfaceEx y =>
          simp only [hcls, Option.some.injEq] at hu
          subst hu
          refine ⟨hs1.andThen (Shrinks.free _ p), fun hj => ?_⟩
          apply hfree _ hs1 (hj1 hj)
          intro x ox hgx hbx
          obtain ⟨op, l, is, bs, hgp, hcp, _⟩ := mem_members.1 (hj1 hj x ox p hgx hbx)
          rw [hg1] at hgp
          simp only [Option.some.injEq] at hgp
          subst hgp
          simp [hcls] at hcp
        | tMultiInterfaceEx y =>
          simp only [hcls, Option.some.injEq] at hu
          subst hu
          refine ⟨hs1.andThen (Shrinks.free _ p), fun hj => ?_⟩
          apply hfree _ hs1 (hj1 hj)
          intro x ox hgx hbx
          obtain ⟨op, l, is, bs, hgp, hcp, _⟩ := mem_members.1 (hj1 hj x ox p hgx hbx)
          rw [hg1] at hgp
          simp only [Option.some.injEq] at hgp
          subst hgp
          simp [hcls] at hcp
      · simp only [hc, if_false, Option.some.injEq] at hu
        subst hu
        exact ⟨hs1, hj1⟩

theorem unref_backref {h h' : Heap} {p : Ptr} (hu : unref h p = some h') (hj : h.BackRef) :
    h'.BackRef :=
  (unrefF_backref _ h p h' hu).2 hj

theorem unrefAll_backref : ∀ (l : List Ptr) (h h' : Heap), unrefAll l h = some h' →
    h.BackRef → h'.BackRef := by
  intro l
  induction l with
  | nil =>
    intro h h' hu hj
    simp only [unrefAll, Option.some.injEq] at hu
    exact hu ▸ hj
  | cons e es ih =>
    intro h h' hu hj
    rw [unrefAll] at hu
    cases h1e : unref h e with
    | none => simp [h1e] at hu
    | some h1 =>
      simp only [h1e] at hu
      exact ih h1 h' hu (unref_backref h1e hj)

theorem members_eq (h : Heap) (P : Ptr) :
    h.members P = match h.get P with
      | some o => o.cls.members
      | none => [] := by
  unfold Heap.members Heap.intfsOf Heap.busesOf
  cases hg : h.get P with
  | none => rfl
  | some o =>
    obtain ⟨c, n, b⟩ := o
    cases c <;> rfl

theorem members_modify (h : Heap) (p P : Ptr) (f : Obj → Obj) :
    (h.modify p f).members P = if P = p then
      (match h.get p with
        | some o => (f o).cls.members
        | none => [])
      else h.members P := by
  rw [members_eq, Heap.get_modify]
  by_cases hP : P = p
  · subst hP
    cases hg : h.get P <;> simp
  · simp only [hP, if_false]
    rw [members_eq]

theorem members_modify_same (h : Heap) (p P : Ptr) (f : Obj → Obj)
    (hf : ∀ o, (f o).cls = o.cls) : (h.modify p f).members P = h.members P := by
  rw [members_modify]
  by_cases hP : P = p
  · subst hP
    rw [members_eq]
    cases hg : h.get P with
    | none => simp
    | some o => simp [hf o]
  · simp [hP]

theorem members_setBus (h : Heap) (x : Ptr) (b : Option Ptr) (P : Ptr) :
    (setBus h x b).members P = h.members P :=
  members_modify_same h x P _ (fun _ => rfl)

theorem members_ref (h : Heap) (x P : Ptr) : (ref h x).members P = h.members P :=
  members_modify_same h x P _ (fun _ => rfl)

/-- Changing the lists of the bus `P` and then setting the back-reference of `x`
keeps the back-references, when every member other than `x` stays a member and
`x` is a member of the bus it is made to point to. -/
theorem Heap.BackRef.relist {h : Heap} (hj : h.BackRef) (P x : Ptr) (f : Obj → Obj)
    (nb : Option Ptr) (hf : ∀ o, (f o).bus = o.bus)
    (hm : ∀ y Q, y ≠ x → y ∈ h.members Q → y ∈ (h.modify P f).members Q)
    (hx : ∀ Q, nb = some Q → x ∈ (h.modify P f).members Q) :
    (setBus (h.modify P f) x nb).BackRef := by
  intro y o Q hg hb
  rw [members_setBus]
  unfold setBus at hg
  rw [Heap.get_modify] at hg
  by_cases hy : y = x
  · subst hy
    simp only [if_true] at hg
    cases hg2 : (h.modify P f).get y with
    | none => simp [hg2] at hg
    | some o2 =>
      simp only [hg2, Option.map_some', Option.some.injEq] at hg
      subst hg
      exact hx Q hb
  · simp only [hy, if_false] at hg
    apply hm y Q hy
    rw [Heap.get_modify] at hg
    by_cases hyP : y = P
    · subst hyP
      simp only [if_true] at hg
      cases hg0 : h.get y with
      | none => simp [hg0] at hg
      | some o0 =>
        simp only [hg0, Option.map_some', Option.some.injEq] at hg
        subst hg
        rw [hf] at hb
        exact hj y o0 Q hg0 hb
    · simp only [hyP, if_false] at hg
      exact hj y o Q hg hb

theorem Heap.BackRef.addRef {h : Heap} (hj : h.BackRef) (p : Ptr) : (ref h p).BackRef := by
  intro x o P hg hb
  rw [members_ref]
  rw [get_ref] at hg
  by_cases hx : x = p
  · subst hx
    simp only [if_true] at hg
    cases hg0 : h.get x with
    | none => simp [hg0] at hg
    | some o0 =>
      simp only [hg0, Option.map_some', Option.some.injEq] at hg
      subst hg
      exact hj x o0 P hg0 hb
  · simp only [hx, if_false] at hg
    exact hj x o P hg hb

theorem Heap.BackRef.addRefs (l : List Ptr) : ∀ {h : Heap}, h.BackRef → (refAll h l).BackRef := by
  induction l with
  | nil => intro h hj; exact hj
  | cons a l ih =>
    intro h hj
    have : xp.refAll h (a :: l) = xp.refAll (xp.ref h a) l := rfl
    rw [this]
    exact ih (hj.addRef a)

theorem Cls.members_pushIntf (o : Obj) (m y : Ptr) (hy : y ∈ o.cls.members) :
    y ∈ (o.pushIntf m).cls.members := by
  unfold Obj.pushIntf
  cases hc : o.cls with
  | implIBus l is bs =>
    simp only [hc, Cls.members, List.mem_append] at hy ⊢
    rcases hy with h1 | h1
    · exact Or.inl (Or.inl h1)
    · exact Or.inr h1
  | tInterfaceEx x => simp [hc, Cls.members] at hy
  | tMultiInterfaceEx x => simp [hc, Cls.members] at hy

theorem Cls.members_pushBus (o : Obj) (m y : Ptr) (hy : y ∈ o.cls.members) :
    y ∈ (o.pushBus m).cls.members := by
  unfold Obj.pushBus
  cases hc : o.cls with
  | implIBus l is bs =>
    simp only [hc, Cls.members, List.mem_append] at hy ⊢
    rcases hy with h1 | h1
    · exact Or.inl h1
    · exact Or.inr (Or.inl h1)
  | tInterfaceEx x => simp [hc, Cls.members] at hy
  | tMultiInterfaceEx x => simp [hc, Cls.members] at hy

theorem Cls.members_eraseIntf (o : Obj) (X y : Ptr) (hne : y ≠ X) (hy : y ∈ o.cls.members) :
    y ∈ (o.eraseIntf X).cls.members := by
  unfold Obj.eraseIntf
  cases hc : o.cls with
  | implIBus l is bs =>
    simp only [hc, Cls.members, List.mem_append] at hy ⊢
    rcases hy with h1 | h1
    · exact Or.inl ((List.mem_erase_of_ne hne).2 h1)
    · exact Or.inr h1
  | tInterfaceEx x => simp [hc, Cls.members] at hy
  | tMultiInterfaceEx x => simp [hc, Cls.members] at hy

theorem Cls.members_eraseBus (o : Obj) (X y : Ptr) (hne : y ≠ X) (hy : y ∈ o.cls.members) :
    y ∈ (o.eraseBus X).cls.members := by
  unfold Obj.eraseBus
  cases hc : o.cls with
  | implIBus l is bs =>
    simp only [hc, Cls.members, List.mem_append] at hy ⊢
    rcases hy with h1 | h1
    · exact Or.inl h1
    · exact Or.inr ((List.mem_erase_of_ne hne).2 h1)
  | tInterfaceEx x => simp [hc, Cls.members] at hy
  | tMultiInterfaceEx x => simp [hc, Cls.members] at hy

/-- Membership after a change of the lists of `P` that keeps the members `y`
satisfying `keep`. -/
theorem mem_members_modify {h : Heap} (P : Ptr) (f : Obj → Obj) {y Q : Ptr}
    (hf : ∀ o, y ∈ o.cls.members → y ∈ (f o).cls.members) (hy : y ∈ h.members Q) :
    y ∈ (h.modify P f).members Q := by
  rw [members_modify]
  by_cases hQ : Q = P
  · subst hQ
    simp only [if_true]
    rw [members_eq] at hy
    cases hg : h.get Q with
    | none => simp [hg] at hy
    | some o =>
      simp only [hg] at hy ⊢
      exact hf o hy
  · simpa [hQ] using hy

theorem pushed_mem_members {h : Heap} {P m : Ptr} {l : Int} (hP : getLevel h P = some l) :
    m ∈ (h.modify P (fun o => o.pushIntf m)).members P ∧
    m ∈ (h.modify P (fun o => o.pushBus m)).members P := by
  obtain ⟨o, is, bs, hg, hc⟩ := getLevel_eq_some.1 hP
  constructor
  · rw [members_modify]
    simp [hg, Obj.pushIntf, hc, Cls.members]
  · rw [members_modify]
    simp [hg, Obj.pushBus, hc, Cls.members]

theorem Obj.push_bus_field (o : Obj) (m : Ptr) :
    (o.pushIntf m).bus = o.bus ∧ (o.pushBus m).bus = o.bus ∧
    (o.eraseIntf m).bus = o.bus ∧ (o.eraseBus m).bus = o.bus := by
  unfold Obj.pushIntf Obj.pushBus Obj.eraseIntf Obj.eraseBus
  cases o.cls <;> exact ⟨rfl, rfl, rfl, rfl⟩

theorem connect_backref {h : Heap} (ht : h.Typed) (hj : h.BackRef) {P m : Ptr} {h' : Heap}
    {ok : Bool} (hc : connect h P m = some (h', ok)) : h'.BackRef := by
  unfold connect at hc
  cases hl : getLevel h P with
  | none => simp [hl] at hc
  | some level =>
    simp only [hl] at hc
    rcases probe_cases ht m with hq | ⟨b, q, hq, hlive⟩
    · simp only [hq, Option.some.injEq, Prod.mk.injEq] at hc
      obtain ⟨rfl, _⟩ := hc
      apply (hj.addRef m).relist P m _ (some P) (fun o => (o.push_bus_field m).1)
      · intro y Q _ hy
        exact mem_members_modify P _ (fun o => Cls.members_pushIntf o m y) hy
      · intro Q hQ
        simp only [Option.some.injEq] at hQ
        subst hQ
        exact (pushed_mem_members (by rw [getLevel_ref]; exact hl)).1
    · simp only [hq] at hc
      cases hlb : getLevel (ref h b) b with
      | none => simp [hlb] at hc
      | some lb =>
        simp only [hlb] at hc
        by_cases hle : lb ≤ level
        · simp only [hle, if_true, Option.some.injEq, Prod.mk.injEq] at hc
          obtain ⟨rfl, _⟩ := hc
          apply (hj.addRef b).relist P b _ (some P) (fun o => (o.push_bus_field b).2.1)
          · intro y Q _ hy
            exact mem_members_modify P _ (fun o => Cls.members_pushBus o b y) hy
          · intro Q hQ
            simp only [Option.some.injEq] at hQ
            subst hQ
            exact (pushed_mem_members (by rw [getLevel_ref]; exact hl)).2
        · simp only [hle, if_false] at hc
          cases hu : unref (ref h b) b with
          | none => simp [hu] at hc
          | some h2 =>
            simp only [hu, Option.some.injEq, Prod.mk.injEq] at hc
            obtain ⟨rfl, _⟩ := hc
            exact unref_backref hu (hj.addRef b)

theorem disconnect_backref {h : Heap} (hj : h.BackRef) {B X : Ptr} {h' : Heap}
    (hd : disconnect h B X = some h') : h'.BackRef := by
  unfold disconnect at hd
  cases hg : h.get B with
  | none => simp [hg] at hd
  | some o =>
    obtain ⟨c, n, b⟩ := o
    cases c with
    | tInterfaceEx x => simp [hg] at hd
    | tMultiInterfaceEx x => simp [hg] at hd
    | implIBus l is bs =>
      simp only [hg] at hd
      by_cases h1 : X ∈ is
      · simp only [h1, if_true] at hd
        refine unref_backref hd ?_
        apply hj.relist B X _ none (fun o => (o.push_bus_field X).2.2.1)
        · intro y Q hy hm
          exact mem_members_modify B _ (fun o => Cls.members_eraseIntf o X y hy) hm
        · intro Q hQ
          simp at hQ
      · simp only [h1, if_false] at hd
        by_cases h2 : X ∈ bs
        · simp only [h2, if_true] at hd
          refine unref_backref hd ?_
          apply hj.relist B X _ none (fun o => (o.push_bus_field X).2.2.2)
          · intro y Q hy hm
            exact mem_members_modify B _ (fun o => Cls.members_eraseBus o X y hy) hm
          · intro Q hQ
            simp at hQ
        · simp only [h2, if_false, Option.some.injEq] at hd
          subst hd
          exact hj

theorem Heap.Fresh.no_backRef {h : Heap} (hf : h.Fresh) : h.BackRef := by
  intro x o P hg hb
  unfold Heap.Fresh at hf
  rw [List.all_eq_true] at hf
  have := hf _ (Heap.get_mem hg)
  simp only [Bool.and_eq_true, Option.isNone_iff_eq_none] at this
  rw [this.1] at hb
  simp at hb

theorem Reach.backRef {h0 h : Heap} (hf : h0.Fresh) (hr : Reach h0 h) : h.BackRef := by
  induction hr with
  | start => exact hf.no_backRef
  | connect h h' self intf ok hr' hc ih =>
    exact connect_backref (Built.typed (Reach.built hf hr')) ih hc
  | disconnect h h' self intf _ hd ih => exact disconnect_backref ih hd

/-! ### Levels of the buses a query marks -/

/-- In a heap reached from fresh objects the owning bus of a bus has a level
not below its own. -/
theorem reach_up {h0 h : Heap} (hf : h0.Fresh) (hr : Reach h0 h) :
    ∀ x Q lx lq, h.busOf x = some Q → getLevel h x = some lx → getLevel h Q = some lq →
      lx ≤ lq := by
  intro x Q lx lq hb hx hQ
  have ht := Built.typed (Reach.built hf hr)
  obtain ⟨o, is, bs, hg, hc⟩ := getLevel_eq_some.1 hx
  have hbo : o.bus = some Q := by simpa [Heap.busOf, hg] using hb
  have hm := Reach.backRef hf hr x o Q hg hbo
  unfold Heap.members at hm
  rcases List.mem_append.1 hm with h1 | h1
  · obtain ⟨oQ, l, isQ, bsQ, hgQ, hcQ, hmem⟩ := mem_intfsOf h1
    have := ht.intfs hgQ hcQ x hmem
    simp [Heap.isBus, hx] at this
  · exact (reach_levels hf hr).1 Q x lq lx hQ h1 hx

/-- When the owning bus of a bus never has a lower level, every bus marked by
the traversal of a query started on a bus of level `L` has a level of at least
`L`. -/
theorem pQuery_levels (h : Heap) (ht : h.Typed) (iid : TIntfId) (hu : busAnswers iid = false)
    (hup : ∀ x Q lx lq, h.busOf x = some Q → getLevel h x = some lx →
      getLevel h Q = some lq → lx ≤ lq) :
    ∀ (fuel : Nat) (p : Ptr) (v m : List Ptr) (r : Option Ptr) (L : Int),
      getLevel h p = some L → p ∉ v → pQuery fuel h iid p v = some (m, r) →
      ∀ b ∈ m, ∃ l, getLevel h b = some l ∧ L ≤ l := by
  intro fuel
  induction fuel with
  | zero => intro p v m r L _ _ hs; simp [pQuery] at hs
  | succ fuel ih =>
    intro p v m r L hL hv hs
    obtain ⟨o, is, bs, hg, hc⟩ := getLevel_eq_some.1 hL
    rw [pQuery, hg] at hs
    simp only [hc] at hs
    cases hs1 : pLocal (fuel + 1) h iid p v with
    | none => simp [hs1] at hs
    | some x =>
      obtain ⟨m1, r1⟩ := x
      have i1 := (inv_local h ht iid hu (fuel + 1) p v m1 r1 L hL hv hs1).1
      simp only [hs1] at hs
      cases r1 with
      | some y =>
        simp only [Option.some.injEq, Prod.mk.injEq] at hs
        obtain ⟨rfl, rfl⟩ := hs
        exact i1.level
      | none =>
        simp only at hs
        cases hpb : o.bus with
        | none =>
          simp only [hpb, Option.some.injEq, Prod.mk.injEq] at hs
          obtain ⟨rfl, rfl⟩ := hs
          exact i1.level
        | some b =>
          simp only [hpb] at hs
          by_cases hbv : b ∈ v ++ m1
          · simp only [hbv, if_true, Option.some.injEq, Prod.mk.injEq] at hs
            obtain ⟨rfl, rfl⟩ := hs
            exact i1.level
          · simp only [hbv, if_false] at hs
            cases hs2 : pQuery fuel h iid b (v ++ m1) with
            | none => simp [hs2] at hs
            | some y =>
              obtain ⟨m2, r2⟩ := y
              simp only [hs2, Option.some.injEq, Prod.mk.injEq] at hs
              obtain ⟨rfl, rfl⟩ := hs
              intro x hx
              rcases List.mem_append.1 hx with hx | hx
              · exact i1.level x hx
              · rcases live_cases h b with hd | hbb | hbl
                · cases fuel with
                  | zero => simp [pQuery] at hs2
                  | succ fuel =>
                    rw [pQuery_dead hd] at hs2
                    simp only [Option.some.injEq, Prod.mk.injEq] at hs2
                    obtain ⟨rfl, rfl⟩ := hs2
                    simp at hx
                · obtain ⟨lb, hlb⟩ := getLevel_of_isBus hbb
                  have hle := hup p b L lb (by simp [Heap.busOf, hg, hpb]) hL hlb
                  obtain ⟨l, hl, hle2⟩ := ih b (v ++ m1) m2 r2 lb hlb hbv hs2 x hx
                  exact ⟨l, hl, by omega⟩
                · rw [ht.bus hg hpb] at hbl
                  simp at hbl

/-- A failed bus loop has marked every listed bus that it may enter. -/
theorem pScanBuses_covers (h : Heap) (rec : Ptr → List Ptr → Option PResult) (L : Int)
    (hrec : ∀ b v m r l, getLevel h b = some l → b ∉ v → rec b v = some (m, r) → b ∈ m) :
    ∀ (bs v m : List Ptr), pScanBuses h rec L bs v = some (m, none) →
      ∀ C ∈ bs, ∀ lc, getLevel h C = some lc → L ≤ lc → C ∈ v ++ m := by
  intro bs
  induction bs with
  | nil => intro v m _ C hC; simp at hC
  | cons b rest ih =>
    intro v m hs C hC lc hlc hle
    rw [pScanBuses] at hs
    by_cases he : enters h L v b = true
    · simp only [he, if_true] at hs
      obtain ⟨l, hl, _, hbv⟩ := enters_iff.1 he
      cases hs1 : rec b v with
      | none => simp [hs1] at hs
      | some x =>
        obtain ⟨m1, r1⟩ := x
        simp only [hs1] at hs
        cases r1 with
        | some y => simp at hs
        | none =>
          simp only at hs
          cases hs2 : pScanBuses h rec L rest (v ++ m1) with
          | none => simp [hs2] at hs
          | some y =>
            obtain ⟨m2, r2⟩ := y
            simp only [hs2, Option.some.injEq, Prod.mk.injEq] at hs
            obtain ⟨rfl, rfl⟩ := hs
            rcases List.mem_cons.1 hC with rfl | hC
            · have := hrec C v m1 none l hl hbv hs1
              simp [this]
            · have := ih (v ++ m1) m2 hs2 C hC lc hlc hle
              simpa [List.append_assoc] using this
    · simp only [he, if_false] at hs
      rcases List.mem_cons.1 hC with rfl | hC
      · have hne : ¬ (∃ l, getLevel h C = some l ∧ l ≥ L ∧ C ∉ v) := fun hx =>
          he (enters_iff.2 hx)
        by_cases hCv : C ∈ v
        · simp [hCv]
        · exact absurd ⟨lc, hlc, hle, hCv⟩ hne
      · exact ih v m hs C hC lc hlc hle

/-- A failed local traversal of a bus has marked every recorded child bus whose
level is not below its own. -/
theorem pLocal_covers (h : Heap) (ht : h.Typed) (iid : TIntfId) (hu : busAnswers iid = false)
    (fuel : Nat) (P : Ptr) (v m : List Ptr) (L : Int) (hL : getLevel h P = some L)
    (hs : pLocal fuel h iid P v = some (m, none)) :
    ∀ C ∈ h.busesOf P, ∀ lc, getLevel h C = some lc → L ≤ lc → C ∈ v ++ m := by
  intro C hC lc hlc hle
  obtain ⟨o, is, bs, hg, hc⟩ := getLevel_eq_some.1 hL
  have hb : h.isBus P = true := by simp [Heap.isBus, hL]
  have hna : o.cls.answers iid = false := by
    have := answersAt_bus hb iid
    rw [hu] at this
    simpa [Heap.answersAt, hg] using this
  have hCbs : C ∈ bs := by
    obtain ⟨o', l', is', bs', hg', hc', hm⟩ := mem_busesOf.1 hC
    rw [hg] at hg'
    simp only [Option.some.injEq] at hg'
    subst hg'
    rw [hc] at hc'
    simp only [Cls.implIBus.injEq] at hc'
    obtain ⟨_, _, rfl⟩ := hc'
    exact hm
  cases fuel with
  | zero => simp [pLocal] at hs
  | succ fuel =>
    rw [pLocal, hg] at hs
    rw [hc] at hna
    simp only [hc, hna, Bool.false_eq_true, if_false] at hs
    cases hs1 : pScanIntfs (pLocal fuel h iid) is (v ++ [P]) with
    | none => simp [hs1] at hs
    | some x =>
      obtain ⟨m1, r1⟩ := x
      simp only [hs1] at hs
      cases r1 with
      | some y => simp at hs
      | none =>
        have hnorm : v ++ [P] ++ m1 = v ++ P :: m1 := by simp
        simp only [hnorm] at hs
        cases hs2 : pScanBuses h (pLocal fuel h iid) L bs (v ++ P :: m1) with
        | none => simp [hs2] at hs
        | some y =>
          obtain ⟨m2, r2⟩ := y
          simp only [hs2, Option.some.injEq, Prod.mk.injEq] at hs
          obtain ⟨rfl, rfl⟩ := hs
          have := pScanBuses_covers h (pLocal fuel h iid) L
            (fun b v' m' r' l hl hbv hr =>
              (inv_local h ht iid hu fuel b v' m' r' l hl hbv hr).2)
            bs (v ++ P :: m1) m2 hs2 C hCbs lc hlc hle
          simp only [List.mem_append, List.mem_singleton, List.mem_cons] at this ⊢
          tauto

/-- The traversal of a query on a bus starts with the local traversal; when the
query fails, so did the local traversal, with marks among those of the query. -/
theorem pQuery_none_local {h : Heap} {iid : TIntfId} {fuel : Nat} {P : Ptr} {v m : List Ptr}
    (hb : h.isBus P = true) (hs : pQuery (fuel + 1) h iid P v = some (m, none)) :
    ∃ m1, pLocal (fuel + 1) h iid P v = some (m1, none) ∧ ∀ b ∈ m1, b ∈ m := by
  obtain ⟨o, l, is, bs, hg, hc⟩ := Heap.isBus_iff.1 hb
  rw [pQuery, hg] at hs
  simp only [hc] at hs
  cases hs1 : pLocal (fuel + 1) h iid P v with
  | none => simp [hs1] at hs
  | some x =>
    obtain ⟨m1, r1⟩ := x
    simp only [hs1] at hs
    cases r1 with
    | some y => simp at hs
    | none =>
      refine ⟨m1, rfl, ?_⟩
      simp only at hs
      cases hpb : o.bus with
      | none =>
        simp only [hpb, Option.some.injEq, Prod.mk.injEq] at hs
        obtain ⟨rfl, _⟩ := hs
        exact fun b hb => hb
      | some b =>
        simp only [hpb] at hs
        by_cases hbv : b ∈ v ++ m1
        · simp only [hbv, if_true, Option.some.injEq, Prod.mk.injEq] at hs
          obtain ⟨rfl, _⟩ := hs
          exact fun b hb => hb
        · simp only [hbv, if_false] at hs
          cases hs2 : pQuery fuel h iid b (v ++ m1) with
          | none => simp [hs2] at hs
          | some y =>
            obtain ⟨m2, r2⟩ := y
            simp only [hs2, Option.some.injEq, Prod.mk.injEq] at hs
            obtain ⟨rfl, _⟩ := hs
            exact fun b hb => List.mem_append_left _ hb

/-- The outcome of a query without state on a bus of a well-typed heap, in terms
of the traversal. -/
theorem query_bus_outcome (h : Heap) (ht : h.Typed) (iid : TIntfId) (P : Ptr)
    (hb : h.isBus P = true) :
    ∃ m r h' q, pQuery (h.size + 3) h iid P [] = some (m, r) ∧
      queryInterface h P iid none = some (h', q, r) ∧
      (∀ y, r = some y → h.answersAt y iid = true ∧ (y = P ∨ ∃ b ∈ m, y ∈ h.intfsOf b)) := by
  obtain ⟨m, r, hp, _, _, hans, hq⟩ :=
    query_bus_spec h ht iid (h.size + 2) (by omega) P hb
  obtain ⟨h', hu, _⟩ := unrefAll_total m (refAll h (m ++ r.toList))
  refine ⟨m, r, h', some ⟨0, m, true⟩, hp, ?_, hans⟩
  unfold queryInterface
  rw [hq, hu]
  rfl

/-! ### The destructor of a bus -/

theorem releaseMembers_congr (rec rec' : Heap → Ptr → Option Heap)
    (hrec : ∀ h p h', rec h p = some h' → rec' h p = some h') :
    ∀ (ms : List Ptr) (h h' : Heap), releaseMembers rec ms h = some h' →
      releaseMembers rec' ms h = some h' := by
  intro ms
  induction ms with
  | nil => intro h h' hr; simpa [releaseMembers] using hr
  | cons m ms ih =>
    intro h h' hr
    rw [releaseMembers] at hr ⊢
    cases h1e : rec (setBus h m none) m with
    | none => simp [h1e] at hr
    | some h1 =>
      simp only [h1e] at hr
      rw [hrec _ _ _ h1e]
      exact ih h1 h' hr

theorem unrefF_succ : ∀ (fuel : Nat) (h : Heap) (p : Ptr) (h' : Heap),
    unrefF fuel h p = some h' → unrefF (fuel + 1) h p = some h' := by
  intro fuel
  induction fuel with
  | zero => intro h p h' hu; simp [unrefF] at hu
  | succ fuel ih =>
    intro h p h' hu
    rw [unrefF] at hu ⊢
    cases hg : h.get p with
    | none => simpa [hg] using hu
    | some o =>
      simp only [hg] at hu ⊢
      by_cases hc : o.count - 1 = 0
      · simp only [hc, if_true] at hu ⊢
        cases hcls : o.cls with
        | implIBus level intfs buses =>
          simp only [hcls] at hu ⊢
          cases hr : releaseMembers (unrefF fuel) (intfs.reverse ++ buses.reverse)
              (h.modify p (fun o => { o with count := o.count - 1 })) with
          | none => simp [hr] at hu
          | some h2 =>
            rw [releaseMembers_congr _ _ ih _ _ _ hr]
            simpa [hr] using hu
        | tInterfaceEx y => simpa [hcls] using hu
        | tMultiInterfaceEx y => simpa [hcls] using hu
      · simpa [hc] using hu

/-- The destructor loop run with a fuel equal to the size of the heap is the
loop of plain releases. -/
theorem releaseMembers_unref : ∀ (ms : List Ptr) (g g2 : Heap),
    releaseMembers (unrefF g.size) ms g = some g2 → releaseMembers unref ms g = some g2 := by
  intro ms
  induction ms with
  | nil => intro g g2 hr; simpa [releaseMembers] using hr
  | cons m ms ih =>
    intro g g2 hr
    rw [releaseMembers] at hr ⊢
    cases h1e : unrefF g.size (setBus g m none) m with
    | none => simp [h1e] at hr
    | some g1 =>
      simp only [h1e] at hr
      have hsz : (setBus g m none).size = g.size := by simp [setBus]
      have hu : unref (setBus g m none) m = some g1 := by
        unfold unref
        rw [hsz]
        exact unrefF_succ _ _ _ _ h1e
      rw [hu]
      have hs1 : g1.size = g.size := by
        rw [← hsz]
        exact (unref_shrinks hu).1
      rw [← hs1] at hr
      exact ih g1 g2 hr

/-- The release of the last reference to a bus: the destructor loop over the
leaves in reverse and then over the child buses in reverse, then the memory of
the bus is freed. -/
theorem unref_bus_last {h : Heap} {p : Ptr} {o : Obj} {l : Int} {is bs : List Ptr}
    (hg : h.get p = some o) (hc : o.cls = .implIBus l is bs) (h1 : o.count - 1 = 0) :
    ∃ h2, releaseMembers unref (is.reverse ++ bs.reverse)
        (h.modify p (fun o => { o with count := o.count - 1 })) = some h2 ∧
      unref h p = some (h2.free p) := by
  obtain ⟨h', hu, _⟩ := unref_total h p
  have hu' := hu
  unfold unref at hu'
  rw [unrefF, hg] at hu'
  simp only [h1, if_true, hc] at hu'
  cases hr : releaseMembers (unrefF h.size) (is.reverse ++ bs.reverse)
      (h.modify p (fun o => { o with count := o.count - 1 })) with
  | none => simp [hr] at hu'
  | some h2 =>
    simp only [hr, Option.some.injEq] at hu'
    subst hu'
    refine ⟨h2, ?_, hu⟩
    apply releaseMembers_unref
    have : (h.modify p (fun o => { o with count := o.count - 1 })).size = h.size := by simp
    rw [this]
    exact hr

theorem busesOf_eq {h : Heap} {p : Ptr} {o : Obj} {l : Int} {is bs : List Ptr}
    (hg : h.get p = some o) (hc : o.cls = .implIBus l is bs) : h.busesOf p = bs := by
  obtain ⟨c, n, b⟩ := o
  simp only at hc
  subst hc
  simp [Heap.busesOf, hg]

/-- Connecting a bus whose level is not above that of the receiver appends it to
`_buses` and leaves `_intfs` as it is. -/
theorem connect_bus_lists {h : Heap} {B C : Ptr} {lb lc : Int} {o : Obj} {is bs : List Ptr}
    (hg : h.get B = some o) (hc : o.cls = .implIBus lb is bs)
    (hC : getLevel h C = some lc) (hle : lc ≤ lb) :
    ∃ h', connect h B C = some (h', true) ∧ h'.intfsOf B = is ∧ h'.busesOf B = bs ++ [C] := by
  have hB : getLevel h B = some lb := getLevel_eq_some.2 ⟨o, is, bs, hg, hc⟩
  have hCb : h.isBus C = true := by simp [Heap.isBus, hC]
  have hq : queryInterface h C IID_IBUS none = some (ref h C, some ⟨0, [], true⟩, some C) :=
    query_bus_universal hCb IID_IBUS (by decide) _
  refine ⟨setBus ((ref h C).modify B (fun o => o.pushBus C)) C (some B), ?_, ?_, ?_⟩
  · unfold connect
    simp only [hB, hq, getLevel_ref, hC, hle, if_true]
  · obtain ⟨c, n, b⟩ := o
    simp only at hc
    subst hc
    unfold Heap.intfsOf
    by_cases hBC : B = C
    · subst hBC
      simp [setBus, Heap.get_modify, get_ref, hg, Obj.pushBus]
    · simp [setBus, Heap.get_modify, get_ref, hg, Obj.pushBus, hBC]
  · obtain ⟨c, n, b⟩ := o
    simp only at hc
    subst hc
    unfold Heap.busesOf
    by_cases hBC : B = C
    · subst hBC
      simp [setBus, Heap.get_modify, get_ref, hg, Obj.pushBus]
    · simp [setBus, Heap.get_modify, get_ref, hg, Obj.pushBus, hBC]

/-- Connecting a leaf without owning bus appends it to `_intfs` and leaves
`_buses` as it is. -/
theorem connect_leaf_lists {h : Heap} {B m : Ptr} {lb : Int} {o om : Obj} {is bs : List Ptr}
    (hg : h.get B = some o) (hc : o.cls = .implIBus lb is bs) (hm : h.get m = some om)
    (hleaf : h.isLeaf m = true) (hnb : h.answersAt m IID_IBUS = false) (hfree : om.bus = none) :
    ∃ h', connect h B m = some (h', true) ∧ h'.intfsOf B = is ++ [m] ∧ h'.busesOf B = bs := by
  have hB : getLevel h B = some lb := getLevel_eq_some.2 ⟨o, is, bs, hg, hc⟩
  have hBb : h.isBus B = true := by simp [Heap.isBus, hB]
  have hBm : B ≠ m := by
    intro e
    subst e
    rw [isLeaf_isBus hleaf] at hBb
    simp at hBb
  have hna : om.cls.answers IID_IBUS = false := by
    simpa [Heap.answersAt, hm] using hnb
  have hq : queryInterface h m IID_IBUS none = some (h, none, none) := by
    unfold queryInterface
    rw [query_leaf_unhosted h m om hm hleaf hfree IID_IBUS none]
    simp [hna]
  refine ⟨setBus ((ref h m).modify B (fun o => o.pushIntf m)) m (some B), ?_, ?_, ?_⟩
  · unfold connect
    simp only [hB, hq]
  · obtain ⟨c, n, b⟩ := o
    simp only at hc
    subst hc
    unfold Heap.intfsOf
    simp [setBus, Heap.get_modify, get_ref, hg, Obj.pushIntf, hBm]
  · obtain ⟨c, n, b⟩ := o
    simp only at hc
    subst hc
    unfold Heap.busesOf
    simp [setBus, Heap.get_modify, get_ref, hg, Obj.pushIntf, hBm]

/-! ### The log of the releases -/

theorem releaseMembersL_fst (recL : Heap → Ptr → Option (Heap × List Ptr))
    (rec : Heap → Ptr → Option Heap) (hrec : ∀ h p, (recL h p).map Prod.fst = rec h p) :
    ∀ (ms : List Ptr) (h : Heap),
      (releaseMembersL recL ms h).map Prod.fst = releaseMembers rec ms h := by
  intro ms
  induction ms with
  | nil => intro h; rfl
  | cons m ms ih =>
    intro h
    rw [releaseMembersL, releaseMembers, ← hrec]
    cases recL (setBus h m none) m with
    | none => rfl
    | some x =>
      obtain ⟨h1, a1⟩ := x
      simp only [Option.map_some']
      rw [← ih h1]
      cases releaseMembersL recL ms h1 with
      | none => rfl
      | some y => rfl

theorem unrefL_fst : ∀ (fuel : Nat) (h : Heap) (p : Ptr),
    (unrefL fuel h p).map Prod.fst = unrefF fuel h p := by
  intro fuel
  induction fuel with
  | zero => intro h p; rfl
  | succ fuel ih =>
    intro h p
    rw [unrefL, unrefF]
    cases hg : h.get p with
    | none => rfl
    | some o =>
      simp only
      by_cases hc : o.count - 1 = 0
      · simp only [hc, if_true]
        cases hcls : o.cls with
        | implIBus l is bs =>
          simp only
          rw [← releaseMembersL_fst (unrefL fuel) (unrefF fuel) ih]
          cases releaseMembersL (unrefL fuel) (is.reverse ++ bs.reverse)
              (h.modify p (fun o => { o with count := o.count - 1 })) with
          | none => rfl
          | some y => rfl
        | tInterfaceEx x => rfl
        | tMultiInterfaceEx x => rfl
      · simp only [hc, if_false, Option.map_some']

/-- The log of the destructor loop: every member in the order of the list, each
followed by the calls made while it was released. -/
theorem releaseMembersL_log (rec : Heap → Ptr → Option (Heap × List Ptr)) :
    ∀ (ms : List Ptr) (h h' : Heap) (log : List Ptr),
      releaseMembersL rec ms h = some (h', log) →
      ∃ nested : List (List Ptr), nested.length = ms.length ∧
        log = (List.zipWith (fun m l => m :: l) ms nested).flatten := by
  intro ms
  induction ms with
  | nil =>
    intro h h' log hr
    simp only [releaseMembersL, Option.some.injEq, Prod.mk.injEq] at hr
    exact ⟨[], rfl, by simp [← hr.2]⟩
  | cons m ms ih =>
    intro h h' log hr
    rw [releaseMembersL] at hr
    cases h1e : rec (setBus h m none) m with
    | none => simp [h1e] at hr
    | some y =>
      obtain ⟨h1, l1⟩ := y
      simp only [h1e] at hr
      cases h2e : releaseMembersL rec ms h1 with
      | none => simp [h2e] at hr
      | some y2 =>
        obtain ⟨h2, l2⟩ := y2
        simp only [h2e, Option.some.injEq, Prod.mk.injEq] at hr
        obtain ⟨rfl, rfl⟩ := hr
        obtain ⟨nested, hlen, hlog⟩ := ih h1 h2 l2 h2e
        exact ⟨l1 :: nested, by simp [hlen], by simp [hlog]⟩

/-- The log of the release of the last reference to a bus. -/
theorem unrefL_bus_last {h : Heap} {p : Ptr} {o : Obj} {l : Int} {is bs : List Ptr}
    (hg : h.get p = some o) (hc : o.cls = .implIBus l is bs) (h1 : o.count - 1 = 0) :
    ∃ h' log nested, unrefL (h.size + 1) h p = some (h', log) ∧ unref h p = some h' ∧
      nested.length = (is.reverse ++ bs.reverse).length ∧
      log = (List.zipWith (fun m l => m :: l) (is.reverse ++ bs.reverse) nested).flatten := by
  obtain ⟨h', hu, _⟩ := unref_total h p
  have hfst := unrefL_fst (h.size + 1) h p
  rw [← unref, hu] at hfst
  cases hL : unrefL (h.size + 1) h p with
  | none => simp [hL] at hfst
  | some y =>
    obtain ⟨h2, log⟩ := y
    simp only [hL, Option.map_some', Option.some.injEq] at hfst
    subst hfst
    rw [unrefL, hg] at hL
    simp only [h1, if_true, hc] at hL
    cases hr : releaseMembersL (unrefL h.size) (is.reverse ++ bs.reverse)
        (h.modify p (fun o => { o with count := o.count - 1 })) with
    | none => simp [hr] at hL
    | some z =>
      obtain ⟨h3, log3⟩ := z
      simp only [hr, Option.some.injEq, Prod.mk.injEq] at hL
      obtain ⟨_, rfl⟩ := hL
      obtain ⟨nested, hlen, hlog⟩ := releaseMembersL_log _ _ _ _ _ hr
      exact ⟨h2, log3, nested, rfl, hu, hlen, hlog⟩

/-! ### The scan order of `localQueryInterface` -/

theorem localQ_nonbus (g : Heap) (p : Ptr) (hnb : g.isBus p = false) (i : TIntfId)
    (qst : Option QState) (fuel : Nat) :
    localQueryInterfaceF (fuel + 1) g p i qst
      = if g.answersAt p i = true then some (ref g p, qst, some p) else some (g, qst, none) := by
  rcases live_cases g p with hd | hb | hl
  · cases qst <;> simp [localQueryInterfaceF, Heap.answersAt, hd]
  · rw [hb] at hnb
    simp at hnb
  · obtain ⟨o, hg, _⟩ := Heap.isLeaf_iff.1 hl
    rw [localQ_leaf g p o hg hl i qst fuel]
    simp [Heap.answersAt, hg]

/-- The leaf loop over members that are not buses returns the first member that
answers, with one more reference, and changes nothing else. -/
theorem scanIntfs_first (i : TIntfId) (fuel : Nat) (g : Heap) (qst : Option QState) :
    ∀ (is : List Ptr), (∀ x ∈ is, g.isBus x = false) →
      scanIntfs (fun h1 x q1 => localQueryInterfaceF (fuel + 1) h1 x i q1) is g qst
        = match is.find? (fun x => g.answersAt x i) with
          | some y => some (ref g y, qst, some y)
          | none => some (g, qst, none) := by
  intro is
  induction is with
  | nil => intro _; rfl
  | cons a is ih =>
    intro hnb
    rw [scanIntfs, localQ_nonbus g a (hnb a (by simp)) i qst fuel]
    by_cases ha : g.answersAt a i = true
    · simp [ha, List.find?]
    · simp only [ha, if_false, Bool.false_eq_true]
      rw [ih (fun x hx => hnb x (by simp [hx]))]
      simp [List.find?, ha]

theorem answersAt_ref (h : Heap) (p x : Ptr) (i : TIntfId) :
    (ref h p).answersAt x i = h.answersAt x i := by
  unfold Heap.answersAt
  rw [get_ref]
  by_cases hx : x = p
  · subst hx
    cases h.get x <;> simp
  · simp [hx]

theorem isBus_ref (h : Heap) (p x : Ptr) : (ref h p).isBus x = h.isBus x := by
  unfold Heap.isBus
  rw [getLevel_ref]

/-- The method `localQueryInterface` of a bus of a well-typed heap, for an
identifier the bus does not answer itself: the first leaf that answers, and the
bus loop when no leaf answers. -/
theorem localQ_bus_scan (h : Heap) (ht : h.Typed) (B : Ptr) (l : Int) (is bs : List Ptr)
    (n : Int) (b : Option Ptr) (hg : h.get B = some ⟨.implIBus l is bs, n, b⟩) (i : TIntfId)
    (hi : busAnswers i = false) (qst : Option QState) (fuel : Nat) :
    localQueryInterfaceF (fuel + 2) h B i qst
      = match is.find? (fun x => h.answersAt x i) with
        | some y =>
          some (ref (match qst with
            | some _ => ref h B
            | none => h) y, qst.map (fun q => { q with buses := q.buses ++ [B] }), some y)
        | none =>
          scanBuses (fun h1 c q1 => localQueryInterfaceF (fuel + 1) h1 c i q1) l bs
            (match qst with
              | some _ => ref h B
              | none => h)
            (qst.map (fun q => { q with buses := q.buses ++ [B] })) := by
  have hna : (Cls.implIBus l is bs).answers i = false := hi
  have hnb : ∀ x ∈ is, h.isBus x = false := ht.intfs hg rfl
  cases qst with
  | none =>
    rw [localQueryInterfaceF, hg]
    simp only [hna, Bool.false_eq_true, if_false, Option.map_none']
    rw [scanIntfs_first i fuel h none is hnb]
    cases is.find? (fun x => h.answersAt x i) <;> rfl
  | some q =>
    rw [localQueryInterfaceF, hg]
    simp only [hna, Bool.false_eq_true, if_false, addSearchedBus, Option.map_some']
    rw [scanIntfs_first i fuel (ref h B) _ is (fun x hx => by rw [isBus_ref]; exact hnb x hx)]
    simp only [answersAt_ref]
    cases is.find? (fun x => h.answersAt x i) <;> rfl

theorem erase_keeps_first {α : Type} [DecidableEq α] (pre post : List α) (y X : α)
    (hne : X ≠ y) :
    ∃ pre' post', (pre ++ y :: post).erase X = pre' ++ y :: post' ∧ ∀ x ∈ pre', x ∈ pre := by
  by_cases hX : X ∈ pre
  · refine ⟨pre.erase X, post, ?_, fun x hx => List.mem_of_mem_erase hx⟩
    rw [List.erase_append_left _ hX]
  · refine ⟨pre, post.erase X, ?_, fun x hx => hx⟩
    rw [List.erase_append_right _ hX, List.erase_cons_tail]
    simpa using fun e => hne e.symm

/-- What `disconnect` does to classes: the receiver loses one occurrence of the
member in one of its lists, every other surviving object keeps its class. -/
theorem disconnect_cls {h : Heap} {B X : Ptr} {l : Int} {is bs : List Ptr} {n : Int}
    {b : Option Ptr} (hg : h.get B = some ⟨.implIBus l is bs, n, b⟩) {h' : Heap}
    (hd : disconnect h B X = some h') :
    (∀ oB, h'.get B = some oB →
      oB.cls = .implIBus l (if X ∈ is then is.erase X else is)
        (if X ∈ is then bs else bs.erase X)) ∧
    (∀ x o', x ≠ B → h'.get x = some o' → ∃ o, h.get x = some o ∧ o'.cls = o.cls) := by
  have key : ∀ (f : Obj → Obj),
      unref (setBus (h.modify B f) X none) X = some h' →
      (∀ oB, h'.get B = some oB → oB.cls = (f ⟨.implIBus l is bs, n, b⟩).cls) ∧
      (∀ x o', x ≠ B → h'.get x = some o' → ∃ o, h.get x = some o ∧ o'.cls = o.cls) := by
    intro f hu
    have hs := unref_shrinks hu
    have e1 : (h.modify B f).get B = some (f ⟨.implIBus l is bs, n, b⟩) := by
      rw [Heap.get_modify]
      simp [hg]
    constructor
    · intro oB hgB
      obtain ⟨og, hgg, hc, _⟩ := hs.2 B oB hgB
      rw [hc]
      rw [setBus, Heap.get_modify] at hgg
      by_cases hBX : B = X
      · subst hBX
        simp only [if_true, e1, Option.map_some', Option.some.injEq] at hgg
        rw [← hgg]
      · simp only [hBX, if_false, e1, Option.some.injEq] at hgg
        rw [← hgg]
    · intro x o' hx hgx
      obtain ⟨og, hgg, hc, _⟩ := hs.2 x o' hgx
      have e2 : (h.modify B f).get x = h.get x := by
        rw [Heap.get_modify]
        simp [hx]
      rw [setBus, Heap.get_modify] at hgg
      by_cases hxX : x = X
      · subst hxX
        simp only [if_true, e2] at hgg
        cases hg0 : h.get x with
        | none => simp [hg0] at hgg
        | some o0 =>
          simp only [hg0, Option.map_some', Option.some.injEq] at hgg
          exact ⟨o0, rfl, by rw [hc, ← hgg]⟩
      · simp only [hxX, if_false, e2] at hgg
        exact ⟨og, hgg, hc⟩
  unfold disconnect at hd
  simp only [hg] at hd
  by_cases h1 : X ∈ is
  · simp only [h1, if_true] at hd ⊢
    have := key (fun o => o.eraseIntf X) hd
    simpa [Obj.eraseIntf] using this
  · simp only [h1, if_false] at hd ⊢
    by_cases h2 : X ∈ bs
    · simp only [h2, if_true] at hd
      have := key (fun o => o.eraseBus X) hd
      simpa [Obj.eraseBus] using this
    · simp only [h2, if_false, Option.some.injEq] at hd
      subst hd
      constructor
      · intro oB hgB
        rw [hg] at hgB
        simp only [Option.some.injEq] at hgB
        subst hgB
        simp [List.erase_of_not_mem h2]
      · intro x o' _ hgx
        exact ⟨o', hgx, rfl⟩

/-! ### The functions with assertions compute the same heaps -/

theorem releaseMembersA_fst (recA : Heap → Ptr → Option (Heap × Bool))
    (rec : Heap → Ptr → Option Heap) (hrec : ∀ h p, (recA h p).map Prod.fst = rec h p) :
    ∀ (ms : List Ptr) (h : Heap),
      (releaseMembersA recA ms h).map Prod.fst = releaseMembers rec ms h := by
  intro ms
  induction ms with
  | nil => intro h; rfl
  | cons m ms ih =>
    intro h
    rw [releaseMembersA, releaseMembers, ← hrec]
    cases recA (setBus h m none) m with
    | none => rfl
    | some x =>
      obtain ⟨h1, a1⟩ := x
      simp only [Option.map_some']
      rw [← ih h1]
      cases releaseMembersA recA ms h1 with
      | none => rfl
      | some y => rfl

theorem unrefA_fst : ∀ (fuel : Nat) (h : Heap) (p : Ptr),
    (unrefA fuel h p).map Prod.fst = unrefF fuel h p := by
  intro fuel
  induction fuel with
  | zero => intro h p; rfl
  | succ fuel ih =>
    intro h p
    rw [unrefA, unrefF]
    cases hg : h.get p with
    | none => rfl
    | some o =>
      simp only
      by_cases hc : o.count - 1 = 0
      · simp only [hc, if_true]
        cases hcls : o.cls with
        | implIBus l is bs =>
          simp only
          rw [← releaseMembersA_fst (unrefA fuel) (unrefF fuel) ih]
          cases releaseMembersA (unrefA fuel) (is.reverse ++ bs.reverse)
              (h.modify p (fun o => { o with count := o.count - 1 })) with
          | none => rfl
          | some y => rfl
        | tInterfaceEx x => rfl
        | tMultiInterfaceEx x => rfl
      · simp only [hc, if_false, Option.map_some']

theorem unrefAllA_fst : ∀ (l : List Ptr) (h : Heap),
    (unrefAllA l h).map Prod.fst = unrefAll l h := by
  intro l
  induction l with
  | nil => intro h; rfl
  | cons e es ih =>
    intro h
    rw [unrefAllA, unrefAll, unref, ← unrefA_fst]
    cases unrefA (h.size + 1) h e with
    | none => rfl
    | some x =>
      obtain ⟨h1, a1⟩ := x
      simp only [Option.map_some']
      rw [← ih h1]
      cases unrefAllA es h1 with
      | none => rfl
      | some y => rfl

theorem unrefStateA_fst (h : Heap) (st : QState) :
    (unrefStateA h st).map Prod.fst = unrefState h st := by
  unfold unrefStateA unrefState
  by_cases hc : st.count - 1 = 0
  · simp only [hc, if_true]
    rw [← unrefAllA_fst]
    cases unrefAllA st.buses h with
    | none => rfl
    | some y => rfl
  · simp only [hc, if_false, Option.map_some']

theorem releaseStateA_fst (x : Option (QResult × Bool)) :
    (releaseStateA x).map Prod.fst = releaseState (x.map Prod.fst) := by
  cases x with
  | none => rfl
  | some y =>
    obtain ⟨⟨h1, q1, r⟩, a⟩ := y
    cases q1 with
    | none => rfl
    | some st1 =>
      simp only [releaseStateA, Option.map_some', releaseState]
      rw [← unrefStateA_fst]
      cases unrefStateA h1 st1 with
      | none => rfl
      | some z => rfl

theorem busQueryBodyA_fst (recA : Heap → Ptr → Option QState → Option (QResult × Bool))
    (rec : Heap → Ptr → Option QState → Option QResult)
    (hrec : ∀ h p q, (recA h p q).map Prod.fst = rec h p q)
    (fuel : Nat) (h : Heap) (p : Ptr) (parent : Option Ptr) (iid : TIntfId) (st : QState) :
    (busQueryBodyA recA fuel h p parent iid st).map Prod.fst
      = busQueryBody rec fuel h p parent iid st := by
  unfold busQueryBodyA busQueryBody
  cases localQueryInterfaceF fuel h p iid (some st) with
  | none => rfl
  | some x =>
    obtain ⟨h1, q1, r⟩ := x
    cases r with
    | some y => rfl
    | none =>
      cases parent with
      | none => rfl
      | some b =>
        cases q1 with
        | none => rfl
        | some st1 =>
          simp only
          by_cases hb : (!isBusSearched st1 b) = true
          · simp only [hb, if_true]
            exact hrec h1 b (some st1)
          · simp only [hb, if_false, Bool.false_eq_true, Option.map_some']

theorem queryInterfaceA_fst (iid : TIntfId) : ∀ (fuel : Nat) (h : Heap) (p : Ptr)
    (qst : Option QState),
    (queryInterfaceA fuel h p iid qst).map Prod.fst = queryInterfaceF fuel h p iid qst := by
  intro fuel
  induction fuel with
  | zero => intro h p qst; cases qst <;> rfl
  | succ fuel ih =>
    intro h p qst
    cases qst with
    | none =>
      rw [queryInterfaceA, queryInterfaceF]
      cases hg : h.get p with
      | none => rfl
      | some o =>
        simp only
        cases hc : o.cls with
        | implIBus l is bs =>
          simp only
          rw [releaseStateA_fst, busQueryBodyA_fst _ _ (fun h1 b q1 => ih h1 b q1)]
        | tInterfaceEx x =>
          simp only
          cases localQueryInterfaceF (fuel + 1) h p iid none with
          | none => rfl
          | some y =>
            obtain ⟨h1, q1, r⟩ := y
            cases r with
            | some z => rfl
            | none =>
              cases o.bus with
              | none => rfl
              | some b =>
                simp only [notSearched, if_true]
                exact ih h1 b none
        | tMultiInterfaceEx x =>
          simp only
          cases localQueryInterfaceF (fuel + 1) h p iid none with
          | none => rfl
          | some y =>
            obtain ⟨h1, q1, r⟩ := y
            cases r with
            | some z => rfl
            | none =>
              cases o.bus with
              | none => rfl
              | some b =>
                simp only [notSearched, if_true]
                exact ih h1 b none
    | some q =>
      rw [queryInterfaceA, queryInterfaceF]
      cases hg : h.get p with
      | none => rfl
      | some o =>
        simp only
        cases hc : o.cls with
        | implIBus l is bs =>
          simp only
          rw [releaseStateA_fst, busQueryBodyA_fst _ _ (fun h1 b q1 => ih h1 b q1)]
        | tInterfaceEx x =>
          simp only
          cases localQueryInterfaceF (fuel + 1) h p iid (some q) with
          | none => rfl
          | some y =>
            obtain ⟨h1, q1, r⟩ := y
            cases r with
            | some z => rfl
            | none =>
              cases o.bus with
              | none => rfl
              | some b =>
                simp only
                by_cases hn : notSearched (some q) b = true
                · simp only [hn, if_true]
                  exact ih h1 b (some q)
                · simp only [hn, if_false, Bool.false_eq_true, Option.map_some']
        | tMultiInterfaceEx x =>
          simp only
          cases localQueryInterfaceF (fuel + 1) h p iid (some q) with
          | none => rfl
          | some y =>
            obtain ⟨h1, q1, r⟩ := y
            cases r with
            | some z => rfl
            | none =>
              cases o.bus with
              | none => rfl
              | some b =>
                simp only
                by_cases hn : notSearched (some q) b = true
                · simp only [hn, if_true]
                  exact ih h1 b (some q)
                · simp only [hn, if_false, Bool.false_eq_true, Option.map_some']

theorem connectA_fst (h : Heap) (self intf : Ptr) :
    (connectA h self intf).map Prod.fst = connect h self intf := by
  unfold connectA connect queryInterface
  cases getLevel h self with
  | none => rfl
  | some level =>
    simp only
    rw [← queryInterfaceA_fst]
    cases queryInterfaceA (h.size + 3) h intf IID_IBUS none with
    | none => rfl
    | some x =>
      obtain ⟨⟨h1, q1, r⟩, a⟩ := x
      cases r with
      | none => rfl
      | some bus =>
        simp only [Option.map_some']
        cases getLevel h1 bus with
        | none => rfl
        | some l =>
          simp only
          by_cases hle : l ≤ level
          · simp only [hle, if_true, Option.map_some']
          · simp only [hle, if_false]
            rw [unref, ← unrefA_fst]
            cases unrefA (h1.size + 1) h1 bus with
            | none => rfl
            | some y => rfl

theorem disconnectA_fst (h : Heap) (self intf : Ptr) :
    (disconnectA h self intf).map Prod.fst = disconnect h self intf := by
  unfold disconnectA disconnect
  cases hg : h.get self with
  | none => rfl
  | some o =>
    obtain ⟨c, n, b⟩ := o
    cases c with
    | tInterfaceEx x => rfl
    | tMultiInterfaceEx x => rfl
    | implIBus l is bs =>
      simp only
      by_cases h1 : intf ∈ is
      · simp only [h1, if_true]
        rw [unref, ← unrefA_fst]
      · simp only [h1, if_false]
        by_cases h2 : intf ∈ bs
        · simp only [h2, if_true]
          rw [unref, ← unrefA_fst]
        · simp only [h2, if_false, Option.map_some']

/-! ### The number of recorded references -/

theorem members_of_size_le {h : Heap} {P : Ptr} (hP : h.size ≤ P) : h.members P = [] := by
  rw [members_eq]
  cases hg : h.get P with
  | none => rfl
  | some o => exact absurd (Heap.get_lt hg) (Nat.not_lt.2 hP)

theorem occ_congr {h h' : Heap} {Z : List Ptr} {x : Ptr} (hs : h'.size = h.size)
    (hm : ∀ P, P ∉ Z → (h'.members P).count x = (h.members P).count x) :
    occ h' Z x = occ h Z x := by
  unfold occ
  rw [hs]
  apply Finset.sum_congr rfl
  intro P hP
  exact hm P (Finset.mem_filter.1 hP).2

theorem occ_cons (h : Heap) (Z : List Ptr) (p x : Ptr) :
    occ h Z x = occ h (p :: Z) x + (if p ∈ Z then 0 else (h.members p).count x) := by
  unfold occ
  by_cases hZ : p ∈ Z
  · simp only [hZ, if_true, add_zero]
    apply Finset.sum_congr _ (fun _ _ => rfl)
    ext P
    simp only [Finset.mem_filter, Finset.mem_range, List.mem_cons, not_or]
    constructor
    · rintro ⟨h1, h2⟩
      exact ⟨h1, fun e => h2 (e ▸ hZ), h2⟩
    · rintro ⟨h1, _, h2⟩
      exact ⟨h1, h2⟩
  · simp only [hZ, if_false]
    by_cases hp : p < h.size
    · have hmem : p ∈ (Finset.range h.size).filter (fun P => P ∉ Z) := by
        simp [hp, hZ]
      rw [← Finset.add_sum_erase _ _ hmem, add_comm]
      congr 1
      apply Finset.sum_congr _ (fun _ _ => rfl)
      ext P
      simp only [Finset.mem_erase, Finset.mem_filter, Finset.mem_range, List.mem_cons, not_or]
      tauto
    · rw [members_of_size_le (Nat.not_lt.1 hp)]
      simp only [List.count_nil, add_zero]
      apply Finset.sum_congr _ (fun _ _ => rfl)
      ext P
      simp only [Finset.mem_filter, Finset.mem_range, List.mem_cons, not_or]
      constructor
      · rintro ⟨h1, h2⟩
        exact ⟨h1, fun e => hp (e ▸ h1), h2⟩
      · rintro ⟨h1, _, h2⟩
        exact ⟨h1, h2⟩

theorem members_free (h : Heap) (p P : Ptr) :
    (h.free p).members P = if P = p then [] else h.members P := by
  rw [members_eq, Heap.get_free]
  by_cases hP : P = p
  · simp [hP]
  · simp only [hP, if_false]
    rw [members_eq]

theorem occ_free (h : Heap) (Z : List Ptr) (p x : Ptr) :
    occ (h.free p) Z x = occ h (p :: Z) x := by
  rw [occ_cons (h.free p) Z p x]
  have : (if p ∈ Z then 0 else ((h.free p).members p).count x) = 0 := by
    rw [members_free]
    simp
  rw [this, add_zero]
  apply occ_congr (by simp)
  intro P hP
  rw [members_free]
  have : P ≠ p := fun e => hP (by simp [e])
  simp [this]

theorem occ_modify_cons (h : Heap) (Z : List Ptr) (p x : Ptr) (f : Obj → Obj) :
    occ (h.modify p f) (p :: Z) x = occ h (p :: Z) x := by
  apply occ_congr (by simp)
  intro P hP
  have : P ≠ p := fun e => hP (by simp [e])
  rw [members_modify]
  simp [this]

theorem occ_modify_same (h : Heap) (Z : List Ptr) (p x : Ptr) (f : Obj → Obj)
    (hf : ∀ o, (f o).cls = o.cls) : occ (h.modify p f) Z x = occ h Z x := by
  apply occ_congr (by simp)
  intro P _
  rw [members_modify_same h p P f hf]

theorem bump_drop (e : Ptr → Nat) (p : Ptr) : drop (bump e p) p = e := by
  funext x
  unfold drop bump
  by_cases hx : x = p
  · simp [hx]
  · simp [hx]

/-! ### The counts along a cascade of releases -/

/-- The decrement of the count of an object to which an outside reference is
held. -/
theorem Counted.decrement {h : Heap} {Z : List Ptr} {e d : Ptr → Nat} (hC : Counted h Z e d)
    {p : Ptr} (hp : 1 ≤ e p) :
    Counted (h.modify p (fun o => { o with count := o.count - 1 })) Z (drop e p) d := by
  have hocc : ∀ x, occ (h.modify p (fun o => { o with count := o.count - 1 })) Z x = occ h Z x :=
    fun x => occ_modify_same h Z p x _ (fun _ => rfl)
  refine ⟨?_, ?_, ?_⟩
  · intro x o hg
    rw [hocc]
    rw [Heap.get_modify] at hg
    by_cases hx : x = p
    · subst hx
      simp only [if_true] at hg
      cases hg0 : h.get x with
      | none => simp [hg0] at hg
      | some o0 =>
        simp only [hg0, Option.map_some', Option.some.injEq] at hg
        subst hg
        have := hC.count x o0 hg0
        simp only [drop, if_true]
        omega
    · simp only [hx, if_false] at hg
      have := hC.count x o hg
      simp only [drop, hx, if_false]
      exact this
  · intro x o hg hb
    rw [hocc]
    rw [Heap.get_modify] at hg
    by_cases hx : x = p
    · subst hx
      simp only [if_true] at hg
      cases hg0 : h.get x with
      | none => simp [hg0] at hg
      | some o0 =>
        simp only [hg0, Option.map_some', Option.some.injEq] at hg
        subst hg
        exact hC.hosted x o0 hg0 hb
    · simp only [hx, if_false] at hg
      exact hC.hosted x o hg hb
  · intro z hz o hg
    rw [Heap.get_modify] at hg
    by_cases hx : z = p
    · subst hx
      simp only [if_true] at hg
      cases hg0 : h.get z with
      | none => simp [hg0] at hg
      | some o0 =>
        have h1 := hC.count z o0 hg0
        have h2 := hC.zombie z hz o0 hg0
        omega
    · simp only [hx, if_false] at hg
      exact hC.zombie z hz o hg

/-- Clearing the back-reference of a member that is about to be released: its
entry becomes an outside reference. -/
theorem Counted.clear {h : Heap} {Z : List Ptr} {e d : Ptr → Nat} {m : Ptr} {ms : List Ptr}
    (hC : Counted h Z e (plus d (m :: ms))) :
    Counted (setBus h m none) Z (bump e m) (plus d ms) := by
  have hocc : ∀ x, occ (setBus h m none) Z x = occ h Z x :=
    fun x => occ_modify_same h Z m x _ (fun _ => rfl)
  have hget : ∀ x o, (setBus h m none).get x = some o →
      ∃ o0, h.get x = some o0 ∧ o.count = o0.count ∧ (x ≠ m → o.bus = o0.bus) ∧
        (x = m → o.bus = none) := by
    intro x o hg
    rw [setBus, Heap.get_modify] at hg
    by_cases hx : x = m
    · subst hx
      simp only [if_true] at hg
      cases hg0 : h.get x with
      | none => simp [hg0] at hg
      | some o0 =>
        simp only [hg0, Option.map_some', Option.some.injEq] at hg
        subst hg
        exact ⟨o0, rfl, rfl, fun hne => absurd rfl hne, fun _ => rfl⟩
    · simp only [hx, if_false] at hg
      exact ⟨o, hg, rfl, fun _ => rfl, fun e => absurd e hx⟩
  refine ⟨?_, ?_, ?_⟩
  · intro x o hg
    obtain ⟨o0, hg0, hc, _, _⟩ := hget x o hg
    rw [hocc, hc]
    have := hC.count x o0 hg0
    simp only [plus, bump, List.count_cons] at this ⊢
    by_cases hx : x = m
    · subst hx
      simp only [if_true, beq_self_eq_true] at this ⊢
      push_cast at this ⊢
      omega
    · have hmx : (m == x) = false := by simpa using fun e => hx e.symm
      simp only [hx, if_false, hmx, Bool.false_eq_true] at this ⊢
      push_cast at this ⊢
      omega
  · intro x o hg hb
    obtain ⟨o0, hg0, _, hne, heq⟩ := hget x o hg
    rw [hocc]
    by_cases hx : x = m
    · exact absurd (heq hx) hb
    · have := hC.hosted x o0 hg0 (by rw [← hne hx]; exact hb)
      have hmx : (m == x) = false := by simpa using fun e => hx e.symm
      simpa [plus, List.count_cons, hmx] using this
  · intro z hz o hg
    obtain ⟨o0, hg0, hc, _, _⟩ := hget z o hg
    rw [hc]
    exact hC.zombie z hz o0 hg0

/-- The destructor loop, for a release that keeps the counts and meets every
assertion. -/
theorem releaseMembersA_counted (rec : Heap → Ptr → Option (Heap × Bool))
    (hrec : ∀ h p Z e d h' a, Counted h Z e d → 1 ≤ e p → rec h p = some (h', a) →
      a = true ∧ Counted h' Z (drop e p) d) :
    ∀ (L : List Ptr) (h : Heap) (Z : List Ptr) (e d : Ptr → Nat) (h' : Heap) (a : Bool),
      Counted h Z e (plus d L) → releaseMembersA rec L h = some (h', a) →
      a = true ∧ Counted h' Z e d := by
  intro L
  induction L with
  | nil =>
    intro h Z e d h' a hC hr
    simp only [releaseMembersA, Option.some.injEq, Prod.mk.injEq] at hr
    obtain ⟨rfl, rfl⟩ := hr
    refine ⟨rfl, ?_⟩
    have : plus d [] = d := by funext x; simp [plus]
    rw [this] at hC
    exact hC
  | cons m ms ih =>
    intro h Z e d h' a hC hr
    rw [releaseMembersA] at hr
    cases h1e : rec (setBus h m none) m with
    | none => simp [h1e] at hr
    | some y =>
      obtain ⟨h1, a1⟩ := y
      simp only [h1e] at hr
      cases h2e : releaseMembersA rec ms h1 with
      | none => simp [h2e] at hr
      | some y2 =>
        obtain ⟨h2, a2⟩ := y2
        simp only [h2e, Option.some.injEq, Prod.mk.injEq] at hr
        obtain ⟨rfl, rfl⟩ := hr
        obtain ⟨ha1, hC1⟩ := hrec _ m Z _ _ h1 a1 hC.clear (by simp [bump]) h1e
        rw [bump_drop] at hC1
        obtain ⟨ha2, hC2⟩ := ih h1 Z e d h2 a2 hC1 h2e
        exact ⟨by simp [ha1, ha2], hC2⟩

theorem count_reverse_append (is bs : List Ptr) (x : Ptr) :
    (is.reverse ++ bs.reverse).count x = (is ++ bs).count x := by
  simp [List.count_append, List.count_reverse]

/-- Freeing an object that is excluded from the recorded references. -/
theorem Counted.release_cell {h : Heap} {Z : List Ptr} {e d : Ptr → Nat} {p : Ptr}
    (hC : Counted h (p :: Z) e d) : Counted (h.free p) Z e d := by
  refine ⟨?_, ?_, ?_⟩
  · intro x o hg
    rw [Heap.get_free] at hg
    by_cases hx : x = p
    · simp [hx] at hg
    · simp only [hx, if_false] at hg
      rw [occ_free]
      exact hC.count x o hg
  · intro x o hg hb
    rw [Heap.get_free] at hg
    by_cases hx : x = p
    · simp [hx] at hg
    · simp only [hx, if_false] at hg
      rw [occ_free]
      exact hC.hosted x o hg hb
  · intro z hz o hg
    rw [Heap.get_free] at hg
    by_cases hx : z = p
    · simp [hx] at hg
    · simp only [hx, if_false] at hg
      exact hC.zombie z (by simp [hz]) o hg

/-- The start of the destructor of a bus whose count is 0: its entries become
entries still to be released. -/
theorem Counted.enter {h : Heap} {Z : List Ptr} {e d : Ptr → Nat} {p : Ptr} {o : Obj}
    (hC : Counted h Z e d) (hg : h.get p = some o) (hc : o.count = 0) (hZ : p ∉ Z)
    (L : List Ptr) (hL : ∀ x, L.count x = (h.members p).count x) :
    Counted h (p :: Z) e (plus d L) := by
  have hocc : ∀ x, occ h Z x = occ h (p :: Z) x + L.count x := by
    intro x
    rw [occ_cons h Z p x, hL]
    simp [hZ]
  refine ⟨?_, ?_, ?_⟩
  · intro x ox hgx
    have := hC.count x ox hgx
    rw [hocc] at this
    simp only [plus]
    push_cast at this ⊢
    omega
  · intro x ox hgx hb
    have := hC.hosted x ox hgx hb
    rw [hocc] at this
    simp only [plus]
    omega
  · intro z hz oz hgz
    rcases List.mem_cons.1 hz with rfl | hz
    · rw [hg] at hgz
      simp only [Option.some.injEq] at hgz
      subst hgz
      exact hc
    · exact hC.zombie z hz oz hgz

/-- A release of an outside reference keeps the counts, and every destructor of
a bus that it runs finds the back-reference of the bus cleared. -/
theorem unrefA_counted : ∀ (fuel : Nat) (h : Heap) (p : Ptr) (Z : List Ptr) (e d : Ptr → Nat)
    (h' : Heap) (a : Bool), Counted h Z e d → 1 ≤ e p → unrefA fuel h p = some (h', a) →
    a = true ∧ Counted h' Z (drop e p) d := by
  intro fuel
  induction fuel with
  | zero => intro h p Z e d h' a _ _ hu; simp [unrefA] at hu
  | succ fuel ih =>
    intro h p Z e d h' a hC hp hu
    rw [unrefA] at hu
    cases hg : h.get p with
    | none =>
      simp only [hg, Option.some.injEq, Prod.mk.injEq] at hu
      obtain ⟨rfl, rfl⟩ := hu
      refine ⟨rfl, ⟨?_, hC.hosted, hC.zombie⟩⟩
      intro x o hgx
      have hx : x ≠ p := fun e => by rw [e, hg] at hgx; simp at hgx
      simpa [drop, hx] using hC.count x o hgx
    | some o =>
      simp only [hg] at hu
      have hC1 := hC.decrement hp
      have hg1 : (h.modify p (fun o => { o with count := o.count - 1 })).get p
          = some { o with count := o.count - 1 } := by
        simp [Heap.get_modify, hg]
      by_cases hc : o.count - 1 = 0
      · simp only [hc, if_true] at hu
        have hpZ : p ∉ Z := by
          intro hz
          have := hC.zombie p hz o hg
          omega
        have hk := hC1.count p _ hg1
        simp only [hc] at hk
        have hbus : o.bus = none := by
          by_contra hb
          have := hC1.hosted p _ hg1 hb
          omega
        cases hcls : o.cls with
        | implIBus level intfs buses =>
          simp only [hcls] at hu
          cases hr : releaseMembersA (unrefA fuel) (intfs.reverse ++ buses.reverse)
              (h.modify p (fun o => { o with count := o.count - 1 })) with
          | none => simp [hr] at hu
          | some y =>
            obtain ⟨h2, a2⟩ := y
            simp only [hr, Option.some.injEq, Prod.mk.injEq] at hu
            obtain ⟨rfl, rfl⟩ := hu
            have hmem : ∀ x, (intfs.reverse ++ buses.reverse).count x
                = ((h.modify p (fun o => { o with count := o.count - 1 })).members p).count x := by
              intro x
              rw [count_reverse_append, members_eq, hg1]
              simp [hcls, Cls.members]
            have hC2 := hC1.enter hg1 hc hpZ _ hmem
            obtain ⟨ha, hC3⟩ := releaseMembersA_counted (unrefA fuel) ih _ _ _ _ _ _ _ hC2 hr
            exact ⟨by simp [hbus, ha], hC3.release_cell⟩
        | tInterfaceEx y =>
          simp only [hcls, Option.some.injEq, Prod.mk.injEq] at hu
          obtain ⟨rfl, rfl⟩ := hu
          refine ⟨rfl, Counted.release_cell ?_⟩
          have := hC1.enter hg1 hc hpZ [] (fun x => by
            rw [members_eq, hg1]
            simp [hcls, Cls.members])
          have e0 : plus d [] = d := by funext x; simp [plus]
          rw [e0] at this
          exact this
        | tMultiInterfaceEx y =>
          simp only [hcls, Option.some.injEq, Prod.mk.injEq] at hu
          obtain ⟨rfl, rfl⟩ := hu
          refine ⟨rfl, Counted.release_cell ?_⟩
          have := hC1.enter hg1 hc hpZ [] (fun x => by
            rw [members_eq, hg1]
            simp [hcls, Cls.members])
          have e0 : plus d [] = d := by funext x; simp [plus]
          rw [e0] at this
          exact this
      · simp only [hc, if_false, Option.some.injEq, Prod.mk.injEq] at hu
        obtain ⟨rfl, rfl⟩ := hu
        exact ⟨rfl, hC1⟩

/-! ### The assertions during a query -/

theorem unrefStateA_of_ne (h : Heap) (st : QState) (hc : st.count - 1 ≠ 0) :
    unrefStateA h st = some ((h, { st with count := st.count - 1 }), true) := by
  simp [unrefStateA, hc]

/-- A query that works with a state it does not own runs no destructor. -/
theorem simA_query (h : Heap) (iid : TIntfId) :
    ∀ (fuel : Nat) (l : List Ptr) (p : Ptr) (q : QState), 1 ≤ q.count →
      queryInterfaceA fuel (refAll h l) p iid (some q)
        = (pQuery fuel h iid p q.buses).map (fun x => (lift h l q x, true)) := by
  intro fuel
  induction fuel with
  | zero => intro l p q _; simp [queryInterfaceA, pQuery]
  | succ fuel ih =>
    intro l p q hq
    rw [queryInterfaceA, pQuery, get_refAll]
    cases hg : h.get p with
    | none => simp [lift]
    | some o =>
      simp only [Option.map_some']
      cases hc : o.cls with
      | implIBus level intfs buses =>
        simp only [busQueryBodyA]
        have h1 := sim_local h iid (fuel + 1) l p { q with count := q.count + 1 }
        simp only at h1
        rw [h1]
        cases hs : pLocal (fuel + 1) h iid p q.buses with
        | none => simp [releaseStateA]
        | some x =>
          obtain ⟨m, r⟩ := x
          have hne : q.count + 1 - 1 ≠ 0 := by omega
          cases r with
          | some r =>
            simp only [Option.map_some', lift, Option.toList_some, releaseStateA]
            rw [unrefStateA_of_ne _ _ (by simpa using hne)]
            simp
          | none =>
            simp only [Option.map_some', lift, Option.toList_none, List.append_nil]
            cases hb : o.bus with
            | none =>
              simp only [releaseStateA]
              rw [unrefStateA_of_ne _ _ (by simpa using hne)]
              simp [lift]
            | some b =>
              simp only [isBusSearched]
              by_cases hv : b ∈ q.buses ++ m
              · simp only [hv, decide_True, Bool.not_true, Bool.false_eq_true, if_false, if_true,
                  releaseStateA]
                rw [unrefStateA_of_ne _ _ (by simpa using hne)]
                simp [lift]
              · simp only [hv, decide_False, Bool.not_false, if_true, if_false]
                have h2 := ih (l ++ m) b { q with count := q.count + 1, buses := q.buses ++ m }
                  (by simp; omega)
                simp only at h2
                rw [h2]
                cases pQuery fuel h iid b (q.buses ++ m) with
                | none => simp [releaseStateA]
                | some y =>
                  simp only [Option.map_some', lift, releaseStateA]
                  rw [unrefStateA_of_ne _ _ (by simpa using hne)]
                  simp [List.append_assoc]
      | tInterfaceEx x =>
        have h1 := sim_local h iid (fuel + 1) l p q
        rw [h1, pLocal, hg]
        simp only [hc]
        by_cases ha : (Cls.tInterfaceEx x).answers iid = true
        · simp [ha, lift]
        · simp only [ha, Bool.false_eq_true, if_false, Option.map_some', lift]
          cases hb : o.bus with
          | none => simp [lift]
          | some b =>
            simp only [notSearched, isBusSearched, Option.toList_none, List.append_nil]
            by_cases hv : b ∈ q.buses
            · simp [hv, lift]
            · simp only [hv, decide_False, Bool.not_false, if_true, if_false]
              exact ih l b q hq
      | tMultiInterfaceEx x =>
        have h1 := sim_local h iid (fuel + 1) l p q
        rw [h1, pLocal, hg]
        simp only [hc]
        by_cases ha : (Cls.tMultiInterfaceEx x).answers iid = true
        · simp [ha, lift]
        · simp only [ha, Bool.false_eq_true, if_false, Option.map_some', lift]
          cases hb : o.bus with
          | none => simp [lift]
          | some b =>
            simp only [notSearched, isBusSearched, Option.toList_none, List.append_nil]
            by_cases hv : b ∈ q.buses
            · simp [hv, lift]
            · simp only [hv, decide_False, Bool.not_false, if_true, if_false]
              exact ih l b q hq

/-- A query without state on a bus: the traversal, then the release of every
marked bus, in which alone destructors run. -/
theorem queryA_none_bus (h : Heap) (iid : TIntfId) (fuel : Nat) (p : Ptr) (o : Obj)
    (hg : h.get p = some o) (level : Int) (intfs buses : List Ptr)
    (hc : o.cls = .implIBus level intfs buses) :
    queryInterfaceA (fuel + 1) h p iid none
      = (pQuery (fuel + 1) h iid p []).bind (fun x =>
          (unrefAllA x.1 (refAll h (x.1 ++ x.2.toList))).map
            (fun y => ((y.1, some ⟨0, x.1, true⟩, x.2), y.2))) := by
  rw [queryInterfaceA, pQuery, hg]
  simp only [hc, busQueryBodyA]
  have h1 := sim_local h iid (fuel + 1) [] p ⟨1, [], false⟩
  simp only [refAll_nil] at h1
  rw [h1]
  cases hs : pLocal (fuel + 1) h iid p [] with
  | none => simp [releaseStateA]
  | some x =>
    obtain ⟨m, r⟩ := x
    cases r with
    | some r =>
      simp only [Option.map_some', lift, releaseStateA, unrefStateA, List.nil_append]
      cases hU : unrefAllA m (refAll h (m ++ [r])) <;> simp [hU]
    | none =>
      simp only [Option.map_some', lift, Option.toList_none, List.append_nil, List.nil_append]
      cases hb : o.bus with
      | none =>
        simp only [releaseStateA, unrefStateA]
        cases hU : unrefAllA m (refAll h m) <;> simp [hU]
      | some b =>
        simp only [isBusSearched]
        by_cases hv : b ∈ m
        · simp only [hv, decide_True, Bool.not_true, Bool.false_eq_true, if_false, if_true,
            releaseStateA, unrefStateA]
          cases hU : unrefAllA m (refAll h m) <;> simp [hU]
        · simp only [hv, decide_False, Bool.not_false, if_true, if_false]
          have h2 := simA_query h iid fuel m b ⟨1, m, false⟩ (by simp)
          simp only at h2
          rw [h2]
          cases pQuery fuel h iid b m with
          | none => simp [releaseStateA]
          | some y =>
            simp only [Option.map_some', lift, releaseStateA, unrefStateA, Option.bind_some]
            cases hU : unrefAllA (m ++ y.1) (refAll h (m ++ (y.1 ++ y.2.toList))) <;> simp [hU]

/-- A query without state on a leaf: the leaf answers itself or hands the query
to its bus. -/
theorem queryA_none_leaf (h : Heap) (iid : TIntfId) (fuel : Nat) (p : Ptr) (o : Obj)
    (hg : h.get p = some o) (hl : h.isLeaf p = true) :
    queryInterfaceA (fuel + 1) h p iid none
      = if o.cls.answers iid then some ((ref h p, none, some p), true)
        else match o.bus with
          | some b => queryInterfaceA fuel h b iid none
          | none => some ((h, none, none), true) := by
  rw [queryInterfaceA, hg]
  obtain ⟨c, n, b⟩ := o
  cases c with
  | implIBus level intfs buses => simp [Heap.isLeaf, hg] at hl
  | tInterfaceEx x =>
    simp only [localQueryInterfaceF, hg]
    by_cases ha : (Cls.tInterfaceEx x).answers iid = true
    · simp [ha]
    · cases b <;> simp [ha, notSearched]
  | tMultiInterfaceEx x =>
    simp only [localQueryInterfaceF, hg]
    by_cases ha : (Cls.tMultiInterfaceEx x).answers iid = true
    · simp [ha]
    · cases b <;> simp [ha, notSearched]

theorem queryA_dead {h : Heap} {p : Ptr} (hd : h.get p = none) (iid : TIntfId) (fuel : Nat) :
    queryInterfaceA (fuel + 1) h p iid none = some ((h, none, none), true) := by
  rw [queryInterfaceA, hd]

/-! ### The counts along the operations -/

theorem plus_nil (e : Ptr → Nat) : plus e [] = e := by
  funext x
  simp [plus]

theorem plus_cons (e : Ptr → Nat) (a : Ptr) (L : List Ptr) :
    plus e (a :: L) = plus (bump e a) L := by
  funext x
  unfold plus bump
  by_cases hx : x = a
  · subst hx
    simp only [if_true, List.count_cons_self]
    omega
  · have : (a == x) = false := by simpa using fun e => hx e.symm
    simp [hx, List.count_cons, this]

theorem plus_append (e : Ptr → Nat) (L M : List Ptr) :
    plus e (L ++ M) = plus (plus e M) L := by
  funext x
  simp only [plus, List.count_append]
  omega

theorem drop_plus_cons (e : Ptr → Nat) (a : Ptr) (L : List Ptr) :
    drop (plus e (a :: L)) a = plus e L := by
  rw [plus_cons]
  funext x
  unfold drop plus bump
  by_cases hx : x = a
  · subst hx
    simp only [if_true]
    omega
  · simp [hx]

theorem Counted.hold {h : Heap} {e d : Ptr → Nat} (hC : Counted h [] e d)
    (p : Ptr) : Counted (ref h p) [] (bump e p) d := by
  have hocc : ∀ x, occ (ref h p) [] x = occ h [] x :=
    fun x => occ_modify_same h [] p x _ (fun _ => rfl)
  refine ⟨?_, ?_, fun z hz => by simp at hz⟩
  · intro x o hg
    rw [hocc]
    rw [get_ref] at hg
    by_cases hx : x = p
    · subst hx
      simp only [if_true] at hg
      cases hg0 : h.get x with
      | none => simp [hg0] at hg
      | some o0 =>
        simp only [hg0, Option.map_some', Option.some.injEq] at hg
        subst hg
        have := hC.count x o0 hg0
        simp only [bump, if_true]
        push_cast
        omega
    · simp only [hx, if_false] at hg
      simpa [bump, hx] using hC.count x o hg
  · intro x o hg hb
    rw [hocc]
    rw [get_ref] at hg
    by_cases hx : x = p
    · subst hx
      simp only [if_true] at hg
      cases hg0 : h.get x with
      | none => simp [hg0] at hg
      | some o0 =>
        simp only [hg0, Option.map_some', Option.some.injEq] at hg
        subst hg
        exact hC.hosted x o0 hg0 hb
    · simp only [hx, if_false] at hg
      exact hC.hosted x o hg hb

theorem Counted.holdAll (L : List Ptr) : ∀ {h : Heap} {e d : Ptr → Nat},
    Counted h [] e d → Counted (refAll h L) [] (plus e L) d := by
  induction L with
  | nil =>
    intro h e d hC
    rw [plus_nil]
    exact hC
  | cons a L ih =>
    intro h e d hC
    have : refAll h (a :: L) = refAll (ref h a) L := rfl
    rw [this, plus_cons]
    exact ih (hC.hold a)

theorem unrefAllA_counted : ∀ (l : List Ptr) (h : Heap) (Z : List Ptr) (e d : Ptr → Nat)
    (h' : Heap) (a : Bool), Counted h Z (plus e l) d → unrefAllA l h = some (h', a) →
    a = true ∧ Counted h' Z e d := by
  intro l
  induction l with
  | nil =>
    intro h Z e d h' a hC hu
    simp only [unrefAllA, Option.some.injEq, Prod.mk.injEq] at hu
    obtain ⟨rfl, rfl⟩ := hu
    rw [plus_nil] at hC
    exact ⟨rfl, hC⟩
  | cons b l ih =>
    intro h Z e d h' a hC hu
    rw [unrefAllA] at hu
    cases h1e : unrefA (h.size + 1) h b with
    | none => simp [h1e] at hu
    | some y =>
      obtain ⟨h1, a1⟩ := y
      simp only [h1e] at hu
      cases h2e : unrefAllA l h1 with
      | none => simp [h2e] at hu
      | some y2 =>
        obtain ⟨h2, a2⟩ := y2
        simp only [h2e, Option.some.injEq, Prod.mk.injEq] at hu
        obtain ⟨rfl, rfl⟩ := hu
        obtain ⟨ha1, hC1⟩ := unrefA_counted _ h b Z _ d h1 a1 hC
          (by simp only [plus, List.count_cons_self]; omega) h1e
        rw [drop_plus_cons] at hC1
        obtain ⟨ha2, hC2⟩ := ih h1 Z e d h2 a2 hC1 h2e
        exact ⟨by simp [ha1, ha2], hC2⟩

theorem queryA_bus_counted {h : Heap} {e d : Ptr → Nat} (hC : Counted h [] e d) {p : Ptr}
    (hb : h.isBus p = true) {iid : TIntfId} {fuel : Nat} {h' : Heap} {q : Option QState}
    {r : Option Ptr} {a : Bool}
    (hq : queryInterfaceA (fuel + 1) h p iid none = some ((h', q, r), a)) :
    a = true ∧ Counted h' [] (plus e r.toList) d := by
  obtain ⟨o, l, is, bs, hg, hc⟩ := Heap.isBus_iff.1 hb
  rw [queryA_none_bus h iid fuel p o hg l is bs hc] at hq
  cases hp : pQuery (fuel + 1) h iid p [] with
  | none => simp [hp] at hq
  | some x =>
    obtain ⟨m, r1⟩ := x
    rw [hp] at hq
    simp only [Option.some_bind] at hq
    cases hu : unrefAllA m (refAll h (m ++ r1.toList)) with
    | none => rw [hu] at hq; simp at hq
    | some y =>
      obtain ⟨h2, a2⟩ := y
      rw [hu] at hq
      simp only [Option.map_some', Option.some.injEq, Prod.mk.injEq] at hq
      obtain ⟨⟨rfl, _, rfl⟩, rfl⟩ := hq
      have hC1 := hC.holdAll (m ++ r1.toList)
      rw [plus_append] at hC1
      exact unrefAllA_counted m _ [] _ d _ _ hC1 hu

theorem plus_singleton (e : Ptr → Nat) (p : Ptr) : plus e [p] = bump e p := by
  rw [plus_cons, plus_nil]

/-- A query without state keeps the counts, the returned reference being held
from outside, and every destructor it runs meets its assertion. -/
theorem queryA_counted {h : Heap} (ht : h.Typed) {e d : Ptr → Nat} (hC : Counted h [] e d)
    {p : Ptr} {iid : TIntfId} {h' : Heap} {q : Option QState} {r : Option Ptr} {a : Bool}
    (hq : queryInterfaceA (h.size + 3) h p iid none = some ((h', q, r), a)) :
    a = true ∧ Counted h' [] (plus e r.toList) d := by
  rcases live_cases h p with hd | hb | hl
  · rw [queryA_dead hd] at hq
    simp only [Option.some.injEq, Prod.mk.injEq] at hq
    obtain ⟨⟨rfl, _, rfl⟩, rfl⟩ := hq
    exact ⟨rfl, by simpa [plus_nil] using hC⟩
  · exact queryA_bus_counted hC hb hq
  · obtain ⟨o, hg, _⟩ := Heap.isLeaf_iff.1 hl
    rw [queryA_none_leaf h iid (h.size + 2) p o hg hl] at hq
    by_cases ha : o.cls.answers iid = true
    · simp only [ha, if_true, Option.some.injEq, Prod.mk.injEq] at hq
      obtain ⟨⟨rfl, _, rfl⟩, rfl⟩ := hq
      refine ⟨rfl, ?_⟩
      simp only [Option.toList_some, plus_singleton]
      exact hC.hold p
    · simp only [ha, if_false, Bool.false_eq_true] at hq
      cases hob : o.bus with
      | none =>
        simp only [hob, Option.some.injEq, Prod.mk.injEq] at hq
        obtain ⟨⟨rfl, _, rfl⟩, rfl⟩ := hq
        exact ⟨rfl, by simpa [plus_nil] using hC⟩
      | some b =>
        simp only [hob] at hq
        rcases live_cases h b with hd | hbb | hbl
        · rw [queryA_dead hd] at hq
          simp only [Option.some.injEq, Prod.mk.injEq] at hq
          obtain ⟨⟨rfl, _, rfl⟩, rfl⟩ := hq
          exact ⟨rfl, by simpa [plus_nil] using hC⟩
        · exact queryA_bus_counted hC hbb hq
        · rw [ht.bus hg hob] at hbl
          simp at hbl

/-- The recorded references after a change of the vectors of the bus `self`. -/
theorem occ_relist {h : Heap} {self : Ptr} {os : Obj} (hs : h.get self = some os)
    (f : Obj → Obj) (y : Ptr) :
    occ (h.modify self f) [] y + os.cls.members.count y
      = occ h [] y + (f os).cls.members.count y := by
  rw [occ_cons (h.modify self f) [] self y, occ_cons h [] self y, occ_modify_cons]
  simp only [List.not_mem_nil, if_false]
  rw [members_modify, members_eq h self]
  simp only [if_true, hs]
  omega

theorem occ_setBus (h : Heap) (Z : List Ptr) (x : Ptr) (b : Option Ptr) (y : Ptr) :
    occ (setBus h x b) Z y = occ h Z y :=
  occ_modify_same h Z x y _ (fun _ => rfl)

theorem occ_ref (h : Heap) (Z : List Ptr) (x y : Ptr) : occ (ref h x) Z y = occ h Z y :=
  occ_modify_same h Z x y _ (fun _ => rfl)

/-- Recording `x` in a vector of the bus `self` after taking a reference to it,
and setting its back-reference. -/
theorem Counted.attach {h : Heap} {e d : Ptr → Nat} (hC : Counted h [] e d) {self x : Ptr}
    {os : Obj} (hs : h.get self = some os) (f : Obj → Obj)
    (hf : ∀ o, (f o).bus = o.bus ∧ (f o).count = o.count)
    (hm : ∀ o, o.cls = os.cls → ∀ y,
      (f o).cls.members.count y = o.cls.members.count y + (if y = x then 1 else 0)) :
    Counted (setBus ((ref h x).modify self f) x (some self)) [] e d := by
  have hs1 : ∃ o1, (ref h x).get self = some o1 ∧ o1.cls = os.cls := by
    rw [get_ref]
    by_cases hx : self = x
    · subst hx
      simp [hs]
    · simp [hx, hs]
  obtain ⟨o1, hg1, hc1⟩ := hs1
  have hocc : ∀ y, occ (setBus ((ref h x).modify self f) x (some self)) [] y
      = occ h [] y + (if y = x then 1 else 0) := by
    intro y
    have := occ_relist hg1 f y
    rw [hm o1 hc1 y, occ_ref] at this
    rw [occ_setBus]
    omega
  have hget : ∀ y o3, (setBus ((ref h x).modify self f) x (some self)).get y = some o3 →
      ∃ o, h.get y = some o ∧ o3.count = o.count + (if y = x then 1 else 0) ∧
        (y ≠ x → o3.bus = o.bus) := by
    intro y o3 hg3
    simp only [setBus, Heap.get_modify, get_ref] at hg3
    cases hgy : h.get y with
    | none =>
      exfalso
      by_cases hyx : y = x
      · subst hyx
        by_cases hys : y = self
        · subst hys
          simp [hgy] at hs
        · simp [hys, hgy] at hg3
      · by_cases hys : y = self
        · subst hys
          simp [hgy] at hs
        · simp [hyx, hys, hgy] at hg3
    | some o =>
      refine ⟨o, rfl, ?_⟩
      by_cases hyx : y = x
      · subst hyx
        by_cases hys : y = self
        · subst hys
          simp only [if_true, hgy, Option.map_some', Option.some.injEq] at hg3
          subst hg3
          simp [(hf _).2]
        · simp only [if_true, hys, if_false, hgy, Option.map_some', Option.some.injEq] at hg3
          subst hg3
          simp
      · by_cases hys : y = self
        · subst hys
          have hxy : ¬ (x = y) := fun e => hyx e.symm
          simp only [hyx, if_false, if_true, hgy, Option.map_some', Option.some.injEq] at hg3
          subst hg3
          simp [(hf _).1, (hf _).2, hyx]
        · simp only [hyx, hys, if_false, hgy, Option.some.injEq] at hg3
          subst hg3
          simp [hyx]
  refine ⟨?_, ?_, fun z hz => by simp at hz⟩
  · intro y o3 hg3
    obtain ⟨o, hgo, hc, _⟩ := hget y o3 hg3
    have := hC.count y o hgo
    rw [hocc, hc]
    by_cases hyx : y = x
    · simp only [hyx, if_true] at this ⊢
      push_cast
      omega
    · simp only [hyx, if_false] at this ⊢
      push_cast
      omega
  · intro y o3 hg3 hb
    obtain ⟨o, hgo, _, hbus⟩ := hget y o3 hg3
    rw [hocc]
    by_cases hyx : y = x
    · simp only [hyx, if_true]
      omega
    · have := hC.hosted y o hgo (by rw [← hbus hyx]; exact hb)
      simp only [hyx, if_false]
      omega

/-- Erasing `X` from a vector of the bus `self` and clearing its back-reference:
the erased entry becomes an outside reference. -/
theorem Counted.detach {h : Heap} {e d : Ptr → Nat} (hC : Counted h [] e d) {self X : Ptr}
    {os : Obj} (hs : h.get self = some os) (f : Obj → Obj)
    (hf : ∀ o, (f o).bus = o.bus ∧ (f o).count = o.count)
    (hm : ∀ y, (f os).cls.members.count y + (if y = X then 1 else 0)
      = os.cls.members.count y) :
    Counted (setBus (h.modify self f) X none) [] (bump e X) d := by
  have hocc : ∀ y, occ (setBus (h.modify self f) X none) [] y + (if y = X then 1 else 0)
      = occ h [] y := by
    intro y
    have := occ_relist hs f y
    have := hm y
    rw [occ_setBus]
    omega
  have hget : ∀ y o3, (setBus (h.modify self f) X none).get y = some o3 →
      ∃ o, h.get y = some o ∧ o3.count = o.count ∧ (y ≠ X → o3.bus = o.bus) ∧
        (y = X → o3.bus = none) := by
    intro y o3 hg3
    simp only [setBus, Heap.get_modify] at hg3
    cases hgy : h.get y with
    | none =>
      exfalso
      by_cases hyx : y = X
      · subst hyx
        by_cases hys : y = self
        · subst hys
          simp [hgy] at hs
        · simp [hys, hgy] at hg3
      · by_cases hys : y = self
        · subst hys
          simp [hgy] at hs
        · simp [hyx, hys, hgy] at hg3
    | some o =>
      refine ⟨o, rfl, ?_⟩
      by_cases hyx : y = X
      · subst hyx
        by_cases hys : y = self
        · subst hys
          simp only [if_true, hgy, Option.map_some', Option.some.injEq] at hg3
          subst hg3
          simp [(hf _).2]
        · simp only [if_true, hys, if_false, hgy, Option.map_some', Option.some.injEq] at hg3
          subst hg3
          simp
      · by_cases hys : y = self
        · subst hys
          simp only [hyx, if_false, if_true, hgy, Option.map_some', Option.some.injEq] at hg3
          subst hg3
          simp [(hf _).1, (hf _).2, hyx]
        · simp only [hyx, hys, if_false, hgy, Option.some.injEq] at hg3
          subst hg3
          simp [hyx]
  refine ⟨?_, ?_, fun z hz => by simp at hz⟩
  · intro y o3 hg3
    obtain ⟨o, hgo, hc, _⟩ := hget y o3 hg3
    have h1 := hC.count y o hgo
    have h2 := hocc y
    rw [hc]
    by_cases hyx : y = X
    · simp only [hyx, if_true, bump] at h1 h2 ⊢
      push_cast
      omega
    · simp only [hyx, if_false, bump, add_zero] at h1 h2 ⊢
      omega
  · intro y o3 hg3 hb
    obtain ⟨o, hgo, _, hbus, hnone⟩ := hget y o3 hg3
    by_cases hyx : y = X
    · exact absurd (hnone hyx) hb
    · have h1 := hC.hosted y o hgo (by rw [← hbus hyx]; exact hb)
      have h2 := hocc y
      simp only [hyx, if_false, add_zero] at h2
      omega

theorem Obj.relist_fields (o : Obj) (m : Ptr) :
    ((o.pushIntf m).bus = o.bus ∧ (o.pushIntf m).count = o.count) ∧
    ((o.pushBus m).bus = o.bus ∧ (o.pushBus m).count = o.count) ∧
    ((o.eraseIntf m).bus = o.bus ∧ (o.eraseIntf m).count = o.count) ∧
    ((o.eraseBus m).bus = o.bus ∧ (o.eraseBus m).count = o.count) := by
  unfold Obj.pushIntf Obj.pushBus Obj.eraseIntf Obj.eraseBus
  cases o.cls <;> exact ⟨⟨rfl, rfl⟩, ⟨rfl, rfl⟩, ⟨rfl, rfl⟩, ⟨rfl, rfl⟩⟩

theorem count_push (o : Obj) {l : Int} {is bs : List Ptr} (hc : o.cls = .implIBus l is bs)
    (m y : Ptr) :
    (o.pushIntf m).cls.members.count y = o.cls.members.count y + (if y = m then 1 else 0) ∧
    (o.pushBus m).cls.members.count y = o.cls.members.count y + (if y = m then 1 else 0) := by
  unfold Obj.pushIntf Obj.pushBus
  simp only [hc, Cls.members, List.count_append, List.count_cons, List.count_nil]
  by_cases hy : y = m
  · subst hy
    simp
    omega
  · have : (m == y) = false := by simpa using fun e => hy e.symm
    simp [hy, this]

theorem count_erase_add (L : List Ptr) (X y : Ptr) (hX : X ∈ L) :
    (L.erase X).count y + (if y = X then 1 else 0) = L.count y := by
  rw [List.count_erase]
  by_cases hy : y = X
  · subst hy
    have := List.count_pos_iff.2 hX
    simp
    omega
  · have : (X == y) = false := by simpa using fun e => hy e.symm
    simp [hy, this]

theorem connectA_counted {h : Heap} (ht : h.Typed) {e d : Ptr → Nat} (hC : Counted h [] e d)
    {self intf : Ptr} {h' : Heap} {ok a : Bool}
    (hc : connectA h self intf = some ((h', ok), a)) :
    a = true ∧ Counted h' [] e d := by
  unfold connectA at hc
  cases hl : getLevel h self with
  | none => simp [hl] at hc
  | some level =>
    obtain ⟨os, is, bs, hs, hcls⟩ := getLevel_eq_some.1 hl
    simp only [hl] at hc
    cases hq : queryInterfaceA (h.size + 3) h intf IID_IBUS none with
    | none => simp [hq] at hc
    | some res =>
      obtain ⟨⟨h1, q, r⟩, a1⟩ := res
      have ha1 := (queryA_counted ht hC hq).1
      have hfst : queryInterface h intf IID_IBUS none = some (h1, q, r) := by
        unfold queryInterface
        rw [← queryInterfaceA_fst, hq]
        rfl
      simp only [hq] at hc
      rcases probe_cases ht intf with hp | ⟨b, q', hp, _⟩
      · rw [hp] at hfst
        simp only [Option.some.injEq, Prod.mk.injEq] at hfst
        obtain ⟨rfl, _, rfl⟩ := hfst
        simp only [Option.some.injEq, Prod.mk.injEq] at hc
        obtain ⟨⟨rfl, _⟩, rfl⟩ := hc
        refine ⟨ha1, ?_⟩
        exact hC.attach hs _ (fun o => (o.relist_fields intf).1)
          (fun o ho y => (count_push o (ho.trans hcls) intf y).1)
      · rw [hp] at hfst
        simp only [Option.some.injEq, Prod.mk.injEq] at hfst
        obtain ⟨rfl, _, rfl⟩ := hfst
        simp only at hc
        cases hlb : getLevel (ref h b) b with
        | none => simp [hlb] at hc
        | some lb =>
          simp only [hlb] at hc
          by_cases hle : lb ≤ level
          · simp only [hle, if_true, Option.some.injEq, Prod.mk.injEq] at hc
            obtain ⟨⟨rfl, _⟩, rfl⟩ := hc
            refine ⟨ha1, ?_⟩
            exact hC.attach hs _ (fun o => (o.relist_fields b).2.1)
              (fun o ho y => (count_push o (ho.trans hcls) b y).2)
          · simp only [hle, if_false] at hc
            have hsz : (ref h b).size = h.size := by simp [ref]
            rw [hsz] at hc
            cases hu : unrefA (h.size + 1) (ref h b) b with
            | none => simp [hu] at hc
            | some y =>
              obtain ⟨h2, a2⟩ := y
              simp only [hu, Option.some.injEq, Prod.mk.injEq] at hc
              obtain ⟨⟨rfl, _⟩, rfl⟩ := hc
              obtain ⟨ha2, hC2⟩ := unrefA_counted _ _ b [] _ d h2 a2 (hC.hold b)
                (by simp [bump]) hu
              rw [bump_drop] at hC2
              exact ⟨by simp [ha1, ha2], hC2⟩

theorem disconnectA_counted {h : Heap} {e d : Ptr → Nat} (hC : Counted h [] e d)
    {self X : Ptr} {h' : Heap} {a : Bool} (hd : disconnectA h self X = some (h', a)) :
    a = true ∧ Counted h' [] e d := by
  unfold disconnectA at hd
  cases hs : h.get self with
  | none => simp [hs] at hd
  | some o =>
    obtain ⟨c, n, b⟩ := o
    cases c with
    | tInterfaceEx x => simp [hs] at hd
    | tMultiInterfaceEx x => simp [hs] at hd
    | implIBus l is bs =>
      simp only [hs] at hd
      by_cases h1 : X ∈ is
      · simp only [h1, if_true] at hd
        have hC1 : Counted (setBus (h.modify self (fun o => o.eraseIntf X)) X none) []
            (bump e X) d :=
          hC.detach hs (fun o => o.eraseIntf X) (fun o => (o.relist_fields X).2.2.1)
          (fun y => by
            simp only [Obj.eraseIntf, Cls.members, List.count_append]
            have := count_erase_add is X y h1
            omega)
        obtain ⟨ha, hC2⟩ := unrefA_counted _ _ X [] _ d h' a hC1 (by simp [bump]) hd
        rw [bump_drop] at hC2
        exact ⟨ha, hC2⟩
      · simp only [h1, if_false] at hd
        by_cases h2 : X ∈ bs
        · simp only [h2, if_true] at hd
          have hC1 : Counted (setBus (h.modify self (fun o => o.eraseBus X)) X none) []
              (bump e X) d :=
            hC.detach hs (fun o => o.eraseBus X) (fun o => (o.relist_fields X).2.2.2)
            (fun y => by
              simp only [Obj.eraseBus, Cls.members, List.count_append]
              have := count_erase_add bs X y h2
              omega)
          obtain ⟨ha, hC2⟩ := unrefA_counted _ _ X [] _ d h' a hC1 (by simp [bump]) hd
          rw [bump_drop] at hC2
          exact ⟨ha, hC2⟩
        · simp only [h2, if_false, Option.some.injEq, Prod.mk.injEq] at hd
          obtain ⟨rfl, rfl⟩ := hd
          exact ⟨rfl, hC⟩

/-! ### Runs of a client -/

theorem Heap.New.fresh {h : Heap} (hn : h.New) : h.Fresh := by
  unfold Heap.New at hn
  unfold Heap.Fresh
  rw [List.all_eq_true] at hn ⊢
  intro c hc
  have := hn c hc
  cases c with
  | none => rfl
  | some o =>
    simp only [Bool.and_eq_true] at this ⊢
    exact ⟨this.1.2, this.2⟩

theorem Heap.New.counted {h : Heap} (hn : h.New) :
    Counted h [] (fun _ => 0) (fun _ => 0) := by
  have hcell : ∀ x o, h.get x = some o → o.count = 0 ∧ o.bus = none ∧ o.cls.members = [] := by
    intro x o hg
    unfold Heap.New at hn
    rw [List.all_eq_true] at hn
    have := hn _ (Heap.get_mem hg)
    simp only [Bool.and_eq_true, decide_eq_true_eq, Option.isNone_iff_eq_none] at this
    refine ⟨this.1.1, this.1.2, ?_⟩
    obtain ⟨c, n, b⟩ := o
    cases c with
    | tInterfaceEx y => rfl
    | tMultiInterfaceEx y => rfl
    | implIBus l is bs =>
      simp only [Bool.and_eq_true, List.isEmpty_iff] at this
      simp [Cls.members, this.2.1, this.2.2]
  have hocc : ∀ x, occ h [] x = 0 := by
    intro x
    unfold occ
    apply Finset.sum_eq_zero
    intro P _
    rw [members_eq]
    cases hg : h.get P with
    | none => rfl
    | some o => simp [(hcell P o hg).2.2]
  refine ⟨?_, ?_, fun z hz => by simp at hz⟩
  · intro x o hg
    rw [hocc, (hcell x o hg).1]
    simp
  · intro x o hg hb
    exact absurd (hcell x o hg).2.1 hb

/-- Every operation of a client keeps the static types and the counts, and the
destructors it runs meet their assertion. -/
theorem step_counted {s s' : Heap × List Ptr} {a : Bool} (ht : s.1.Typed)
    (hC : Counted s.1 [] (fun x => s.2.count x) (fun _ => 0)) (hs : Step s a s') :
    a = true ∧ s'.1.Typed ∧ Counted s'.1 [] (fun x => s'.2.count x) (fun _ => 0) := by
  cases hs with
  | connect h held self intf h' ok a hc =>
    have hfst : connect h self intf = some (h', ok) := by
      rw [← connectA_fst, hc]
      rfl
    obtain ⟨ha, hC'⟩ := connectA_counted ht hC hc
    exact ⟨ha, (connect_evolves ht hfst).preserves_typed ht, hC'⟩
  | disconnect h held self intf h' a hd =>
    have hfst : disconnect h self intf = some h' := by
      rw [← disconnectA_fst, hd]
      rfl
    obtain ⟨ha, hC'⟩ := disconnectA_counted hC hd
    exact ⟨ha, (disconnect_evolves hfst).preserves_typed ht, hC'⟩
  | query h held p iid h' q r a hq =>
    have hfst : queryInterface h p iid none = some (h', q, r) := by
      unfold queryInterface
      rw [← queryInterfaceA_fst, hq]
      rfl
    obtain ⟨ha, hC'⟩ := queryA_counted ht hC hq
    refine ⟨ha, (query_evolves ht hfst).preserves_typed ht, ?_⟩
    have : plus (fun x => held.count x) r.toList = fun x => (r.toList ++ held).count x := by
      funext x
      simp only [plus, List.count_append]
      omega
    rw [this] at hC'
    exact hC'
  | hold h held p hp =>
    refine ⟨rfl, (evolves_refAll h [p]).preserves_typed ht, ?_⟩
    have := hC.hold p
    have e1 : bump (fun x => held.count x) p = fun x => (p :: held).count x := by
      funext x
      unfold bump
      by_cases hx : x = p
      · subst hx
        simp
      · have : (p == x) = false := by simpa using fun e => hx e.symm
        simp [hx, List.count_cons, this]
    rw [e1] at this
    exact this
  | release h held p h' a hp hu =>
    have hfst : unref h p = some h' := by
      unfold unref
      rw [← unrefA_fst, hu]
      rfl
    obtain ⟨ha, hC'⟩ := unrefA_counted _ h p [] _ _ h' a hC
      (List.count_pos_iff.2 hp) hu
    refine ⟨ha, (unref_shrinks hfst).evolves.preserves_typed ht, ?_⟩
    have e1 : drop (fun x => held.count x) p = fun x => (held.erase p).count x := by
      funext x
      unfold drop
      rw [List.count_erase]
      by_cases hx : x = p
      · subst hx
        simp
      · have : (p == x) = false := by simpa using fun e => hx e.symm
        simp [hx, this]
    rw [e1] at hC'
    exact hC'

theorem run_counted {h0 : Heap} (hn : h0.New) {s : Heap × List Ptr} (hr : Run (h0, []) s) :
    s.1.Typed ∧ Counted s.1 [] (fun x => s.2.count x) (fun _ => 0) := by
  induction hr with
  | start => exact ⟨hn.fresh.is_typed, by simpa using hn.counted⟩
  | step s s' a _ hs ih => exact (step_counted ih.1 ih.2 hs).2

/-! ## Lemmas on runs of a client and on streams -/

/-! ### The back-reference invariant over runs of a client -/

theorem ref_eq_refAll (h : Heap) (p : Ptr) : ref h p = refAll h [p] := rfl

theorem query_backref {h : Heap} (ht : h.Typed) (hj : h.BackRef) {p : Ptr} {iid : TIntfId}
    {h1 : Heap} {q : Option QState} {r : Option Ptr}
    (hq : queryInterface h p iid none = some (h1, q, r)) : h1.BackRef := by
  obtain ⟨m, r', q', h', hq', hu, _⟩ := query_spec h ht iid (h.size + 2) (le_refl _) p
  unfold queryInterface at hq
  rw [hq'] at hq
  simp only [Option.some.injEq, Prod.mk.injEq] at hq
  obtain ⟨rfl, _, _⟩ := hq
  exact unrefAll_backref _ _ _ hu (Heap.BackRef.addRefs _ hj)

theorem Lives.typed_backRef {h0 h : Heap} (hf : h0.Fresh) (hr : Lives h0 h) :
    h.Typed ∧ h.BackRef := by
  induction hr with
  | start => exact ⟨hf.is_typed, hf.no_backRef⟩
  | connect h h' self intf ok _ hc ih =>
    exact ⟨(connect_evolves ih.1 hc).preserves_typed ih.1, connect_backref ih.1 ih.2 hc⟩
  | disconnect h h' self intf _ hd ih =>
    exact ⟨(disconnect_evolves hd).preserves_typed ih.1, disconnect_backref ih.2 hd⟩
  | query h h' p iid q r _ hq ih =>
    exact ⟨(query_evolves ih.1 hq).preserves_typed ih.1, query_backref ih.1 ih.2 hq⟩
  | ref h p _ ih =>
    exact ⟨(ref_eq_refAll h p ▸ evolves_refAll h [p]).preserves_typed ih.1, ih.2.addRef p⟩
  | unref h h' p _ hu ih =>
    exact ⟨(unref_shrinks hu).evolves.preserves_typed ih.1, unref_backref hu ih.2⟩

/-! ### Conversions and the invariant of `memory_base` -/

theorem toU32_lt (x : Int) : toU32 x < 4294967296 := by
  unfold toU32; omega

theorem toU32_natCast {n : Nat} (h : n < 4294967296) : toU32 n = n := by
  unfold toU32; omega

theorem toU32_toI32 (x : Int) : toU32 (toI32 x) = toU32 x := by
  unfold toI32 toU32; split <;> omega

theorem toI32_of_lt {x : Int} (h0 : 0 ≤ x) (h : x < 2147483648) : toI32 x = x := by
  unfold toI32 toU32; split <;> omega

theorem memory_base.seek_valid {s : memory_base} (hv : s.Valid) (offset : Int) (tag : seek_tag) :
    (s.seek offset tag).1.Valid ∧ (s.seek offset tag).1.totalSize = s.totalSize := by
  unfold memory_base.Valid at hv ⊢
  unfold memory_base.seek memory_base.updateMaxPos
  dsimp only
  split_ifs <;> dsimp only <;> exact ⟨by omega, rfl⟩

theorem memory_base.seek_begin_pos {s : memory_base} (hv : s.Valid) {p : Nat}
    (hp : p ≤ s.totalSize) : (s.seek (toI32 p) .seek_begin).1.pos = p := by
  unfold memory_base.Valid at hv
  have e : toU32 (toI32 (p : Int)) = p := by rw [toU32_toI32]; exact toU32_natCast (by omega)
  unfold memory_base.seek memory_base.updateMaxPos
  dsimp only
  rw [e]
  split_ifs <;> dsimp only <;> omega

theorem memory_sink.store_valid {s : memory_base} {buf : Buffer} {len : Int} {newPos : Nat}
    {s' : memory_base} {ret : Int} (hv : s.maxPos ≤ s.totalSize ∧ s.totalSize < 4294967296)
    (hn : newPos ≤ s.totalSize) (hw : memory_sink.store s buf len newPos = some (s', ret)) :
    s'.Valid ∧ s'.totalSize = s.totalSize := by
  unfold memory_sink.store at hw
  split at hw
  · simp at hw
  · simp only [Option.some.injEq, Prod.mk.injEq] at hw
    obtain ⟨rfl, _⟩ := hw
    unfold memory_base.Valid memory_base.updateMaxPos
    dsimp only
    split_ifs <;> dsimp only <;> exact ⟨by omega, rfl⟩

theorem memory_sink.write_valid {s : memory_base} (hv : s.Valid) {buf : Buffer} {len : Int}
    {s' : memory_base} {ret : Int} (hw : memory_sink.write s buf len = some (s', ret)) :
    s'.Valid ∧ s.totalSize ≤ s'.totalSize := by
  unfold memory_base.Valid at hv
  unfold memory_sink.write at hw
  dsimp only at hw
  have h1 := toU32_lt (s.pos + len)
  have h2 := toU32_lt (2 * s.totalSize)
  by_cases hgt : toU32 (s.pos + len) > s.totalSize
  · rw [if_pos hgt] at hw
    generalize hN : (if toU32 (2 * (s.totalSize : Int)) < toU32 (s.pos + len)
      then toU32 (s.pos + len) else toU32 (2 * s.totalSize)) = N at hw
    have hN1 : toU32 (s.pos + len) ≤ N ∧ N < 4294967296 := by
      rw [← hN]; split_ifs <;> omega
    by_cases hle : N ≤ s.limit
    · rw [if_pos hle] at hw
      have := memory_sink.store_valid (s := { s with totalSize := N }) ⟨by dsimp only; omega, hN1.2⟩
        hN1.1 hw
      exact ⟨this.1, by rw [this.2]; dsimp only; omega⟩
    · rw [if_neg hle] at hw
      simp only [Option.some.injEq, Prod.mk.injEq] at hw
      obtain ⟨rfl, _⟩ := hw
      exact ⟨hv, le_refl _⟩
  · rw [if_neg hgt] at hw
    have := memory_sink.store_valid ⟨hv.2.1, hv.2.2⟩ (by omega) hw
    exact ⟨this.1, by rw [this.2]⟩

theorem memory_source.read_valid {s : memory_base} (hv : s.Valid) {buf : Buffer} {len : Int}
    {s' : memory_base} {ret : Int} {buf' : Buffer}
    (hr : memory_source.read s buf len = some (s', ret, buf')) :
    s'.Valid ∧ s'.totalSize = s.totalSize := by
  unfold memory_base.Valid at hv
  unfold memory_source.read at hr
  dsimp only at hr
  generalize hn : (if len > toI32 ((s.maxPos : Int) - s.pos) then toI32 ((s.maxPos : Int) - s.pos)
    else len) = n at hr
  have hnle : n > 0 → n ≤ (s.maxPos : Int) - s.pos := by
    intro hpos
    rw [← hn] at hpos ⊢
    unfold toI32 toU32 at hpos ⊢
    split_ifs at hpos ⊢ <;> omega
  by_cases hpos : n > 0
  · rw [if_pos hpos] at hr
    split_ifs at hr
    simp only [Option.some.injEq, Prod.mk.injEq] at hr
    obtain ⟨rfl, _, _⟩ := hr
    have := hnle hpos
    unfold memory_base.Valid toU32
    dsimp only
    exact ⟨by omega, rfl⟩
  · rw [if_neg hpos] at hr
    simp only [Option.some.injEq, Prod.mk.injEq] at hr
    obtain ⟨rfl, _, _⟩ := hr
    exact ⟨hv, rfl⟩

/-! ### Streams under `write`, `read`, `seek` and `pos_lock` -/

theorem Stream.Extends.itself (s : Stream) : Stream.Extends s s := by
  cases s <;> exact ⟨rfl, le_refl _, trivial⟩

theorem Stream.Extends.chain {a b c : Stream} (h1 : Stream.Extends a b)
    (h2 : Stream.Extends b c) : Stream.Extends a c := by
  obtain ⟨e1, r1, k1⟩ := h1
  obtain ⟨e2, r2, k2⟩ := h2
  refine ⟨e2.trans e1, le_trans r1 r2, ?_⟩
  cases a <;> cases b <;> cases c <;> trivial

theorem Stream.write_keeps {s s' : Stream} {buf : Buffer} {len ret : Int} (hv : s.Valid)
    (hw : s.write buf len = some (s', ret)) : s'.Valid ∧ Stream.Extends s s' := by
  cases s with
  | writer w =>
    simp only [Stream.write, memory_writer.write, Option.map_map, Option.map_eq_some',
      Function.comp, Prod.mk.injEq] at hw
    obtain ⟨⟨b, r⟩, hb, rfl, _⟩ := hw
    have := memory_sink.write_valid hv hb
    exact ⟨this.1, rfl, this.2, trivial⟩
  | reader r =>
    simp only [Stream.write, memory_reader.write, Option.some.injEq, Prod.mk.injEq] at hw
    obtain ⟨rfl, _⟩ := hw
    exact ⟨hv, Stream.Extends.itself _⟩
  | dummy d =>
    simp only [Stream.write, dummy_writer.write, Option.some.injEq, Prod.mk.injEq] at hw
    obtain ⟨rfl, _⟩ := hw
    exact ⟨toU32_lt _, rfl, le_refl _, trivial⟩

theorem Stream.read_keeps {s s' : Stream} {buf buf' : Buffer} {len ret : Int} (hv : s.Valid)
    (hr : s.read buf len = some (s', ret, buf')) : s'.Valid ∧ Stream.Extends s s' := by
  cases s with
  | writer w =>
    simp only [Stream.read, memory_writer.read, Option.some.injEq, Prod.mk.injEq] at hr
    obtain ⟨rfl, _⟩ := hr
    exact ⟨hv, Stream.Extends.itself _⟩
  | reader r =>
    simp only [Stream.read, memory_reader.read, Option.map_map, Option.map_eq_some',
      Function.comp, Prod.mk.injEq] at hr
    obtain ⟨⟨b, r1, b1⟩, hb, rfl, _⟩ := hr
    have := memory_source.read_valid hv hb
    exact ⟨this.1, rfl, le_of_eq this.2.symm, trivial⟩
  | dummy d =>
    simp only [Stream.read, dummy_writer.read, Option.some.injEq, Prod.mk.injEq] at hr
    obtain ⟨rfl, _⟩ := hr
    exact ⟨hv, Stream.Extends.itself _⟩

theorem Stream.seek_keeps {s : Stream} (hv : s.Valid) (offset : Int) (tag : seek_tag) :
    (s.seek offset tag).1.Valid ∧ Stream.Extends s (s.seek offset tag).1 := by
  cases s with
  | writer w =>
    have := memory_base.seek_valid hv offset tag
    exact ⟨this.1, rfl, le_of_eq this.2.symm, trivial⟩
  | reader r =>
    have := memory_base.seek_valid hv offset tag
    exact ⟨this.1, rfl, le_of_eq this.2.symm, trivial⟩
  | dummy d =>
    refine ⟨?_, rfl, le_refl _, trivial⟩
    simp only [Stream.seek, dummy_writer.seek, Stream.Valid]
    cases tag <;> exact toU32_lt _

theorem Stream.perform_keeps : ∀ (ops : List StreamOp) {s s' : Stream}, s.Valid →
    Stream.perform ops s = some s' → s'.Valid ∧ Stream.Extends s s' := by
  intro ops
  induction ops with
  | nil =>
    intro s s' hv hp
    simp only [Stream.perform, Option.some.injEq] at hp
    subst hp
    exact ⟨hv, Stream.Extends.itself _⟩
  | cons op ops ih =>
    intro s s' hv hp
    cases op with
    | write buf len =>
      simp only [Stream.perform] at hp
      cases hw : s.write buf len with
      | none => simp [hw] at hp
      | some x =>
        obtain ⟨s1, ret⟩ := x
        simp only [hw] at hp
        have h1 := Stream.write_keeps hv hw
        have h2 := ih h1.1 hp
        exact ⟨h2.1, h1.2.chain h2.2⟩
    | read buf len =>
      simp only [Stream.perform] at hp
      cases hr : s.read buf len with
      | none => simp [hr] at hp
      | some x =>
        obtain ⟨s1, ret, b1⟩ := x
        simp only [hr] at hp
        have h1 := Stream.read_keeps hv hr
        have h2 := ih h1.1 hp
        exact ⟨h2.1, h1.2.chain h2.2⟩
    | seek offset tag =>
      simp only [Stream.perform] at hp
      have h1 := Stream.seek_keeps hv offset tag
      have h2 := ih h1.1 hp
      exact ⟨h2.1, h1.2.chain h2.2⟩

theorem Stream.pos_le_room {s : Stream} (hv : s.Valid) : s.pos ≤ s.room := by
  cases s with
  | writer w => exact le_trans hv.1 hv.2.1
  | reader r => exact le_trans hv.1 hv.2.1
  | dummy d =>
    simp only [Stream.Valid] at hv
    simp only [Stream.pos, Stream.room]
    omega

theorem Stream.seek_restores {s : Stream} (hv : s.Valid) {p : Nat} (hp : p ≤ s.room) :
    (s.seek (toI32 p) .seek_begin).1.pos = p := by
  cases s with
  | writer w =>
    simp only [Stream.seek, memory_writer.seek, Stream.pos, memory_writer.pos]
    exact memory_base.seek_begin_pos hv hp
  | reader r =>
    simp only [Stream.seek, memory_reader.seek, Stream.pos, memory_reader.pos]
    exact memory_base.seek_begin_pos hv hp
  | dummy d =>
    simp only [Stream.room] at hp
    simp only [Stream.seek, dummy_writer.seek, Stream.pos]
    rw [toU32_toI32]
    exact toU32_natCast (by omega)

theorem Stream.ref_facts (s : Stream) :
    s.ref.pos = s.pos ∧ s.ref.count = s.count + 1 ∧ s.ref.room = s.room ∧
      (s.Valid → s.ref.Valid) := by
  cases s <;> exact ⟨rfl, rfl, rfl, id⟩

theorem Stream.unref_facts {s : Stream} (hc : s.count - 1 ≠ 0) :
    ∃ s', s.unref = some s' ∧ s'.pos = s.pos ∧ s'.count = s.count - 1 ∧ (s.Valid → s'.Valid) := by
  unfold Stream.unref
  rw [if_neg hc]
  cases s <;> exact ⟨_, rfl, rfl, rfl, id⟩

theorem created_valid :
    (∀ limit junk, (Stream.writer (memory_writer.create limit junk)).Valid) ∧
    (∀ limit ptr len lc r, memory_reader.create limit ptr len lc = some r →
      (Stream.reader r).Valid) ∧
    (Stream.dummy dummy_writer.create).Valid := by
  refine ⟨?_, ?_, by show (0 : Nat) < 4294967296; omega⟩
  · intro limit junk
    simp only [Stream.Valid, memory_base.Valid, memory_writer.create, memory_base.ofSize]
    split_ifs <;> omega
  · intro limit ptr len lc r hr
    have h0 : toU32 0 = 0 := by decide
    have hl := toU32_lt len
    unfold memory_reader.create at hr
    split_ifs at hr <;> simp only [Option.some.injEq] at hr <;> subst hr <;>
      simp only [Stream.Valid, memory_base.Valid, memory_source.attach, memory_base.ofBlock, h0] <;>
      omega

/-! ### What `write` and `read` do on valid objects -/

theorem memory_sink.store_spec {s : memory_base} (buf : Buffer) {len : Int} (newPos : Nat)
    (h0 : 0 ≤ len) (hb : len ≤ buf.size) (hfit : s.pos + len ≤ s.totalSize) :
    ∃ s', memory_sink.store s buf len newPos = some (s', len) ∧ s'.pos = newPos ∧
      s'.maxPos = max s.maxPos newPos ∧ s'.limit = s.limit ∧ s'.totalSize = s.totalSize ∧
      ∀ i, s'.mem i
        = if s.pos ≤ i ∧ (i : Int) < s.pos + len then buf.byte (i - s.pos) else s.mem i := by
  unfold memory_sink.store
  rw [if_neg (by omega)]
  unfold memory_base.updateMaxPos
  dsimp only
  split_ifs with h
  · exact ⟨_, rfl, rfl, by dsimp only; omega, rfl, rfl, fun i => rfl⟩
  · exact ⟨_, rfl, rfl, by dsimp only; omega, rfl, rfl, fun i => rfl⟩

theorem memory_sink.write_spec {s : memory_base} (hv : s.Valid) (buf : Buffer) (len : Int)
    (h0 : 0 ≤ len) (hb : len ≤ buf.size) (hlt : s.pos + len < 4294967296)
    (hl : s.pos + len ≤ s.totalSize ∨
      (toU32 (2 * s.totalSize) ≤ s.limit ∧ s.pos + len ≤ s.limit)) :
    ∃ s', memory_sink.write s buf len = some (s', len) ∧ (s'.pos : Int) = s.pos + len ∧
      s'.maxPos = max s.maxPos s'.pos ∧ s'.limit = s.limit ∧ s'.Valid ∧
      s.totalSize ≤ s'.totalSize ∧ (s.pos + len ≤ s.totalSize → s'.totalSize = s.totalSize) ∧
      ∀ i, s'.mem i
        = if s.pos ≤ i ∧ (i : Int) < s.pos + len then buf.byte (i - s.pos) else s.mem i := by
  unfold memory_base.Valid at hv
  have hnp : (toU32 (s.pos + len) : Int) = s.pos + len := by unfold toU32; omega
  have h2 := toU32_lt (2 * s.totalSize)
  unfold memory_sink.write
  dsimp only
  by_cases hgt : toU32 (s.pos + len) > s.totalSize
  · rw [if_pos hgt]
    generalize hN : (if toU32 (2 * (s.totalSize : Int)) < toU32 (s.pos + len)
      then toU32 (s.pos + len) else toU32 (2 * s.totalSize)) = N
    have hN1 : toU32 (s.pos + len) ≤ N ∧ N < 4294967296 ∧ N ≤ s.limit := by
      rw [← hN]; split_ifs <;> omega
    rw [if_pos hN1.2.2]
    obtain ⟨s', hs, hp, hm, hli, hts, hmem⟩ := memory_sink.store_spec
      (s := { s with totalSize := N }) buf (toU32 (s.pos + len)) h0 hb (by dsimp only; omega)
    dsimp only at hp hm hli hts hmem
    refine ⟨s', hs, by rw [hp]; exact hnp, by rw [hm, hp], hli, ?_, by omega, by omega, hmem⟩
    unfold memory_base.Valid
    omega
  · rw [if_neg hgt]
    obtain ⟨s', hs, hp, hm, hli, hts, hmem⟩ := memory_sink.store_spec
      (s := s) buf (toU32 (s.pos + len)) h0 hb (by omega)
    refine ⟨s', hs, by rw [hp]; exact hnp, by rw [hm, hp], hli, ?_, by omega, fun _ => hts, hmem⟩
    unfold memory_base.Valid
    omega

theorem memory_source.read_spec {s : memory_base} (hv : s.Valid) (buf : Buffer) (len : Int)
    (n : Nat) (hm : s.maxPos < 2147483648)
    (hn : (n : Int) = min len ((s.maxPos : Int) - s.pos)) (hpos : 0 < n) (hb : n ≤ buf.size) :
    ∃ (s' : memory_base) (buf' : Buffer),
      memory_source.read s buf len = some (s', (n : Int), buf') ∧ s'.pos = s.pos + n ∧
      s'.maxPos = s.maxPos ∧ s'.totalSize = s.totalSize ∧ s'.mem = s.mem ∧
      s'.limit = s.limit ∧ buf'.size = buf.size ∧
      (∀ i, i < n → buf'.byte i = s.mem (s.pos + i)) ∧ s'.Valid := by
  unfold memory_base.Valid at hv
  have hi : toI32 ((s.maxPos : Int) - s.pos) = (s.maxPos : Int) - s.pos :=
    toI32_of_lt (by omega) (by omega)
  unfold memory_source.read
  dsimp only
  rw [hi]
  have hn' : (if len > (s.maxPos : Int) - s.pos then (s.maxPos : Int) - s.pos else len) = n := by
    split_ifs <;> omega
  rw [hn', if_pos (by omega), if_neg (by omega)]
  have hp : toU32 ((s.pos : Int) + n) = s.pos + n := by unfold toU32; omega
  refine ⟨_, _, rfl, hp, rfl, rfl, rfl, rfl, rfl, fun i hi => ?_, ?_⟩
  · dsimp only
    rw [if_pos (by omega)]
  · unfold memory_base.Valid
    dsimp only
    omega

theorem memory_source.read_end {s : memory_base} (buf : Buffer) {len : Int}
    (he : s.maxPos = s.pos) : memory_source.read s buf len = some (s, -1, buf) := by
  have hi : toI32 ((s.maxPos : Int) - s.pos) = 0 := by
    rw [he, sub_self]; decide
  unfold memory_source.read
  dsimp only
  rw [hi]
  have : ¬ (if len > 0 then (0 : Int) else len) > 0 := by split_ifs <;> omega
  rw [if_neg this]

/-! ### `dummy_writer` against `memory_writer` -/

theorem totalLen_nonneg : ∀ (calls : List (Buffer × Int)),
    (∀ c ∈ calls, 0 ≤ c.2 ∧ c.2 ≤ (c.1.size : Int)) → 0 ≤ totalLen calls := by
  intro calls
  induction calls with
  | nil => intro _; exact le_refl _
  | cons c cs ih =>
    intro h
    obtain ⟨buf, len⟩ := c
    have h1 := (h (buf, len) (List.mem_cons_self _ _)).1
    have h2 := ih (fun c hc => h c (List.mem_cons_of_mem _ hc))
    simp only [totalLen]
    omega

theorem writes_agree : ∀ (calls : List (Buffer × Int)) (w : memory_writer) (d : dummy_writer),
    w.sink.Valid → 4294967295 ≤ w.sink.limit → d.pos = w.sink.pos → d.endPos = w.sink.maxPos →
    (∀ c ∈ calls, 0 ≤ c.2 ∧ c.2 ≤ (c.1.size : Int)) →
    w.sink.pos + totalLen calls < 4294967296 →
    ∃ w', memory_writer.writes calls w = some (w', (dummy_writer.writes calls d).2) ∧
      (dummy_writer.writes calls d).1.endPos = w'.sink.maxPos ∧
      (dummy_writer.writes calls d).1.pos = w'.sink.pos ∧
      (w'.sink.pos : Int) = w.sink.pos + totalLen calls ∧
      w'.sink.maxPos = max w.sink.maxPos w'.sink.pos ∧
      (dummy_writer.writes calls d).2.map Prod.fst = calls.map Prod.snd := by
  intro calls
  induction calls with
  | nil =>
    intro w d hv _ hp he _ _
    refine ⟨w, rfl, he, hp, by simp [totalLen], ?_, rfl⟩
    have := hv.1
    omega
  | cons c cs ih =>
    intro w d hv hlim hp he hlen htot
    obtain ⟨buf, len⟩ := c
    obtain ⟨h0, hb⟩ := hlen (buf, len) (List.mem_cons_self _ _)
    have hrest : ∀ c ∈ cs, 0 ≤ c.2 ∧ c.2 ≤ (c.1.size : Int) :=
      fun c hc => hlen c (List.mem_cons_of_mem _ hc)
    have hnn := totalLen_nonneg cs hrest
    simp only [totalLen] at htot
    have h2 := toU32_lt (2 * w.sink.totalSize)
    obtain ⟨s', hs, hpos, hmax, hli, hval, _, _, _⟩ := memory_sink.write_spec hv buf len h0 hb
      (by omega) (Or.inr ⟨by omega, by omega⟩)
    have hdp : toU32 ((d.pos : Int) + len) = s'.pos := by
      rw [hp]; unfold toU32; omega
    obtain ⟨w', hw', e1, e2, e3, e4, e5⟩ := ih ⟨w.count, s'⟩ (d.write buf len).1 hval
      (by rw [hli]; exact hlim) (by simp only [dummy_writer.write]; exact hdp)
      (by
        simp only [dummy_writer.write, hdp, he, hmax]
        split_ifs <;> omega)
      hrest (by dsimp only; omega)
    refine ⟨w', ?_, e1, e2, ?_, ?_, ?_⟩
    · simp only [memory_writer.writes, memory_writer.write, hs, Option.map_some', hw',
        dummy_writer.writes]
      simp only [dummy_writer.write, hdp, memory_writer.pos]
    · dsimp only at e3
      simp only [totalLen]
      omega
    · dsimp only at e3 e4
      rw [e4, hmax]
      omega
    · simp only [dummy_writer.writes, List.map_cons, e5]
      simp only [dummy_writer.write]

/-! ### Strings -/

theorem map_range_getD {f : Nat → Nat} {l : List Nat} (h : ∀ i, i < l.length → f i = l.getD i 0) :
    (List.range l.length).map f = l := by
  apply List.ext_getElem
  · simp
  · intro i h1 h2
    simp only [List.getElem_map, List.getElem_range]
    rw [h i h2, List.getD_eq_getElem _ _ h2]

theorem length_bytes16 (bigEndian : Bool) (v : Nat) : (bytes16 bigEndian v).length = 2 := by
  unfold bytes16; split <;> rfl

theorem value16_bytes16 (bigEndian : Bool) {v : Nat} (hv : v < 65536) :
    value16 bigEndian ((bytes16 bigEndian v).getD 0 0) ((bytes16 bigEndian v).getD 1 0) = v := by
  unfold value16 bytes16
  cases bigEndian <;> simp <;> omega

theorem Stream.writer_write {w : memory_writer} {buf : Buffer} {len : Int} {s' : memory_base}
    {ret : Int} (h : memory_sink.write w.sink buf len = some (s', ret)) :
    (Stream.writer w).write buf len = some (.writer ⟨w.count, s'⟩, ret) := by
  simp only [Stream.write, memory_writer.write, h, Option.map_some']

theorem Stream.reader_read {r : memory_reader} {buf buf' : Buffer} {len : Int}
    {s' : memory_base} {ret : Int} (h : memory_source.read r.src buf len = some (s', ret, buf')) :
    (Stream.reader r).read buf len = some (.reader ⟨r.count, s'⟩, ret, buf') := by
  simp only [Stream.read, memory_reader.read, h, Option.map_some']

theorem writeString_writer (bigEndian : Bool) (w : memory_writer) (t : List Nat)
    (hv : w.sink.Valid) (ht : t.length < 65536)
    (hfit : w.sink.pos + 2 ≤ w.sink.totalSize)
    (hlim : toU32 (2 * w.sink.totalSize) ≤ w.sink.limit ∧ w.sink.pos + 2 + t.length ≤ w.sink.limit)
    (hlt : w.sink.pos + 2 + t.length < 4294967296) :
    ∃ s', writeString bigEndian (.writer w) t = some (.writer ⟨w.count, s'⟩) ∧
      s'.pos = w.sink.pos + 2 + t.length ∧ s'.maxPos = max w.sink.maxPos s'.pos ∧ s'.Valid ∧
      s'.limit = w.sink.limit ∧
      (∀ i, i < 2 → s'.mem (w.sink.pos + i) = (bytes16 bigEndian t.length).getD i 0) ∧
      (∀ i, i < t.length → s'.mem (w.sink.pos + 2 + i) = t.getD i 0) ∧
      (∀ i, i < w.sink.pos → s'.mem i = w.sink.mem i) := by
  have hmod : t.length % 65536 = t.length := Nat.mod_eq_of_lt ht
  obtain ⟨s1, hs1, hp1, hm1, hl1, hv1, _, hts1, hmem1⟩ := memory_sink.write_spec hv
    (Buffer.ofList (bytes16 bigEndian t.length)) 2 (by omega)
    (by simp [Buffer.ofList, length_bytes16]) (by omega) (Or.inl (by omega))
  have hts1' := hts1 (by omega)
  unfold writeString writeU16
  simp only [hmod, Stream.writer_write hs1, Option.map_some']
  by_cases h0 : t.length = 0
  · simp only [h0, ne_eq, not_true_eq_false, if_false]
    refine ⟨s1, rfl, by omega, hm1, hv1, hl1, fun i hi => ?_, fun i hi => by omega, fun i hi => ?_⟩
    · rw [hmem1, if_pos ⟨by omega, by omega⟩, h0]
      simp [Buffer.ofList]
    · rw [hmem1, if_neg (by omega)]
  · simp only [ne_eq, h0, not_false_eq_true, if_true]
    obtain ⟨s2, hs2, hp2, hm2, hl2, hv2, _, _, hmem2⟩ := memory_sink.write_spec hv1
      (Buffer.ofList t) t.length (by omega) (by simp [Buffer.ofList]) (by omega)
      (Or.inr ⟨by rw [hts1', hl1]; exact hlim.1, by rw [hl1]; omega⟩)
    have := Stream.writer_write (w := ⟨w.count, s1⟩) hs2
    simp only [this, Option.map_some']
    refine ⟨s2, rfl, by omega, ?_, hv2, by rw [hl2, hl1], fun i hi => ?_, fun i hi => ?_,
      fun i hi => ?_⟩
    · rw [hm2, hm1]; omega
    · rw [hmem2, if_neg (by omega), hmem1, if_pos ⟨by omega, by omega⟩]
      simp [Buffer.ofList]
    · rw [hmem2, if_pos ⟨by omega, by omega⟩]
      have : w.sink.pos + 2 + i - s1.pos = i := by omega
      simp [Buffer.ofList, this]
    · rw [hmem2, if_neg (by omega), hmem1, if_neg (by omega)]

theorem readString_reader (bigEndian : Bool) (r : memory_reader) (t : List Nat)
    (hv : r.src.Valid) (ht : t.length < 65536) (hm : r.src.maxPos < 2147483648)
    (hfit : r.src.pos + 2 + t.length ≤ r.src.maxPos)
    (h16 : ∀ i, i < 2 → r.src.mem (r.src.pos + i) = (bytes16 bigEndian t.length).getD i 0)
    (hdata : ∀ i, i < t.length → r.src.mem (r.src.pos + 2 + i) = t.getD i 0) :
    ∃ s', readString bigEndian (.reader r) = some (.reader ⟨r.count, s'⟩, t) ∧
      s'.pos = r.src.pos + 2 + t.length ∧ s'.Valid := by
  obtain ⟨s1, b1, hr1, hp1, hm1, hts1, hmem1, _, _, hb1, hv1⟩ := memory_source.read_spec hv
    ⟨2, fun _ => 0⟩ 2 2 hm (by omega) (by omega) (le_refl _)
  have hval : value16 bigEndian (b1.byte 0) (b1.byte 1) = t.length := by
    rw [hb1 0 (by omega), hb1 1 (by omega), h16 0 (by omega), h16 1 (by omega)]
    exact value16_bytes16 bigEndian ht
  unfold readString readU16
  have e1 := Stream.reader_read hr1
  simp only [Nat.cast_ofNat] at e1
  simp only [e1, if_true, hval]
  by_cases h0 : t.length = 0
  · simp only [h0, ne_eq, not_true_eq_false, if_false]
    have : t = [] := List.length_eq_zero.1 h0
    exact ⟨s1, by rw [this], by omega, hv1⟩
  · simp only [ne_eq, h0, not_false_eq_true, if_true]
    obtain ⟨s2, b2, hr2, hp2, _, _, _, _, _, hb2, hv2⟩ := memory_source.read_spec hv1
      ⟨t.length, fun _ => 0⟩ t.length t.length (by omega) (by omega) (by omega)
      (le_refl _)
    have e2 := Stream.reader_read (r := ⟨r.count, s1⟩) hr2
    simp only [e2]
    refine ⟨s2, ?_, by omega, hv2⟩
    have : b2.toList t.length = t := by
      unfold Buffer.toList
      apply map_range_getD
      intro i hi
      rw [hb2 i hi, hmem1, hp1, hdata i hi]
    rw [this]

/-! ### The loop of `copy` -/

theorem memory_sink.write_neg {s : memory_base} (hlim : 4294967295 ≤ s.limit)
    (buf : Buffer) : memory_sink.write s buf (-1) = none := by
  have hst : ∀ (t : memory_base) (p : Nat), memory_sink.store t buf (-1) p = none := by
    intro t p
    unfold memory_sink.store
    rw [if_pos (Or.inl (by omega))]
  have h1 := toU32_lt ((s.pos : Int) + -1)
  have h2 := toU32_lt (2 * s.totalSize)
  unfold memory_sink.write
  dsimp only
  split_ifs
  · exact hst _ _
  · omega
  · exact hst _ _
  · omega
  · exact hst _ _

theorem copyLoop_spec : ∀ (fuel lenLeft : Nat) (r : memory_reader) (w : memory_writer)
    (buf : Buffer), r.src.Valid → r.src.maxPos < 2147483648 → w.sink.Valid →
    4294967295 ≤ w.sink.limit → buf.size = DATA_BUFSIZE → lenLeft < 4294967296 →
    min lenLeft (r.src.maxPos - r.src.pos) < fuel →
    w.sink.pos + min lenLeft (r.src.maxPos - r.src.pos) < 4294967296 →
    (lenLeft ≤ r.src.maxPos - r.src.pos →
      ∃ r' w', copyLoop fuel (.reader r) (.writer w) buf lenLeft
          = .done (.reader r', .writer w', 0) ∧
        r'.src.pos = r.src.pos + lenLeft ∧ r'.src.maxPos = r.src.maxPos ∧
        r'.src.mem = r.src.mem ∧ r'.count = r.count ∧
        w'.sink.pos = w.sink.pos + lenLeft ∧ w'.count = w.count ∧
        w'.sink.maxPos = max w.sink.maxPos w'.sink.pos ∧
        (∀ i, i < lenLeft → w'.sink.mem (w.sink.pos + i) = r.src.mem (r.src.pos + i)) ∧
        (∀ i, i < w.sink.pos → w'.sink.mem i = w.sink.mem i)) ∧
    (r.src.maxPos - r.src.pos < lenLeft →
      copyLoop fuel (.reader r) (.writer w) buf lenLeft = .undefined) := by
  intro fuel
  induction fuel with
  | zero => intro lenLeft r w buf _ _ _ _ _ _ hf; omega
  | succ fuel ih =>
    intro lenLeft r w buf hvr hmr hvw hlim hbuf hll hf hroom
    have hvr' := hvr
    unfold memory_base.Valid at hvr'
    have hD : DATA_BUFSIZE = 16384 := rfl
    by_cases h0 : lenLeft = 0
    · subst h0
      refine ⟨fun _ => ⟨r, w, ?_, rfl, rfl, rfl, rfl, rfl, rfl, ?_, fun i hi => by omega,
        fun i hi => rfl⟩, fun h => by omega⟩
      · rw [copyLoop, if_pos rfl]
      · have := hvw.1
        omega
    · by_cases hend : r.src.maxPos = r.src.pos
      · -- the reader is at its end: `read` returns -1
        refine ⟨fun h => by omega, fun _ => ?_⟩
        rw [copyLoop, if_neg h0]
        dsimp only
        rw [Stream.reader_read (memory_source.read_end buf hend)]
        have e1 : toU32 (-1) = 4294967295 := by decide
        have e2 : toI32 ((4294967295 : Nat) : Int) = -1 := by decide
        dsimp only
        rw [e1, if_pos (by omega), e2]
        simp only [Stream.write, memory_writer.write, memory_sink.write_neg hlim,
          Option.map_none']
      · -- at least one byte is left
        generalize hlen : (if DATA_BUFSIZE > lenLeft then lenLeft else DATA_BUFSIZE) = len
        have hlen1 : 0 < len ∧ len ≤ lenLeft ∧ len ≤ 16384 := by
          rw [← hlen, hD]; split_ifs <;> omega
        have hti : toI32 (len : Int) = len := toI32_of_lt (by omega) (by omega)
        obtain ⟨s1, b1, hr1, hp1, hm1, hts1, hmem1, _, hbs1, hb1, hv1⟩ :=
          memory_source.read_spec hvr buf len (min len (r.src.maxPos - r.src.pos)) hmr
            (by omega) (by omega) (by omega)
        generalize hn : min len (r.src.maxPos - r.src.pos) = n at hr1 hp1 hb1
        have hn1 : 0 < n ∧ n ≤ len ∧ n ≤ r.src.maxPos - r.src.pos := by omega
        have htu : toU32 (n : Int) = n := toU32_natCast (by omega)
        have hti2 : toI32 (n : Int) = n := toI32_of_lt (by omega) (by omega)
        have h2 := toU32_lt (2 * w.sink.totalSize)
        obtain ⟨s2, hw2, hp2, hm2, hl2, hv2, _, _, hmem2⟩ := memory_sink.write_spec hvw b1 n
          (by omega) (by omega) (by omega) (Or.inr ⟨by omega, by omega⟩)
        have hp2' : s2.pos = w.sink.pos + n := by omega
        have hsub : toU32 ((lenLeft : Int) - n) = lenLeft - n := by unfold toU32; omega
        have hstep : copyLoop (fuel + 1) (.reader r) (.writer w) buf lenLeft
            = copyLoop fuel (.reader ⟨r.count, s1⟩) (.writer ⟨w.count, s2⟩) b1 (lenLeft - n) := by
          rw [copyLoop, if_neg h0]
          dsimp only
          rw [hlen, hti, Stream.reader_read hr1]
          dsimp only
          rw [htu, if_pos (by omega), hti2, Stream.writer_write hw2]
          dsimp only
          rw [hsub]
        rw [hstep]
        have a1 : r.src.maxPos - r.src.pos < lenLeft → s1.maxPos - s1.pos < lenLeft - n := by
          intro _; omega
        have a2 : lenLeft ≤ r.src.maxPos - r.src.pos → lenLeft - n ≤ s1.maxPos - s1.pos := by
          intro _; omega
        obtain ⟨ihg, ihb⟩ := ih (lenLeft - n) ⟨r.count, s1⟩ ⟨w.count, s2⟩ b1 hv1
          (by dsimp only; omega) hv2 (by dsimp only; omega) (by omega) (by omega)
          (by dsimp only; omega) (by dsimp only; omega)
        dsimp only at ihg ihb
        refine ⟨fun hle => ?_, fun hgt => ihb (a1 hgt)⟩
        have hg := ihg (a2 hle)
        clear ihg ihb ih
        obtain ⟨r', w', hc, f1, f2, f3, f4, f5, f6, f7, f8, f9⟩ := hg
        refine ⟨r', w', hc, by omega, by omega, by rw [f3, hmem1], f4, by omega, f6, ?_, ?_, ?_⟩
        · rw [f7, hm2]; omega
        · intro i hi
          by_cases hin : i < n
          · rw [f9 (w.sink.pos + i) (by omega), hmem2, if_pos ⟨by omega, by omega⟩]
            have : w.sink.pos + i - w.sink.pos = i := by omega
            rw [this, hb1 i hin]
          · have := f8 (i - n) (by omega)
            rw [hmem1] at this
            have e3 : s2.pos + (i - n) = w.sink.pos + i := by omega
            have e4 : s1.pos + (i - n) = r.src.pos + i := by omega
            rw [e3, e4] at this
            exact this
        · intro i hi
          rw [f9 i (by omega), hmem2, if_neg (by omega)]

theorem trio_lives : Lives trioFresh trioHeap3 :=
  Lives.unref trioHeap2 trioHeap3 1
    (Lives.connect trioHeap1 trioHeap2 0 1 true
      (Lives.connect trioFresh trioHeap1 1 2 true Lives.start (by decide)) (by decide))
    (by decide)

/-- The worked example is reached from its freshly constructed objects by the
five calls of `connect`. -/
theorem example_reach : Reach exampleNew exampleHeap :=
  Reach.connect exampleHeap0 exampleHeap 3 0 true
    (Reach.connect exampleNew3 exampleHeap0 3 5 true
      (Reach.connect exampleNew2 exampleNew3 3 4 true
        (Reach.connect exampleNew1 exampleNew2 0 2 true
          (Reach.connect exampleNew exampleNew1 0 1 true Reach.start (by decide))
          (by decide))
        (by decide))
      (by decide))
    (by decide)

/-! ## The claims -/

/-- C1. For a bus `P` of level `L1` and a bus `C` of level `L2`, in any state of
the heap, `P.connect(C)` returns, and its result is true exactly when
`L2 ≤ L1`. -/
theorem connect_bus_iff_level (h : Heap) (P C : Ptr) (L1 L2 : Int)
    (hP : getLevel h P = some L1) (hC : getLevel h C = some L2) :
    ∃ h', connect h P C = some (h', decide (L2 ≤ L1)) :=
  connect_bus h P C L1 L2 hP hC

/-- C1 at the worked example: `bus1` (level 1) accepts `bus0` (level 0). -/
theorem connect_bus_iff_level_witness :
    getLevel exampleHeap0 3 = some 1 ∧ getLevel exampleHeap0 0 = some 0 ∧
      ∃ h', connect exampleHeap0 3 0 = some (h', decide ((0 : Int) ≤ 1)) :=
  ⟨by decide, by decide, connect_bus_iff_level exampleHeap0 3 0 1 0 (by decide) (by decide)⟩

/-- C2. Let `P` be a bus of level `lp` without owning bus that has connected a
child bus `C` of level `lc < lp`, and let `iid` be an identity that no bus
answers itself and that, among the members of all buses, is answered only by
members of `C`. Then a query without state started on `P`, or on a leaf hosted
on `P`, returns and reports not-found. -/
theorem no_downward_browsing (h : Heap) (ht : h.Typed) (P C : Ptr) (lp lc : Int) (iid : TIntfId)
    (hP : getLevel h P = some lp) (hPb : h.busOf P = none) (hC : getLevel h C = some lc)
    (hCP : C ∈ h.busesOf P) (hlt : lc < lp) (hu : busAnswers iid = false)
    (honly : ∀ b < h.size, ∀ x ∈ h.intfsOf b, h.answersAt x iid = true → b = C) :
    (∃ h' q, queryInterface h P iid none = some (h', q, none)) ∧
    ∀ X, h.isLeaf X = true → X ∈ h.intfsOf P → h.busOf X = some P →
      ∃ h' q, queryInterface h X iid none = some (h', q, none) := by
  have hb : h.isBus P = true := by simp [Heap.isBus, hP]
  refine ⟨query_bus_fails ht hP hPb hC hlt hu honly (h.size + 2) (by omega), ?_⟩
  intro X hX hXP hXb
  obtain ⟨o, hg⟩ : ∃ o, h.get X = some o := by
    cases hg : h.get X with
    | none => simp [Heap.isLeaf, hg] at hX
    | some o => exact ⟨o, rfl⟩
  have hna : o.cls.answers iid = false := by
    cases hh : o.cls.answers iid with
    | false => rfl
    | true =>
      have := honly P (Heap.isBus_lt hb) X hXP (by simp [Heap.answersAt, hg, hh])
      subst this
      rw [hC] at hP
      simp only [Option.some.injEq] at hP
      omega
  rw [busOf_eq hg] at hXb
  unfold queryInterface
  rw [query_none_leaf h iid (h.size + 2) X o hg hX]
  simp only [hna, Bool.false_eq_true, if_false, hXb]
  exact query_bus_fails ht hP hPb hC hlt hu honly (h.size + 1) (by omega)

/-- C2 at the worked example: `bus1->queryInterface("IA")` and
`ic->queryInterface("IA")` fail. -/
theorem no_downward_browsing_witness :
    (∃ h' q, queryInterface exampleHeap 3 "IA" none = some (h', q, none)) ∧
    ∀ X, exampleHeap.isLeaf X = true → X ∈ exampleHeap.intfsOf 3 →
      exampleHeap.busOf X = some 3 →
      ∃ h' q, queryInterface exampleHeap X "IA" none = some (h', q, none) :=
  no_downward_browsing exampleHeap (by decide) 3 0 1 0 "IA" (by decide) (by decide)
    (by decide) (by decide) (by decide) (by decide) (by decide)

/-- C3. Let `X` be a leaf whose bus is `C`, let the owning bus of `C` be the bus
`P` (whatever the two levels), and let `i` be an identity that `X` does not
answer, that the local scan of `C` (with a fresh query state) does not find,
and whose first answering member of `P`, in connection order, is `Y`. Then
`X.queryInterface(i)` without state returns `Y`. -/
theorem upward_delegation (h : Heap) (ht : h.Typed) (X C P Y : Ptr) (i : TIntfId)
    (hX : h.isLeaf X = true) (hXC : h.busOf X = some C) (hCb : h.isBus C = true)
    (hCP : h.busOf C = some P) (hPb : h.isBus P = true)
    (hXn : h.answersAt X i = false)
    (hCn : (localQueryInterface h C i (some ⟨1, [], false⟩)).map (fun res => res.2.2)
      = some none)
    (hY : (h.intfsOf P).find? (fun x => h.answersAt x i) = some Y) :
    ∃ h' q, queryInterface h X i none = some (h', q, some Y) := by
  -- the local scan of `C` on the fixed heap
  have hsim := sim_local h i (h.size + 3) [] C ⟨1, [], false⟩
  simp only [refAll_nil] at hsim
  unfold localQueryInterface at hCn
  rw [hsim] at hCn
  obtain ⟨m, hs3⟩ : ∃ m, pLocal (h.size + 3) h i C [] = some (m, none) := by
    cases hp : pLocal (h.size + 3) h i C [] with
    | none => simp [hp] at hCn
    | some x =>
      obtain ⟨m, r⟩ := x
      simp only [hp, Option.map_some', lift, Option.some.injEq] at hCn
      exact ⟨m, by rw [hCn]⟩
  have hu : busAnswers i = false := by
    cases hh : busAnswers i with
    | false => rfl
    | true => rw [pLocal_bus_answers hCb hh] at hs3; simp at hs3
  obtain ⟨x, hs2⟩ := term_local h ht i (h.size + 2) C [] (by
    have := card_unvisited_le h []
    simp [reentry]
    omega)
  have hs2' := pLocal_mono h i (Nat.le_succ _) hs2
  rw [hs3] at hs2'
  simp only [Option.some.injEq] at hs2'
  subst hs2'
  obtain ⟨L, hL⟩ := getLevel_of_isBus hCb
  have hinv := (inv_local h ht i hu (h.size + 2) C [] m none L hL (by simp) hs2).1
  have hYmem := List.mem_of_find?_eq_some hY
  have hYans : h.answersAt Y i = true := by
    have := List.find?_some hY
    simpa using this
  have hPm : P ∉ m := by
    intro hPm
    have := hinv.failed rfl P hPm Y hYmem
    rw [this] at hYans
    simp at hYans
  -- the query
  obtain ⟨oX, hgX⟩ : ∃ o, h.get X = some o := by
    cases hg : h.get X with
    | none => simp [Heap.isLeaf, hg] at hX
    | some o => exact ⟨o, rfl⟩
  obtain ⟨oC, lC, isC, bsC, hgC, hcC⟩ := Heap.isBus_iff.1 hCb
  obtain ⟨oP, lP, isP, bsP, hgP, hcP⟩ := Heap.isBus_iff.1 hPb
  rw [busOf_eq hgX] at hXC
  rw [busOf_eq hgC] at hCP
  have hXna : oX.cls.answers i = false := by simpa [Heap.answersAt, hgX] using hXn
  unfold queryInterface
  rw [query_none_leaf h i (h.size + 2) X oX hgX hX]
  simp only [hXna, Bool.false_eq_true, if_false, hXC]
  rw [query_none_bus h i (h.size + 1) C oC hgC lC isC bsC hcC, pQuery, hgC]
  simp only [hcC, hs2, hCP, List.nil_append, hPm, if_false]
  have hfind : pLocal (h.size + 1) h i P m = some ([P], some Y) := by
    have hlt : 0 < h.size := Nat.lt_of_le_of_lt (Nat.zero_le _) (Heap.get_lt hgX)
    have e : h.size - 1 + 2 = h.size + 1 := by omega
    have := pLocal_finds ht hPb hu hY (h.size - 1) m
    rwa [e] at this
  rw [pQuery, hgP]
  simp only [hcP, hfind, Option.some_bind]
  obtain ⟨h', hu', _⟩ := unrefAll_total (m ++ [P]) (refAll h (m ++ [P] ++ (some Y).toList))
  exact ⟨h', _, by rw [hu']; rfl⟩

/-- C3 at the worked example: `ia->queryInterface("IC")` returns `IC`. -/
theorem upward_delegation_witness :
    ∃ h' q, queryInterface exampleHeap 1 "IC" none = some (h', q, some 4) :=
  upward_delegation exampleHeap (by decide) 1 0 3 4 "IC" (by decide) (by decide) (by decide)
    (by decide) (by decide) (by decide) (by decide) (by decide)

/-- C4. In every heap built from freshly constructed objects by calls of
`connect` (and `disconnect`), a query without state started on any object, for
any identity, returns: the fuel the wrapper supplies is never exhausted,
neither by the traversal nor by the release of the marked buses. -/
theorem query_terminates (h : Heap) (hb : Built h) (p : Ptr) (iid : TIntfId) :
    ∃ res, queryInterface h p iid none = some res := by
  obtain ⟨m, r, q, h', hq, _⟩ := query_spec h hb.typed iid (h.size + 2) (le_refl _) p
  exact ⟨_, hq⟩

/-- C4 at two buses connected into each other. -/
theorem query_terminates_witness :
    ∃ res, queryInterface cycleHeap 0 "IA" none = some res :=
  query_terminates cycleHeap
    (Built.connect cycleHeap1 cycleHeap 1 0 true
      (Built.connect cycleFresh cycleHeap1 0 1 true (Built.fresh cycleFresh (by decide))
        (by decide))
      (by decide)) 0 "IA"

/-- C5. A query without state on a well-typed heap returns, and the query state
it created, as it is when the query returns, lists no bus twice: every bus has
been marked, and its members scanned, at most once. -/
theorem query_marks_each_bus_once (h : Heap) (ht : h.Typed) (p : Ptr) (iid : TIntfId) :
    ∃ h' q r, queryInterface h p iid none = some (h', q, r) ∧
      ∀ st, q = some st → st.buses.Nodup := by
  obtain ⟨m, r, q, h', hq, _, hnd, _, _, hst⟩ :=
    query_spec h ht iid (h.size + 2) (le_refl _) p
  refine ⟨h', q, r, hq, fun st hst' => ?_⟩
  rcases hst with ⟨rfl, _⟩ | rfl
  · simp at hst'
  · simp only [Option.some.injEq] at hst'
    subst hst'
    exact hnd

/-- C5 at the worked example. -/
theorem query_marks_each_bus_once_witness :
    ∃ h' q r, queryInterface exampleHeap 1 "IC" none = some (h', q, r) ∧
      ∀ st, q = some st → st.buses.Nodup :=
  query_marks_each_bus_once exampleHeap (by decide) 1 "IC"

/-- C6, amended. Let `B` be a bus whose members are `pre ++ Y :: post`, where
`Y` answers the identity `j`, no member in `pre` answers `j`, and `j` is not
one of the identities a bus answers itself. Then `B.queryInterface(j)` without
state returns `Y`, and so does `X.queryInterface(j)` for every leaf `X` whose
bus is `B` and that is `Y` or does not answer `j` itself. -/
theorem sibling_discovery (h : Heap) (ht : h.Typed) (B Y : Ptr) (j : TIntfId) (pre post : List Ptr)
    (hB : h.isBus B = true) (hI : h.intfsOf B = pre ++ Y :: post)
    (hY : h.answersAt Y j = true) (hpre : ∀ x ∈ pre, h.answersAt x j = false)
    (hu : busAnswers j = false) :
    (∃ h' q, queryInterface h B j none = some (h', q, some Y)) ∧
    ∀ X, h.isLeaf X = true → h.busOf X = some B → (X = Y ∨ h.answersAt X j = false) →
      ∃ h' q, queryInterface h X j none = some (h', q, some Y) := by
  have hfind : (h.intfsOf B).find? (fun x => h.answersAt x j) = some Y := by
    rw [hI]; exact find_first _ pre Y post hY hpre
  refine ⟨query_bus_finds ht hB hu hfind (h.size + 1), ?_⟩
  intro X hX hXB hXY
  obtain ⟨o, hg⟩ : ∃ o, h.get X = some o := by
    cases hg : h.get X with
    | none => simp [Heap.isLeaf, hg] at hX
    | some o => exact ⟨o, rfl⟩
  rw [busOf_eq hg] at hXB
  unfold queryInterface
  rw [query_none_leaf h j (h.size + 2) X o hg hX]
  by_cases ha : o.cls.answers j = true
  · rcases hXY with rfl | hn
    · exact ⟨ref h X, none, by simp [ha]⟩
    · simp [Heap.answersAt, hg, ha] at hn
  · simp only [ha, Bool.false_eq_true, if_false, hXB]
    exact query_bus_finds ht hB hu hfind h.size

/-- C6, amended, at the worked example: `bus0->queryInterface("IB")` and
`ia->queryInterface("IB")` return `IB`. -/
theorem sibling_discovery_witness :
    (∃ h' q, queryInterface exampleHeap 0 "IB" none = some (h', q, some 2)) ∧
    ∀ X, exampleHeap.isLeaf X = true → exampleHeap.busOf X = some 0 →
      (X = 2 ∨ exampleHeap.answersAt X "IB" = false) →
      ∃ h' q, queryInterface exampleHeap X "IB" none = some (h', q, some 2) :=
  sibling_discovery exampleHeap (by decide) 0 2 "IB" [1] [] (by decide) (by decide)
    (by decide) (by decide) (by decide)

/-- C6 as stated fails: on `siblingHeap` the leaves 1 and 2 are hosted on
bus 0, leaf 1 declares `"IA"` and no leaf was connected before it, yet
`queryInterface("IA")` on leaf 2 does not return leaf 1 (it returns leaf 2,
which declares `"IA"` as well). -/
theorem sibling_discovery_counterexample :
    siblingHeap.intfsOf 0 = [1, 2] ∧ siblingHeap.busOf 1 = some 0 ∧
      siblingHeap.busOf 2 = some 0 ∧ siblingHeap.answersAt 1 "IA" = true ∧
      (queryInterface siblingHeap 2 "IA" none).map (fun res => res.2.2) = some (some 2) ∧
      ¬ ∃ h' q, queryInterface siblingHeap 2 "IA" none = some (h', q, some 1) := by
  refine ⟨by decide, by decide, by decide, by decide, by decide, ?_⟩
  rintro ⟨h', q, hq⟩
  have hres : (queryInterface siblingHeap 2 "IA" none).map (fun res => res.2.2)
      = some (some 2) := by decide
  rw [hq] at hres
  simp at hres

/-- C7. In the worked example `IC` is a leaf hosted on `bus1` (level 1);
`bus0->connect(ic)` (level 0) returns false and leaves the heap as it was: the
probe `intf->queryInterface(IID_IBUS, ...)` is answered by `bus1`, whose level
is then compared with that of `bus0`. -/
theorem connect_hosted_leaf_rejected :
    exampleHeap.isLeaf 4 = true ∧ exampleHeap.busOf 4 = some 3 ∧
      connect exampleHeap 0 4 = some (exampleHeap, false) :=
  ⟨by decide, by decide, by decide⟩

/-- C8, amended. Let `X` be a member of the bus `B`, other than `B` itself, that
is recorded at most once in the leaf vector of `B` and in the leaf vector of
no other bus. Then `B.disconnect(X)` returns, and afterwards every query
without state started on `B`, for any identity, returns and does not return
`X`. -/
theorem disconnect_hides_member (h : Heap) (ht : h.Typed) (B X : Ptr) (hB : h.isBus B = true) (hne : X ≠ B)
    (hmem : X ∈ h.intfsOf B ∨ X ∈ h.busesOf B) (honce : (h.intfsOf B).count X ≤ 1)
    (hother : ∀ b < h.size, b ≠ B → X ∉ h.intfsOf b) :
    ∃ h', disconnect h B X = some h' ∧
      ∀ iid, ∃ h2 q r, queryInterface h' B iid none = some (h2, q, r) ∧ r ≠ some X := by
  obtain ⟨o, l, is, bs, hg, hcl⟩ := Heap.isBus_iff.1 hB
  obtain ⟨c, n, bb⟩ := o
  simp only at hcl
  subst hcl
  have hio : h.intfsOf B = is := by simp [Heap.intfsOf, hg]
  have hbo : h.busesOf B = bs := by simp [Heap.busesOf, hg]
  rw [hio] at honce
  rw [hio, hbo] at hmem
  unfold disconnect
  simp only [hg]
  by_cases hi : X ∈ is
  · simp only [hi, if_true]
    refine hidden_after ht hB hne hother _ (fun o => Obj.eraseIntf_step h o X) ?_
    intro o l' is' bs' hgo hc hx
    rw [hg] at hgo
    simp only [Option.some.injEq] at hgo
    subst hgo
    simp only [Obj.eraseIntf, Cls.implIBus.injEq] at hc
    obtain ⟨_, rfl, _⟩ := hc
    have h0 : (is.erase X).count X = 0 := by
      rw [List.count_erase_self]; omega
    exact (List.count_eq_zero.1 h0) hx
  · have hb2 : X ∈ bs := hmem.resolve_left hi
    simp only [hi, hb2, if_true, if_false]
    refine hidden_after ht hB hne hother _ (fun o => Obj.eraseBus_step h o X) ?_
    intro o l' is' bs' hgo hc hx
    rw [hg] at hgo
    simp only [Option.some.injEq] at hgo
    subst hgo
    simp only [Obj.eraseBus, Cls.implIBus.injEq] at hc
    obtain ⟨_, rfl, _⟩ := hc
    exact hi hx

/-- C8, amended, at the worked example: after `bus1->disconnect(ic)` no query
on `bus1` returns `IC`. -/
theorem disconnect_hides_member_witness :
    ∃ h', disconnect exampleHeap 3 4 = some h' ∧
      ∀ iid, ∃ h2 q r, queryInterface h' 3 iid none = some (h2, q, r) ∧ r ≠ some 4 :=
  disconnect_hides_member exampleHeap (by decide) 3 4 (by decide) (by decide) (by decide)
    (by decide) (by decide)

/-- C8 as stated fails: a bus connected into itself is a member of itself, and
after it has disconnected itself a query on it for `IID_IBUS` returns it. -/
theorem disconnect_self_counterexample :
    connect selfFresh 0 0 = some (selfHeap, true) ∧ 0 ∈ selfHeap.busesOf 0 ∧
      disconnect selfHeap 0 0 = some selfFresh ∧
      queryInterface selfFresh 0 IID_IBUS none
        = some (ref selfFresh 0, some ⟨0, [], true⟩, some 0) :=
  ⟨by decide, by decide, by decide, by decide⟩

/-- C9. Let `X` be a member of the bus `B` whose count is at least 2. Then
`B.disconnect(X)` returns and does not destroy `X`: afterwards `X` is live, its
count is one less than before and at least 1, and its owning bus is none. -/
theorem disconnect_keeps_referenced_member (h : Heap) (B X : Ptr) (hB : h.isBus B = true)
    (hmem : X ∈ h.intfsOf B ∨ X ∈ h.busesOf B) (hc : 2 ≤ h.countOf X) :
    ∃ h', disconnect h B X = some h' ∧ (h'.get X).isSome = true ∧
      h'.countOf X = h.countOf X - 1 ∧ 1 ≤ h'.countOf X ∧ h'.busOf X = none := by
  obtain ⟨oX, hgX⟩ : ∃ o, h.get X = some o := by
    cases hg : h.get X with
    | none => simp [Heap.countOf, hg] at hc
    | some o => exact ⟨o, rfl⟩
  have hcX : h.countOf X = oX.count := by simp [Heap.countOf, hgX]
  rw [hcX] at hc ⊢
  have key : ∀ f : Obj → Obj, (∀ o, (f o).count = o.count) →
      ∃ h', unref (setBus (h.modify B f) X none) X = some h' ∧ (h'.get X).isSome = true ∧
        h'.countOf X = oX.count - 1 ∧ 1 ≤ h'.countOf X ∧ h'.busOf X = none := by
    intro f hf
    obtain ⟨o1, hg1, hc1⟩ : ∃ o1, (h.modify B f).get X = some o1 ∧ o1.count = oX.count := by
      rw [Heap.get_modify]
      by_cases hXB : X = B
      · subst hXB
        exact ⟨f oX, by simp [hgX], hf oX⟩
      · exact ⟨oX, by simp [hXB, hgX], rfl⟩
    have hg2 : (setBus (h.modify B f) X none).get X = some { o1 with bus := none } := by
      simp [setBus, Heap.get_modify, hg1]
    refine ⟨_, unref_of_ne hg2 (by simp only; omega), ?_⟩
    have hg3 : ((setBus (h.modify B f) X none).modify X
        (fun o => { o with count := o.count - 1 })).get X
        = some { o1 with bus := none, count := o1.count - 1 } := by
      rw [Heap.get_modify]
      simp [hg2]
    simp only [Heap.countOf, Heap.busOf, hg3, Option.isSome_some, true_and, and_true]
    constructor <;> omega
  obtain ⟨o, l, is, bs, hg, hcl⟩ := Heap.isBus_iff.1 hB
  obtain ⟨c, n, bb⟩ := o
  simp only at hcl
  subst hcl
  have hio : h.intfsOf B = is := by simp [Heap.intfsOf, hg]
  have hbo : h.busesOf B = bs := by simp [Heap.busesOf, hg]
  rw [hio, hbo] at hmem
  unfold disconnect
  simp only [hg]
  by_cases hi : X ∈ is
  · simp only [hi, if_true]
    exact key _ (fun o => by unfold Obj.eraseIntf; split <;> rfl)
  · have hb2 : X ∈ bs := hmem.resolve_left hi
    simp only [hi, hb2, if_true, if_false]
    exact key _ (fun o => by unfold Obj.eraseBus; split <;> rfl)

/-- C9 at the worked example: `bus1->disconnect(bus0)` while `bus0` is held by
its handle. -/
theorem disconnect_keeps_referenced_member_witness :
    ∃ h', disconnect exampleHeap 3 0 = some h' ∧ (h'.get 0).isSome = true ∧
      h'.countOf 0 = exampleHeap.countOf 0 - 1 ∧ 1 ≤ h'.countOf 0 ∧ h'.busOf 0 = none :=
  disconnect_keeps_referenced_member exampleHeap 3 0 (by decide) (by decide) (by decide)

/-- C10. On a well-typed heap in which every bus has a count of at least 1, a
query without state returns; the heap afterwards has the same cells, every
object that was live is live with the same class and back-reference, and
every count is unchanged except that of the returned object, which is one
higher; the returned object is live. -/
theorem query_reference_effect (h : Heap) (ht : h.Typed)
    (hc : ∀ b < h.size, h.isBus b = true → 1 ≤ h.countOf b) (p : Ptr) (iid : TIntfId) :
    ∃ h' q r, queryInterface h p iid none = some (h', q, r) ∧ h'.size = h.size ∧
      (∀ y, r = some y → (h.get y).isSome = true) ∧
      ∀ x, h'.get x = (h.get x).map
        (fun o => { o with count := o.count + (if r = some x then 1 else 0) }) := by
  obtain ⟨m, r, q, h', hq, hu, _, hbs, hans, _⟩ :=
    query_spec h ht iid (h.size + 2) (le_refl _) p
  have hcancel := unrefAll_cancel h m r.toList (fun e he o ho => by
    have hb := hbs e he
    have := hc e (Heap.isBus_lt hb) hb
    simpa [Heap.countOf, ho] using this)
  rw [hcancel] at hu
  simp only [Option.some.injEq] at hu
  subst hu
  refine ⟨_, q, r, hq, by simp, ?_, ?_⟩
  · intro y hy
    have := hans y hy
    unfold Heap.answersAt at this
    cases hg : h.get y with
    | none => simp [hg] at this
    | some o => rfl
  · intro x
    rw [get_refAll]
    cases r with
    | none => simp
    | some y =>
      by_cases hxy : y = x
      · subst hxy; simp
      · have : ¬ (x = y) := fun e => hxy e.symm
        simp [hxy, List.count_cons, this]

/-- C10 at the worked example. -/
theorem query_reference_effect_witness :
    ∃ h' q r, queryInterface exampleHeap 1 "IC" none = some (h', q, r) ∧
      h'.size = exampleHeap.size ∧
      (∀ y, r = some y → (exampleHeap.get y).isSome = true) ∧
      ∀ x, h'.get x = (exampleHeap.get x).map
        (fun o => { o with count := o.count + (if r = some x then 1 else 0) }) :=
  query_reference_effect exampleHeap (by decide) (by decide) 1 "IC"

/-- C11. A live object of class `TInterfaceEx` declaring `X` answers
`localQueryInterface` for `i`, with any state, exactly when `i` is `X`,
`IID_IINTERFACEEX` or `IID_IINTERFACE`; it then returns itself with its count
raised by one, and otherwise returns nothing and changes nothing. When the
object has no owning bus, `queryInterface` gives the same result. -/
theorem tinterfaceex_identity_exact (h : Heap) (p : Ptr) (X : TIntfId) (n : Int) (b : Option Ptr)
    (hg : h.get p = some ⟨.tInterfaceEx X, n, b⟩) (i : TIntfId) (qst : Option QState) :
    localQueryInterface h p i qst
      = (if i = X ∨ i = IID_IINTERFACEEX ∨ i = IID_IINTERFACE
          then some (ref h p, qst, some p) else some (h, qst, none)) ∧
    (b = none → queryInterface h p i qst
      = (if i = X ∨ i = IID_IINTERFACEEX ∨ i = IID_IINTERFACE
          then some (ref h p, qst, some p) else some (h, qst, none))) := by
  have hl := isLeaf_tInterfaceEx hg
  constructor
  · unfold localQueryInterface
    rw [localQ_leaf h p _ hg hl i qst]
    by_cases ha : i = X ∨ i = IID_IINTERFACEEX ∨ i = IID_IINTERFACE
    · simp [ha, (answers_tInterfaceEx X i).2 ha]
    · have : (Cls.tInterfaceEx X).answers i = false := by
        cases hh : (Cls.tInterfaceEx X).answers i with
        | false => rfl
        | true => exact absurd ((answers_tInterfaceEx X i).1 hh) ha
      simp [ha, this]
  · intro hb
    unfold queryInterface
    rw [query_leaf_unhosted h p _ hg hl hb i qst]
    by_cases ha : i = X ∨ i = IID_IINTERFACEEX ∨ i = IID_IINTERFACE
    · simp [ha, (answers_tInterfaceEx X i).2 ha]
    · have : (Cls.tInterfaceEx X).answers i = false := by
        cases hh : (Cls.tInterfaceEx X).answers i with
        | false => rfl
        | true => exact absurd ((answers_tInterfaceEx X i).1 hh) ha
      simp [ha, this]

/-- C11 at an object declaring `"IA"` that has no owning bus: the local query
for `"IB"` and the full query for `"IA"`. -/
theorem tinterfaceex_identity_exact_witness :
    (localQueryInterface twoLeaves 0 "IB" none
      = (if "IB" = "IA" ∨ "IB" = IID_IINTERFACEEX ∨ "IB" = IID_IINTERFACE
          then some (ref twoLeaves 0, none, some 0) else some (twoLeaves, none, none))) ∧
    (queryInterface twoLeaves 0 "IA" none
      = (if "IA" = "IA" ∨ "IA" = IID_IINTERFACEEX ∨ "IA" = IID_IINTERFACE
          then some (ref twoLeaves 0, none, some 0) else some (twoLeaves, none, none))) :=
  ⟨(tinterfaceex_identity_exact twoLeaves 0 "IA" 1 none rfl "IB" none).1,
   (tinterfaceex_identity_exact twoLeaves 0 "IA" 1 none rfl "IA" none).2 rfl⟩

/-- C12, amended. An object of class `TInterface` declaring `X` answers
`queryInterface` for `i` exactly when `i` is `X` or `IID_IINTERFACE`; it then
raises its count by one and returns itself, and otherwise returns nothing and
keeps its count. -/
theorem tinterface_identity_exact (self : Ptr) (o : TInterface) (i : TIntfId) (qst : Option QState) :
    TInterface.queryInterface self o i qst
      = if i = o.iid ∨ i = IID_IINTERFACE then ({ o with count := o.count + 1 }, some self)
        else (o, none) := by
  unfold TInterface.queryInterface
  by_cases ha : i = o.iid ∨ i = IID_IINTERFACE
  · have : (equalIID i o.iid || equalIID i IID_IINTERFACE) = true := by
      simpa [equalIID_iff] using ha
    simp [ha, this, TInterface.ref]
  · have : (equalIID i o.iid || equalIID i IID_IINTERFACE) = false := by
      cases hh : (equalIID i o.iid || equalIID i IID_IINTERFACE) with
      | false => rfl
      | true => exact absurd (by simpa [equalIID_iff] using hh) ha
    simp [ha, this]

/-- C12 as stated fails: an object of class `TInterface` declaring `"IHello"`
does not answer the universal identifier `IID_IINTERFACEEX`. -/
theorem tinterface_identity_counterexample :
    "IHello" ≠ IID_IINTERFACEEX ∧
      (TInterface.queryInterface 0 ⟨"IHello", 0⟩ IID_IINTERFACEEX none).2 = none := by
  decide

/-- C13, amended. A query for `IID_IINTERFACE` on a live object of the heap
(`TInterfaceEx`, `TMultiInterfaceEx` or `Impl_IBus`) succeeds and returns the
object itself, with no state supplied and with any supplied state. It leaves the
heap with the count of that object raised by one and nothing else changed: with
no state supplied, and with a supplied state, provided that for a bus the count
of the state is not 0 on entry; the supplied state is left as it was. For a bus
and a state of count 0 the state is deleted, and the heap is the one with the
count of the bus raised by one after the release of the buses the state has
recorded. An object of class `TInterface` answers in the same way with any
state. -/
theorem universal_identity_answered (h : Heap) (p : Ptr) (o : Obj) (hg : h.get p = some o) :
    (∀ qst : Option QState,
      ∃ h' q', queryInterface h p IID_IINTERFACE qst = some (h', q', some p)) ∧
    (∀ q : QState, (h.isBus p = true → q.count ≠ 0) →
      queryInterface h p IID_IINTERFACE (some q) = some (ref h p, some q, some p)) ∧
    (∃ q', queryInterface h p IID_IINTERFACE none = some (ref h p, q', some p)) ∧
    (ref h p).countOf p = h.countOf p + 1 ∧
    (∀ q : QState, h.isBus p = true → q.count = 0 →
      ∃ h', unrefAll q.buses (ref h p) = some h' ∧
        queryInterface h p IID_IINTERFACE (some q)
          = some (h', some { q with deleted := true }, some p)) ∧
    (∀ (self : Ptr) (t : TInterface) (qst : Option QState),
      TInterface.queryInterface self t IID_IINTERFACE qst
        = ({ t with count := t.count + 1 }, some self)) := by
  refine ⟨?_, ?_, ?_, countOf_ref h p o hg, ?_, ?_⟩
  · intro qst
    rcases live_cases h p with hd | hb | hl
    · rw [hd] at hg; simp at hg
    · cases qst with
      | none => exact ⟨_, _, query_bus_universal hb IID_IINTERFACE (by decide) _⟩
      | some q =>
        obtain ⟨h', q', hq, _⟩ := query_bus_universal_any h p hb IID_IINTERFACE (by decide) q _
        exact ⟨h', some q', hq⟩
    · exact ⟨_, _, query_leaf_answers h p o hg hl IID_IINTERFACE (answers_universal _) qst _⟩
  · intro q hq
    rcases live_cases h p with hd | hb | hl
    · rw [hd] at hg; simp at hg
    · exact query_bus_universal_state h p hb IID_IINTERFACE (by decide) q (hq hb) _
    · exact query_leaf_answers h p o hg hl IID_IINTERFACE (answers_universal _) (some q) _
  · rcases live_cases h p with hd | hb | hl
    · rw [hd] at hg; simp at hg
    · exact ⟨_, query_bus_universal hb IID_IINTERFACE (by decide) _⟩
    · exact ⟨_, query_leaf_answers h p o hg hl IID_IINTERFACE (answers_universal _) none _⟩
  · intro q hb h0
    obtain ⟨h', q', hq, hd⟩ := query_bus_universal_any h p hb IID_IINTERFACE (by decide) q
      (h.size + 2)
    obtain ⟨hU, rfl⟩ := hd h0
    exact ⟨h', hU, hq⟩
  · intro self t qst
    simp [TInterface.queryInterface, TInterface.ref, equalIID]

/-- C13 as stated fails: a state of count 0 that has recorded a bus during a
local query is deleted by the following `queryInterface` on that bus, which
releases the recorded bus; the count of the bus is the same after the query for
`IID_IINTERFACE` as before it. -/
theorem universal_identity_counterexample :
    localQueryInterface rawBus 0 "IA" (some ⟨0, [], false⟩)
      = some (markedBus, some ⟨0, [0], false⟩, none) ∧
    ∃ h', queryInterface markedBus 0 IID_IINTERFACE (some ⟨0, [0], false⟩)
        = some (h', some ⟨0, [0], true⟩, some 0) ∧
      h'.countOf 0 = markedBus.countOf 0 ∧ h'.countOf 0 ≠ markedBus.countOf 0 + 1 :=
  ⟨by decide, markedBus, by decide, by decide, by decide⟩

/-- C13 at `bus0` of the worked example, queried with a supplied state of
count 0, which the call deletes, with a supplied state of count 1 and without a
state. -/
theorem universal_identity_answered_witness :
    (∃ h' q', queryInterface exampleHeap 0 IID_IINTERFACE (some ⟨0, [], false⟩)
      = some (h', q', some 0)) ∧
    queryInterface exampleHeap 0 IID_IINTERFACE (some ⟨1, [], false⟩)
      = some (ref exampleHeap 0, some ⟨1, [], false⟩, some 0) ∧
    (∃ q', queryInterface exampleHeap 0 IID_IINTERFACE none
      = some (ref exampleHeap 0, q', some 0)) ∧
    (ref exampleHeap 0).countOf 0 = exampleHeap.countOf 0 + 1 ∧
    (∃ h', unrefAll [] (ref exampleHeap 0) = some h' ∧
      queryInterface exampleHeap 0 IID_IINTERFACE (some ⟨0, [], false⟩)
        = some (h', some ⟨0, [], true⟩, some 0)) :=
  ⟨(universal_identity_answered exampleHeap 0 ⟨.implIBus 0 [1, 2] [], 2, some 3⟩ rfl).1
     (some ⟨0, [], false⟩),
   (universal_identity_answered exampleHeap 0 ⟨.implIBus 0 [1, 2] [], 2, some 3⟩ rfl).2.1 ⟨1, [], false⟩
     (fun _ => by decide),
   (universal_identity_answered exampleHeap 0 ⟨.implIBus 0 [1, 2] [], 2, some 3⟩ rfl).2.2.1,
   (universal_identity_answered exampleHeap 0 ⟨.implIBus 0 [1, 2] [], 2, some 3⟩ rfl).2.2.2.1,
   (universal_identity_answered exampleHeap 0 ⟨.implIBus 0 [1, 2] [], 2, some 3⟩ rfl).2.2.2.2.1
     ⟨0, [], false⟩ (by decide) rfl⟩

/-- C14, amended. For any sequence of `ref` and `unref` calls on one object that
starts with count 0, the object is destroyed exactly when, at some `unref` call
of the sequence, the number of `unref` calls made so far (that call included)
equals the number of `ref` calls made so far. Stated for an object of a class
`TRefObj` and for an object of the heap, where the sequence always returns. -/
theorem reference_balance (cs : List RefCall) (h : Heap) (p : Ptr) (c : Cls) (b : Option Ptr)
    (hg : h.get p = some ⟨c, 0, b⟩) :
    (TRefObj.run cs ⟨0⟩ = none ↔
      ∃ pre post, cs = pre ++ RefCall.unref :: post ∧
        (pre ++ [RefCall.unref]).count RefCall.unref
          = (pre ++ [RefCall.unref]).count RefCall.ref) ∧
    ∃ h', Heap.runCalls p cs h = some h' ∧
      (h'.get p = none ↔
        ∃ pre post, cs = pre ++ RefCall.unref :: post ∧
          (pre ++ [RefCall.unref]).count RefCall.unref
            = (pre ++ [RefCall.unref]).count RefCall.ref) := by
  refine ⟨run_destroyed_iff cs, ?_⟩
  obtain ⟨h', hr, hiff⟩ := runCalls_destroyed_iff p cs h _ hg
  exact ⟨h', hr, hiff.trans (run_destroyed_iff cs)⟩

/-- C14 as stated fails in both directions: `ref(); unref()` destroys the object
with as many decrements as increments, and a single `unref()` on a count of 0
leaves the object alive with a count of -1 although the decrements are one more
than the increments. The same on a bus of the heap. -/
theorem reference_balance_counterexample :
    TRefObj.run [RefCall.ref, RefCall.unref] ⟨0⟩ = none ∧
      [RefCall.ref, RefCall.unref].count RefCall.unref
        ≠ [RefCall.ref, RefCall.unref].count RefCall.ref + 1 ∧
    TRefObj.run [RefCall.unref] ⟨0⟩ = some ⟨-1⟩ ∧
      [RefCall.unref].count RefCall.unref = [RefCall.unref].count RefCall.ref + 1 ∧
    (∃ h', Heap.runCalls 0 [RefCall.ref, RefCall.unref] rawBus = some h' ∧ h'.get 0 = none) ∧
    (∃ h', Heap.runCalls 0 [RefCall.unref] rawBus = some h' ∧ h'.get 0 ≠ none) := by
  refine ⟨by decide, by decide, by decide, by decide, ⟨_, rfl, by decide⟩, ⟨_, rfl, by decide⟩⟩

/-- C14 at a leaf of count 0 and the calls `ref, ref, unref, unref`. -/
theorem reference_balance_witness :
    ∃ h', Heap.runCalls 0 [RefCall.ref, RefCall.ref, RefCall.unref, RefCall.unref] rawLeaf
        = some h' ∧
      (h'.get 0 = none ↔
        ∃ pre post, [RefCall.ref, RefCall.ref, RefCall.unref, RefCall.unref]
            = pre ++ RefCall.unref :: post ∧
          (pre ++ [RefCall.unref]).count RefCall.unref
            = (pre ++ [RefCall.unref]).count RefCall.ref) :=
  (reference_balance [RefCall.ref, RefCall.ref, RefCall.unref, RefCall.unref] rawLeaf 0
    (.tInterfaceEx "IA") none rfl).2

/-- C15. The method `unref` deletes the object exactly when the decrement
brings the count to 0, for an object of a class `TRefObj` and for every live
object of the heap (on which `unref` always returns); when the decremented
count is not 0 the object stays, with that count, and nothing else changes. -/
theorem unref_deletes_exactly_at_zero (t : TRefObj) (h : Heap) (p : Ptr) (o : Obj) (hg : h.get p = some o) :
    ((t.unref = none ↔ t.count - 1 = 0) ∧
      (t.count - 1 ≠ 0 → t.unref = some ⟨t.count - 1⟩)) ∧
    ∃ h', unref h p = some h' ∧ (h'.get p = none ↔ o.count - 1 = 0) ∧
      (o.count - 1 ≠ 0 → h' = h.modify p (fun o => { o with count := o.count - 1 })) := by
  constructor
  · unfold TRefObj.unref
    by_cases h0 : t.count - 1 = 0 <;> simp [h0]
  · by_cases h0 : o.count - 1 = 0
    · obtain ⟨h', hu, hn⟩ := unref_destroys hg h0
      exact ⟨h', hu, by simp [hn, h0], fun hne => absurd h0 hne⟩
    · refine ⟨_, unref_of_ne hg h0, ?_, fun _ => rfl⟩
      rw [Heap.get_modify]
      simp [hg, h0]

/-- C15 at a leaf of count 1, which the call deletes, and at `bus0` of the
worked example, of count 2, which stays. -/
theorem unref_deletes_exactly_at_zero_witness :
    (∃ h', unref twoLeaves 0 = some h' ∧ (h'.get 0 = none ↔ (1 : Int) - 1 = 0) ∧
      ((1 : Int) - 1 ≠ 0 →
        h' = twoLeaves.modify 0 (fun o => { o with count := o.count - 1 }))) ∧
    (∃ h', unref exampleHeap 0 = some h' ∧ (h'.get 0 = none ↔ (2 : Int) - 1 = 0) ∧
      ((2 : Int) - 1 ≠ 0 →
        h' = exampleHeap.modify 0 (fun o => { o with count := o.count - 1 }))) :=
  ⟨(unref_deletes_exactly_at_zero ⟨1⟩ twoLeaves 0 ⟨.tInterfaceEx "IA", 1, none⟩ rfl).2,
   (unref_deletes_exactly_at_zero ⟨2⟩ exampleHeap 0 ⟨.implIBus 0 [1, 2] [], 2, some 3⟩ rfl).2⟩

/-- C16 fails. Two objects, each held by one handle, so that every count equals
the number of handles on the object; after the first handle is assigned from the
second by `operator=(const auto_ref&)` both handles hold the second object, no
handle holds the first, and the count of the first object is still 1. -/
theorem handle_assignment_leaks :
    twoLeaves.countOf 0 = handlesOn [some 0, some 1] 0 ∧
    twoLeaves.countOf 1 = handlesOn [some 0, some 1] 1 ∧
    (auto_ref.assign twoLeaves (some 0) (some 1)).2 = some 1 ∧
    (auto_ref.assign twoLeaves (some 0) (some 1)).1.countOf 0 = 1 ∧
    handlesOn [some 1, some 1] 0 = 0 := by
  decide

/-- C17 fails. With a handle on cell 0 and a handle on cell 1, assigning the
second to the first leaves the count of cell 0 as it was (not one less) and
raises the count of cell 1; assigning a handle on cell 0 to a handle on the
same cell raises the count of cell 0 (instead of changing nothing). -/
theorem handle_assignment_effect :
    auto_ref.assign twoLeaves (some 0) (some 1)
      = (⟨[some ⟨.tInterfaceEx "IA", 1, none⟩, some ⟨.tInterfaceEx "IB", 2, none⟩]⟩, some 1) ∧
    auto_ref.assign twoLeaves (some 0) (some 0)
      = (⟨[some ⟨.tInterfaceEx "IA", 2, none⟩, some ⟨.tInterfaceEx "IB", 1, none⟩]⟩, some 0) := by
  decide

/-- C18. The assignment `operator=(T*)` of the raw reference `q` to a handle
holding `p`: when `q` equals `p` nothing changes; when `q` differs from `p` the
call returns, having called `unref` once on `p` (if not null), then `ref` once on
`q` (if not null), and the handle holds `q`. In particular, for two distinct
live objects, the first with a decremented count other than 0, the count of the
first is one less, the count of the second one more, and nothing else
changes. -/
theorem raw_assignment_effect (h : Heap) (p q : Option Ptr) :
    (q = p → auto_ref.assignRaw h p q = some (h, p)) ∧
    (q ≠ p → ∃ h1,
      (match p with
        | some a => unref h a
        | none => some h) = some h1 ∧
      auto_ref.assignRaw h p q
        = some ((match q with
            | some b => ref h1 b
            | none => h1), q)) ∧
    (∀ a b oa ob, p = some a → q = some b → a ≠ b → h.get a = some oa → h.get b = some ob →
      oa.count - 1 ≠ 0 → ∃ h', auto_ref.assignRaw h p q = some (h', some b) ∧
        h'.get a = some { oa with count := oa.count - 1 } ∧
        h'.get b = some { ob with count := ob.count + 1 } ∧
        ∀ x, x ≠ a → x ≠ b → h'.get x = h.get x) := by
  refine ⟨?_, ?_, ?_⟩
  · intro he
    subst he
    simp [auto_ref.assignRaw]
  · intro hne
    have hne' : p ≠ q := fun e => hne e.symm
    obtain ⟨h1, hd⟩ : ∃ h1, auto_ref.destroy h p = some h1 := by
      cases p with
      | none => exact ⟨h, rfl⟩
      | some a =>
        obtain ⟨h1, hu, _⟩ := unref_total h a
        exact ⟨h1, hu⟩
    refine ⟨h1, ?_, ?_⟩
    · cases p <;> exact hd
    · simp only [auto_ref.assignRaw, hne', ne_eq, not_false_eq_true, if_true, hd]
      cases q <;> rfl
  · intro a b oa ob hp hq hab ha hb hc
    subst hp hq
    have hne' : (some a : Option Ptr) ≠ some b := by simpa using hab
    have hu := unref_of_ne ha hc
    refine ⟨ref (h.modify a (fun o => { o with count := o.count - 1 })) b, ?_, ?_, ?_, ?_⟩
    · simp only [auto_ref.assignRaw, hne', ne_eq, not_false_eq_true, if_true,
        auto_ref.destroy, hu, auto_ref.fromRaw]
    · rw [get_ref_ne _ _ _ hab, Heap.get_modify]
      simp [ha]
    · rw [get_ref, Heap.get_modify]
      simp [Ne.symm hab, hb]
    · intro x hxa hxb
      rw [get_ref_ne _ _ _ hxb, Heap.get_modify]
      simp [hxa]

/-- C18 at the worked example: a handle on `bus0` is assigned the raw
reference to `IC`. -/
theorem raw_assignment_effect_witness :
    ∃ h', auto_ref.assignRaw exampleHeap (some 0) (some 4) = some (h', some 4) ∧
      h'.get 0 = some ⟨.implIBus 0 [1, 2] [], 1, some 3⟩ ∧
      h'.get 4 = some ⟨.tInterfaceEx "IC", 2, some 3⟩ ∧
      ∀ x, x ≠ 0 → x ≠ 4 → h'.get x = exampleHeap.get x :=
  (raw_assignment_effect exampleHeap (some 0) (some 4)).2.2 0 4 ⟨.implIBus 0 [1, 2] [], 2, some 3⟩
    ⟨.tInterfaceEx "IC", 1, some 3⟩ rfl rfl (by decide) rfl rfl (by decide)

/-- C19. The constructor `auto_ref(T*, bool)` with `refIt = false` changes no
count and holds the reference; the destructor performs `unref` once on the held
reference. On a well-typed heap in which every bus has a count of at least 1, a
successful query without state raises the count of the returned object by one,
and destroying a handle that adopted the result returns and restores that
count: every other object is as before the query, and the returned object is as
before unless its count before the query was 0, in which case the release
deletes it. -/
theorem adopting_handle_restores_count (h : Heap) (ht : h.Typed)
    (hc : ∀ b < h.size, h.isBus b = true → 1 ≤ h.countOf b) (x : Ptr) (iid : TIntfId)
    (h1 : Heap) (q : Option QState) (r : Ptr)
    (hq : queryInterface h x iid none = some (h1, q, some r)) :
    (∀ (g : Heap) (p : Option Ptr), auto_ref.fromRawRefIt g p false = (g, p)) ∧
    (∀ (g : Heap) (p : Ptr), auto_ref.destroy g (some p) = unref g p) ∧
    h1.countOf r = h.countOf r + 1 ∧
    ∃ h2, auto_ref.destroy (auto_ref.fromRawRefIt h1 (some r) false).1
        (auto_ref.fromRawRefIt h1 (some r) false).2 = some h2 ∧
      h2.countOf r = h.countOf r ∧ ((h2.get r).isSome = true ↔ h.countOf r ≠ 0) ∧
      ∀ y, y ≠ r → h2.get y = h.get y := by
  obtain ⟨q', r', hq', hlive⟩ := query_effect h ht hc x iid
  rw [hq] at hq'
  simp only [Option.some.injEq, Prod.mk.injEq] at hq'
  obtain ⟨rfl, _, rfl⟩ := hq'
  obtain ⟨o, hg⟩ := hlive r rfl
  have href : refAll h (some r).toList = ref h r := rfl
  rw [href]
  have hg1 : (ref h r).get r = some { o with count := o.count + 1 } := by
    simp [get_ref, hg]
  refine ⟨fun g p => by cases p <;> rfl, fun g p => rfl, countOf_ref h r o hg, ?_⟩
  simp only [auto_ref.fromRawRefIt, auto_ref.destroy, Bool.false_eq_true, if_false]
  have hco : h.countOf r = o.count := by simp [Heap.countOf, hg]
  by_cases h0 : o.count = 0
  · -- the object had no reference before the query: the release deletes it
    have hnb : h.isBus r = false := by
      cases hh : h.isBus r with
      | false => rfl
      | true =>
        have := hc r (Heap.isBus_lt hh) hh
        rw [hco] at this
        omega
    have hu : unref (ref h r) r
        = some (((ref h r).modify r (fun o => { o with count := o.count - 1 })).free r) := by
      unfold unref
      rw [unrefF, hg1]
      obtain ⟨c, n, b⟩ := o
      simp only at h0
      subst h0
      cases c with
      | implIBus l is bs =>
        have : h.isBus r = true := Heap.isBus_iff.2 ⟨_, l, is, bs, hg, rfl⟩
        rw [this] at hnb
        simp at hnb
      | tInterfaceEx y => simp
      | tMultiInterfaceEx y => simp
    refine ⟨_, hu, ?_, ?_, ?_⟩
    · simp [Heap.countOf, Heap.get_free, hg, h0]
    · simp [Heap.get_free, hco, h0]
    · intro y hy
      rw [Heap.get_free, Heap.get_modify]
      simp [hy, get_ref_ne]
  · have hu := unref_of_ne hg1 (by simp only; omega)
    have heq : (ref h r).modify r (fun o => { o with count := o.count - 1 }) = h := by
      apply Heap.ext_get (by simp)
      intro y
      rw [Heap.get_modify, get_ref]
      by_cases hy : y = r
      · subst hy
        simp [hg]
      · simp [hy, get_ref_ne]
    rw [heq] at hu
    refine ⟨h, hu, rfl, ?_, fun y _ => rfl⟩
    simp [hg, hco, h0]

/-- C19 at the worked example: the query for `"IC"` started on `IA`. -/
theorem adopting_handle_restores_count_witness :
    queryInterface exampleHeap 1 "IC" none
      = some (ref exampleHeap 4, some ⟨0, [0, 3], true⟩, some 4) ∧
    ∃ h2, auto_ref.destroy (auto_ref.fromRawRefIt (ref exampleHeap 4) (some 4) false).1
        (auto_ref.fromRawRefIt (ref exampleHeap 4) (some 4) false).2 = some h2 ∧
      h2.countOf 4 = exampleHeap.countOf 4 ∧
      ((h2.get 4).isSome = true ↔ exampleHeap.countOf 4 ≠ 0) ∧
      ∀ y, y ≠ 4 → h2.get y = exampleHeap.get y :=
  ⟨by decide,
   (adopting_handle_restores_count exampleHeap (by decide) (by decide) 1 "IC" (ref exampleHeap 4)
      (some ⟨0, [0, 3], true⟩) 4 (by decide)).2.2.2⟩

/-- C20. For a live bus `B` and a live leaf `m` that has no owning bus and does
not itself answer `IID_IBUS`, `B.connect(m)` returns true; afterwards `m` is
appended at the end of the leaf list of `B`, the count of `m` is one higher and
its owning bus is `B`, and the level, child-bus list, count and owning bus of
`B` and every other object are unchanged. -/
theorem connect_leaf_effect (h : Heap) (B m : Ptr) (oB om : Obj) (l : Int) (is bs : List Ptr)
    (hB : h.get B = some oB) (hcl : oB.cls = .implIBus l is bs) (hm : h.get m = some om)
    (hleaf : h.isLeaf m = true) (hnb : h.answersAt m IID_IBUS = false) (hfree : om.bus = none) :
    ∃ h', connect h B m = some (h', true) ∧ h'.size = h.size ∧
      h'.get B = some { oB with cls := .implIBus l (is ++ [m]) bs } ∧
      h'.get m = some { om with count := om.count + 1, bus := some B } ∧
      ∀ x, x ≠ B → x ≠ m → h'.get x = h.get x := by
  have hBb : h.isBus B = true := Heap.isBus_iff.2 ⟨oB, l, is, bs, hB, hcl⟩
  have hBm : B ≠ m := by
    intro e
    subst e
    rw [isLeaf_isBus hleaf] at hBb
    simp at hBb
  have hlev : getLevel h B = some l := by
    obtain ⟨c, n, b⟩ := oB
    simp only at hcl
    subst hcl
    simp [getLevel, hB]
  have hna : om.cls.answers IID_IBUS = false := by
    simpa [Heap.answersAt, hm] using hnb
  have hq : queryInterface h m IID_IBUS none = some (h, none, none) := by
    unfold queryInterface
    rw [query_leaf_unhosted h m om hm hleaf hfree IID_IBUS none]
    simp [hna]
  refine ⟨setBus ((ref h m).modify B (fun o => o.pushIntf m)) m (some B), ?_, ?_, ?_, ?_, ?_⟩
  · unfold connect
    simp only [hlev, hq]
  · simp [setBus]
  · obtain ⟨c, n, b⟩ := oB
    simp only at hcl
    subst hcl
    simp [setBus, Heap.get_modify, get_ref, hBm, hB, Obj.pushIntf]
  · simp [setBus, Heap.get_modify, get_ref, Ne.symm hBm, hm]
  · intro x hxB hxm
    simp [setBus, Heap.get_modify, get_ref, hxB, hxm]

/-- C20 at the first step of the worked example, `bus0->connect(new IA)`. -/
theorem connect_leaf_effect_witness :
    ∃ h', connect busAndLeaf 0 1 = some (h', true) ∧ h'.size = busAndLeaf.size ∧
      h'.get 0 = some ⟨.implIBus 0 ([] ++ [1]) [], 1, none⟩ ∧
      h'.get 1 = some ⟨.tInterfaceEx "IA", 0 + 1, some 0⟩ ∧
      ∀ x, x ≠ 0 → x ≠ 1 → h'.get x = busAndLeaf.get x :=
  connect_leaf_effect busAndLeaf 0 1 ⟨.implIBus 0 [] [], 1, none⟩ ⟨.tInterfaceEx "IA", 0, none⟩ 0 [] []
    rfl rfl rfl (by decide) (by decide) rfl

/-- C21. For a bus `P` and a bus `C` whose count is at least 1 and whose level
is above that of `P`, `P.connect(C)` returns false and the heap afterwards is
the heap before the call: no vector, back-reference or count has changed. -/
theorem rejected_connect_changes_nothing (h : Heap) (P C : Ptr) (lp lc : Int) (hP : getLevel h P = some lp)
    (hC : getLevel h C = some lc) (hlt : lp < lc) (hc : 1 ≤ h.countOf C) :
    connect h P C = some (h, false) := by
  have hCb : h.isBus C = true := by simp [Heap.isBus, hC]
  have hq : queryInterface h C IID_IBUS none = some (ref h C, some ⟨0, [], true⟩, some C) :=
    query_bus_universal hCb IID_IBUS (by decide) _
  have hu : unref (ref h C) C = some h :=
    unref_ref_cancel h C (fun o ho => by simpa [Heap.countOf, ho] using hc)
  unfold connect
  simp only [hP, hq, getLevel_ref, hC, hu]
  rw [if_neg (by omega)]

/-- C21 at the worked example before the buses are connected: `bus0` (level 0)
rejects `bus1` (level 1). -/
theorem rejected_connect_changes_nothing_witness : connect exampleHeap0 0 3 = some (exampleHeap0, false) :=
  rejected_connect_changes_nothing exampleHeap0 0 3 0 1 (by decide) (by decide) (by decide) (by decide)

/-- C22. The method `findFirstBusByLevel` leaves the heap as it is; it returns
`b` exactly when `b` is the first member of `_buses` of the receiver whose level
is the given one, and it returns nothing exactly when no member of `_buses` has
that level, whatever the levels of the buses connected further down. -/
theorem findFirstBusByLevel_first_direct_child (h : Heap) (self : Ptr) (l : Int) :
    (findFirstBusByLevel h self l).1 = h ∧
    (∀ b, (findFirstBusByLevel h self l).2 = some b ↔
      ∃ pre post, h.busesOf self = pre ++ b :: post ∧ getLevel h b = some l ∧
        ∀ x ∈ pre, getLevel h x ≠ some l) ∧
    ((findFirstBusByLevel h self l).2 = none ↔
      ∀ x ∈ h.busesOf self, getLevel h x ≠ some l) :=
  ⟨rfl, fun b => findBus_some h l b _, findBus_none h l _⟩

/-- C22 at a chain of three buses of levels 2, 1, 0: the search for level 0 from
the top finds nothing although the grandchild has level 0; the search for
level 1 finds the child. -/
theorem findFirstBusByLevel_first_direct_child_witness :
    1 ∈ chainHeap.busesOf 0 ∧ 2 ∈ chainHeap.busesOf 1 ∧ getLevel chainHeap 2 = some 0 ∧
    (findFirstBusByLevel chainHeap 0 0).2 = none ∧
    (findFirstBusByLevel chainHeap 0 1).2 = some 1 :=
  ⟨by decide, by decide, by decide, (findFirstBusByLevel_first_direct_child chainHeap 0 0).2.2.2 (by decide),
   ((findFirstBusByLevel_first_direct_child chainHeap 0 1).2.1 1).2 ⟨[], [], by decide, by decide, by decide⟩⟩

/-- C23. In every heap reached from freshly constructed objects by calls of
`connect` and `disconnect`, every bus recorded in `_buses` of a bus has a level
not above the level of that bus, and `getLevel` of every bus returns the level
the bus had at the start. -/
theorem level_invariant (h0 h : Heap) (hf : h0.Fresh) (hr : Reach h0 h) :
    (∀ P C lp lc, getLevel h P = some lp → C ∈ h.busesOf P → getLevel h C = some lc →
      lc ≤ lp) ∧
    (∀ p l, getLevel h p = some l → getLevel h0 p = some l) :=
  reach_levels hf hr

/-- C23 at two buses and a leaf after two connections. -/
theorem level_invariant_witness :
    (∀ P C lp lc, getLevel equalHeap P = some lp → C ∈ equalHeap.busesOf P →
      getLevel equalHeap C = some lc → lc ≤ lp) ∧
    (∀ p l, getLevel equalHeap p = some l → getLevel cycleFresh p = some l) :=
  level_invariant cycleFresh equalHeap (by decide)
    (Reach.connect equalHeap1 equalHeap 0 1 true
      (Reach.connect cycleFresh equalHeap1 1 2 true Reach.start (by decide)) (by decide))

/-- C24, amended. The release of the last reference to a bus returns and runs
its destructor, which calls `unref()` on the members of `_intfs` in reverse and
then on the members of `_buses` in reverse: the log of the calls is this list,
each member followed by the calls made while it was released. Each member has
its back-reference cleared before it is released, and the memory of the bus is
freed at the end. Connecting a bus appends it to `_buses`, connecting a leaf
without owning bus appends it to `_intfs`, so both vectors are in connection
order. -/
theorem destructor_release_order (h : Heap) (p : Ptr) (o : Obj) (l : Int) (is bs : List Ptr)
    (hg : h.get p = some o) (hc : o.cls = .implIBus l is bs) (h1 : o.count - 1 = 0) :
    (∃ h' log nested, unrefL (h.size + 1) h p = some (h', log) ∧ unref h p = some h' ∧
      nested.length = (is.reverse ++ bs.reverse).length ∧
      log = (List.zipWith (fun m l => m :: l) (is.reverse ++ bs.reverse) nested).flatten) ∧
    (∃ h2, releaseMembers unref (is.reverse ++ bs.reverse)
        (h.modify p (fun o => { o with count := o.count - 1 })) = some h2 ∧
      unref h p = some (h2.free p)) ∧
    (∀ (m : Ptr) (ms : List Ptr) (g : Heap),
      releaseMembers unref (m :: ms) g
        = (unref (setBus g m none) m).bind (releaseMembers unref ms)) ∧
    (∀ C lc, getLevel h C = some lc → lc ≤ l →
      ∃ h', connect h p C = some (h', true) ∧ h'.intfsOf p = is ∧ h'.busesOf p = bs ++ [C]) ∧
    (∀ m om, h.get m = some om → h.isLeaf m = true → h.answersAt m IID_IBUS = false →
      om.bus = none →
      ∃ h', connect h p m = some (h', true) ∧ h'.intfsOf p = is ++ [m] ∧ h'.busesOf p = bs) := by
  refine ⟨unrefL_bus_last hg hc h1, unref_bus_last hg hc h1, ?_, ?_, ?_⟩
  · intro m ms g
    rw [releaseMembers]
    cases unref (setBus g m none) m <;> rfl
  · intro C lc hC hle
    exact connect_bus_lists hg hc hC hle
  · intro m om hm hleaf hnb hfree
    exact connect_leaf_lists hg hc hm hleaf hnb hfree

/-- C24 as stated fails: bus 0 connects the leaf (cell 2) and then the bus
(cell 1); when the last reference to bus 0 is released the destructor releases
the leaf first and the bus second, which is the order of connection and not its
reverse. -/
theorem destructor_release_order_counterexample :
    ∃ hA hB, connect cycleFresh 0 2 = some (hA, true) ∧ connect hA 0 1 = some (hB, true) ∧
      unrefL (hB.size + 1) hB 0
        = some (⟨[none, some ⟨.implIBus 0 [] [], 1, none⟩, none]⟩, [2, 1]) :=
  ⟨⟨[some ⟨.implIBus 0 [2] [], 1, none⟩, some ⟨.implIBus 0 [] [], 1, none⟩,
      some ⟨.tInterfaceEx "IA", 1, some 0⟩]⟩,
   ⟨[some ⟨.implIBus 0 [2] [1], 1, none⟩, some ⟨.implIBus 0 [] [], 2, some 0⟩,
      some ⟨.tInterfaceEx "IA", 1, some 0⟩]⟩,
   by decide, by decide, by decide⟩

/-- C24 at `bus1` of the worked example, whose count is 1. -/
theorem destructor_release_order_witness :
    ∃ h' log nested, unrefL (exampleHeap.size + 1) exampleHeap 3 = some (h', log) ∧
      unref exampleHeap 3 = some h' ∧
      nested.length = ([4, 5].reverse ++ [0].reverse).length ∧
      log = (List.zipWith (fun m l => m :: l) ([4, 5].reverse ++ [0].reverse) nested).flatten :=
  (destructor_release_order exampleHeap 3 ⟨.implIBus 1 [4, 5] [0], 1, none⟩ 1 [4, 5] [0] rfl rfl (by decide)).1

/-- C25. In every run that starts from objects just constructed and consists of
calls of `connect`, `disconnect` and `queryInterface` without state, of
constructions of handles on live objects and of releases of references held by
a handle or returned by a query, every destructor of a bus run by an operation
finds `_bus == NULL`. The functions that report the assertions compute the
same heaps and results as `unref`, `connect`, `disconnect` and
`queryInterface`. -/
theorem destructor_assertion_holds (h0 : Heap) (hn : h0.New) (s s' : Heap × List Ptr) (a : Bool)
    (hr : Run (h0, []) s) (hs : Step s a s') :
    a = true ∧
    (∀ h p, (unrefA (h.size + 1) h p).map Prod.fst = unref h p) ∧
    (∀ h self intf, (connectA h self intf).map Prod.fst = connect h self intf) ∧
    (∀ h self intf, (disconnectA h self intf).map Prod.fst = disconnect h self intf) ∧
    (∀ h p iid, (queryInterfaceA (h.size + 3) h p iid none).map Prod.fst
      = queryInterface h p iid none) := by
  obtain ⟨ht, hC⟩ := run_counted hn hr
  exact ⟨(step_counted ht hC hs).1, fun h p => unrefA_fst _ h p, connectA_fst, disconnectA_fst,
    fun h p iid => queryInterfaceA_fst iid _ h p none⟩

/-- C25 at two buses: a handle is taken on bus 0, bus 0 connects bus 1, the
handle is released; bus 0 is destroyed and its destructor destroys bus 1. -/
theorem destructor_assertion_holds_witness :
    newPair.New ∧ Run (newPair, []) (heldPair, [0]) ∧
    Step (heldPair, [0]) true (⟨[none, none]⟩, []) ∧
    unref heldPair 0 = some ⟨[none, none]⟩ :=
  have hr : Run (newPair, []) (heldPair, [0]) :=
    Run.step (ref newPair 0, [0]) (heldPair, [0]) true
      (Run.step (newPair, []) (ref newPair 0, [0]) true Run.start
        (Step.hold newPair [] 0 (by decide)))
      (Step.connect (ref newPair 0) [0] 0 1 heldPair true true (by decide))
  have hs : Step (heldPair, [0]) true (⟨[none, none]⟩, []) :=
    Step.release heldPair [0] 0 ⟨[none, none]⟩ true (by decide) (by decide)
  ⟨by decide, hr, hs, by
    have := (destructor_assertion_holds newPair (by decide) (heldPair, [0]) (⟨[none, none]⟩, []) true hr hs).2.1
      heldPair 0
    rw [← this]
    decide⟩

/-- C26. In every heap reached from freshly constructed objects by calls of
`connect` and `disconnect`, a bus `C` recorded in `_buses` of a bus `P` has a
level not above that of `P`, and the bus loop of `P` enters `C` exactly when
the levels are equal and `C` is not marked in the state (or there is no state).
When the levels are equal, a query without state started on `P` for an
identifier that no bus answers itself and a leaf of `C` answers succeeds with an
object that answers it (that leaf when no other object answers); when the level
of `C` is lower and only leaves of `C` answer, the query finds nothing. -/
theorem downward_scan_equal_level (h0 h : Heap) (hf : h0.Fresh) (hr : Reach h0 h) (P C : Ptr) (lp lc : Int)
    (hP : getLevel h P = some lp) (hC : C ∈ h.busesOf P) (hlc : getLevel h C = some lc) :
    lc ≤ lp ∧
    (∀ (rec : Heap → Ptr → Option QState → Option QResult) (rest : List Ptr) (g : Heap)
        (qst : Option QState), getLevel g C = some lc →
      scanBuses rec lp (C :: rest) g qst
        = if lc = lp ∧ notSearched qst C = true then
            (match rec g C qst with
              | none => none
              | some (h1, q1, some r) => some (h1, q1, some r)
              | some (h1, q1, none) => scanBuses rec lp rest h1 q1)
          else scanBuses rec lp rest g qst) ∧
    (lc = lp → ∀ j Y, busAnswers j = false → Y ∈ h.intfsOf C → h.answersAt Y j = true →
      ∃ h' q r, queryInterface h P j none = some (h', q, some r) ∧
        h.answersAt r j = true ∧
        ((∀ x, h.answersAt x j = true → x = Y) → r = Y)) ∧
    (lc < lp → ∀ j, busAnswers j = false →
      (∀ b x, x ∈ h.intfsOf b → h.answersAt x j = true → b = C) →
      ∃ h' q, queryInterface h P j none = some (h', q, none)) := by
  have ht := Built.typed (Reach.built hf hr)
  have hle : lc ≤ lp := (reach_levels hf hr).1 P C lp lc hP hC hlc
  have hPb : h.isBus P = true := by simp [Heap.isBus, hP]
  refine ⟨hle, ?_, ?_, ?_⟩
  · intro rec rest g qst hg
    rw [scanBuses]
    simp only [hg]
    by_cases he : lc = lp
    · subst he
      by_cases hn : notSearched qst C = true
      · simp only [hn, ge_iff_le, le_refl, decide_True, if_true, and_self]
      · simp [hn]
    · have : ¬ lc ≥ lp := by omega
      simp [he, this]
  · rintro rfl j Y hu hY hYa
    obtain ⟨m, r, h', q, hp, hq, hans⟩ := query_bus_outcome h ht j P hPb
    cases r with
    | some y =>
      refine ⟨h', q, y, hq, (hans y rfl).1, fun honly => honly y (hans y rfl).1⟩
    | none =>
      exfalso
      obtain ⟨m1, hl, _⟩ := pQuery_none_local hPb hp
      have hcov := pLocal_covers h ht j hu _ P [] m1 lc hP hl C hC lc hlc (le_refl _)
      have hinv := (inv_local h ht j hu _ P [] m1 none lc hP (by simp) hl).1
      have := hinv.failed rfl C (by simpa using hcov) Y hY
      rw [hYa] at this
      simp at this
  · intro hlt j hu honly
    obtain ⟨m, r, h', q, hp, hq, hans⟩ := query_bus_outcome h ht j P hPb
    cases r with
    | none => exact ⟨h', q, hq⟩
    | some y =>
      exfalso
      obtain ⟨hya, hy⟩ := hans y rfl
      rcases hy with rfl | ⟨b, hbm, hyb⟩
      · rw [answersAt_bus hPb j, hu] at hya
        simp at hya
      · have hbC := honly b y hyb hya
        subst hbC
        obtain ⟨l, hl, hle2⟩ := pQuery_levels h ht j hu (reach_up hf hr) _ P [] m (some y) lp
          hP (by simp) hp b hbm
        rw [hlc] at hl
        simp only [Option.some.injEq] at hl
        omega

/-- C26 at a bus with a child of the same level hosting `IA`, where the query
finds it, and at `bus1` of the worked example, whose child `bus0` of lower
level hosts the only object that answers `IA`, where the query finds nothing. -/
theorem downward_scan_equal_level_witness :
    (∃ h' q r, queryInterface equalHeap 0 "IA" none = some (h', q, some r) ∧
      equalHeap.answersAt r "IA" = true ∧
      ((∀ x, equalHeap.answersAt x "IA" = true → x = 2) → r = 2)) ∧
    (1 ∈ exampleHeap.intfsOf 0 ∧ exampleHeap.answersAt 1 "IA" = true ∧
      ∃ h' q, queryInterface exampleHeap 3 "IA" none = some (h', q, none)) :=
  ⟨(downward_scan_equal_level cycleFresh equalHeap (by decide)
      (Reach.connect equalHeap1 equalHeap 0 1 true
        (Reach.connect cycleFresh equalHeap1 1 2 true Reach.start (by decide)) (by decide))
      0 1 0 0 (by decide) (by decide) (by decide)).2.2.1 rfl "IA" 2 (by decide) (by decide)
      (by decide),
   by decide, by decide,
   (downward_scan_equal_level exampleNew exampleHeap (by decide) example_reach
      3 0 1 0 (by decide) (by decide) (by decide)).2.2.2 (by decide) "IA" (by decide)
      (fun b x hx ha => by
        rcases b with _ | _ | _ | _ | _ | _ | b
        · rfl
        · simp [Heap.intfsOf, Heap.get, exampleHeap] at hx
        · simp [Heap.intfsOf, Heap.get, exampleHeap] at hx
        · exfalso
          simp [Heap.intfsOf, Heap.get, exampleHeap] at hx
          rcases hx with rfl | rfl <;> exact absurd ha (by decide)
        · simp [Heap.intfsOf, Heap.get, exampleHeap] at hx
        · simp [Heap.intfsOf, Heap.get, exampleHeap] at hx
        · simp [Heap.intfsOf, Heap.get, exampleHeap] at hx)⟩

/-- C27. For a bus of a well-typed heap and an identifier the bus does not
answer itself: when a leaf of `_intfs` answers, `localQueryInterface` returns
the first such leaf with one more reference, having marked only this bus, and
it still does so after `disconnect` of another member that leaves the bus and
the leaf alive; when no leaf answers, the result is that of the loop over
`_buses` in order. -/
theorem scan_order_leaves_first (h : Heap) (ht : h.Typed) (B : Ptr) (l : Int) (is bs : List Ptr) (n : Int)
    (b : Option Ptr) (hg : h.get B = some ⟨.implIBus l is bs, n, b⟩) (i : TIntfId)
    (hi : busAnswers i = false) (qst : Option QState) :
    (∀ pre y post, is = pre ++ y :: post → h.answersAt y i = true →
      (∀ x ∈ pre, h.answersAt x i = false) →
      localQueryInterface h B i qst
        = some (ref (match qst with
            | some _ => ref h B
            | none => h) y, qst.map (fun q => { q with buses := q.buses ++ [B] }), some y) ∧
      ∀ X h', X ≠ y → disconnect h B X = some h' → h'.isBus B = true →
        h'.answersAt y i = true →
        localQueryInterface h' B i qst
          = some (ref (match qst with
              | some _ => ref h' B
              | none => h') y, qst.map (fun q => { q with buses := q.buses ++ [B] }),
              some y)) ∧
    ((∀ x ∈ is, h.answersAt x i = false) →
      localQueryInterface h B i qst
        = scanBuses (fun h1 c q1 => localQueryInterfaceF (h.size + 2) h1 c i q1) l bs
            (match qst with
              | some _ => ref h B
              | none => h)
            (qst.map (fun q => { q with buses := q.buses ++ [B] }))) := by
  constructor
  · intro pre y post his hy hpre
    constructor
    · unfold localQueryInterface
      rw [localQ_bus_scan h ht B l is bs n b hg i hi qst (h.size + 1), his,
        find_first (fun x => h.answersAt x i) pre y post hy hpre]
    · intro X h' hXy hd hBb hy'
      have ht' : h'.Typed := (disconnect_evolves hd).preserves_typed ht
      obtain ⟨hcB, hcx⟩ := disconnect_cls hg hd
      obtain ⟨oB, l', is', bs', hgB, hcls⟩ := Heap.isBus_iff.1 hBb
      have hcls' := hcB oB hgB
      -- the leaf list of `B` after the call
      have hlist : ∃ pre' post', is' = pre' ++ y :: post' ∧ ∀ x ∈ pre', x ∈ pre := by
        rw [hcls] at hcls'
        simp only [Cls.implIBus.injEq] at hcls'
        obtain ⟨_, his', _⟩ := hcls'
        by_cases h1 : X ∈ is
        · simp only [h1, if_true] at his'
          rw [his', his]
          exact erase_keeps_first pre post y X hXy
        · simp only [h1, if_false] at his'
          exact ⟨pre, post, by rw [his', his], fun x hx => hx⟩
      obtain ⟨pre', post', his', hsub⟩ := hlist
      have hBbus : h.isBus B = true := Heap.isBus_iff.2 ⟨_, l, is, bs, hg, rfl⟩
      have hpre' : ∀ x ∈ pre', h'.answersAt x i = false := by
        intro x hx
        have hxis : x ∈ is := by rw [his]; simp [hsub x hx]
        have hxB : x ≠ B := by
          intro e
          have := ht.intfs hg rfl x hxis
          rw [e, hBbus] at this
          simp at this
        cases hgx : h'.get x with
        | none => simp [Heap.answersAt, hgx]
        | some o' =>
          obtain ⟨o, hgo, hc⟩ := hcx x o' hxB hgx
          have := hpre x (hsub x hx)
          simp only [Heap.answersAt, hgo] at this
          simp only [Heap.answersAt, hgx, hc, this]
      obtain ⟨cB, nB, bB⟩ := oB
      simp only at hcls
      subst hcls
      unfold localQueryInterface
      rw [localQ_bus_scan h' ht' B l' is' bs' nB bB hgB i hi qst (h'.size + 1), his',
        find_first (fun x => h'.answersAt x i) pre' y post' hy' hpre']
  · intro hnone
    unfold localQueryInterface
    rw [localQ_bus_scan h ht B l is bs n b hg i hi qst (h.size + 1)]
    have : is.find? (fun x => h.answersAt x i) = none := by
      rw [List.find?_eq_none]
      intro x hx
      simp [hnone x hx]
    rw [this]

/-- C27 at `bus0` of the worked example and the identifier `"IB"`, before and
after `bus0->disconnect(ia)`. -/
theorem scan_order_leaves_first_witness :
    localQueryInterface exampleHeap 0 "IB" none = some (ref exampleHeap 2, none, some 2) ∧
    disconnect exampleHeap 0 1 = some exampleHeapD ∧
    localQueryInterface exampleHeapD 0 "IB" none = some (ref exampleHeapD 2, none, some 2) :=
  ⟨((scan_order_leaves_first exampleHeap (by decide) 0 0 [1, 2] [] 2 (some 3) rfl "IB" (by decide) none).1
      [1] 2 [] rfl (by decide) (by decide)).1,
   by decide,
   ((scan_order_leaves_first exampleHeap (by decide) 0 0 [1, 2] [] 2 (some 3) rfl "IB" (by decide) none).1
      [1] 2 [] rfl (by decide) (by decide)).2 1 exampleHeapD (by decide) (by decide)
      (by decide) (by decide)⟩

/-- C28. The method `unrefNoDelete` lowers the count by one and destroys
nothing, also when the count becomes 0; the asserted condition `_count >= 0`
holds after the decrement when the count was at least 1 before. Stated for an
object of a class `TRefObj` and for an object of the heap, where nothing else
changes. -/
theorem unrefNoDelete_effect (t : TRefObj) (h : Heap) (p : Ptr) (o : Obj) (hg : h.get p = some o) :
    (t.unrefNoDelete = ⟨t.count - 1⟩ ∧ (1 ≤ t.count → t.unrefNoDelete.countNonNeg = true)) ∧
    (unrefNoDelete h p).get p = some { o with count := o.count - 1 } ∧
    (∀ x, x ≠ p → (unrefNoDelete h p).get x = h.get x) ∧
    (unrefNoDelete h p).size = h.size ∧
    (1 ≤ o.count → (unrefNoDelete h p).countNonNeg p = true) := by
  have hgp : (unrefNoDelete h p).get p = some { o with count := o.count - 1 } := by
    simp [unrefNoDelete, Heap.get_modify, hg]
  refine ⟨⟨rfl, ?_⟩, hgp, ?_, ?_, ?_⟩
  · intro h1
    simp only [TRefObj.countNonNeg, TRefObj.unrefNoDelete, decide_eq_true_eq]
    omega
  · intro x hx
    simp [unrefNoDelete, Heap.get_modify, hx]
  · simp [unrefNoDelete]
  · intro h1
    simp only [Heap.countNonNeg, Heap.countOf, hgp, decide_eq_true_eq]
    omega

/-- C28 at a leaf of count 1: the count becomes 0 and the object stays. -/
theorem unrefNoDelete_effect_witness :
    (unrefNoDelete twoLeaves 0).get 0 = some ⟨.tInterfaceEx "IA", 1 - 1, none⟩ ∧
    (unrefNoDelete twoLeaves 0).countNonNeg 0 = true :=
  ⟨(unrefNoDelete_effect ⟨1⟩ twoLeaves 0 ⟨.tInterfaceEx "IA", 1, none⟩ rfl).2.1,
   (unrefNoDelete_effect ⟨1⟩ twoLeaves 0 ⟨.tInterfaceEx "IA", 1, none⟩ rfl).2.2.2.2 (by decide)⟩

/-- C29. The helper `supports` returns true exactly when `queryInterface`
without state succeeds on the same heap; on a well-typed heap in which every
bus has a count of at least 1 it returns and the heap afterwards is the heap
before the call. -/
theorem supports_effect (h : Heap) (p : Ptr) (iid : TIntfId) :
    ((supports h p iid).map (fun res => res.2)
      = (queryInterface h p iid none).map (fun res => res.2.2.isSome)) ∧
    (h.Typed → (∀ b < h.size, h.isBus b = true → 1 ≤ h.countOf b) →
      ∃ ok, supports h p iid = some (h, ok)) := by
  constructor
  · unfold supports
    cases hq : queryInterface h p iid none with
    | none => rfl
    | some res =>
      obtain ⟨h1, q, r⟩ := res
      cases r <;> rfl
  · intro ht hc
    obtain ⟨q, r, hq, _⟩ := query_effect h ht hc p iid
    unfold supports
    rw [hq]
    cases r with
    | none => exact ⟨false, rfl⟩
    | some y =>
      refine ⟨true, ?_⟩
      have : refAll h (some y).toList = ref h y := rfl
      simp only [this, unrefNoDelete_ref]

/-- C29 at the worked example: `ia->supports("IC")`. -/
theorem supports_effect_witness : ∃ ok, supports exampleHeap 1 "IC" = some (exampleHeap, ok) :=
  (supports_effect exampleHeap 1 "IC").2 (by decide) (by decide)

/-- C30. For a live leaf that does not itself answer `IID_IBUS`: when its
`_bus` is a live bus `X`, `queryInterface(IID_IBUS)` without state returns `X`
and leaves the heap with the count of `X` raised by one and nothing else
changed; when its `_bus` is `NULL`, the query finds nothing and changes
nothing. -/
theorem leaf_query_bus_identity (h : Heap) (m : Ptr) (om : Obj) (hm : h.get m = some om)
    (hleaf : h.isLeaf m = true) (hnb : h.answersAt m IID_IBUS = false) :
    (∀ X, om.bus = some X → h.isBus X = true →
      queryInterface h m IID_IBUS none = some (ref h X, some ⟨0, [], true⟩, some X) ∧
      (ref h X).countOf X = h.countOf X + 1) ∧
    (om.bus = none → queryInterface h m IID_IBUS none = some (h, none, none)) := by
  have hna : om.cls.answers IID_IBUS = false := by
    simpa [Heap.answersAt, hm] using hnb
  have hq := query_none_leaf h IID_IBUS (h.size + 2) m om hm hleaf
  simp only [hna, Bool.false_eq_true, if_false] at hq
  constructor
  · intro X hX hXb
    obtain ⟨oX, _, _, _, hgX, _⟩ := Heap.isBus_iff.1 hXb
    refine ⟨?_, countOf_ref h X oX hgX⟩
    unfold queryInterface
    rw [hq, hX]
    exact query_bus_universal hXb IID_IBUS (by decide) _
  · intro hb
    unfold queryInterface
    rw [hq, hb]

/-- C30 at the leaf `IC` of the worked example, hosted on `bus1`. -/
theorem leaf_query_bus_identity_witness :
    queryInterface exampleHeap 4 IID_IBUS none
      = some (ref exampleHeap 3, some ⟨0, [], true⟩, some 3) ∧
    (ref exampleHeap 3).countOf 3 = exampleHeap.countOf 3 + 1 :=
  (leaf_query_bus_identity exampleHeap 4 ⟨.tInterfaceEx "IC", 1, some 3⟩ rfl (by decide) (by decide)).1 3 rfl
    (by decide)

/-- C31. In every heap reached from freshly constructed objects by calls of
`connect`, `disconnect`, `queryInterface` without a supplied state, `ref` and
`unref` (which destroys an object, a bus with its destructor, when its count
returns to 0): if the `_bus` of a live object is `P`, then `P` is a live bus and
the object occurs in `_intfs` or in `_buses` of `P`. -/
theorem back_reference_invariant (h0 h : Heap) (hf : h0.Fresh) (hr : Lives h0 h) (x P : Ptr) (o : Obj)
    (hg : h.get x = some o) (hb : o.bus = some P) :
    ∃ oP l is bs, h.get P = some oP ∧ oP.cls = .implIBus l is bs ∧ (x ∈ is ∨ x ∈ bs) :=
  mem_members.1 ((Lives.typed_backRef hf hr).2 x o P hg hb)

/-- C31 at two buses and a leaf: bus 1 connects the leaf, bus 0 connects bus 1,
the handle on bus 1 is released; the leaf still points to bus 1 and is in its
`_intfs`. -/
theorem back_reference_invariant_witness :
    trioFresh.Fresh ∧ Lives trioFresh trioHeap3 ∧
    trioHeap3.get 2 = some ⟨.tInterfaceEx "IA", 2, some 1⟩ ∧
    ∃ oP l is bs, trioHeap3.get 1 = some oP ∧ oP.cls = .implIBus l is bs ∧ (2 ∈ is ∨ 2 ∈ bs) :=
  ⟨by decide, trio_lives, by decide,
    back_reference_invariant trioFresh trioHeap3 (by decide) trio_lives 2 1 ⟨.tInterfaceEx "IA", 2, some 1⟩
      (by decide) rfl⟩

/-- C32, amended. For a stream that satisfies the invariant of its class and
whose count is not 0: after the constructor of a `pos_lock`, any sequence of
calls of `write`, `read` and `seek` that are defined, and the destructor of the
`pos_lock`, the stream is alive, at the position it had before, with the count
it had before. The invariant holds for every stream made by `create` and is
kept by every call. -/
theorem pos_lock_restores_position (sr : Stream) (hv : sr.Valid) (hc : sr.count ≠ 0) (ops : List StreamOp) (sr1 : Stream)
    (hp : Stream.perform ops (pos_lock.create sr).1 = some sr1) :
    (∃ sr2, pos_lock.destroy (pos_lock.create sr).2 sr1 = some sr2 ∧ sr2.pos = sr.pos ∧
      sr2.count = sr.count ∧ sr2.Valid) ∧
    (∀ limit junk, (Stream.writer (memory_writer.create limit junk)).Valid) ∧
    (∀ limit ptr len lc r, memory_reader.create limit ptr len lc = some r →
      (Stream.reader r).Valid) ∧
    (∀ ops' (s s' : Stream), s.Valid → Stream.perform ops' s = some s' → s'.Valid) := by
  refine ⟨?_, created_valid.1, created_valid.2.1, fun ops' s s' h1 h2 =>
    (Stream.perform_keeps ops' h1 h2).1⟩
  obtain ⟨hpos, hcnt, hroom, hval⟩ := Stream.ref_facts sr
  have hk := Stream.perform_keeps ops (hval hv) hp
  obtain ⟨hv1, hc1, hr1, _⟩ := hk
  simp only [pos_lock.create] at hc1 hr1 ⊢
  have hle : sr.ref.pos ≤ sr1.room := by
    rw [hpos]
    exact le_trans (Stream.pos_le_room hv) (hroom ▸ hr1)
  have hs := Stream.seek_keeps hv1 (toI32 sr.ref.pos) .seek_begin
  have hp2 := Stream.seek_restores hv1 hle
  obtain ⟨s2, hu, hp3, hc3, hv3⟩ := Stream.unref_facts
    (s := (sr1.seek (toI32 sr.ref.pos) .seek_begin).1) (by rw [hs.2.1, hc1, hcnt]; omega)
  refine ⟨s2, hu, ?_, ?_, hv3 hs.1⟩
  · rw [hp3, hp2, hpos]
  · rw [hc3, hs.2.1, hc1, hcnt]; omega

/-- C32 as stated fails: on a `memory_writer` just created (count 0, position
0) the constructor of a `pos_lock` raises the count to 1, a `write` of 3 bytes
moves the position to 3, and the destructor of the `pos_lock`, after its
`seek`, calls `unref`, which deletes the stream. -/
theorem pos_lock_restores_position_counterexample :
    ∃ sr1, Stream.perform [.write (Buffer.ofList [1, 2, 3]) 3]
        (pos_lock.create (.writer (memory_writer.create 4096 (fun _ => 0)))).1 = some sr1 ∧
      (Stream.writer (memory_writer.create 4096 (fun _ => 0))).count = 0 ∧ sr1.pos = 3 ∧
      pos_lock.destroy (pos_lock.create (.writer (memory_writer.create 4096 (fun _ => 0)))).2 sr1
        = none :=
  ⟨_, rfl, rfl, rfl, rfl⟩

/-- C32 at a `memory_writer` held by one handle: a `seek` to 10 and a `write` of
3 bytes inside the scope of the `pos_lock`. -/
theorem pos_lock_restores_position_witness :
    (Stream.writer heldWriter).Valid ∧ (Stream.writer heldWriter).count ≠ 0 ∧
    ∃ sr1, Stream.perform [.seek 10 .seek_begin, .write (Buffer.ofList [1, 2, 3]) 3]
        (pos_lock.create (.writer heldWriter)).1 = some sr1 ∧ sr1.pos = 13 ∧
      ∃ sr2, pos_lock.destroy (pos_lock.create (.writer heldWriter)).2 sr1 = some sr2 ∧
        sr2.pos = (Stream.writer heldWriter).pos ∧
        sr2.count = (Stream.writer heldWriter).count ∧ sr2.Valid :=
  ⟨by decide, by decide, _, rfl, rfl,
    (pos_lock_restores_position (.writer heldWriter) (by decide) (by decide)
      [.seek 10 .seek_begin, .write (Buffer.ofList [1, 2, 3]) 3] _ rfl).1⟩

/-- C33, amended. For a sequence of calls `write(buf, len)` with
`0 <= len`, `buf` holding `len` bytes and a total below `2^32`, on an allocator
that grants every block below `2^32` bytes: a new `memory_writer` and a new
`dummy_writer` return the same values (the lengths) and report the same `pos()`
after every call, `size()` of the `dummy_writer` is the total, and `length()` of
the `memory_writer` is that number converted to `int`; the two are equal when
the total is below `2^31`. -/
theorem dummy_writer_measures (calls : List (Buffer × Int)) (limit : Nat) (junk : Nat → Nat)
    (hlim : 4294967295 ≤ limit) (hlen : ∀ c ∈ calls, 0 ≤ c.2 ∧ c.2 ≤ (c.1.size : Int))
    (htot : totalLen calls < 4294967296) :
    ∃ w log, memory_writer.writes calls (memory_writer.create limit junk) = some (w, log) ∧
      (dummy_writer.writes calls dummy_writer.create).2 = log ∧
      log.map Prod.fst = calls.map Prod.snd ∧
      ((dummy_writer.writes calls dummy_writer.create).1.size : Int) = totalLen calls ∧
      w.length = toI32 (dummy_writer.writes calls dummy_writer.create).1.size ∧
      (totalLen calls < 2147483648 →
        w.length = (dummy_writer.writes calls dummy_writer.create).1.size) := by
  have hnn := totalLen_nonneg calls hlen
  obtain ⟨w', hw, e1, e2, e3, e4, e5⟩ := writes_agree calls (memory_writer.create limit junk)
    dummy_writer.create (created_valid.1 limit junk) hlim rfl rfl hlen
    (by simp only [memory_writer.create, memory_base.ofSize]; omega)
  have hp0 : (memory_writer.create limit junk).sink.pos = 0 := rfl
  have hm0 : (memory_writer.create limit junk).sink.maxPos = 0 := rfl
  rw [hp0] at e3
  rw [hm0] at e4
  have hsz : ((dummy_writer.writes calls dummy_writer.create).1.size : Int) = totalLen calls := by
    simp only [dummy_writer.size, e1, e4]
    omega
  have hl : w'.length = toI32 (dummy_writer.writes calls dummy_writer.create).1.size := by
    simp only [memory_writer.length, dummy_writer.size, e1]
  refine ⟨w', _, hw, rfl, e5, hsz, hl, fun hlt => ?_⟩
  rw [hl]
  exact toI32_of_lt (by omega) (by omega)

/-- C33 as stated fails: after a `write` of `2^31 - 1` bytes and a `write` of 1
byte (total `2^31`, below `2^32`) both writers have returned the same values and
reported the same positions, `dummy_writer::size()` is `2^31`, and
`memory_writer::length()`, an `int`, is `-2^31`. -/
theorem dummy_writer_measures_counterexample :
    totalLen bigWrites = 2147483648 ∧
    (∀ c ∈ bigWrites, 0 ≤ c.2 ∧ c.2 ≤ (c.1.size : Int)) ∧
    (memory_writer.writes bigWrites (memory_writer.create 4294967295 (fun _ => 0))).map
        (fun r => (r.2, r.1.length))
      = some ([(2147483647, 2147483647), (1, 2147483648)], -2147483648) ∧
    ((dummy_writer.writes bigWrites dummy_writer.create).2,
        (dummy_writer.writes bigWrites dummy_writer.create).1.size)
      = ([(2147483647, 2147483647), (1, 2147483648)], 2147483648) := by
  refine ⟨by decide, by decide, by decide, by decide⟩

/-- C33 at a `write` of 3 bytes followed by a `write` of 2 bytes. -/
theorem dummy_writer_measures_witness :
    (∀ c ∈ smallWrites, 0 ≤ c.2 ∧ c.2 ≤ (c.1.size : Int)) ∧ totalLen smallWrites = 5 ∧
    ∃ w log, memory_writer.writes smallWrites (memory_writer.create 4294967295 (fun _ => 0))
        = some (w, log) ∧
      (dummy_writer.writes smallWrites dummy_writer.create).2 = log ∧
      log.map Prod.fst = smallWrites.map Prod.snd ∧
      ((dummy_writer.writes smallWrites dummy_writer.create).1.size : Int)
        = totalLen smallWrites ∧
      w.length = toI32 (dummy_writer.writes smallWrites dummy_writer.create).1.size ∧
      (totalLen smallWrites < 2147483648 →
        w.length = (dummy_writer.writes smallWrites dummy_writer.create).1.size) :=
  ⟨by decide, by decide,
    dummy_writer_measures smallWrites 4294967295 (fun _ => 0) (by decide) (by decide) (by decide)⟩

/-- C34. For a string `s` of fewer than 65536 bytes, on a machine of either
byte order and an allocator that grants 65537 bytes: `operator<<` on a new
`memory_writer` returns with `length()` and `pos()` equal to `2 + |s|`, and the
first `2 + |s|` bytes of `memory()` are the two bytes of the `uint16_t` length
followed by the bytes of `s`; `operator>>` on a `memory_reader` created over
`memory()` and `length()`, with or without a local copy, yields `s` and leaves
the reader at position `2 + |s|`. -/
theorem string_round_trip (bigEndian : Bool) (limit : Nat) (junk : Nat → Nat) (s : List Nat)
    (hs : s.length < 65536) (hlim : 65537 ≤ limit) :
    ∃ w, writeString bigEndian (.writer (memory_writer.create limit junk)) s = some (.writer w) ∧
      w.length = 2 + s.length ∧ w.pos = 2 + s.length ∧
      w.memory.toList (2 + s.length) = bytes16 bigEndian s.length ++ s ∧
      ∀ localCopy, ∃ r0 r,
        memory_reader.create limit w.memory w.length localCopy = some r0 ∧ r0.pos = 0 ∧
        readString bigEndian (.reader r0) = some (.reader r, s) ∧ r.pos = 2 + s.length := by
  have hts : (memory_writer.create limit junk).sink.totalSize = 4096 := by
    simp only [memory_writer.create, memory_base.ofSize]
    rw [if_pos (by omega)]
  have hp0 : (memory_writer.create limit junk).sink.pos = 0 := rfl
  have hm0 : (memory_writer.create limit junk).sink.maxPos = 0 := rfl
  have hl0 : (memory_writer.create limit junk).sink.limit = limit := rfl
  have h8 : toU32 (2 * ((4096 : Nat) : Int)) = 8192 := by decide
  obtain ⟨s', hw, hp, hm, hv, hl, h16, hdata, _⟩ := writeString_writer bigEndian
    (memory_writer.create limit junk) s (created_valid.1 limit junk) hs (by rw [hp0, hts]; omega)
    ⟨by rw [hts, hl0, h8]; omega, by rw [hp0, hl0]; omega⟩ (by rw [hp0]; omega)
  rw [hp0] at hp h16 hdata
  rw [hm0] at hm
  have hmax : s'.maxPos = 2 + s.length := by omega
  have hlen : (⟨(memory_writer.create limit junk).count, s'⟩ : memory_writer).length
      = ((2 + s.length : Nat) : Int) := by
    simp only [memory_writer.length, hmax]
    exact toI32_of_lt (by omega) (by omega)
  refine ⟨⟨(memory_writer.create limit junk).count, s'⟩, hw, by rw [hlen]; push_cast; rfl,
    by simp only [memory_writer.pos]; omega, ?_, ?_⟩
  · have hlen2 : (bytes16 bigEndian s.length ++ s).length = 2 + s.length := by
      rw [List.length_append, length_bytes16]
    rw [← hlen2]
    unfold Buffer.toList
    apply map_range_getD
    intro i hi
    rw [hlen2] at hi
    simp only [memory_writer.memory]
    by_cases h2 : i < 2
    · have := h16 i h2
      simp only [Nat.zero_add] at this
      rw [this, List.getD_append _ _ _ _ (by rw [length_bytes16]; exact h2)]
    · have := hdata (i - 2) (by omega)
      have e : 0 + 2 + (i - 2) = i := by omega
      rw [e] at this
      rw [this, List.getD_append_right _ _ _ _ (by rw [length_bytes16]; omega), length_bytes16]
  · intro localCopy
    have hcr : memory_reader.create limit
        (⟨(memory_writer.create limit junk).count, s'⟩ : memory_writer).memory
        (⟨(memory_writer.create limit junk).count, s'⟩ : memory_writer).length localCopy
        = some ⟨0, memory_source.attach (memory_base.ofBlock limit (fun _ => 0) 0) s'.mem
            ((2 + s.length : Nat) : Int)⟩ := by
      rw [hlen]
      unfold memory_reader.create
      have hv' := hv
      unfold memory_base.Valid at hv'
      rw [if_neg (by simp only [memory_writer.memory]; omega)]
      cases localCopy
      · simp only [Bool.false_eq_true, if_false]
        rfl
      · simp only [if_true]
        rw [if_pos ⟨by omega, by omega⟩]
        rfl
    have hu : toU32 ((2 + s.length : Nat) : Int) = 2 + s.length := toU32_natCast (by omega)
    have hz : toU32 0 = 0 := by decide
    obtain ⟨s2, hr, hp2, _⟩ := readString_reader bigEndian
      ⟨0, memory_source.attach (memory_base.ofBlock limit (fun _ => 0) 0) s'.mem
        ((2 + s.length : Nat) : Int)⟩ s
      (by
        simp only [memory_base.Valid, memory_source.attach, memory_base.ofBlock, hu]
        omega)
      hs
      (by simp only [memory_source.attach, hu]; omega)
      (by simp only [memory_source.attach, memory_base.ofBlock, hu]; omega)
      (fun i hi => by
        simp only [memory_source.attach, memory_base.ofBlock]
        exact h16 i hi)
      (fun i hi => by
        simp only [memory_source.attach, memory_base.ofBlock]
        exact hdata i hi)
    have e : (memory_source.attach (memory_base.ofBlock limit (fun _ => 0) 0) s'.mem
        ((2 + s.length : Nat) : Int)).pos = 0 := rfl
    refine ⟨_, ⟨0, s2⟩, hcr, rfl, hr, ?_⟩
    show s2.pos = 2 + s.length
    have h3 : s2.pos = 0 + 2 + s.length := hp2.trans (by rw [e])
    omega

/-- C34 at the string `"hi"` on a little-endian machine: the writer holds the
bytes 2, 0, 104, 105. -/
theorem string_round_trip_witness :
    ([104, 105] : List Nat).length < 65536 ∧
    ((writeString false (.writer (memory_writer.create 65537 (fun _ => 0))) [104, 105]).bind
        Stream.asWriter).map (fun w => (w.length, w.memory.toList 4))
      = some (4, [2, 0, 104, 105]) ∧
    ∃ w, writeString false (.writer (memory_writer.create 65537 (fun _ => 0))) [104, 105]
        = some (.writer w) ∧
      w.length = 2 + ([104, 105] : List Nat).length ∧
      w.pos = 2 + ([104, 105] : List Nat).length ∧
      w.memory.toList (2 + ([104, 105] : List Nat).length)
        = bytes16 false ([104, 105] : List Nat).length ++ [104, 105] ∧
      ∀ localCopy, ∃ r0 r,
        memory_reader.create 65537 w.memory w.length localCopy = some r0 ∧ r0.pos = 0 ∧
        readString false (.reader r0) = some (.reader r, [104, 105]) ∧
        r.pos = 2 + ([104, 105] : List Nat).length :=
  ⟨by decide, by decide, string_round_trip false 65537 (fun _ => 0) [104, 105] (by decide) (by decide)⟩

/-- C35, what the code does. For a valid `memory_reader` with `m` unread bytes
(`m = _maxPos - _pos`), a valid `memory_writer` whose allocator grants every
block below `2^32` bytes, and `n < 2^32` with room for the bytes in the writer:
when `n <= m`, `copy` returns `n`, has advanced both streams by `n` and stored
the next `n` bytes of the reader at the position of the writer, leaving the
bytes before it as they were; when `n > m`, `copy` runs into undefined
behaviour: at the end of its data `memory_source::read` returns `-1`, which
`copy` takes for a length and passes to `write`, whose `memcpy` then has the
length `(size_t)-1`. -/
theorem copy_past_end_of_reader (junk : Nat → Nat) (r : memory_reader) (w : memory_writer) (n : Nat)
    (hvr : r.src.Valid) (hmr : r.src.maxPos < 2147483648) (hvw : w.sink.Valid)
    (hlim : 4294967295 ≤ w.sink.limit) (hn : n < 4294967296)
    (hroom : w.sink.pos + min n (r.src.maxPos - r.src.pos) < 4294967296) :
    (n ≤ r.src.maxPos - r.src.pos →
      ∃ r' w', copy junk (.reader r) (.writer w) n = .done (.reader r', .writer w', n) ∧
        r'.src.pos = r.src.pos + n ∧ w'.sink.pos = w.sink.pos + n ∧
        w'.sink.maxPos = max w.sink.maxPos w'.sink.pos ∧
        (∀ i, i < n → w'.sink.mem (w.sink.pos + i) = r.src.mem (r.src.pos + i)) ∧
        (∀ i, i < w.sink.pos → w'.sink.mem i = w.sink.mem i)) ∧
    (r.src.maxPos - r.src.pos < n → copy junk (.reader r) (.writer w) n = .undefined) := by
  obtain ⟨hg, hb⟩ := copyLoop_spec (n + 1) n r w ⟨DATA_BUFSIZE, junk⟩ hvr hmr hvw hlim rfl hn
    (by omega) hroom
  constructor
  · intro hle
    obtain ⟨r', w', hc, f1, _, _, _, f5, _, f7, f8, f9⟩ := hg hle
    refine ⟨r', w', ?_, f1, f5, f7, f8, f9⟩
    unfold copy
    rw [hc]
    have : toU32 ((n : Int) - (0 : Nat)) = n := by unfold toU32; omega
    simp only [this]
  · intro hlt
    unfold copy
    rw [hb hlt]

/-- C35 at a reader over the one byte 42 and `n = 2`, where `copy` is undefined
(also with an allocator that grants 4096 bytes only), and at a reader over the bytes 7, 8, 9 and
`n = 2`, where `copy` returns 2. -/
theorem copy_past_end_of_reader_witness :
    (memory_reader.create 4294967295 (Buffer.ofList [42]) 1 false = some oneByteReader ∧
      oneByteReader.src.maxPos - oneByteReader.src.pos = 1 ∧
      copy (fun _ => 0) (.reader oneByteReader)
        (.writer (memory_writer.create 4294967295 (fun _ => 0))) 2 = .undefined ∧
      copy (fun _ => 0) (.reader oneByteReader)
        (.writer (memory_writer.create 4096 (fun _ => 0))) 2 = .undefined) ∧
    (memory_reader.create 4294967295 (Buffer.ofList [7, 8, 9]) 3 false = some threeByteReader ∧
      threeByteReader.src.maxPos - threeByteReader.src.pos = 3 ∧
      ∃ r' w', copy (fun _ => 0) (.reader threeByteReader)
          (.writer (memory_writer.create 4294967295 (fun _ => 0))) 2
          = .done (.reader r', .writer w', 2) ∧
        r'.src.pos = threeByteReader.src.pos + 2 ∧
        w'.sink.pos = (memory_writer.create 4294967295 (fun _ => 0)).sink.pos + 2 ∧
        w'.sink.maxPos = max (memory_writer.create 4294967295 (fun _ => 0)).sink.maxPos
          w'.sink.pos ∧
        (∀ i, i < 2 →
          w'.sink.mem ((memory_writer.create 4294967295 (fun _ => 0)).sink.pos + i)
            = threeByteReader.src.mem (threeByteReader.src.pos + i)) ∧
        (∀ i, i < (memory_writer.create 4294967295 (fun _ => 0)).sink.pos →
          w'.sink.mem i = (memory_writer.create 4294967295 (fun _ => 0)).sink.mem i)) :=
  ⟨⟨rfl, by decide,
      (copy_past_end_of_reader (fun _ => 0) oneByteReader (memory_writer.create 4294967295 (fun _ => 0)) 2
        (by decide) (by decide) (by decide) (by decide) (by decide) (by decide)).2 (by decide),
      rfl⟩,
    ⟨rfl, by decide,
      (copy_past_end_of_reader (fun _ => 0) threeByteReader (memory_writer.create 4294967295 (fun _ => 0)) 2
        (by decide) (by decide) (by decide) (by decide) (by decide) (by decide)).1 (by decide)⟩⟩

end xp
